import Mathlib

/-!
Hierarchical group quotas (`src/condor_negotiator.V6/GroupEntry.cpp`)

A shallow embedding of the quota allocator of the negotiator: the tree of accounting
groups, `hgq_assign_quotas`, `hgq_fairshare`, `hgq_allocate_surplus` (with
`hgq_allocate_surplus_loop`), `hgq_recover_remainders` and `hgq_round_robin`.

Conventions of the embedding.

* A C++ `double` is an exact rational (`ℚ`): the development is about the algorithm in exact
  arithmetic.  `DBL_MAX` is the rational number it denotes.  The functions whose names end in
  `_double` repeat the allocation cycle with every sum, difference, product and quotient
  rounded to the nearest IEEE 754 binary64 value, as the code computes them; they are
  evaluated on the inputs where the rounding changes what a statement in exact arithmetic
  says.
* A `GroupEntry*` tree is a value of the inductive type `GroupEntry`; a member function that
  mutates `this` and returns a `double` becomes a function returning the new subtree and the
  returned number.  The `parent` back pointer, `chmap`, the ClassAd fields, `usage`, `priority`,
  `autoregroup` and `currently_requested` are never read or written by the functions embedded
  here and are left out of the record.
* `dprintf` calls have no effect on the state and are dropped.
* The parallel vectors `groups`, `allocated` and `subtree_requested` of
  `hgq_allocate_surplus` and `hgq_round_robin` always have the same length; index `j` of the
  three is one `Slot`.
* `while` loops run on a fuel counter; the fuel supplied is shown to be sufficient.
-/

set_option autoImplicit false

/-! ## Data model -/

/-- The fields of one `GroupEntry` node (without the links to other nodes). -/
structure GroupData where
  name : String
  config_quota : ℚ
  static_quota : Bool
  accept_surplus : Bool
  quota : ℚ
  requested : ℚ
  allocated : ℚ
  subtree_quota : ℚ
  subtree_requested : ℚ
  rr : Bool
  rr_time : ℚ
  subtree_rr_time : ℚ

/-- A group node: its fields and the vector `children` it owns. -/
inductive GroupEntry where
  | mk : GroupData → List GroupEntry → GroupEntry

namespace GroupEntry

/-- The fields of the node itself. -/
def data : GroupEntry → GroupData
  | mk d _ => d

/-- The vector `children`. -/
def children : GroupEntry → List GroupEntry
  | mk _ cs => cs

end GroupEntry

/-- The constant `DBL_MAX` of `<cfloat>`: the largest finite IEEE-754 double. -/
def DBL_MAX : ℚ := 2 ^ 1024 - 2 ^ 971

/-! ## `hgq_assign_quotas` -/

/-- The first loop of `hgq_assign_quotas`: the pair `(sqsum, dqsum)` of the sums of
the configured quotas of the static and of the dynamic children. -/
def quota_sums (cs : List GroupEntry) : ℚ × ℚ :=
  cs.foldl
    (fun acc child =>
      if child.data.static_quota then (acc.1 + child.data.config_quota, acc.2)
      else (acc.1, acc.2 + child.data.config_quota))
    (0, 0)

/-- The value `q` computed for one child in the second loop of `hgq_assign_quotas`. -/
def child_quota (sqa Zs dqa Zd : ℚ) (child : GroupData) : ℚ :=
  let q := if child.static_quota then child.config_quota * (sqa / Zs)
           else child.config_quota * (dqa / Zd)
  if q < 0 then 0 else q

/-- The static budget `sqa`. -/
def static_budget (oversub : Bool) (sqsum quota : ℚ) : ℚ :=
  if oversub then sqsum else min sqsum quota

mutual
/-- The function `GroupEntry::hgq_assign_quotas(quota)`; `oversub` is the value of
`NEGOTIATOR_ALLOW_QUOTA_OVERSUBSCRIPTION`. -/
def hgq_assign_quotas (oversub : Bool) (quota : ℚ) : GroupEntry → GroupEntry
  | .mk d cs =>
    if quota ≤ 0 then .mk d cs
    else
      let sqsum := (quota_sums cs).1
      let dqsum := (quota_sums cs).2
      let sqa := static_budget oversub sqsum quota
      let dqa := max 0 (quota - sqa)
      let Zs := if sqsum > 0 then sqsum else 1
      let Zd := max dqsum 1
      let chq := cs.foldl (fun acc child => acc + child_quota sqa Zs dqa Zd child.data) 0
      let q1 := if oversub then quota else quota - chq
      let q2 := if d.name = "<none>" then quota - chq else q1
      let q3 := if q2 < 0 then 0 else q2
      .mk { d with subtree_quota := quota, quota := q3 }
        (hgq_assign_quotas_children oversub sqa Zs dqa Zd cs)
termination_by structural t => t
/-- The recursive calls `child->hgq_assign_quotas(q)` of the second loop. -/
def hgq_assign_quotas_children (oversub : Bool) (sqa Zs dqa Zd : ℚ) :
    List GroupEntry → List GroupEntry
  | [] => []
  | child :: rest =>
    hgq_assign_quotas oversub (child_quota sqa Zs dqa Zd child.data) child ::
      hgq_assign_quotas_children oversub sqa Zs dqa Zd rest
termination_by structural l => l
end

/-! ## `hgq_fairshare`, `hgq_allocate_surplus` and `hgq_allocate_surplus_loop` -/

/-- Index `j` of the parallel vectors `groups`, `allocated` and `subtree_requested`. -/
structure Slot where
  grp : GroupData
  allocated : ℚ
  subtree_requested : ℚ

/-- The variables that `hgq_allocate_surplus_loop` receives by reference. -/
structure SurplusLoop where
  slots : List Slot
  surplus : ℚ
  requested : ℚ

/-- The weight `N` of a group in `hgq_allocate_surplus_loop`. -/
def slot_weight (by_quota : Bool) (s : Slot) : ℚ :=
  if by_quota then s.grp.subtree_quota else 1

/-- The normalizer `Z` of one iteration of `hgq_allocate_surplus_loop`. -/
def surplus_loop_Z (by_quota : Bool) (slots : List Slot) : ℚ :=
  slots.foldl
    (fun Z s => if s.subtree_requested > 0 then Z + slot_weight by_quota s else Z) 0

/-- The amount `a` that one iteration gives to an outstanding group, with the flag telling
whether it was clipped to the group's remaining request. -/
def slot_amount (by_quota : Bool) (surplus Z : ℚ) (s : Slot) : ℚ × Bool :=
  let a := surplus * (slot_weight by_quota s / Z)
  if a > s.subtree_requested then (s.subtree_requested, true) else (a, false)

/-- The body of the allocation `for` loop on one index. -/
def slot_allocate (by_quota : Bool) (surplus Z : ℚ) (s : Slot) : Slot :=
  if s.subtree_requested > 0 then
    { s with
      allocated := s.allocated + (slot_amount by_quota surplus Z s).1
      subtree_requested := s.subtree_requested - (slot_amount by_quota surplus Z s).1 }
  else s

/-- The value of `sumalloc` after the allocation `for` loop. -/
def surplus_loop_sumalloc (by_quota : Bool) (surplus Z : ℚ) (slots : List Slot) : ℚ :=
  slots.foldl
    (fun acc s =>
      if s.subtree_requested > 0 then acc + (slot_amount by_quota surplus Z s).1 else acc) 0

/-- The value of `never_gt` after the allocation `for` loop. -/
def surplus_loop_never_gt (by_quota : Bool) (surplus Z : ℚ) (slots : List Slot) : Bool :=
  slots.foldl
    (fun acc s =>
      if s.subtree_requested > 0 then
        (if (slot_amount by_quota surplus Z s).2 then false else acc)
      else acc) true

/-- The `while (surplus > 0)` loop of `hgq_allocate_surplus_loop`, on a fuel counter. -/
def hgq_allocate_surplus_loop_fuel (by_quota : Bool) : Nat → SurplusLoop → SurplusLoop
  | 0, st => st
  | fuel + 1, st =>
    if st.surplus > 0 then
      let Z := surplus_loop_Z by_quota st.slots
      if Z ≤ 0 then st
      else
        let sumalloc := surplus_loop_sumalloc by_quota st.surplus Z st.slots
        let never_gt := surplus_loop_never_gt by_quota st.surplus Z st.slots
        let surplus := st.surplus - sumalloc
        hgq_allocate_surplus_loop_fuel by_quota fuel
          { slots := st.slots.map (slot_allocate by_quota st.surplus Z)
            surplus := if never_gt || surplus < 0 then 0 else surplus
            requested := st.requested - sumalloc }
    else st

/-- The function `hgq_allocate_surplus_loop`: every iteration that does not end the loop
brings the remaining request of at least one more group to zero, so one more iteration than
there are groups is enough fuel. -/
def hgq_allocate_surplus_loop (by_quota : Bool) (st : SurplusLoop) : SurplusLoop :=
  hgq_allocate_surplus_loop_fuel by_quota (st.slots.length + 1) st

/-- The group `this` as it stands in the vector `groups` of `hgq_allocate_surplus`
(accept_surplus forced on, subtree_quota and subtree_requested replaced by the
node's own quota and request). -/
def splice_surplus (d : GroupData) : GroupData :=
  { d with accept_surplus := true, subtree_quota := d.quota, subtree_requested := d.requested }

/-- The request a group enters surplus allocation with: its `subtree_requested` when it
accepts surplus and that is positive, zero otherwise. -/
def outstanding_request (g : GroupData) : ℚ :=
  if g.accept_surplus && g.subtree_requested > 0 then g.subtree_requested else 0

/-- The allocations that `hgq_allocate_surplus` computes at one level, before they are handed
to the children: `groups` is the vector of the children followed by the spliced node. -/
def allocate_surplus_level (surplus requested : ℚ) (groups : List GroupData) : SurplusLoop :=
  if surplus ≥ requested then
    { slots := groups.map
        (fun g => { grp := g, allocated := outstanding_request g, subtree_requested := 0 })
      surplus := surplus - requested
      requested := 0 }
  else
    hgq_allocate_surplus_loop false
      (hgq_allocate_surplus_loop true
        { slots := groups.map
            (fun g => { grp := g, allocated := 0, subtree_requested := outstanding_request g })
          surplus := surplus
          requested := requested })

/-- The value `allocated.back()`. -/
def allocated_back (slots : List Slot) : ℚ :=
  match slots.getLast? with
  | some s => s.allocated
  | none => 0

mutual
/-- The function `GroupEntry::hgq_allocate_surplus(surplus)`. -/
def hgq_allocate_surplus (surplus : ℚ) : GroupEntry → GroupEntry × ℚ
  | .mk d cs =>
    if surplus ≤ 0 then (.mk d cs, 0)
    else if d.subtree_requested ≤ 0 then (.mk d cs, surplus)
    else
      let st := allocate_surplus_level surplus d.subtree_requested
        (cs.map GroupEntry.data ++ [splice_surplus d])
      (.mk { d with
              allocated := d.allocated + allocated_back st.slots
              requested := d.requested - allocated_back st.slots
              subtree_requested := st.requested }
          (hgq_allocate_surplus_children st.slots cs),
        st.surplus)
termination_by structural t => t
/-- The loop of recursive calls `groups[j]->hgq_allocate_surplus(allocated[j])` over the
children; the value each call returns is only logged. -/
def hgq_allocate_surplus_children : List Slot → List GroupEntry → List GroupEntry
  | s :: ss, child :: rest =>
    (if s.allocated > 0 then (hgq_allocate_surplus s.allocated child).1 else child) ::
      hgq_allocate_surplus_children ss rest
  | _, [] => []
  | [], rest => rest
termination_by structural _ l => l
end

mutual
/-- The function `GroupEntry::hgq_fairshare()`. -/
def hgq_fairshare : GroupEntry → GroupEntry × ℚ
  | .mk d cs =>
    let allocated := min d.requested d.quota
    let requested := d.requested - allocated
    let surplus := d.quota - allocated
    let d1 : GroupData :=
      { d with allocated := allocated, requested := requested, subtree_requested := requested }
    if cs.isEmpty then (.mk d1 cs, surplus)
    else
      let rs := hgq_fairshare_children cs
      let acc := rs.foldl
        (fun acc r =>
          (acc.1 + r.2,
            if r.1.data.accept_surplus then acc.2 + r.1.data.subtree_requested else acc.2))
        (surplus, d1.subtree_requested)
      hgq_allocate_surplus acc.1 (.mk { d1 with subtree_requested := acc.2 } (rs.map Prod.fst))
termination_by structural t => t
/-- The recursive calls `child->hgq_fairshare()`, each with the surplus it returns. -/
def hgq_fairshare_children : List GroupEntry → List (GroupEntry × ℚ)
  | [] => []
  | child :: rest => hgq_fairshare child :: hgq_fairshare_children rest
termination_by structural l => l
end

/-! ## `hgq_recover_remainders` and `hgq_round_robin` -/

/-- The function `round_for_precision`: the new value of `x`, that is `floor(0.5 + x)`. -/
def round_for_precision (x : ℚ) : ℚ := (⌊(1 / 2 : ℚ) + x⌋ : ℤ)

/-- The variables of the `while` loop of `hgq_round_robin`. -/
structure RoundRobin where
  slots : List Slot
  surplus : ℚ
  requested : ℚ
  outstanding : ℚ
  sumalloc : ℚ

/-- The value `amax = max(1, floor(surplus / outstanding))`.  The loop runs with
`surplus >= 1`, so a zero `outstanding` makes the IEEE quotient, its floor and the
maximum `+inf`, which is `none` here. -/
def rr_amax (surplus outstanding : ℚ) : Option ℚ :=
  if outstanding = 0 then none else some (max 1 ((⌊surplus / outstanding⌋ : ℤ) : ℚ))

/-- The value `min(x, amax)`. -/
def min_amax (x : ℚ) : Option ℚ → ℚ
  | none => x
  | some m => min x m

/-- The test `x < amax`. -/
def lt_amax (x : ℚ) : Option ℚ → Bool
  | none => true
  | some m => decide (x < m)

/-- The body of the `for` loop of one round on `j = idx[jj]`. The result carries the flag
telling whether the `break` was taken. -/
def rr_visit (amax : Option ℚ) (j : Nat) (st : RoundRobin) : RoundRobin × Bool :=
  match st.slots[j]? with
  | none => (st, false)
  | some s =>
    if s.grp.accept_surplus && s.subtree_requested > 0 then
      let a := min_amax s.subtree_requested amax
      let s1 : Slot :=
        { grp := { s.grp with rr := true }
          allocated := s.allocated + a
          subtree_requested := s.subtree_requested - a }
      let st1 : RoundRobin :=
        { slots := st.slots.set j s1
          surplus := st.surplus - a
          requested := st.requested - a
          outstanding := if s1.subtree_requested > 0 then st.outstanding + 1 else st.outstanding
          sumalloc := st.sumalloc + a }
      (st1, lt_amax st1.surplus amax)
    else (st, false)

/-- The `for` loop over `idx` of one round of `hgq_round_robin`. -/
def rr_pass (amax : Option ℚ) : List Nat → RoundRobin → RoundRobin
  | [], st => st
  | j :: rest, st =>
    if (rr_visit amax j st).2 then (rr_visit amax j st).1
    else rr_pass amax rest (rr_visit amax j st).1

/-- The `while ((surplus >= 1) && (requested > 0))` loop of `hgq_round_robin`, on a fuel
counter. -/
def rr_loop (idx : List Nat) : Nat → RoundRobin → RoundRobin
  | 0, st => st
  | fuel + 1, st =>
    if st.surplus ≥ 1 ∧ st.requested > 0 then
      let amax := rr_amax st.surplus st.outstanding
      let st1 := rr_pass amax idx { st with outstanding := 0, sumalloc := 0 }
      if st1.sumalloc < 1 then st1 else rr_loop idx fuel st1
    else st

/-- Modelled from the spec: the comparator `ord_by_rr_time` is declared in a header that is
not part of the sources.  The spec says: "Sort participant indices by ascending
subtree_rr_time (oldest served first; ties broken by index order)". -/
def ord_by_rr_time (groups : List GroupData) (ja jb : Nat) : Prop :=
  match groups[ja]?, groups[jb]? with
  | some a, some b => a.subtree_rr_time ≤ b.subtree_rr_time
  | _, _ => True

/-- The comparator is decidable. -/
instance ord_by_rr_time_decidable (groups : List GroupData) :
    DecidableRel (ord_by_rr_time groups) := fun ja jb =>
  match h1 : groups[ja]?, h2 : groups[jb]? with
  | some a, some b =>
    decidable_of_iff (a.subtree_rr_time ≤ b.subtree_rr_time) (by simp [ord_by_rr_time, h1, h2])
  | none, _ => isTrue (by simp [ord_by_rr_time, h1])
  | some _, none => isTrue (by simp [ord_by_rr_time, h1, h2])

/-- The vector `idx` after `std::sort(idx.begin(), idx.end(), ord)`: the indices in ascending
`subtree_rr_time`, equal times in index order. -/
def sorted_idx (groups : List GroupData) : List Nat :=
  List.insertionSort (ord_by_rr_time groups) (List.range groups.length)

/-- The group `this` as it stands in the vector `groups` of `hgq_round_robin`. -/
def splice_rr (d : GroupData) : GroupData :=
  { d with
    accept_surplus := true
    subtree_quota := d.quota
    subtree_rr_time := d.rr_time
    subtree_requested := d.requested }

/-- The value of `outstanding` before the `while` loop. -/
def initial_outstanding (groups : List GroupData) : ℚ :=
  groups.foldl
    (fun acc g => if g.accept_surplus && g.subtree_requested > 0 then acc + 1 else acc) 0

/-- The rounds of `hgq_round_robin` at one level, before the allocations are handed to the
children: `groups` is the vector of the children followed by the spliced node.  Every round
that does not end the loop takes at least one slot from `surplus`, so `floor(surplus) + 1`
is enough fuel. -/
def round_robin_level (surplus requested : ℚ) (groups : List GroupData) : RoundRobin :=
  rr_loop (sorted_idx groups) (⌊surplus⌋.toNat + 1)
    { slots := groups.map
        (fun g => { grp := g, allocated := 0, subtree_requested := outstanding_request g })
      surplus := surplus
      requested := requested
      outstanding := initial_outstanding groups
      sumalloc := 0 }

/-- The flag `rr` of the last element of `groups`, which is `this`. -/
def rr_back (slots : List Slot) (dflt : Bool) : Bool :=
  match slots.getLast? with
  | some s => s.grp.rr
  | none => dflt

/-- The write `grp->rr = true` as seen on a child: `b` is the flag of the child in `groups`
after the rounds. -/
def mark_rr (b : Bool) : GroupEntry → GroupEntry
  | .mk d cs => .mk { d with rr := d.rr || b } cs

/-- The sanity check at the head of `hgq_round_robin`, which forces `subtree_requested` to
an integer value. -/
def force_integer (d : GroupData) : GroupData :=
  if d.subtree_requested ≠ ((⌊d.subtree_requested⌋ : ℤ) : ℚ) then
    { d with subtree_requested := ((⌊d.subtree_requested⌋ : ℤ) : ℚ) }
  else d

mutual
/-- The function `GroupEntry::hgq_round_robin(surplus)`. -/
def hgq_round_robin (surplus : ℚ) : GroupEntry → GroupEntry × ℚ
  | .mk d0 cs =>
    let d := force_integer d0
    if d.subtree_requested ≤ 0 then (.mk d cs, surplus)
    else if surplus < 1 then (.mk d cs, surplus)
    else
      let st := round_robin_level surplus d.subtree_requested
        (cs.map GroupEntry.data ++ [splice_rr d])
      (.mk { d with
              allocated := d.allocated + allocated_back st.slots
              requested := d.requested - allocated_back st.slots
              subtree_requested := st.requested
              rr := rr_back st.slots d.rr }
          (hgq_round_robin_children st.slots cs),
        st.surplus)
termination_by structural t => t
/-- The loop of recursive calls `groups[j]->hgq_round_robin(allocated[j])` over the children;
the value each call returns is only logged.  The flag `rr` that the rounds wrote on a child
is never read by the call, and is put on the child after it. -/
def hgq_round_robin_children : List Slot → List GroupEntry → List GroupEntry
  | s :: ss, child :: rest =>
    mark_rr s.grp.rr
        (if s.allocated > 0 then (hgq_round_robin s.allocated child).1 else child) ::
      hgq_round_robin_children ss rest
  | _, [] => []
  | [], rest => rest
termination_by structural _ l => l
end

/-- The loop over the children in `hgq_recover_remainders`, after the recursive calls: `rs`
holds each child with the surplus its call returned, and the result is the triple of
`surplus`, `subtree_requested` and `subtree_rr_time` after the loop. -/
def recover_accumulate (surplus subtree_requested subtree_rr_time : ℚ)
    (rs : List (GroupEntry × ℚ)) : ℚ × ℚ × ℚ :=
  rs.foldl
    (fun acc r =>
      (acc.1 + r.2,
        if r.1.data.accept_surplus then
          (acc.2.1 + r.1.data.subtree_requested,
            if r.1.data.subtree_requested > 0 then
              min acc.2.2 r.1.data.subtree_rr_time
            else acc.2.2)
        else acc.2))
    (surplus, subtree_requested, subtree_rr_time)

mutual
/-- The function `GroupEntry::hgq_recover_remainders()`. -/
def hgq_recover_remainders : GroupEntry → GroupEntry × ℚ
  | .mk d cs =>
    let surplus := d.allocated - ((⌊d.allocated⌋ : ℤ) : ℚ)
    let allocated := round_for_precision (d.allocated - surplus)
    let requested := round_for_precision (d.requested + surplus)
    let d1 : GroupData :=
      { d with
        allocated := allocated
        requested := requested
        subtree_requested := requested
        subtree_rr_time := if requested > 0 then d.rr_time else DBL_MAX }
    if cs.isEmpty then (.mk d1 cs, surplus)
    else
      let rs := hgq_recover_remainders_children cs
      let acc := recover_accumulate surplus d1.subtree_requested d1.subtree_rr_time rs
      hgq_round_robin acc.1
        (.mk { d1 with subtree_requested := acc.2.1, subtree_rr_time := acc.2.2 }
          (rs.map Prod.fst))
termination_by structural t => t
/-- The recursive calls `child->hgq_recover_remainders()`, each with the surplus it
returns. -/
def hgq_recover_remainders_children : List GroupEntry → List (GroupEntry × ℚ)
  | [] => []
  | child :: rest => hgq_recover_remainders child :: hgq_recover_remainders_children rest
termination_by structural l => l
end

/-- One allocation cycle on a tree whose `requested` fields hold the demand:
`hgq_assign_quotas(pool)`, then `hgq_fairshare()`, then `hgq_recover_remainders()`. -/
def hgq_cycle (oversub : Bool) (pool : ℚ) (root : GroupEntry) : GroupEntry :=
  (hgq_recover_remainders (hgq_fairshare (hgq_assign_quotas oversub pool root)).1).1

/-! ## Observations on trees -/

mutual
/-- The fields of all nodes of a tree, the root first, then the subtrees of the children in
order. -/
def GroupEntry.nodes : GroupEntry → List GroupData
  | .mk d cs => d :: GroupEntry.nodes_list cs
termination_by structural t => t
/-- The nodes of a list of trees. -/
def GroupEntry.nodes_list : List GroupEntry → List GroupData
  | [] => []
  | c :: cs => GroupEntry.nodes c ++ GroupEntry.nodes_list cs
termination_by structural l => l
end

/-- The sum of `allocated` over all nodes of a tree. -/
def total_allocated (t : GroupEntry) : ℚ := (t.nodes.map GroupData.allocated).sum

/-- The sum of `requested` over all nodes of a tree. -/
def total_requested (t : GroupEntry) : ℚ := (t.nodes.map GroupData.requested).sum

/-- A node of a tree in the state the constructor `GroupEntry::GroupEntry()` and
`hgq_construct_tree` leave it in, with a demand written to `requested`: the configured quota
is not negative and the derived quotas and the allocation are zero. -/
def fresh_node (d : GroupData) : Bool :=
  decide (0 ≤ d.config_quota) && decide (d.quota = 0) && decide (d.subtree_quota = 0) &&
    decide (d.allocated = 0) && decide (d.subtree_requested = 0)

/-- A freshly constructed tree. -/
def fresh (t : GroupEntry) : Bool := t.nodes.all fresh_node

/-- A leaf with the given configuration and demand, other fields as constructed. -/
def leaf_group (name : String) (config_quota : ℚ) (static_quota accept_surplus : Bool)
    (requested rr_time : ℚ) : GroupEntry :=
  .mk { name := name, config_quota := config_quota, static_quota := static_quota,
        accept_surplus := accept_surplus, quota := 0, requested := requested, allocated := 0,
        subtree_quota := 0, subtree_requested := 0, rr := false, rr_time := rr_time,
        subtree_rr_time := 0 } []

/-- The root group as `hgq_construct_tree` makes it (name `<none>`, accept_surplus on),
with the given demand and children. -/
def root_group (requested : ℚ) (children : List GroupEntry) : GroupEntry :=
  .mk { name := "<none>", config_quota := 0, static_quota := false, accept_surplus := true,
        quota := 0, requested := requested, allocated := 0, subtree_quota := 0,
        subtree_requested := 0, rr := false, rr_time := 0, subtree_rr_time := 0 } children

mutual
/-- All nodes of a tree as subtrees, the root first, then the subtrees of the children in
order. -/
def GroupEntry.subtrees : GroupEntry → List GroupEntry
  | .mk d cs => .mk d cs :: GroupEntry.subtrees_list cs
termination_by structural t => t
/-- The subtrees of a list of trees. -/
def GroupEntry.subtrees_list : List GroupEntry → List GroupEntry
  | [] => []
  | c :: cs => GroupEntry.subtrees c ++ GroupEntry.subtrees_list cs
termination_by structural l => l
end

/-- The sum of the configured quotas of the static children. -/
def static_sum (cs : List GroupEntry) : ℚ :=
  ((cs.filter (fun c => c.data.static_quota)).map (fun c => c.data.config_quota)).sum

/-- The sum of the configured quotas of the dynamic children. -/
def dynamic_sum (cs : List GroupEntry) : ℚ :=
  ((cs.filter (fun c => !c.data.static_quota)).map (fun c => c.data.config_quota)).sum

/-- The budget `q` that `hgq_assign_quotas(quota)` on a node with children `cs` passes to
the child with fields `child`. -/
def child_budget (oversub : Bool) (quota : ℚ) (cs : List GroupEntry) (child : GroupData) : ℚ :=
  child_quota (static_budget oversub (quota_sums cs).1 quota)
    (if (quota_sums cs).1 > 0 then (quota_sums cs).1 else 1)
    (max 0 (quota - static_budget oversub (quota_sums cs).1 quota))
    (max (quota_sums cs).2 1) child

/-- The sum of `quota` over all nodes of a tree. -/
def total_quota (t : GroupEntry) : ℚ := (t.nodes.map GroupData.quota).sum

/-! ## Invariants used in the proofs -/

/-- The rational number is an integer. -/
def IsInt (q : ℚ) : Prop := ∃ z : ℤ, q = z

/-- What the allocation loops may do to one slot: the group is the same, what is allocated
was taken from the remaining request, which stays nonnegative. -/
def SlotStep (s s' : Slot) : Prop :=
  s'.grp = s.grp ∧
  s'.allocated + s'.subtree_requested = s.allocated + s.subtree_requested ∧
  s.allocated ≤ s'.allocated ∧ 0 ≤ s'.subtree_requested

/-- The number of groups with a positive remaining request. -/
def pos_count (slots : List Slot) : Nat :=
  slots.countP (fun s => decide (0 < s.subtree_requested))

/-- The exit condition of the `while` loop of `hgq_allocate_surplus_loop`: the loop test
fails or the `break` on `Z <= 0` is taken. -/
def surplus_loop_done (by_quota : Bool) (st : SurplusLoop) : Prop :=
  st.surplus ≤ 0 ∨ surplus_loop_Z by_quota st.slots ≤ 0

/-- The state after one iteration that does not leave the loop. -/
def surplus_loop_next (by_quota : Bool) (st : SurplusLoop) : SurplusLoop :=
  let Z := surplus_loop_Z by_quota st.slots
  let sumalloc := surplus_loop_sumalloc by_quota st.surplus Z st.slots
  { slots := st.slots.map (slot_allocate by_quota st.surplus Z)
    surplus :=
      if surplus_loop_never_gt by_quota st.surplus Z st.slots || st.surplus - sumalloc < 0 then 0
      else st.surplus - sumalloc
    requested := st.requested - sumalloc }

/-- The requests at a node are consistent: the node's own remaining request is not negative
and its `subtree_requested` is that request plus the `subtree_requested` of the children that
accept surplus. -/
def requests_consistent (n : GroupEntry) : Prop :=
  0 ≤ n.data.requested ∧
  n.data.subtree_requested = n.data.requested +
    (n.children.map
      (fun c => if c.data.accept_surplus then c.data.subtree_requested else 0)).sum

/-- The requests are consistent at every node of the tree. -/
def Consistent (t : GroupEntry) : Prop := ∀ n ∈ t.subtrees, requests_consistent n

/-- Every `quota` and `subtree_quota` of the tree is nonnegative. -/
def QuotaNonneg (t : GroupEntry) : Prop := ∀ d ∈ t.nodes, 0 ≤ d.quota ∧ 0 ≤ d.subtree_quota

/-- The fields that surplus allocation and round robin leave alone have the same values in
two states of a node. -/
def SameSettings (d d' : GroupData) : Prop :=
  d'.name = d.name ∧ d'.config_quota = d.config_quota ∧ d'.static_quota = d.static_quota ∧
  d'.accept_surplus = d.accept_surplus ∧ d'.quota = d.quota ∧
  d'.subtree_quota = d.subtree_quota ∧ d'.rr_time = d.rr_time ∧
  d'.subtree_rr_time = d.subtree_rr_time

/-- What surplus allocation and round robin may do to a node: only `allocated`, `requested`,
`subtree_requested` and `rr` change, and what is allocated is taken from the request. -/
def SurplusFrame (d d' : GroupData) : Prop :=
  SameSettings d d' ∧
  d'.allocated + d'.requested = d.allocated + d.requested ∧
  d.allocated ≤ d'.allocated

/-- What handing `given` slots to the subtree `t` does, `r` being the new subtree with the
surplus that is returned for the surplus `s`. -/
def HandoutSpec (Fr : GroupData → GroupData → Prop) (s given : ℚ) (t : GroupEntry)
    (r : GroupEntry × ℚ) : Prop :=
  Consistent r.1 ∧
  r.2 = s - given ∧
  r.1.data.subtree_requested = t.data.subtree_requested - given ∧
  total_allocated r.1 = total_allocated t + given ∧
  List.Forall₂ Fr t.nodes r.1.nodes

/-- What round robin may do to a node: a `SurplusFrame` step that keeps integer values
integer. -/
def RRFrame (d d' : GroupData) : Prop :=
  SurplusFrame d d' ∧
  (IsInt d.allocated → IsInt d'.allocated) ∧
  (IsInt d.requested → IsInt d'.requested) ∧
  (IsInt d.subtree_requested → IsInt d'.subtree_requested)

/-- Every `requested` and `subtree_requested` of the tree is an integer. -/
def IntRequests (t : GroupEntry) : Prop :=
  ∀ d ∈ t.nodes, IsInt d.requested ∧ IsInt d.subtree_requested

/-- The configuration of a node and its assigned quotas have the same values in two
states. -/
def SameConfig (d d' : GroupData) : Prop :=
  d'.name = d.name ∧ d'.config_quota = d.config_quota ∧ d'.static_quota = d.static_quota ∧
  d'.accept_surplus = d.accept_surplus ∧ d'.quota = d.quota ∧
  d'.subtree_quota = d.subtree_quota ∧ d'.rr_time = d.rr_time

/-- What `hgq_recover_remainders` does to a node: the configuration stays, the allocation
becomes an integer not below the whole slots the node had, the request a nonnegative
integer, and together they are the rounded sum of what they were. -/
def RecoverFrame (d d' : GroupData) : Prop :=
  SameConfig d d' ∧
  d'.allocated + d'.requested = round_for_precision (d.allocated + d.requested) ∧
  IsInt d'.allocated ∧ IsInt d'.requested ∧
  ((⌊d.allocated⌋ : ℤ) : ℚ) ≤ d'.allocated ∧ 0 ≤ d'.requested

/-- What `hgq_fairshare` does to a node: the settings stay, the demand is split into what is
allocated and what is still requested, and the node has at least the smaller of its demand
and its quota. -/
def FairshareFrame (d d' : GroupData) : Prop :=
  SameSettings d d' ∧
  d'.allocated + d'.requested = d.requested ∧
  0 ≤ d'.allocated ∧ 0 ≤ d'.requested ∧
  min d.requested d.quota ≤ d'.allocated

/-- The slot is there and has a positive remaining request. -/
def opt_pos : Option Slot → Bool
  | some s => decide (0 < s.subtree_requested)
  | none => false

/-- The number of indices of `js` whose slot has a positive remaining request. -/
def pos_count_idx (js : List Nat) (slots : List Slot) : Nat :=
  js.countP (fun j => opt_pos slots[j]?)

/-- The slot of index `j` during the rounds of `hgq_round_robin`, `g` being `groups[j]` before
the rounds: the settings of the group are the same, what is allocated was taken from the
request the group entered with, both are nonnegative integers, and the flag `rr` was written
only together with an allocation. -/
def RRSlot (g : GroupData) (sl : Slot) : Prop :=
  SameSettings g sl.grp ∧
  sl.allocated + sl.subtree_requested = outstanding_request g ∧
  0 ≤ sl.subtree_requested ∧ 0 ≤ sl.allocated ∧
  IsInt sl.subtree_requested ∧ IsInt sl.allocated ∧
  (sl.grp.rr = g.rr ∨ 0 < sl.allocated)

/-- The state a taken visit of `rr_visit` leaves. -/
def rr_take (m : ℚ) (j : Nat) (s : Slot) (st : RoundRobin) : RoundRobin :=
  { slots := st.slots.set j
      { grp := { s.grp with rr := true }
        allocated := s.allocated + min s.subtree_requested m
        subtree_requested := s.subtree_requested - min s.subtree_requested m }
    surplus := st.surplus - min s.subtree_requested m
    requested := st.requested - min s.subtree_requested m
    outstanding :=
      if s.subtree_requested - min s.subtree_requested m > 0 then st.outstanding + 1
      else st.outstanding
    sumalloc := st.sumalloc + min s.subtree_requested m }

/-- The test of the `while` loop of `hgq_round_robin` fails. -/
def rr_done (st : RoundRobin) : Prop := ¬ (st.surplus ≥ 1 ∧ st.requested > 0)

/-! ## Example trees -/

/-- One static group of quota 200 that demands 200 slots. -/
def example_oversubscribed : GroupEntry :=
  root_group 0 [leaf_group "a" 200 true false 200 0]

/-- Scenario 3 of the specification: groups `a` (static 10, demand 5, accepts surplus) and
`b` (static 10, demand 20, declines surplus). -/
def example_surplus_refused : GroupEntry :=
  root_group 0 [leaf_group "a" 10 true true 5 0, leaf_group "b" 10 true false 20 0]

/-- Two groups of static quota 0 that accept surplus and demand 0.6 slots each. -/
def example_fractional : GroupEntry :=
  root_group 0 [leaf_group "a" 0 true true (6 / 10) 0, leaf_group "b" 0 true true (6 / 10) 0]

/-- One static group of quota 10 that declines surplus and demands half a slot. -/
def example_half_slot : GroupEntry :=
  root_group 0 [leaf_group "a" 10 true false (1 / 2) 0]

/-- Groups `a` (static 10, demand 25, accepts surplus) and `b` (static 10, demand 7, declines
surplus). -/
def example_within_quota : GroupEntry :=
  root_group 0 [leaf_group "a" 10 true true 25 0, leaf_group "b" 10 true false 7 0]

/-- The subtree reached from a node by following the child indices of a path. -/
def subtree_at : GroupEntry → List Nat → Option GroupEntry
  | t, [] => some t
  | .mk _ cs, i :: rest =>
    match cs[i]? with
    | some c => subtree_at c rest
    | none => none

/-- The budget that `hgq_assign_quotas(quota)`, called on the root of `t`, passes to the node
at the end of a path; zero when the call is not reached because a node above returned early,
which leaves the subtree as a call with budget zero does. -/
def budget_at (oversub : Bool) : ℚ → GroupEntry → List Nat → ℚ
  | quota, _, [] => quota
  | quota, .mk _ cs, i :: rest =>
    if quota ≤ 0 then 0
    else
      match cs[i]? with
      | some c => budget_at oversub (child_budget oversub quota cs c.data) c rest
      | none => 0

/-- The slot of a group that declines surplus holds no allocation and no new `rr` flag. -/
def DeclinedSlot (g : GroupData) (sl : Slot) : Prop :=
  sl.grp.accept_surplus = g.accept_surplus ∧
  (g.accept_surplus = false → sl.allocated = 0 ∧ sl.grp.rr = g.rr)

/-- Group `b` of scenario 3 next to another sibling: `c` (static 50, demand 500, accepts
surplus) and `b` (static 10, demand 20, declines surplus), under a root that demands 7. -/
def example_other_siblings : GroupEntry :=
  root_group 7 [leaf_group "c" 50 true true 500 3, leaf_group "b" 10 true false 20 0]

/-! ## Observations and examples for the scenarios of the specification -/

/-- The field `allocated` of the node at the end of a path. -/
def allocated_at (t : GroupEntry) (p : List Nat) : Option ℚ :=
  (subtree_at t p).map (fun n => n.data.allocated)

/-- Scenario 2 of the specification: groups `a` (static 10, demand 5) and `b` (static 10,
demand 20), both accepting surplus, under a root without demand. -/
def example_surplus_up : GroupEntry :=
  root_group 0 [leaf_group "a" 10 true true 5 0, leaf_group "b" 10 true true 20 0]

/-- A leaf whose derived quotas are left over from an earlier call: `quota` and
`subtree_quota` are 5. -/
def example_stale : GroupEntry :=
  .mk { name := "a", config_quota := 5, static_quota := true, accept_surplus := false,
        quota := 5, requested := 0, allocated := 0, subtree_quota := 5,
        subtree_requested := 0, rr := false, rr_time := 0, subtree_rr_time := 0 } []

/-- A static group `a` of quota 10 with static subgroups `a.b` of quota 5 and `a.c` of
quota 20. -/
def example_branch : GroupEntry :=
  .mk { name := "a", config_quota := 10, static_quota := true, accept_surplus := false,
        quota := 0, requested := 0, allocated := 0, subtree_quota := 0,
        subtree_requested := 0, rr := false, rr_time := 0, subtree_rr_time := 0 }
    [leaf_group "a.b" 5 true false 0 0, leaf_group "a.c" 20 true false 0 0]

/-! ## Observations on the rounds of `hgq_round_robin` -/

/-- The value `allocated[j]`, zero outside the vector. -/
def slot_allocated (slots : List Slot) (j : Nat) : ℚ :=
  match slots[j]? with
  | some s => s.allocated
  | none => 0

/-- The value `subtree_requested[j]`, zero outside the vector. -/
def slot_request (slots : List Slot) (j : Nat) : ℚ :=
  match slots[j]? with
  | some s => s.subtree_requested
  | none => 0

/-- In the list `js` the index `x` never comes after the index `y`. -/
def never_after (x y : Nat) (js : List Nat) : Prop :=
  ∀ l1 l2 : List Nat, js = l1 ++ y :: l2 → x ∉ l2

/-- The sort key of index `j` in `groups`: the `subtree_rr_time` of `groups[j]`. -/
def rr_key (groups : List GroupData) (j : Nat) : ℚ :=
  match groups[j]? with
  | some g => g.subtree_rr_time
  | none => 0

/-- The amount `allocated[j]` that the call `hgq_round_robin(surplus)` on a node computes for
its child of index `j` (for `j = children.size()` it is the amount for the node itself); zero
when the call returns before the rounds. -/
def round_robin_credit (surplus : ℚ) : GroupEntry → Nat → ℚ
  | .mk d0 cs, j =>
    if (force_integer d0).subtree_requested ≤ 0 then 0
    else if surplus < 1 then 0
    else
      slot_allocated
        (round_robin_level surplus (force_integer d0).subtree_requested
          (cs.map GroupEntry.data ++ [splice_rr (force_integer d0)])).slots j

/-- Scenario 5 of the specification: groups `a` and `b` with static quota 0 and demand 10
each, both accepting surplus, `rr_time(a) = 1` and `rr_time(b) = 2`. -/
def example_round_robin : GroupEntry :=
  root_group 0 [leaf_group "a" 0 true true 10 1, leaf_group "b" 0 true true 10 2]

/-- Group `a` of scenario 5 when `hgq_recover_remainders` calls `hgq_round_robin(5)` on the
root: nothing is allocated and 10 slots are requested. -/
def example_round_robin_a : GroupEntry :=
  .mk { name := "a", config_quota := 0, static_quota := true, accept_surplus := true,
        quota := 0, requested := 10, allocated := 0, subtree_quota := 0,
        subtree_requested := 10, rr := false, rr_time := 1, subtree_rr_time := 1 } []

/-- Group `b` of scenario 5 in the same state. -/
def example_round_robin_b : GroupEntry :=
  .mk { name := "b", config_quota := 0, static_quota := true, accept_surplus := true,
        quota := 0, requested := 10, allocated := 0, subtree_quota := 0,
        subtree_requested := 10, rr := false, rr_time := 2, subtree_rr_time := 2 } []

/-- The fields of the root of scenario 5 in the same state. -/
def example_round_robin_root : GroupData :=
  { name := "<none>", config_quota := 0, static_quota := false, accept_surplus := true,
    quota := 5, requested := 0, allocated := 0, subtree_quota := 5,
    subtree_requested := 20, rr := false, rr_time := 0, subtree_rr_time := 1 }

/-- The state of scenario 5 in which `hgq_recover_remainders` calls `hgq_round_robin(5)` on
the root. -/
def example_round_robin_state : GroupEntry :=
  .mk example_round_robin_root [example_round_robin_a, example_round_robin_b]

/-! ## Observations on the children of a node through a cycle -/

/-- The amount `allocated[j]` that the call `hgq_allocate_surplus(surplus)` on a node
computes for its child of index `j`; zero when the call returns before the allocation. -/
def allocate_surplus_credit (surplus : ℚ) : GroupEntry → Nat → ℚ
  | .mk d cs, j =>
    if surplus ≤ 0 then 0
    else if d.subtree_requested ≤ 0 then 0
    else
      slot_allocated
        (allocate_surplus_level surplus d.subtree_requested
          (cs.map GroupEntry.data ++ [splice_surplus d])).slots j

/-- Two slots agree on what `hgq_allocate_surplus_loop` reads and writes. -/
def TwinSlot (s1 s2 : Slot) : Prop :=
  s1.allocated = s2.allocated ∧ s1.subtree_requested = s2.subtree_requested ∧
  s1.grp.subtree_quota = s2.grp.subtree_quota

/-- A static group `g` of quota 5 that accepts surplus, with subgroups `g.a` and `g.b` of
dynamic quota 0.5 and demand 10 each, both accepting surplus, next to static groups `h1` and
`h2` of quota 0.5 and demand 10 each; `g.a` was served before `g.b`, and both before `h1` and
`h2`. -/
def example_two_levels : GroupEntry :=
  root_group 0
    [.mk { name := "g", config_quota := 5, static_quota := true, accept_surplus := true,
           quota := 0, requested := 0, allocated := 0, subtree_quota := 0,
           subtree_requested := 0, rr := false, rr_time := 0, subtree_rr_time := 0 }
      [leaf_group "g.a" (1 / 2) false true 10 0, leaf_group "g.b" (1 / 2) false true 10 1],
     leaf_group "h1" (1 / 2) true true 10 2, leaf_group "h2" (1 / 2) true true 10 2]

/-! ## `hgq_construct_tree` -/

/-- The configuration that `hgq_construct_tree` reads through `param`, `param_double` and
`param_boolean`: the entries of `GROUP_NAMES` as `StringList::next` yields them, the values
of `GROUP_QUOTA_<g>` and `GROUP_QUOTA_DYNAMIC_<g>` as `param_double` returns them (the default
`-1` when the parameter is not set or out of range), the value of `GROUP_ACCEPT_SURPLUS`, and
`GROUP_ACCEPT_SURPLUS_<g>` where it is set.  The autoregroup settings, the maps and the sort
expression reach no field of the record `GroupData` and are left out. -/
structure GroupConfig where
  group_names : List String
  group_quota : String → ℚ
  group_quota_dynamic : String → ℚ
  default_accept_surplus : Bool
  group_accept_surplus : String → Option Bool

/-- The reserved name of the root group. -/
def hgq_root_name : String := "<none>"

/-- The code of a character after `tolower`. -/
def lower_code (c : Char) : Nat := c.toLower.toNat

/-- Lexicographic comparison of two character sequences after `tolower`. -/
def ci_less_chars : List Char → List Char → Bool
  | [], [] => false
  | [], _ :: _ => true
  | _ :: _, [] => false
  | a :: as, b :: bs =>
    if lower_code a < lower_code b then true
    else if lower_code b < lower_code a then false
    else ci_less_chars as bs

/-- Modelled from the spec: the comparator `Accountant::ci_less` is declared in a header that
is not part of the sources.  The spec says: "Sort names by case-insensitive lexicographic
order" and "Both the initial sort of group names and the per-parent child index use
case-insensitive comparison". -/
def ci_less (a b : String) : Bool := ci_less_chars a.data b.data

/-- Two keys of a map ordered by `ci_less` are the same key: neither is less than the
other. -/
def ci_equiv (a b : List Char) : Bool := !ci_less_chars a b && !ci_less_chars b a

/-- The components of a character sequence between its dots. -/
def split_dots : List Char → List (List Char)
  | [] => [[]]
  | c :: cs =>
    if c = '.' then [] :: split_dots cs
    else
      match split_dots cs with
      | [] => [[c]]
      | w :: ws => (c :: w) :: ws

/-- Modelled from the spec: the function `parse_group_name` is not part of the sources.  The
spec says: "For each name, split on `.`".  The result is the vector `gpath`, each component
as its sequence of characters. -/
def parse_group_name (gname : String) : List (List Char) := split_dots gname.data

/-- The key under which a child stands in the map `chmap` of its parent: the last component
of its name (`chmap[gpath.back()]` is written once, when the child is pushed to
`children`, so the map is read off the children). -/
def child_key (c : GroupEntry) : List Char :=
  match (parse_group_name c.data.name).getLast? with
  | some k => k
  | none => []

/-- The group that the loop body of `hgq_construct_tree` enters for the name `gname`: a
constructed `GroupEntry` with its name, quota setting and `accept_surplus` from the
configuration. -/
def new_group (cfg : GroupConfig) (gname : String) : GroupEntry :=
  let q1 := cfg.group_quota gname
  let q2 := cfg.group_quota_dynamic gname
  let cq := if q1 ≥ 0 then q1 else if q2 ≥ 0 then q2 else 0
  .mk { name := gname
        config_quota := if cq < 0 then 0 else cq
        static_quota := decide (q1 ≥ 0)
        accept_surplus :=
          match cfg.group_accept_surplus gname with
          | some b => b
          | none => cfg.default_accept_surplus
        quota := 0, requested := 0, allocated := 0, subtree_quota := 0,
        subtree_requested := 0, rr := false, rr_time := 0, subtree_rr_time := 0 } []

mutual
/-- The body of the loop over the sorted names in `hgq_construct_tree` for the name `gname`,
seen from the group the walk has reached, with the components of `gpath` still ahead: the
walk follows `chmap` through all components but the last (a missing parent leaves the tree as
it is), and the new group is pushed to the children of the group it ends in unless `chmap`
holds the last component already.  (`gpath` is never empty.) -/
def insert_group (cfg : GroupConfig) (gname : String) :
    List (List Char) → GroupEntry → GroupEntry
  | [], t => t
  | [k], .mk d cs =>
    if cs.any (fun c => ci_equiv (child_key c) k) then .mk d cs
    else .mk d (cs ++ [new_group cfg gname])
  | k :: k2 :: ks, .mk d cs => .mk d (insert_child cfg gname k (k2 :: ks) cs)
termination_by structural _ t => t
/-- The step `group = group->children[f->second]` of the walk: the child found in `chmap`
under the component `k`. -/
def insert_child (cfg : GroupConfig) (gname : String) (k : List Char)
    (ks : List (List Char)) : List GroupEntry → List GroupEntry
  | [] => []
  | c :: cs =>
    if ci_equiv (child_key c) k then insert_group cfg gname ks c :: cs
    else c :: insert_child cfg gname k ks cs
termination_by structural l => l
end

/-- The vector `groups` after the reserved root name is dropped and the names are sorted with
`std::sort(groups.begin(), groups.end(), Accountant::ci_less())`; names that compare equal
keep their order here. -/
def sorted_names (cfg : GroupConfig) : List String :=
  List.insertionSort (fun a b => ci_less b a = false)
    (cfg.group_names.filter (fun g => decide (g ≠ hgq_root_name)))

/-- The tree that `hgq_construct_tree` returns: the root group `<none>` with
`accept_surplus` on, and the groups of the sorted names entered one after the other. -/
def hgq_construct_tree (cfg : GroupConfig) : GroupEntry :=
  (sorted_names cfg).foldl
    (fun root gname => insert_group cfg gname (parse_group_name gname) root)
    (root_group 0 [])

/-- The loop `while (!grpq.empty())` that fills `hgq_groups`, on a fuel counter: the queue
`grpq` is the list, the result is what is pushed to `hgq_groups`. -/
def breadth_first : Nat → List GroupEntry → List GroupEntry
  | 0, _ => []
  | _ + 1, [] => []
  | fuel + 1, g :: q => g :: breadth_first fuel (q ++ g.children)

/-- The vector `hgq_groups` for the tree with the given root.  Every iteration pops one node,
so the number of nodes of the tree is enough fuel. -/
def hgq_groups (root : GroupEntry) : List GroupEntry :=
  breadth_first root.nodes.length [root]

/-! ## Observations on `hgq_construct_tree` -/

/-- The children of a node with the paths that lead to them, `p` being the path of the node
and `k` the index of the first child in the list. -/
def kids_from (p : List Nat) : Nat → List GroupEntry → List (List Nat × GroupEntry)
  | _, [] => []
  | k, c :: cs => (p ++ [k], c) :: kids_from p (k + 1) cs

/-- The children of the nodes of a list, each node given with its path. -/
def kids (q : List (List Nat × GroupEntry)) : List (List Nat × GroupEntry) :=
  q.flatMap (fun x => kids_from x.1 0 x.2.children)

/-- The loop that fills `hgq_groups`, every node carried with the path that leads to it from
the root. -/
def breadth_first_paths : Nat → List (List Nat × GroupEntry) → List (List Nat × GroupEntry)
  | 0, _ => []
  | _ + 1, [] => []
  | fuel + 1, x :: q => x :: breadth_first_paths fuel (q ++ kids_from x.1 0 x.2.children)

/-- The nodes of `q`, followed by their children, followed by the children of those, and so
on for `n` levels. -/
def levels_from : Nat → List (List Nat × GroupEntry) → List (List Nat × GroupEntry)
  | 0, _ => []
  | n + 1, q => q ++ levels_from n (kids q)

/-- The number of nodes of the trees of a list. -/
def weight (q : List (List Nat × GroupEntry)) : Nat :=
  (q.map (fun x => x.2.nodes.length)).sum

/-- The first child found under the key `k`. -/
def find_child (k : List Char) : List GroupEntry → Option GroupEntry
  | [] => none
  | c :: cs => if ci_equiv (child_key c) k then some c else find_child k cs

/-- The walk along the components of a path, following `chmap` from the given group, reaches
a group. -/
def has_path : List (List Char) → GroupEntry → Bool
  | [], _ => true
  | k :: ks, .mk _ cs =>
    match find_child k cs with
    | some c => has_path ks c
    | none => false

/-- Two paths have the same length and equal components under `ci_less`. -/
def path_equiv : List (List Char) → List (List Char) → Bool
  | [], [] => true
  | a :: as, b :: bs => ci_equiv a b && path_equiv as bs
  | _, _ => false

/-- The names of the nodes of a tree other than its root. -/
def group_names_of (t : GroupEntry) : List String :=
  (GroupEntry.nodes_list t.children).map GroupData.name

/-- A configuration with the only group name `a.b.c` and no other setting (scenario 6 of the
specification). -/
def example_missing_parent : GroupConfig :=
  { group_names := ["a.b.c"], group_quota := fun _ => -1, group_quota_dynamic := fun _ => -1,
    default_accept_surplus := false, group_accept_surplus := fun _ => none }

/-- A configuration that lists the root name in upper case. -/
def example_upper_case_root : GroupConfig :=
  { group_names := ["<NONE>"], group_quota := fun _ => -1, group_quota_dynamic := fun _ => -1,
    default_accept_surplus := false, group_accept_surplus := fun _ => none }

/-- A configuration that lists the reserved root name and a group below it. -/
def example_below_reserved : GroupConfig :=
  { group_names := ["<none>", "<none>.x"], group_quota := fun _ => -1,
    group_quota_dynamic := fun _ => -1, default_accept_surplus := false,
    group_accept_surplus := fun _ => none }

/-- A configuration with groups in two levels, listed children first and in mixed case. -/
def example_groups : GroupConfig :=
  { group_names := ["b.x", "a.b", "<none>", "B", "a", "A.B.c", "q.r"],
    group_quota := fun g => if g = "a" then 10 else -1,
    group_quota_dynamic := fun _ => -1, default_accept_surplus := false,
    group_accept_surplus := fun _ => none }

/-- The list `q` is level `d` of the tree `t`: its entries are nodes of `t` with their paths,
all of length `d`, no path twice, and every node of `t` at depth `d` is among them. -/
def LevelOf (t : GroupEntry) (d : Nat) (q : List (List Nat × GroupEntry)) : Prop :=
  (∀ x ∈ q, x.1.length = d ∧ subtree_at t x.1 = some x.2) ∧
  (q.map Prod.fst).Nodup ∧
  ∀ p g, p.length = d → subtree_at t p = some g → (p, g) ∈ q

/-- The lists of `ws` written one after the other with `sep` between them. -/
def join_with {α : Type} (sep : α) : List (List α) → List α
  | [] => []
  | [w] => w
  | w :: w2 :: ws => w ++ sep :: join_with sep (w2 :: ws)

/-- The proper dotted prefixes of a name: what stands before each of its dots. -/
def dotted_prefixes : List Char → List (List Char)
  | [] => []
  | c :: cs => (if c = '.' then [[]] else []) ++ (dotted_prefixes cs).map (fun p => c :: p)

/-- The loop over the sorted names in `hgq_construct_tree`, run on the names of a list from
a given tree. -/
def insert_names (cfg : GroupConfig) (names : List String) (t : GroupEntry) : GroupEntry :=
  names.foldl (fun root gname => insert_group cfg gname (parse_group_name gname) root) t

/-! ## Observations on the loops of surplus allocation and round robin -/

/-- The value of `iter` when `hgq_allocate_surplus_loop` leaves its `while` loop, on the fuel
counter of `hgq_allocate_surplus_loop_fuel`: the number of times the body of the loop is
entered, the entry that takes the `break` on `Z <= 0` included. -/
def hgq_allocate_surplus_loop_iter (by_quota : Bool) : Nat → SurplusLoop → Nat
  | 0, _ => 0
  | fuel + 1, st =>
    if st.surplus > 0 then
      let Z := surplus_loop_Z by_quota st.slots
      if Z ≤ 0 then 1
      else
        let sumalloc := surplus_loop_sumalloc by_quota st.surplus Z st.slots
        let never_gt := surplus_loop_never_gt by_quota st.surplus Z st.slots
        let surplus := st.surplus - sumalloc
        1 + hgq_allocate_surplus_loop_iter by_quota fuel
          { slots := st.slots.map (slot_allocate by_quota st.surplus Z)
            surplus := if never_gt || surplus < 0 then 0 else surplus
            requested := st.requested - sumalloc }
    else 0

/-- The `while` loop of `hgq_round_robin` with a watch on every round, on the fuel counter of
`rr_loop`: at every entry of the body the divisor `outstanding` of
`floor(surplus / outstanding)` is at least 1, and after the `for` loop of every round
`sumalloc` is at least 1, so that the branch that reports a round without allocation is not
taken. -/
def rr_loop_sound (idx : List Nat) : Nat → RoundRobin → Bool
  | 0, _ => true
  | fuel + 1, st =>
    if st.surplus ≥ 1 ∧ st.requested > 0 then
      let amax := rr_amax st.surplus st.outstanding
      let st1 := rr_pass amax idx { st with outstanding := 0, sumalloc := 0 }
      decide (1 ≤ st.outstanding) && decide (1 ≤ st1.sumalloc) && rr_loop_sound idx fuel st1
    else true

/-- The state of the `while` loop of `hgq_round_robin(surplus)` on a node when the loop is
reached: the vector `groups` is the children followed by the spliced node. -/
def rr_entry (surplus : ℚ) (d : GroupData) (cs : List GroupEntry) : RoundRobin :=
  { slots := (cs.map GroupEntry.data ++ [splice_rr d]).map
      (fun g => { grp := g, allocated := 0, subtree_requested := outstanding_request g })
    surplus := surplus
    requested := d.subtree_requested
    outstanding := initial_outstanding (cs.map GroupEntry.data ++ [splice_rr d])
    sumalloc := 0 }

/-- Three participants of `hgq_allocate_surplus_loop`: weights 1, 3 and 0, remaining requests
1, 10 and 12. -/
def example_participants : List Slot :=
  [⟨{ (leaf_group "a" 0 true true 0 0).data with subtree_quota := 1 }, 0, 1⟩,
   ⟨{ (leaf_group "b" 0 true true 0 0).data with subtree_quota := 3 }, 0, 10⟩,
   ⟨(leaf_group "c" 0 true true 0 0).data, 0, 12⟩]

/-! ## The arithmetic of `double`

The definitions above compute with exact rational numbers.  The code computes with IEEE 754
binary64 values: every sum, difference, product and quotient is rounded to the nearest
`double`.  This section repeats the functions of the allocation cycle with that rounding, to
evaluate them on concrete inputs where the rounding shows.  Values beyond `DBL_MAX` and the
special values (infinities, NaN) are not represented. -/

/-- The power `2^e` for an integer `e`. -/
def two_pow (e : ℤ) : ℚ :=
  if 0 ≤ e then ((2 ^ e.toNat : ℕ) : ℚ) else 1 / ((2 ^ (-e).toNat : ℕ) : ℚ)

/-- The number of binary digits of `n`, on a fuel counter. -/
def bit_length_fuel : Nat → Nat → Nat
  | 0, _ => 0
  | fuel + 1, n => if n = 0 then 0 else 1 + bit_length_fuel fuel (n / 2)

/-- The number of binary digits of `n`: a number has no more digits than its value. -/
def bit_length (n : Nat) : Nat := bit_length_fuel n n

/-- The exponent `e` with `2^e <= |x| < 2^(e+1)`, for `x` other than zero: the difference of
the lengths of numerator and denominator, or one less. -/
def binade (x : ℚ) : ℤ :=
  let e0 : ℤ := (bit_length x.num.natAbs : ℤ) - (bit_length x.den : ℤ)
  if two_pow e0 ≤ |x| then e0 else e0 - 1

/-- The integer nearest to `y`, the even one of two that are equally near. -/
def round_half_even (y : ℚ) : ℤ :=
  if y - ((⌊y⌋ : ℤ) : ℚ) < 1 / 2 then ⌊y⌋
  else if 1 / 2 < y - ((⌊y⌋ : ℤ) : ℚ) then ⌊y⌋ + 1
  else if ⌊y⌋ % 2 = 0 then ⌊y⌋
  else ⌊y⌋ + 1

/-- The `double` nearest to `x`: a significand of 53 bits, exponents from -1022 (below that
the spacing of the subnormal numbers), round to nearest, ties to even. -/
def fl (x : ℚ) : ℚ :=
  if x = 0 then 0
  else
    (round_half_even (x / two_pow (max (binade x) (-1022) - 52)) : ℚ)
      * two_pow (max (binade x) (-1022) - 52)

/-- The sum of two `double` values. -/
def dadd (a b : ℚ) : ℚ := fl (a + b)

/-- The difference of two `double` values. -/
def dsub (a b : ℚ) : ℚ := fl (a - b)

/-- The product of two `double` values. -/
def dmul (a b : ℚ) : ℚ := fl (a * b)

/-- The quotient of two `double` values, the divisor not zero. -/
def ddiv (a b : ℚ) : ℚ := fl (a / b)

/-! ## `hgq_assign_quotas` in `double` -/

/-- The first loop of `hgq_assign_quotas` with the sums in `double`. -/
def quota_sums_double (cs : List GroupEntry) : ℚ × ℚ :=
  cs.foldl
    (fun acc child =>
      if child.data.static_quota then (dadd acc.1 child.data.config_quota, acc.2)
      else (acc.1, dadd acc.2 child.data.config_quota))
    (0, 0)

/-- The value `q` computed for one child in the second loop of `hgq_assign_quotas`, in
`double`: the quotient is rounded, then the product. -/
def child_quota_double (sqa Zs dqa Zd : ℚ) (child : GroupData) : ℚ :=
  let q := if child.static_quota then dmul child.config_quota (ddiv sqa Zs)
           else dmul child.config_quota (ddiv dqa Zd)
  if q < 0 then 0 else q

mutual
/-- The function `GroupEntry::hgq_assign_quotas(quota)` in `double`. -/
def hgq_assign_quotas_double (oversub : Bool) (quota : ℚ) : GroupEntry → GroupEntry
  | .mk d cs =>
    if quota ≤ 0 then .mk d cs
    else
      let sqsum := (quota_sums_double cs).1
      let dqsum := (quota_sums_double cs).2
      let sqa := static_budget oversub sqsum quota
      let dqa := max 0 (dsub quota sqa)
      let Zs := if sqsum > 0 then sqsum else 1
      let Zd := max dqsum 1
      let chq := cs.foldl
        (fun acc child => dadd acc (child_quota_double sqa Zs dqa Zd child.data)) 0
      let q1 := if oversub then quota else dsub quota chq
      let q2 := if d.name = "<none>" then dsub quota chq else q1
      let q3 := if q2 < 0 then 0 else q2
      .mk { d with subtree_quota := quota, quota := q3 }
        (hgq_assign_quotas_children_double oversub sqa Zs dqa Zd cs)
termination_by structural t => t
/-- The recursive calls `child->hgq_assign_quotas(q)` of the second loop, in `double`. -/
def hgq_assign_quotas_children_double (oversub : Bool) (sqa Zs dqa Zd : ℚ) :
    List GroupEntry → List GroupEntry
  | [] => []
  | child :: rest =>
    hgq_assign_quotas_double oversub (child_quota_double sqa Zs dqa Zd child.data) child ::
      hgq_assign_quotas_children_double oversub sqa Zs dqa Zd rest
termination_by structural l => l
end

/-! ## `hgq_fairshare`, `hgq_allocate_surplus` and `hgq_allocate_surplus_loop` in `double` -/

/-- The normalizer `Z` of one iteration, summed in `double`. -/
def surplus_loop_Z_double (by_quota : Bool) (slots : List Slot) : ℚ :=
  slots.foldl
    (fun Z s => if s.subtree_requested > 0 then dadd Z (slot_weight by_quota s) else Z) 0

/-- The amount `a = surplus * (N / Z)` in `double`, clipped to the remaining request. -/
def slot_amount_double (by_quota : Bool) (surplus Z : ℚ) (s : Slot) : ℚ × Bool :=
  let a := dmul surplus (ddiv (slot_weight by_quota s) Z)
  if a > s.subtree_requested then (s.subtree_requested, true) else (a, false)

/-- The body of the allocation `for` loop on one index, in `double`. -/
def slot_allocate_double (by_quota : Bool) (surplus Z : ℚ) (s : Slot) : Slot :=
  if s.subtree_requested > 0 then
    { s with
      allocated := dadd s.allocated (slot_amount_double by_quota surplus Z s).1
      subtree_requested := dsub s.subtree_requested (slot_amount_double by_quota surplus Z s).1 }
  else s

/-- The value of `sumalloc` after the allocation `for` loop, in `double`. -/
def surplus_loop_sumalloc_double (by_quota : Bool) (surplus Z : ℚ) (slots : List Slot) : ℚ :=
  slots.foldl
    (fun acc s =>
      if s.subtree_requested > 0 then dadd acc (slot_amount_double by_quota surplus Z s).1
      else acc) 0

/-- The value of `never_gt` after the allocation `for` loop, in `double`. -/
def surplus_loop_never_gt_double (by_quota : Bool) (surplus Z : ℚ) (slots : List Slot) : Bool :=
  slots.foldl
    (fun acc s =>
      if s.subtree_requested > 0 then
        (if (slot_amount_double by_quota surplus Z s).2 then false else acc)
      else acc) true

/-- The `while (surplus > 0)` loop of `hgq_allocate_surplus_loop` in `double`, on a fuel
counter. -/
def hgq_allocate_surplus_loop_fuel_double (by_quota : Bool) : Nat → SurplusLoop → SurplusLoop
  | 0, st => st
  | fuel + 1, st =>
    if st.surplus > 0 then
      let Z := surplus_loop_Z_double by_quota st.slots
      if Z ≤ 0 then st
      else
        let sumalloc := surplus_loop_sumalloc_double by_quota st.surplus Z st.slots
        let never_gt := surplus_loop_never_gt_double by_quota st.surplus Z st.slots
        let surplus := dsub st.surplus sumalloc
        hgq_allocate_surplus_loop_fuel_double by_quota fuel
          { slots := st.slots.map (slot_allocate_double by_quota st.surplus Z)
            surplus := if never_gt || surplus < 0 then 0 else surplus
            requested := dsub st.requested sumalloc }
    else st

/-- The function `hgq_allocate_surplus_loop` in `double`, with the fuel of the exact
version, which is enough here too: a clipped request becomes exactly zero. -/
def hgq_allocate_surplus_loop_double (by_quota : Bool) (st : SurplusLoop) : SurplusLoop :=
  hgq_allocate_surplus_loop_fuel_double by_quota (st.slots.length + 1) st

/-- The allocations that `hgq_allocate_surplus` computes at one level, in `double`. -/
def allocate_surplus_level_double (surplus requested : ℚ) (groups : List GroupData) :
    SurplusLoop :=
  if surplus ≥ requested then
    { slots := groups.map
        (fun g => { grp := g, allocated := outstanding_request g, subtree_requested := 0 })
      surplus := dsub surplus requested
      requested := 0 }
  else
    hgq_allocate_surplus_loop_double false
      (hgq_allocate_surplus_loop_double true
        { slots := groups.map
            (fun g => { grp := g, allocated := 0, subtree_requested := outstanding_request g })
          surplus := surplus
          requested := requested })

mutual
/-- The function `GroupEntry::hgq_allocate_surplus(surplus)` in `double`. -/
def hgq_allocate_surplus_double (surplus : ℚ) : GroupEntry → GroupEntry × ℚ
  | .mk d cs =>
    if surplus ≤ 0 then (.mk d cs, 0)
    else if d.subtree_requested ≤ 0 then (.mk d cs, surplus)
    else
      let st := allocate_surplus_level_double surplus d.subtree_requested
        (cs.map GroupEntry.data ++ [splice_surplus d])
      (.mk { d with
              allocated := dadd d.allocated (allocated_back st.slots)
              requested := dsub d.requested (allocated_back st.slots)
              subtree_requested := st.requested }
          (hgq_allocate_surplus_children_double st.slots cs),
        st.surplus)
termination_by structural t => t
/-- The loop of recursive calls `groups[j]->hgq_allocate_surplus(allocated[j])` over the
children, in `double`. -/
def hgq_allocate_surplus_children_double : List Slot → List GroupEntry → List GroupEntry
  | s :: ss, child :: rest =>
    (if s.allocated > 0 then (hgq_allocate_surplus_double s.allocated child).1 else child) ::
      hgq_allocate_surplus_children_double ss rest
  | _, [] => []
  | [], rest => rest
termination_by structural _ l => l
end

mutual
/-- The function `GroupEntry::hgq_fairshare()` in `double`. -/
def hgq_fairshare_double : GroupEntry → GroupEntry × ℚ
  | .mk d cs =>
    let allocated := min d.requested d.quota
    let requested := dsub d.requested allocated
    let surplus := dsub d.quota allocated
    let d1 : GroupData :=
      { d with allocated := allocated, requested := requested, subtree_requested := requested }
    if cs.isEmpty then (.mk d1 cs, surplus)
    else
      let rs := hgq_fairshare_children_double cs
      let acc := rs.foldl
        (fun acc r =>
          (dadd acc.1 r.2,
            if r.1.data.accept_surplus then dadd acc.2 r.1.data.subtree_requested else acc.2))
        (surplus, d1.subtree_requested)
      hgq_allocate_surplus_double acc.1
        (.mk { d1 with subtree_requested := acc.2 } (rs.map Prod.fst))
termination_by structural t => t
/-- The recursive calls `child->hgq_fairshare()` in `double`. -/
def hgq_fairshare_children_double : List GroupEntry → List (GroupEntry × ℚ)
  | [] => []
  | child :: rest => hgq_fairshare_double child :: hgq_fairshare_children_double rest
termination_by structural l => l
end

/-! ## `hgq_recover_remainders` and `hgq_round_robin` in `double` -/

/-- The function `round_for_precision` in `double`: `floor(0.5 + x)`, the sum rounded. -/
def round_for_precision_double (x : ℚ) : ℚ := (⌊dadd (1 / 2) x⌋ : ℤ)

/-- The value `amax = max(1, floor(surplus / outstanding))` in `double`; `none` for a zero
`outstanding` as in `rr_amax`. -/
def rr_amax_double (surplus outstanding : ℚ) : Option ℚ :=
  if outstanding = 0 then none else some (max 1 ((⌊ddiv surplus outstanding⌋ : ℤ) : ℚ))

/-- The body of the `for` loop of one round on `j = idx[jj]`, in `double`. -/
def rr_visit_double (amax : Option ℚ) (j : Nat) (st : RoundRobin) : RoundRobin × Bool :=
  match st.slots[j]? with
  | none => (st, false)
  | some s =>
    if s.grp.accept_surplus && s.subtree_requested > 0 then
      let a := min_amax s.subtree_requested amax
      let s1 : Slot :=
        { grp := { s.grp with rr := true }
          allocated := dadd s.allocated a
          subtree_requested := dsub s.subtree_requested a }
      let st1 : RoundRobin :=
        { slots := st.slots.set j s1
          surplus := dsub st.surplus a
          requested := dsub st.requested a
          outstanding :=
            if s1.subtree_requested > 0 then dadd st.outstanding 1 else st.outstanding
          sumalloc := dadd st.sumalloc a }
      (st1, lt_amax st1.surplus amax)
    else (st, false)

/-- The `for` loop over `idx` of one round of `hgq_round_robin`, in `double`. -/
def rr_pass_double (amax : Option ℚ) : List Nat → RoundRobin → RoundRobin
  | [], st => st
  | j :: rest, st =>
    if (rr_visit_double amax j st).2 then (rr_visit_double amax j st).1
    else rr_pass_double amax rest (rr_visit_double amax j st).1

/-- The `while ((surplus >= 1) && (requested > 0))` loop of `hgq_round_robin` in `double`, on
a fuel counter. -/
def rr_loop_double (idx : List Nat) : Nat → RoundRobin → RoundRobin
  | 0, st => st
  | fuel + 1, st =>
    if st.surplus ≥ 1 ∧ st.requested > 0 then
      let amax := rr_amax_double st.surplus st.outstanding
      let st1 := rr_pass_double amax idx { st with outstanding := 0, sumalloc := 0 }
      if st1.sumalloc < 1 then st1 else rr_loop_double idx fuel st1
    else st

/-- The value of `outstanding` before the `while` loop, counted in `double`. -/
def initial_outstanding_double (groups : List GroupData) : ℚ :=
  groups.foldl
    (fun acc g => if g.accept_surplus && g.subtree_requested > 0 then dadd acc 1 else acc) 0

/-- The rounds of `hgq_round_robin` at one level in `double`, with the fuel of the exact
version (every round that goes on has `sumalloc >= 1`; for values below `2^53` the surplus
then drops by at least one slot a round). -/
def round_robin_level_double (surplus requested : ℚ) (groups : List GroupData) : RoundRobin :=
  rr_loop_double (sorted_idx groups) (⌊surplus⌋.toNat + 1)
    { slots := groups.map
        (fun g => { grp := g, allocated := 0, subtree_requested := outstanding_request g })
      surplus := surplus
      requested := requested
      outstanding := initial_outstanding_double groups
      sumalloc := 0 }

mutual
/-- The function `GroupEntry::hgq_round_robin(surplus)` in `double`. -/
def hgq_round_robin_double (surplus : ℚ) : GroupEntry → GroupEntry × ℚ
  | .mk d0 cs =>
    let d := force_integer d0
    if d.subtree_requested ≤ 0 then (.mk d cs, surplus)
    else if surplus < 1 then (.mk d cs, surplus)
    else
      let st := round_robin_level_double surplus d.subtree_requested
        (cs.map GroupEntry.data ++ [splice_rr d])
      (.mk { d with
              allocated := dadd d.allocated (allocated_back st.slots)
              requested := dsub d.requested (allocated_back st.slots)
              subtree_requested := st.requested
              rr := rr_back st.slots d.rr }
          (hgq_round_robin_children_double st.slots cs),
        st.surplus)
termination_by structural t => t
/-- The loop of recursive calls `groups[j]->hgq_round_robin(allocated[j])` over the children,
in `double`. -/
def hgq_round_robin_children_double : List Slot → List GroupEntry → List GroupEntry
  | s :: ss, child :: rest =>
    mark_rr s.grp.rr
        (if s.allocated > 0 then (hgq_round_robin_double s.allocated child).1 else child) ::
      hgq_round_robin_children_double ss rest
  | _, [] => []
  | [], rest => rest
termination_by structural _ l => l
end

/-- The loop over the children in `hgq_recover_remainders` after the recursive calls, in
`double`. -/
def recover_accumulate_double (surplus subtree_requested subtree_rr_time : ℚ)
    (rs : List (GroupEntry × ℚ)) : ℚ × ℚ × ℚ :=
  rs.foldl
    (fun acc r =>
      (dadd acc.1 r.2,
        if r.1.data.accept_surplus then
          (dadd acc.2.1 r.1.data.subtree_requested,
            if r.1.data.subtree_requested > 0 then
              min acc.2.2 r.1.data.subtree_rr_time
            else acc.2.2)
        else acc.2))
    (surplus, subtree_requested, subtree_rr_time)

mutual
/-- The function `GroupEntry::hgq_recover_remainders()` in `double`. -/
def hgq_recover_remainders_double : GroupEntry → GroupEntry × ℚ
  | .mk d cs =>
    let surplus := dsub d.allocated ((⌊d.allocated⌋ : ℤ) : ℚ)
    let allocated := round_for_precision_double (dsub d.allocated surplus)
    let requested := round_for_precision_double (dadd d.requested surplus)
    let d1 : GroupData :=
      { d with
        allocated := allocated
        requested := requested
        subtree_requested := requested
        subtree_rr_time := if requested > 0 then d.rr_time else DBL_MAX }
    if cs.isEmpty then (.mk d1 cs, surplus)
    else
      let rs := hgq_recover_remainders_children_double cs
      let acc := recover_accumulate_double surplus d1.subtree_requested d1.subtree_rr_time rs
      hgq_round_robin_double acc.1
        (.mk { d1 with subtree_requested := acc.2.1, subtree_rr_time := acc.2.2 }
          (rs.map Prod.fst))
termination_by structural t => t
/-- The recursive calls `child->hgq_recover_remainders()` in `double`. -/
def hgq_recover_remainders_children_double : List GroupEntry → List (GroupEntry × ℚ)
  | [] => []
  | child :: rest =>
    hgq_recover_remainders_double child :: hgq_recover_remainders_children_double rest
termination_by structural l => l
end

/-- The exit condition of the `while` loop of `hgq_allocate_surplus_loop` in `double`: the
loop test fails or the `break` on `Z <= 0` is taken. -/
def surplus_loop_done_double (by_quota : Bool) (st : SurplusLoop) : Prop :=
  st.surplus ≤ 0 ∨ surplus_loop_Z_double by_quota st.slots ≤ 0

/-! ## Induction on trees and unfolding lemmas -/

/-- Induction on a tree: a property holds of every tree when it holds of a node as soon as it
holds of the node's children. -/
theorem GroupEntry.induct {P : GroupEntry → Prop}
    (h : ∀ d cs, (∀ c ∈ cs, P c) → P (.mk d cs)) (t : GroupEntry) : P t :=
  @GroupEntry.rec P (fun l => ∀ c ∈ l, P c) (fun d cs ih => h d cs ih)
    (fun c hc => by cases hc)
    (fun c cs ihc ihcs x hx => by
      rcases List.mem_cons.1 hx with rfl | hx
      · exact ihc
      · exact ihcs x hx) t

@[simp] theorem GroupEntry.data_mk (d : GroupData) (cs : List GroupEntry) :
    (GroupEntry.mk d cs).data = d := rfl

@[simp] theorem GroupEntry.children_mk (d : GroupData) (cs : List GroupEntry) :
    (GroupEntry.mk d cs).children = cs := rfl

theorem GroupEntry.eta (t : GroupEntry) : GroupEntry.mk t.data t.children = t := by
  cases t; rfl

theorem nodes_list_eq (cs : List GroupEntry) :
    GroupEntry.nodes_list cs = (cs.map GroupEntry.nodes).flatten := by
  induction cs with
  | nil => simp [GroupEntry.nodes_list]
  | cons c cs ih => simp [GroupEntry.nodes_list, ih]

theorem subtrees_list_eq (cs : List GroupEntry) :
    GroupEntry.subtrees_list cs = (cs.map GroupEntry.subtrees).flatten := by
  induction cs with
  | nil => simp [GroupEntry.subtrees_list]
  | cons c cs ih => simp [GroupEntry.subtrees_list, ih]

theorem nodes_mk (d : GroupData) (cs : List GroupEntry) :
    (GroupEntry.mk d cs).nodes = d :: (cs.map GroupEntry.nodes).flatten := by
  rw [GroupEntry.nodes, nodes_list_eq]

theorem subtrees_mk (d : GroupData) (cs : List GroupEntry) :
    (GroupEntry.mk d cs).subtrees = .mk d cs :: (cs.map GroupEntry.subtrees).flatten := by
  rw [GroupEntry.subtrees, subtrees_list_eq]

theorem nodes_eq_map_subtrees (t : GroupEntry) : t.nodes = t.subtrees.map GroupEntry.data := by
  induction t using GroupEntry.induct with
  | h d cs ih =>
    rw [nodes_mk, subtrees_mk]
    simp only [List.map_cons, GroupEntry.data, List.map_flatten, List.map_map]
    congr 2
    apply List.map_congr_left
    intro c hc
    exact ih c hc

theorem self_mem_subtrees (t : GroupEntry) : t ∈ t.subtrees := by
  cases t; simp [subtrees_mk]

theorem mem_subtrees_mk {n : GroupEntry} {d : GroupData} {cs : List GroupEntry} :
    n ∈ (GroupEntry.mk d cs).subtrees ↔ n = .mk d cs ∨ ∃ c ∈ cs, n ∈ c.subtrees := by
  simp [subtrees_mk, List.mem_flatten]

theorem fresh_mk {d : GroupData} {cs : List GroupEntry} :
    fresh (.mk d cs) = true ↔ fresh_node d = true ∧ ∀ c ∈ cs, fresh c = true := by
  simp only [fresh, nodes_mk, List.all_cons, Bool.and_eq_true, List.all_eq_true,
    List.mem_flatten, List.mem_map]
  constructor
  · rintro ⟨h1, h2⟩
    exact ⟨h1, fun c hc x hx => h2 x ⟨_, ⟨c, hc, rfl⟩, hx⟩⟩
  · rintro ⟨h1, h2⟩
    refine ⟨h1, ?_⟩
    rintro x ⟨l, ⟨c, hc, rfl⟩, hx⟩
    exact h2 c hc x hx

theorem fresh_node_iff {d : GroupData} :
    fresh_node d = true ↔ 0 ≤ d.config_quota ∧ d.quota = 0 ∧ d.subtree_quota = 0 ∧
      d.allocated = 0 ∧ d.subtree_requested = 0 := by
  simp [fresh_node, and_assoc]

/-! ## Sums computed by loops -/

theorem foldl_add_eq_sum {α : Type} (f : α → ℚ) (l : List α) (init : ℚ) :
    l.foldl (fun acc x => acc + f x) init = init + (l.map f).sum := by
  induction l generalizing init with
  | nil => simp
  | cons x l ih => simp [ih, add_assoc]

theorem foldl_cond_add_eq_sum {α : Type} (p : α → Prop) [DecidablePred p] (f : α → ℚ)
    (l : List α) (init : ℚ) :
    l.foldl (fun acc x => if p x then acc + f x else acc) init
      = init + (l.map (fun x => if p x then f x else 0)).sum := by
  induction l generalizing init with
  | nil => simp
  | cons x l ih =>
    simp only [List.foldl_cons, List.map_cons, List.sum_cons, ih]
    split <;> ring

theorem sum_filter_map {α : Type} (p : α → Bool) (f : α → ℚ) (l : List α) :
    ((l.filter p).map f).sum = (l.map (fun x => if p x then f x else 0)).sum := by
  induction l with
  | nil => simp
  | cons x l ih =>
    by_cases h : p x <;> simp [List.filter_cons, h, ih]

theorem quota_sums_eq (cs : List GroupEntry) :
    quota_sums cs = (static_sum cs, dynamic_sum cs) := by
  have key : ∀ (l : List GroupEntry) (a b : ℚ),
      l.foldl
        (fun acc child =>
          if child.data.static_quota then (acc.1 + child.data.config_quota, acc.2)
          else (acc.1, acc.2 + child.data.config_quota)) (a, b)
      = (a + static_sum l, b + dynamic_sum l) := by
    intro l
    induction l with
    | nil => intro a b; simp [static_sum, dynamic_sum]
    | cons x l ih =>
      intro a b
      simp only [List.foldl_cons]
      by_cases h : x.data.static_quota
      · simp [h, ih, static_sum, dynamic_sum, List.filter_cons, add_assoc]
      · simp [h, ih, static_sum, dynamic_sum, List.filter_cons, add_assoc]
  simpa [quota_sums] using key cs 0 0

/-! ## Node-wise relations and sums over a tree -/

theorem nodes_forall₂_mk {R : GroupData → GroupData → Prop} {d d' : GroupData}
    {cs cs' : List GroupEntry} (h : R d d')
    (hcs : List.Forall₂ (fun c c' => List.Forall₂ R c.nodes c'.nodes) cs cs') :
    List.Forall₂ R (GroupEntry.mk d cs).nodes (GroupEntry.mk d' cs').nodes := by
  rw [nodes_mk, nodes_mk]
  refine List.Forall₂.cons h ?_
  induction hcs with
  | nil => simp
  | cons hc _ ih =>
    simp only [List.map_cons, List.flatten_cons]
    exact List.rel_append hc ih

theorem sum_nodes_mk (f : GroupData → ℚ) (d : GroupData) (cs : List GroupEntry) :
    ((GroupEntry.mk d cs).nodes.map f).sum
      = f d + (cs.map (fun c => (c.nodes.map f).sum)).sum := by
  rw [nodes_mk]
  simp only [List.map_cons, List.sum_cons, List.map_flatten, List.sum_flatten, List.map_map]
  rfl

theorem sum_map_congr {α : Type} {f g : α → ℚ} {l : List α} (h : ∀ x ∈ l, f x = g x) :
    (l.map f).sum = (l.map g).sum := by
  rw [List.map_congr_left h]

theorem sum_map_add {α : Type} (f g : α → ℚ) (l : List α) :
    (l.map (fun x => f x + g x)).sum = (l.map f).sum + (l.map g).sum := by
  induction l with
  | nil => simp
  | cons x l ih => simp [ih]; ring

theorem sum_map_zero {α : Type} {f : α → ℚ} {l : List α} (h : ∀ x ∈ l, f x = 0) :
    (l.map f).sum = 0 := by
  induction l with
  | nil => simp
  | cons x l ih =>
    simp [h x (List.mem_cons_self _ _), ih (fun y hy => h y (List.mem_cons_of_mem _ hy))]

theorem sum_map_nonneg {α : Type} {f : α → ℚ} {l : List α} (h : ∀ x ∈ l, 0 ≤ f x) :
    0 ≤ (l.map f).sum := by
  induction l with
  | nil => simp
  | cons x l ih =>
    have h1 := h x (List.mem_cons_self _ _)
    have h2 := ih (fun y hy => h y (List.mem_cons_of_mem _ hy))
    simp only [List.map_cons, List.sum_cons]
    linarith

theorem sum_map_le {α : Type} {f g : α → ℚ} {l : List α} (h : ∀ x ∈ l, f x ≤ g x) :
    (l.map f).sum ≤ (l.map g).sum := by
  induction l with
  | nil => simp
  | cons x l ih =>
    have h1 := h x (List.mem_cons_self _ _)
    have h2 := ih (fun y hy => h y (List.mem_cons_of_mem _ hy))
    simp only [List.map_cons, List.sum_cons]
    linarith

theorem countP_lt_of_exists {α : Type} {p q : α → Bool} {l : List α}
    (h : ∀ x ∈ l, p x = true → q x = true) (hex : ∃ x ∈ l, q x = true ∧ ¬ p x = true) :
    List.countP p l < List.countP q l := by
  induction l with
  | nil => obtain ⟨x, hx, _⟩ := hex; cases hx
  | cons a l ih =>
    have hmono : List.countP p l ≤ List.countP q l :=
      List.countP_mono_left (fun x hx => h x (List.mem_cons_of_mem _ hx))
    obtain ⟨x, hx, hq, hp⟩ := hex
    rcases List.mem_cons.1 hx with rfl | hx
    · rw [List.countP_cons_of_pos _ _ hq, List.countP_cons_of_neg _ _ hp]
      omega
    · have := ih (fun y hy => h y (List.mem_cons_of_mem _ hy)) ⟨x, hx, hq, hp⟩
      by_cases hpa : p a = true
      · rw [List.countP_cons_of_pos _ _ hpa,
          List.countP_cons_of_pos _ _ (h a (List.mem_cons_self _ _) hpa)]
        omega
      · rw [List.countP_cons_of_neg _ _ hpa]
        by_cases hqa : q a = true
        · rw [List.countP_cons_of_pos _ _ hqa]; omega
        · rw [List.countP_cons_of_neg _ _ hqa]; exact this

/-! ## Lists of children and the slots next to them -/

theorem forall₂_append_singleton_left {α β : Type} {R : α → β → Prop} {xs : List α} {y : α}
    {l : List β} (h : List.Forall₂ R (xs ++ [y]) l) :
    ∃ l1 z, l = l1 ++ [z] ∧ List.Forall₂ R xs l1 ∧ R y z := by
  induction xs generalizing l with
  | nil =>
    simp only [List.nil_append] at h
    obtain ⟨b, u, hb, hu, rfl⟩ := List.forall₂_cons_left_iff.1 h
    rw [List.forall₂_nil_left_iff] at hu
    subst hu
    exact ⟨[], b, rfl, List.Forall₂.nil, hb⟩
  | cons x xs ih =>
    simp only [List.cons_append] at h
    obtain ⟨b, u, hb, hu, rfl⟩ := List.forall₂_cons_left_iff.1 h
    obtain ⟨l1, z, rfl, h1, h2⟩ := ih hu
    exact ⟨b :: l1, z, rfl, List.Forall₂.cons hb h1, h2⟩

theorem forall₂_zipWith {α β γ : Type} {Rel : α → β → Prop} {T : α → γ → Prop}
    {F : β → α → γ} {cs : List α} {l1 : List β} (h : List.Forall₂ Rel cs l1)
    (hT : ∀ c sl, c ∈ cs → Rel c sl → T c (F sl c)) :
    List.Forall₂ T cs (List.zipWith F l1 cs) := by
  induction h with
  | nil => simp
  | cons hr _ ih =>
    simp only [List.zipWith_cons_cons]
    exact List.Forall₂.cons (hT _ _ (List.mem_cons_self _ _) hr)
      (ih (fun c sl hc => hT c sl (List.mem_cons_of_mem _ hc)))

theorem sum_zipWith {α β γ : Type} {Rel : α → β → Prop} (F : β → α → γ) (φ : γ → ℚ)
    (φ0 : α → ℚ) (ψ : β → ℚ) {cs : List α} {l1 : List β} (h : List.Forall₂ Rel cs l1)
    (hφ : ∀ c sl, c ∈ cs → Rel c sl → φ (F sl c) = φ0 c + ψ sl) :
    ((List.zipWith F l1 cs).map φ).sum = (cs.map φ0).sum + (l1.map ψ).sum := by
  induction h with
  | nil => simp
  | cons hr _ ih =>
    simp only [List.zipWith_cons_cons, List.map_cons, List.sum_cons]
    rw [hφ _ _ (List.mem_cons_self _ _) hr,
      ih (fun c sl hc => hφ c sl (List.mem_cons_of_mem _ hc))]
    ring

theorem mem_zipWith {α β γ : Type} {Rel : α → β → Prop} {F : β → α → γ} {cs : List α}
    {l1 : List β} (h : List.Forall₂ Rel cs l1) {x : γ} (hx : x ∈ List.zipWith F l1 cs) :
    ∃ c sl, c ∈ cs ∧ Rel c sl ∧ x = F sl c := by
  induction h with
  | nil => simp at hx
  | cons hr _ ih =>
    simp only [List.zipWith_cons_cons, List.mem_cons] at hx
    rcases hx with rfl | hx
    · exact ⟨_, _, List.mem_cons_self _ _, hr, rfl⟩
    · obtain ⟨c, sl, hc, hrel, rfl⟩ := ih hx
      exact ⟨c, sl, List.mem_cons_of_mem _ hc, hrel, rfl⟩

theorem forall₂_trans {α β γ : Type} {R : α → β → Prop} {S : β → γ → Prop}
    (T : α → γ → Prop) (hT : ∀ a b c, R a b → S b c → T a c) {l1 : List α} {l2 : List β}
    {l3 : List γ} (h1 : List.Forall₂ R l1 l2) (h2 : List.Forall₂ S l2 l3) :
    List.Forall₂ T l1 l3 := by
  induction h1 generalizing l3 with
  | nil =>
    rw [List.forall₂_nil_left_iff] at h2
    subst h2
    exact List.Forall₂.nil
  | cons hr _ ih =>
    obtain ⟨c, u, hc, hu, rfl⟩ := List.forall₂_cons_left_iff.1 h2
    exact List.Forall₂.cons (hT _ _ _ hr hc) (ih hu)

theorem consistent_mk {d : GroupData} {cs : List GroupEntry} :
    Consistent (.mk d cs) ↔ requests_consistent (.mk d cs) ∧ ∀ c ∈ cs, Consistent c := by
  unfold Consistent
  constructor
  · intro h
    refine ⟨h _ (self_mem_subtrees _), fun c hc n hn => h n ?_⟩
    exact mem_subtrees_mk.2 (Or.inr ⟨c, hc, hn⟩)
  · rintro ⟨h1, h2⟩ n hn
    rcases mem_subtrees_mk.1 hn with rfl | ⟨c, hc, hn⟩
    · exact h1
    · exact h2 c hc n hn

theorem quotaNonneg_mk {d : GroupData} {cs : List GroupEntry} :
    QuotaNonneg (.mk d cs) ↔ (0 ≤ d.quota ∧ 0 ≤ d.subtree_quota) ∧ ∀ c ∈ cs, QuotaNonneg c := by
  unfold QuotaNonneg
  simp only [nodes_mk, List.mem_cons, List.mem_flatten, List.mem_map, forall_eq_or_imp]
  constructor
  · rintro ⟨h1, h2⟩
    exact ⟨h1, fun c hc x hx => h2 x ⟨_, ⟨c, hc, rfl⟩, hx⟩⟩
  · rintro ⟨h1, h2⟩
    refine ⟨h1, ?_⟩
    rintro x ⟨l, ⟨c, hc, rfl⟩, hx⟩
    exact h2 c hc x hx

theorem consistent_subtree_requested_nonneg (t : GroupEntry) :
    Consistent t → 0 ≤ t.data.subtree_requested := by
  induction t using GroupEntry.induct with
  | h d cs ih =>
    intro hc
    obtain ⟨⟨h1, h2⟩, h3⟩ := consistent_mk.1 hc
    rw [h2]
    have : 0 ≤ (cs.map (fun c =>
        if c.data.accept_surplus then c.data.subtree_requested else 0)).sum := by
      apply sum_map_nonneg
      intro c hcm
      split_ifs
      · exact ih c hcm (h3 c hcm)
      · exact le_refl _
    simp only [GroupEntry.data_mk, GroupEntry.children_mk] at h1 this ⊢
    linarith

theorem head_nodes (t : GroupEntry) : ∃ l, t.nodes = t.data :: l := by
  cases t with
  | mk d cs => exact ⟨_, nodes_mk d cs⟩

theorem forall₂_nodes_head {R : GroupData → GroupData → Prop} {t t' : GroupEntry}
    (h : List.Forall₂ R t.nodes t'.nodes) : R t.data t'.data := by
  obtain ⟨l, hl⟩ := head_nodes t
  obtain ⟨l', hl'⟩ := head_nodes t'
  rw [hl, hl'] at h
  cases h with
  | cons h _ => exact h

theorem forall₂_mem_right {α β : Type} {R : α → β → Prop} {l : List α} {l' : List β}
    (h : List.Forall₂ R l l') {b : β} (hb : b ∈ l') : ∃ a ∈ l, R a b := by
  induction h with
  | nil => cases hb
  | cons hr _ ih =>
    rcases List.mem_cons.1 hb with rfl | hb
    · exact ⟨_, List.mem_cons_self _ _, hr⟩
    · obtain ⟨a, ha, hab⟩ := ih hb
      exact ⟨a, List.mem_cons_of_mem _ ha, hab⟩

theorem forall₂_mem_left {α β : Type} {R : α → β → Prop} {l : List α} {l' : List β}
    (h : List.Forall₂ R l l') {a : α} (ha : a ∈ l) : ∃ b ∈ l', R a b := by
  induction h with
  | nil => cases ha
  | cons hr _ ih =>
    rcases List.mem_cons.1 ha with rfl | ha
    · exact ⟨_, List.mem_cons_self _ _, hr⟩
    · obtain ⟨b, hb, hab⟩ := ih ha
      exact ⟨b, List.mem_cons_of_mem _ hb, hab⟩

theorem quotaNonneg_of_frame {R : GroupData → GroupData → Prop}
    (hR : ∀ d d', R d d' → SameSettings d d') {t t' : GroupEntry}
    (h : List.Forall₂ R t.nodes t'.nodes) (hq : QuotaNonneg t) : QuotaNonneg t' := by
  intro d' hd'
  obtain ⟨d, hd, hr⟩ := forall₂_mem_right h hd'
  obtain ⟨-, -, -, -, e1, e2, -, -⟩ := hR d d' hr
  rw [e1, e2]
  exact hq d hd

theorem consistent_requested_nonneg {t : GroupEntry} (h : Consistent t) :
    ∀ d ∈ t.nodes, 0 ≤ d.requested := by
  intro d hd
  rw [nodes_eq_map_subtrees] at hd
  obtain ⟨n, hn, rfl⟩ := List.mem_map.1 hd
  exact (h n hn).1

theorem foldl_pair_sum {α : Type} (f : α → ℚ) (p : α → Prop) [DecidablePred p] (g : α → ℚ)
    (l : List α) (a b : ℚ) :
    l.foldl (fun acc r => (acc.1 + f r, if p r then acc.2 + g r else acc.2)) (a, b)
      = (a + (l.map f).sum, b + (l.map (fun r => if p r then g r else 0)).sum) := by
  induction l generalizing a b with
  | nil => simp
  | cons x l ih =>
    simp only [List.foldl_cons, ih, List.map_cons, List.sum_cons]
    split_ifs <;> simp [add_assoc]

/-! ## Integers among the rationals -/

theorem IsInt.intCast (z : ℤ) : IsInt (z : ℚ) := ⟨z, rfl⟩

theorem IsInt.zero : IsInt 0 := ⟨0, by simp⟩

theorem IsInt.one : IsInt 1 := ⟨1, by simp⟩

theorem IsInt.add {a b : ℚ} (ha : IsInt a) (hb : IsInt b) : IsInt (a + b) := by
  obtain ⟨x, rfl⟩ := ha
  obtain ⟨y, rfl⟩ := hb
  exact ⟨x + y, by push_cast; ring⟩

theorem IsInt.sub {a b : ℚ} (ha : IsInt a) (hb : IsInt b) : IsInt (a - b) := by
  obtain ⟨x, rfl⟩ := ha
  obtain ⟨y, rfl⟩ := hb
  exact ⟨x - y, by push_cast; ring⟩

theorem IsInt.min {a b : ℚ} (ha : IsInt a) (hb : IsInt b) : IsInt (min a b) := by
  rcases min_choice a b with h | h <;> rw [h] <;> assumption

theorem IsInt.max {a b : ℚ} (ha : IsInt a) (hb : IsInt b) : IsInt (max a b) := by
  rcases max_choice a b with h | h <;> rw [h] <;> assumption

theorem IsInt.one_le_of_pos {a : ℚ} (ha : IsInt a) (h : 0 < a) : 1 ≤ a := by
  obtain ⟨x, rfl⟩ := ha
  have : (0 : ℤ) < x := by exact_mod_cast h
  exact_mod_cast (Int.add_one_le_of_lt this)

theorem IsInt.floor_eq {a : ℚ} (ha : IsInt a) : ((⌊a⌋ : ℤ) : ℚ) = a := by
  obtain ⟨x, rfl⟩ := ha
  simp

theorem IsInt.sum {α : Type} {f : α → ℚ} {l : List α} (h : ∀ x ∈ l, IsInt (f x)) :
    IsInt (l.map f).sum := by
  induction l with
  | nil => exact IsInt.zero
  | cons x l ih =>
    simp only [List.map_cons, List.sum_cons]
    exact (h x (List.mem_cons_self _ _)).add (ih (fun y hy => h y (List.mem_cons_of_mem _ hy)))

theorem IsInt.lt_one_nonneg {a : ℚ} (ha : IsInt a) (h0 : 0 ≤ a) (h1 : a < 1) : a = 0 := by
  obtain ⟨x, rfl⟩ := ha
  have p : (0 : ℤ) ≤ x := by exact_mod_cast h0
  have q : x < 1 := by exact_mod_cast h1
  have : x = 0 := by omega
  simp [this]

/-! ## Updating one element of a list -/

theorem sum_map_set {α : Type} (f : α → ℚ) : ∀ (l : List α) (j : Nat) (old x : α),
    l[j]? = some old → ((l.set j x).map f).sum = (l.map f).sum - f old + f x := by
  intro l
  induction l with
  | nil => intro j old x h; simp at h
  | cons a l ih =>
    intro j old x h
    cases j with
    | zero =>
      simp only [List.getElem?_cons_zero, Option.some.injEq] at h
      subst h
      simp only [List.set_cons_zero, List.map_cons, List.sum_cons]
      ring
    | succ j =>
      simp only [List.getElem?_cons_succ] at h
      simp only [List.set_cons_succ, List.map_cons, List.sum_cons, ih j old x h]
      ring

theorem countP_set {α : Type} (p : α → Bool) : ∀ (l : List α) (j : Nat) (old x : α),
    l[j]? = some old →
    (l.set j x).countP p + (if p old then 1 else 0) = l.countP p + (if p x then 1 else 0) := by
  intro l
  induction l with
  | nil => intro j old x h; simp at h
  | cons a l ih =>
    intro j old x h
    cases j with
    | zero =>
      simp only [List.getElem?_cons_zero, Option.some.injEq] at h
      subst h
      simp only [List.set_cons_zero, List.countP_cons]
      omega
    | succ j =>
      simp only [List.getElem?_cons_succ] at h
      have := ih j old x h
      simp only [List.set_cons_succ, List.countP_cons]
      omega

theorem forall₂_set_right {α β : Type} {R : α → β → Prop} {l : List α} {l' : List β}
    (h : List.Forall₂ R l l') {j : Nat} {old x : β} (hj : l'[j]? = some old)
    (hx : ∀ a, a ∈ l → R a old → R a x) : List.Forall₂ R l (l'.set j x) := by
  induction h generalizing j with
  | nil => simp at hj
  | cons hr hrest ih =>
    cases j with
    | zero =>
      simp only [List.getElem?_cons_zero, Option.some.injEq] at hj
      subst hj
      exact List.Forall₂.cons (hx _ (List.mem_cons_self _ _) hr) hrest
    | succ j =>
      simp only [List.getElem?_cons_succ] at hj
      exact List.Forall₂.cons hr (ih hj (fun a ha => hx a (List.mem_cons_of_mem _ ha)))

theorem forall₂_getElem? {α β : Type} {R : α → β → Prop} {l : List α} {l' : List β}
    (h : List.Forall₂ R l l') {j : Nat} {b : β} (hj : l'[j]? = some b) :
    ∃ a, l[j]? = some a ∧ R a b := by
  induction h generalizing j with
  | nil => simp at hj
  | cons hr _ ih =>
    cases j with
    | zero =>
      simp only [List.getElem?_cons_zero, Option.some.injEq] at hj
      subst hj
      exact ⟨_, by simp, hr⟩
    | succ j =>
      simp only [List.getElem?_cons_succ] at hj ⊢
      exact ih hj

theorem pos_count_idx_set {js : List Nat} {j : Nat} (hj : j ∉ js) (slots : List Slot)
    (x : Slot) : pos_count_idx js (slots.set j x) = pos_count_idx js slots := by
  unfold pos_count_idx
  apply List.countP_congr
  intro i hi
  have hne : j ≠ i := fun h => hj (h ▸ hi)
  simp only [List.getElem?_set_ne hne]

theorem pos_count_idx_cons (j : Nat) (js : List Nat) (slots : List Slot) :
    pos_count_idx (j :: js) slots
      = pos_count_idx js slots + (if opt_pos slots[j]? then 1 else 0) := by
  unfold pos_count_idx
  rw [List.countP_cons]

theorem map_getElem?_range {α : Type} (l : List α) :
    (List.range l.length).map (fun j => l[j]?) = l.map some := by
  apply List.ext_getElem?
  intro i
  simp only [List.getElem?_map, List.getElem?_range]
  by_cases h : i < l.length
  · simp [List.getElem?_range h, List.getElem?_eq_getElem h]
  · simp [List.getElem?_eq_none (not_lt.1 h), List.getElem?_eq_none
      (show (List.range l.length).length ≤ i by simpa using not_lt.1 h)]

theorem pos_count_idx_range (slots : List Slot) :
    pos_count_idx (List.range slots.length) slots = pos_count slots := by
  unfold pos_count_idx pos_count
  have h1 : List.countP (fun j => opt_pos slots[j]?) (List.range slots.length)
      = List.countP opt_pos ((List.range slots.length).map (fun j => slots[j]?)) := by
    rw [List.countP_map]
    rfl
  rw [h1, map_getElem?_range, List.countP_map]
  rfl

theorem pos_count_idx_perm {js js' : List Nat} (h : js.Perm js') (slots : List Slot) :
    pos_count_idx js slots = pos_count_idx js' slots :=
  h.countP_eq _

/-! ## `hgq_assign_quotas` -/

theorem assign_children_eq_map (oversub : Bool) (sqa Zs dqa Zd : ℚ) (cs : List GroupEntry) :
    hgq_assign_quotas_children oversub sqa Zs dqa Zd cs
      = cs.map (fun c => hgq_assign_quotas oversub (child_quota sqa Zs dqa Zd c.data) c) := by
  induction cs with
  | nil => simp [hgq_assign_quotas_children]
  | cons c cs ih => simp [hgq_assign_quotas_children, ih]

theorem assign_nonpos (oversub : Bool) {quota : ℚ} (h : quota ≤ 0) (t : GroupEntry) :
    hgq_assign_quotas oversub quota t = t := by
  cases t with
  | mk d cs => rw [hgq_assign_quotas]; simp [h]

/-- The sum `chq` of the budgets passed to the children. -/
theorem assign_pos (oversub : Bool) {quota : ℚ} (h : 0 < quota) (d : GroupData)
    (cs : List GroupEntry) :
    hgq_assign_quotas oversub quota (.mk d cs)
      = .mk { d with
              subtree_quota := quota
              quota :=
                (let chq := (cs.map (fun c => child_budget oversub quota cs c.data)).sum
                 let q1 := if oversub then quota else quota - chq
                 let q2 := if d.name = "<none>" then quota - chq else q1
                 if q2 < 0 then 0 else q2) }
          (cs.map (fun c => hgq_assign_quotas oversub (child_budget oversub quota cs c.data) c)) := by
  rw [hgq_assign_quotas]
  simp only [not_le.2 h, if_false, assign_children_eq_map, foldl_add_eq_sum, zero_add]
  rfl

theorem child_quota_nonneg (sqa Zs dqa Zd : ℚ) (c : GroupData) :
    0 ≤ child_quota sqa Zs dqa Zd c := by
  unfold child_quota
  simp only
  split_ifs <;> linarith

theorem child_budget_nonneg (oversub : Bool) (quota : ℚ) (cs : List GroupEntry)
    (c : GroupData) : 0 ≤ child_budget oversub quota cs c :=
  child_quota_nonneg _ _ _ _ _

theorem child_quota_static {sqa Zs dqa Zd : ℚ} {c : GroupData} (hs : c.static_quota = true)
    (hc : 0 ≤ c.config_quota) (h : 0 ≤ sqa / Zs) :
    child_quota sqa Zs dqa Zd c = c.config_quota * (sqa / Zs) := by
  unfold child_quota
  simp only [hs, if_true]
  rw [if_neg]
  exact not_lt.2 (mul_nonneg hc h)

theorem child_quota_dynamic {sqa Zs dqa Zd : ℚ} {c : GroupData} (hs : c.static_quota = false)
    (hc : 0 ≤ c.config_quota) (h : 0 ≤ dqa / Zd) :
    child_quota sqa Zs dqa Zd c = c.config_quota * (dqa / Zd) := by
  unfold child_quota
  simp only [hs, Bool.false_eq_true, if_false]
  rw [if_neg]
  exact not_lt.2 (mul_nonneg hc h)

theorem static_sum_cons (c : GroupEntry) (cs : List GroupEntry) :
    static_sum (c :: cs)
      = (if c.data.static_quota then c.data.config_quota else 0) + static_sum cs := by
  unfold static_sum
  by_cases h : c.data.static_quota <;> simp [List.filter_cons, h]

theorem dynamic_sum_cons (c : GroupEntry) (cs : List GroupEntry) :
    dynamic_sum (c :: cs)
      = (if c.data.static_quota then 0 else c.data.config_quota) + dynamic_sum cs := by
  unfold dynamic_sum
  by_cases h : c.data.static_quota <;> simp [List.filter_cons, h]

theorem static_sum_nonneg {cs : List GroupEntry} (h : ∀ c ∈ cs, 0 ≤ c.data.config_quota) :
    0 ≤ static_sum cs := by
  induction cs with
  | nil => simp [static_sum]
  | cons c cs ih =>
    rw [static_sum_cons]
    have h1 := h c (List.mem_cons_self _ _)
    have h2 := ih (fun x hx => h x (List.mem_cons_of_mem _ hx))
    split_ifs <;> linarith

theorem dynamic_sum_nonneg {cs : List GroupEntry} (h : ∀ c ∈ cs, 0 ≤ c.data.config_quota) :
    0 ≤ dynamic_sum cs := by
  induction cs with
  | nil => simp [dynamic_sum]
  | cons c cs ih =>
    rw [dynamic_sum_cons]
    have h1 := h c (List.mem_cons_self _ _)
    have h2 := ih (fun x hx => h x (List.mem_cons_of_mem _ hx))
    split_ifs <;> linarith

/-- The budgets of the static members of a list of children, and of the dynamic ones, for
fixed values of the normalised budgets. -/
theorem sum_child_quota_split {sqa Zs dqa Zd : ℚ} (hsq : 0 ≤ sqa / Zs) (hdq : 0 ≤ dqa / Zd)
    (l : List GroupEntry) (hl : ∀ c ∈ l, 0 ≤ c.data.config_quota) :
    ((l.filter (fun c => c.data.static_quota)).map
        (fun c => child_quota sqa Zs dqa Zd c.data)).sum = static_sum l * (sqa / Zs) ∧
    ((l.filter (fun c => !c.data.static_quota)).map
        (fun c => child_quota sqa Zs dqa Zd c.data)).sum = dynamic_sum l * (dqa / Zd) ∧
    (l.map (fun c => child_quota sqa Zs dqa Zd c.data)).sum
      = static_sum l * (sqa / Zs) + dynamic_sum l * (dqa / Zd) := by
  induction l with
  | nil => simp [static_sum, dynamic_sum]
  | cons c l ih =>
    have hc := hl c (List.mem_cons_self _ _)
    obtain ⟨i1, i2, i3⟩ := ih (fun x hx => hl x (List.mem_cons_of_mem _ hx))
    rw [static_sum_cons, dynamic_sum_cons]
    by_cases h : c.data.static_quota = true
    · have e := @child_quota_static _ _ dqa Zd _ h hc hsq
      simp only [List.filter_cons, h, if_true, List.map_cons, List.sum_cons, i1, i2, i3, e,
        Bool.not_true, Bool.false_eq_true, if_false]
      refine ⟨by ring, by ring, by ring⟩
    · have h' : c.data.static_quota = false := by simpa using h
      have e := @child_quota_dynamic sqa Zs _ _ _ h' hc hdq
      simp only [List.filter_cons, h', Bool.false_eq_true, if_false, List.map_cons,
        List.sum_cons, i1, i2, i3, e, Bool.not_false, if_true]
      refine ⟨by ring, by ring, by ring⟩

theorem static_budget_nonneg {oversub : Bool} {S Q : ℚ} (hS : 0 ≤ S) (hQ : 0 ≤ Q) :
    0 ≤ static_budget oversub S Q := by
  unfold static_budget
  split_ifs
  · exact hS
  · exact le_min hS hQ

/-- The budgets passed to the children: each is the configured quota scaled by the static or
the dynamic factor, and the sums over the static, the dynamic and all children. -/
theorem child_budget_sums (oversub : Bool) {Q : ℚ} (hQ : 0 ≤ Q) (cs : List GroupEntry)
    (hcs : ∀ c ∈ cs, 0 ≤ c.data.config_quota) :
    let S := static_sum cs
    let D := dynamic_sum cs
    let sqa := static_budget oversub S Q
    let dqa := max 0 (Q - sqa)
    let Zs := if S > 0 then S else 1
    (∀ c ∈ cs, c.data.static_quota = true →
      child_budget oversub Q cs c.data = c.data.config_quota * (sqa / Zs)) ∧
    (∀ c ∈ cs, c.data.static_quota = false →
      child_budget oversub Q cs c.data = c.data.config_quota * (dqa / max D 1)) ∧
    ((cs.filter (fun c => c.data.static_quota)).map
        (fun c => child_budget oversub Q cs c.data)).sum = S * (sqa / Zs) ∧
    ((cs.filter (fun c => !c.data.static_quota)).map
        (fun c => child_budget oversub Q cs c.data)).sum = D * (dqa / max D 1) ∧
    (cs.map (fun c => child_budget oversub Q cs c.data)).sum
      = S * (sqa / Zs) + D * (dqa / max D 1) := by
  intro S D sqa dqa Zs
  have hS : 0 ≤ S := static_sum_nonneg hcs
  have hsqa : 0 ≤ sqa := static_budget_nonneg hS hQ
  have hZs : 0 < Zs := by
    show 0 < (if S > 0 then S else 1)
    split_ifs with h
    · exact h
    · norm_num
  have hZd : (0 : ℚ) < max D 1 := lt_of_lt_of_le one_pos (le_max_right _ _)
  have hdqa : 0 ≤ dqa := le_max_left _ _
  have h1 : 0 ≤ sqa / Zs := div_nonneg hsqa hZs.le
  have h2 : 0 ≤ dqa / max D 1 := div_nonneg hdqa hZd.le
  have hb : ∀ c : GroupData, child_budget oversub Q cs c = child_quota sqa Zs dqa (max D 1) c := by
    intro c
    simp only [child_budget, quota_sums_eq]
  simp only [hb]
  obtain ⟨s1, s2, s3⟩ := sum_child_quota_split h1 h2 cs hcs
  exact ⟨fun c hc hs => child_quota_static hs (hcs c hc) h1,
    fun c hc hs => child_quota_dynamic hs (hcs c hc) h2, s1, s2, s3⟩

/-- With oversubscription off the budgets of the children together do not exceed the budget
of the node. -/
theorem child_budget_sum_le {Q : ℚ} (hQ : 0 ≤ Q) (cs : List GroupEntry)
    (hcs : ∀ c ∈ cs, 0 ≤ c.data.config_quota) :
    (cs.map (fun c => child_budget false Q cs c.data)).sum ≤ Q := by
  obtain ⟨-, -, -, -, h⟩ := child_budget_sums false hQ cs hcs
  rw [h]
  have hS : 0 ≤ static_sum cs := static_sum_nonneg hcs
  have hD : 0 ≤ dynamic_sum cs := dynamic_sum_nonneg hcs
  have hZd : (0 : ℚ) < max (dynamic_sum cs) 1 := lt_of_lt_of_le one_pos (le_max_right _ _)
  have hsqa : static_budget false (static_sum cs) Q = min (static_sum cs) Q := by
    simp [static_budget]
  rw [hsqa]
  have hmin : min (static_sum cs) Q ≤ Q := min_le_right _ _
  have hmin0 : 0 ≤ min (static_sum cs) Q := le_min hS hQ
  have hdqa : max 0 (Q - min (static_sum cs) Q) = Q - min (static_sum cs) Q :=
    max_eq_right (by linarith)
  rw [hdqa]
  have p1 : static_sum cs * (min (static_sum cs) Q / (if static_sum cs > 0 then static_sum cs else 1))
      ≤ min (static_sum cs) Q := by
    split_ifs with h
    · rw [mul_div_cancel₀ _ (ne_of_gt h)]
    · have : static_sum cs = 0 := le_antisymm (not_lt.1 h) hS
      rw [this] at hmin0 ⊢
      simpa using hmin0
  have p2 : dynamic_sum cs * ((Q - min (static_sum cs) Q) / max (dynamic_sum cs) 1)
      ≤ Q - min (static_sum cs) Q := by
    rw [mul_div_assoc', div_le_iff₀ hZd]
    rw [mul_comm]
    exact mul_le_mul_of_nonneg_left (le_max_left _ _) (by linarith)
  linarith

/-- What `hgq_assign_quotas` leaves alone: every field but `quota` and `subtree_quota`. -/
theorem assign_frame (oversub : Bool) (t : GroupEntry) : ∀ (Q : ℚ),
    List.Forall₂
      (fun d d' => d' = { d with quota := d'.quota, subtree_quota := d'.subtree_quota })
      t.nodes (hgq_assign_quotas oversub Q t).nodes := by
  induction t using GroupEntry.induct with
  | h d cs ih =>
    intro Q
    by_cases hQ : Q ≤ 0
    · rw [assign_nonpos oversub hQ]
      exact List.forall₂_same.2 (fun x _ => rfl)
    · rw [assign_pos oversub (not_le.1 hQ)]
      refine nodes_forall₂_mk rfl ?_
      rw [List.forall₂_map_right_iff]
      exact List.forall₂_same.2 (fun c hc => ih c hc _)

/-- On a fresh tree every assigned `quota` and `subtree_quota` is nonnegative. -/
theorem assign_quota_nonneg (oversub : Bool) (t : GroupEntry) : ∀ (Q : ℚ),
    fresh t = true →
    ∀ d ∈ (hgq_assign_quotas oversub Q t).nodes, 0 ≤ d.quota ∧ 0 ≤ d.subtree_quota := by
  induction t using GroupEntry.induct with
  | h d cs ih =>
    intro Q hf
    by_cases hQ : Q ≤ 0
    · rw [assign_nonpos oversub hQ]
      intro x hx
      have := (List.all_eq_true.1 hf) x hx
      obtain ⟨-, h1, h2, -⟩ := fresh_node_iff.1 this
      rw [h1, h2]; exact ⟨le_refl _, le_refl _⟩
    · rw [assign_pos oversub (not_le.1 hQ), nodes_mk]
      intro x hx
      rcases List.mem_cons.1 hx with rfl | hx
      · refine ⟨?_, (not_le.1 hQ).le⟩
        simp only
        split_ifs <;> linarith
      · simp only [List.mem_flatten, List.mem_map, exists_exists_and_eq_and] at hx
        obtain ⟨c, hc, hx⟩ := hx
        exact ih c hc _ ((fresh_mk.1 hf).2 c hc) x hx

theorem fresh_config_nonneg {d : GroupData} {cs : List GroupEntry}
    (hf : fresh (.mk d cs) = true) : ∀ c ∈ cs, 0 ≤ c.data.config_quota := by
  intro c hc
  have := (fresh_mk.1 hf).2 c hc
  cases c with
  | mk dc ccs => exact (fresh_node_iff.1 (fresh_mk.1 this).1).1

/-- With oversubscription off the quotas of a fresh tree add up to the budget it was given. -/
theorem assign_total_quota (t : GroupEntry) : ∀ (Q : ℚ), 0 ≤ Q → fresh t = true →
    total_quota (hgq_assign_quotas false Q t) = Q := by
  induction t using GroupEntry.induct with
  | h d cs ih =>
    intro Q hQ0 hf
    by_cases hQ : Q ≤ 0
    · rw [assign_nonpos false hQ]
      have hz : total_quota (.mk d cs) = 0 := by
        unfold total_quota
        apply sum_map_zero
        intro x hx
        exact (fresh_node_iff.1 ((List.all_eq_true.1 hf) x hx)).2.1
      rw [hz]; linarith
    · rw [assign_pos false (not_le.1 hQ)]
      unfold total_quota
      rw [sum_nodes_mk, List.map_map]
      have hle := child_budget_sum_le hQ0 cs (fresh_config_nonneg hf)
      have hch : (cs.map ((fun c => (c.nodes.map GroupData.quota).sum) ∘
          (fun c => hgq_assign_quotas false (child_budget false Q cs c.data) c))).sum
          = (cs.map (fun c => child_budget false Q cs c.data)).sum := by
        apply sum_map_congr
        intro c hc
        exact ih c hc _ (child_budget_nonneg _ _ _ _) ((fresh_mk.1 hf).2 c hc)
      rw [hch]
      simp only [Bool.false_eq_true, if_false, ite_self]
      rw [if_neg (by linarith)]
      ring

/-! ## One iteration of `hgq_allocate_surplus_loop` -/

theorem surplus_loop_Z_eq (by_quota : Bool) (slots : List Slot) :
    surplus_loop_Z by_quota slots
      = (slots.map (fun s => if s.subtree_requested > 0 then slot_weight by_quota s else 0)).sum := by
  unfold surplus_loop_Z
  rw [foldl_cond_add_eq_sum (fun s : Slot => s.subtree_requested > 0)
    (slot_weight by_quota) slots 0]
  simp

theorem surplus_loop_sumalloc_eq (by_quota : Bool) (surplus Z : ℚ) (slots : List Slot) :
    surplus_loop_sumalloc by_quota surplus Z slots
      = (slots.map (fun s =>
          if s.subtree_requested > 0 then (slot_amount by_quota surplus Z s).1 else 0)).sum := by
  unfold surplus_loop_sumalloc
  rw [foldl_cond_add_eq_sum (fun s : Slot => s.subtree_requested > 0)
    (fun s => (slot_amount by_quota surplus Z s).1) slots 0]
  simp

theorem surplus_loop_never_gt_eq (by_quota : Bool) (surplus Z : ℚ) (slots : List Slot) :
    surplus_loop_never_gt by_quota surplus Z slots = true ↔
      ∀ s ∈ slots, s.subtree_requested > 0 → (slot_amount by_quota surplus Z s).2 = false := by
  unfold surplus_loop_never_gt
  have key : ∀ (l : List Slot) (b : Bool),
      l.foldl
        (fun acc s =>
          if s.subtree_requested > 0 then
            (if (slot_amount by_quota surplus Z s).2 then false else acc)
          else acc) b = true ↔
      (b = true ∧ ∀ s ∈ l, s.subtree_requested > 0 →
        (slot_amount by_quota surplus Z s).2 = false) := by
    intro l
    induction l with
    | nil => intro b; simp
    | cons x l ih =>
      intro b
      simp only [List.foldl_cons, ih, List.mem_cons, forall_eq_or_imp]
      by_cases h1 : x.subtree_requested > 0
      · by_cases h2 : (slot_amount by_quota surplus Z x).2 = true
        · simp [h1, h2]
        · simp [h1, h2]
      · simp [h1]
  simpa using key slots true

theorem slot_amount_le_request (by_quota : Bool) (surplus Z : ℚ) (s : Slot) :
    (slot_amount by_quota surplus Z s).1 ≤ s.subtree_requested := by
  unfold slot_amount
  simp only
  split_ifs with h
  · exact le_refl _
  · exact not_lt.1 h

theorem slot_amount_le_share (by_quota : Bool) (surplus Z : ℚ) (s : Slot) :
    (slot_amount by_quota surplus Z s).1 ≤ surplus * (slot_weight by_quota s / Z) := by
  unfold slot_amount
  simp only
  split_ifs with h
  · exact le_of_lt h
  · exact le_refl _

theorem slot_amount_eq_share {by_quota : Bool} {surplus Z : ℚ} {s : Slot}
    (h : (slot_amount by_quota surplus Z s).2 = false) :
    (slot_amount by_quota surplus Z s).1 = surplus * (slot_weight by_quota s / Z) := by
  unfold slot_amount at h ⊢
  simp only at h ⊢
  split_ifs with h1
  · simp [h1] at h
  · rfl

theorem slot_amount_eq_request {by_quota : Bool} {surplus Z : ℚ} {s : Slot}
    (h : (slot_amount by_quota surplus Z s).2 = true) :
    (slot_amount by_quota surplus Z s).1 = s.subtree_requested := by
  unfold slot_amount at h ⊢
  simp only at h ⊢
  split_ifs with h1
  · rfl
  · simp [h1] at h

theorem slot_amount_nonneg {by_quota : Bool} {surplus Z : ℚ} {s : Slot}
    (hs : 0 ≤ surplus) (hZ : 0 < Z) (hw : 0 ≤ slot_weight by_quota s)
    (hr : 0 < s.subtree_requested) : 0 ≤ (slot_amount by_quota surplus Z s).1 := by
  unfold slot_amount
  simp only
  split_ifs with h
  · exact hr.le
  · exact mul_nonneg hs (div_nonneg hw hZ.le)

/-- The sum of the uncapped shares of the outstanding groups is the surplus. -/
theorem sum_shares (by_quota : Bool) (surplus : ℚ) (slots : List Slot)
    (hZ : surplus_loop_Z by_quota slots ≠ 0) :
    (slots.map (fun s =>
        if s.subtree_requested > 0 then
          surplus * (slot_weight by_quota s / surplus_loop_Z by_quota slots)
        else 0)).sum = surplus := by
  have h : ∀ (Z : ℚ) (l : List Slot),
      (l.map (fun s =>
        if s.subtree_requested > 0 then surplus * (slot_weight by_quota s / Z) else 0)).sum
      = surplus * ((l.map (fun s =>
          if s.subtree_requested > 0 then slot_weight by_quota s else 0)).sum / Z) := by
    intro Z l
    induction l with
    | nil => simp
    | cons x l ih =>
      simp only [List.map_cons, List.sum_cons, ih]
      split_ifs <;> ring
  rw [h, ← surplus_loop_Z_eq, div_self hZ, mul_one]

theorem sumalloc_le_surplus (by_quota : Bool) (surplus : ℚ) (slots : List Slot)
    (hZ : surplus_loop_Z by_quota slots ≠ 0) :
    surplus_loop_sumalloc by_quota surplus (surplus_loop_Z by_quota slots) slots ≤ surplus := by
  rw [surplus_loop_sumalloc_eq]
  calc _ ≤ (slots.map (fun s =>
        if s.subtree_requested > 0 then
          surplus * (slot_weight by_quota s / surplus_loop_Z by_quota slots)
        else 0)).sum := by
          apply sum_map_le
          intro s _
          split_ifs
          · exact slot_amount_le_share _ _ _ _
          · exact le_refl _
    _ = surplus := sum_shares by_quota surplus slots hZ

theorem sumalloc_eq_surplus_of_never_gt (by_quota : Bool) (surplus : ℚ) (slots : List Slot)
    (hZ : surplus_loop_Z by_quota slots ≠ 0)
    (hn : surplus_loop_never_gt by_quota surplus (surplus_loop_Z by_quota slots) slots = true) :
    surplus_loop_sumalloc by_quota surplus (surplus_loop_Z by_quota slots) slots = surplus := by
  rw [surplus_loop_sumalloc_eq]
  rw [surplus_loop_never_gt_eq] at hn
  calc _ = (slots.map (fun s =>
        if s.subtree_requested > 0 then
          surplus * (slot_weight by_quota s / surplus_loop_Z by_quota slots)
        else 0)).sum := by
          apply sum_map_congr
          intro s hs
          split_ifs with h
          · exact slot_amount_eq_share (hn s hs h)
          · rfl
    _ = surplus := sum_shares by_quota surplus slots hZ

/-- The sum of `allocated` over the slots. -/
theorem sum_allocated_after (by_quota : Bool) (surplus Z : ℚ) (slots : List Slot) :
    ((slots.map (slot_allocate by_quota surplus Z)).map Slot.allocated).sum
      = (slots.map Slot.allocated).sum + surplus_loop_sumalloc by_quota surplus Z slots := by
  rw [surplus_loop_sumalloc_eq, ← sum_map_add, List.map_map]
  apply sum_map_congr
  intro s _
  simp only [Function.comp, slot_allocate]
  split_ifs <;> simp

theorem sum_requested_after (by_quota : Bool) (surplus Z : ℚ) (slots : List Slot) :
    ((slots.map (slot_allocate by_quota surplus Z)).map Slot.subtree_requested).sum
      = (slots.map Slot.subtree_requested).sum
          - surplus_loop_sumalloc by_quota surplus Z slots := by
  rw [surplus_loop_sumalloc_eq, eq_sub_iff_add_eq, List.map_map, ← sum_map_add]
  apply sum_map_congr
  intro s _
  simp only [Function.comp, slot_allocate]
  split_ifs <;> simp

/-! ## The loop of `hgq_allocate_surplus_loop` -/

theorem SlotStep.step_refl (s : Slot) (h : 0 ≤ s.subtree_requested) : SlotStep s s :=
  ⟨rfl, rfl, le_refl _, h⟩

theorem SlotStep.step_trans {a b c : Slot} (h1 : SlotStep a b) (h2 : SlotStep b c) : SlotStep a c :=
  ⟨h2.1.trans h1.1, h2.2.1.trans h1.2.1, h1.2.2.1.trans h2.2.2.1, h2.2.2.2⟩

theorem slot_allocate_step {by_quota : Bool} {surplus Z : ℚ} (hs : 0 ≤ surplus) (hZ : 0 < Z)
    {s : Slot} (hr : 0 ≤ s.subtree_requested) (hq : 0 ≤ s.grp.subtree_quota) :
    SlotStep s (slot_allocate by_quota surplus Z s) := by
  unfold slot_allocate
  split_ifs with h
  · have hw : 0 ≤ slot_weight by_quota s := by
      unfold slot_weight
      split_ifs
      · exact hq
      · norm_num
    have h1 := slot_amount_nonneg hs hZ hw h
    have h2 := slot_amount_le_request by_quota surplus Z s
    refine ⟨rfl, ?_, ?_, ?_⟩
    · simp only; ring
    · simp only; linarith
    · simp only; linarith
  · exact SlotStep.step_refl s hr

theorem loop_fuel_zero (by_quota : Bool) (st : SurplusLoop) :
    hgq_allocate_surplus_loop_fuel by_quota 0 st = st := rfl

theorem loop_fuel_of_done {by_quota : Bool} {st : SurplusLoop}
    (h : surplus_loop_done by_quota st) (fuel : Nat) :
    hgq_allocate_surplus_loop_fuel by_quota fuel st = st := by
  cases fuel with
  | zero => rfl
  | succ n =>
    rw [hgq_allocate_surplus_loop_fuel]
    rcases h with h | h
    · rw [if_neg (not_lt.2 h)]
    · by_cases hs : st.surplus > 0
      · rw [if_pos hs]
        simp only [h, if_true]
      · rw [if_neg hs]

theorem loop_fuel_succ_of_not_done {by_quota : Bool} {st : SurplusLoop}
    (h : ¬ surplus_loop_done by_quota st) (fuel : Nat) :
    hgq_allocate_surplus_loop_fuel by_quota (fuel + 1) st
      = hgq_allocate_surplus_loop_fuel by_quota fuel (surplus_loop_next by_quota st) := by
  unfold surplus_loop_done at h
  push_neg at h
  rw [hgq_allocate_surplus_loop_fuel]
  simp only [gt_iff_lt, h.1, if_true, not_le.2 h.2, if_false]
  rfl

theorem surplus_loop_next_spec {by_quota : Bool} {st : SurplusLoop}
    (h : ¬ surplus_loop_done by_quota st) :
    let st' := surplus_loop_next by_quota st
    0 ≤ st'.surplus ∧
    st'.surplus + (st'.slots.map Slot.allocated).sum
      = st.surplus + (st.slots.map Slot.allocated).sum ∧
    st'.requested + (st'.slots.map Slot.allocated).sum
      = st.requested + (st.slots.map Slot.allocated).sum ∧
    (st'.slots.map Slot.subtree_requested).sum + (st'.slots.map Slot.allocated).sum
      = (st.slots.map Slot.subtree_requested).sum + (st.slots.map Slot.allocated).sum ∧
    (surplus_loop_done by_quota st' ∨ pos_count st'.slots < pos_count st.slots) := by
  unfold surplus_loop_done at h
  push_neg at h
  obtain ⟨hs, hZ⟩ := h
  have hZ0 : surplus_loop_Z by_quota st.slots ≠ 0 := ne_of_gt hZ
  have hle := sumalloc_le_surplus by_quota st.surplus st.slots hZ0
  intro st'
  have ha : (st'.slots.map Slot.allocated).sum = (st.slots.map Slot.allocated).sum
      + surplus_loop_sumalloc by_quota st.surplus (surplus_loop_Z by_quota st.slots) st.slots :=
    sum_allocated_after _ _ _ _
  have hr : (st'.slots.map Slot.subtree_requested).sum
      = (st.slots.map Slot.subtree_requested).sum
      - surplus_loop_sumalloc by_quota st.surplus (surplus_loop_Z by_quota st.slots) st.slots :=
    sum_requested_after _ _ _ _
  have hreq : st'.requested = st.requested
      - surplus_loop_sumalloc by_quota st.surplus (surplus_loop_Z by_quota st.slots) st.slots :=
    rfl
  by_cases hn : surplus_loop_never_gt by_quota st.surplus
      (surplus_loop_Z by_quota st.slots) st.slots = true
  · have he := sumalloc_eq_surplus_of_never_gt by_quota st.surplus st.slots hZ0 hn
    have hsur : st'.surplus = 0 := by
      show (if _ then _ else _) = _
      simp [hn]
    refine ⟨by rw [hsur], ?_, ?_, ?_, Or.inl (Or.inl (by rw [hsur]))⟩
    · rw [hsur, ha, he]; ring
    · rw [hreq, ha]; ring
    · rw [hr, ha]; ring
  · have hsur : st'.surplus = st.surplus
        - surplus_loop_sumalloc by_quota st.surplus (surplus_loop_Z by_quota st.slots) st.slots := by
      show (if _ then _ else _) = _
      have : ¬ (st.surplus - surplus_loop_sumalloc by_quota st.surplus
          (surplus_loop_Z by_quota st.slots) st.slots < 0) := by linarith
      simp [hn, this]
    refine ⟨by rw [hsur]; linarith, ?_, ?_, ?_, Or.inr ?_⟩
    · rw [hsur, ha]; ring
    · rw [hreq, ha]; ring
    · rw [hr, ha]; ring
    · -- some group was clipped, so one more request is down to zero
      rw [surplus_loop_never_gt_eq] at hn
      push_neg at hn
      obtain ⟨x, hx, hxr, hxg⟩ := hn
      have hxg' : (slot_amount by_quota st.surplus (surplus_loop_Z by_quota st.slots) x).2 = true := by
        simpa using hxg
      show List.countP _ (st.slots.map _) < List.countP _ st.slots
      rw [List.countP_map]
      apply countP_lt_of_exists
      · intro s _ hpos
        simp only [Function.comp, slot_allocate, decide_eq_true_eq] at hpos ⊢
        by_contra hc
        rw [if_neg hc] at hpos
        exact hc hpos
      · refine ⟨x, hx, ?_, ?_⟩
        · simpa using hxr
        · simp only [Function.comp, slot_allocate, decide_eq_true_eq, if_pos hxr,
            slot_amount_eq_request hxg']
          simp

/-- The loop, whatever the fuel: every slot makes a `SlotStep`, the surplus stays nonnegative,
what leaves `surplus` and `requested` arrives in `allocated`, and with enough fuel the loop
has really ended. -/
theorem surplus_loop_fuel_spec (by_quota : Bool) : ∀ (fuel : Nat) (st : SurplusLoop),
    0 ≤ st.surplus →
    (∃ g : Slot → Slot,
      (hgq_allocate_surplus_loop_fuel by_quota fuel st).slots = st.slots.map g ∧
      ∀ s, 0 ≤ s.subtree_requested → 0 ≤ s.grp.subtree_quota → SlotStep s (g s)) ∧
    0 ≤ (hgq_allocate_surplus_loop_fuel by_quota fuel st).surplus ∧
    (hgq_allocate_surplus_loop_fuel by_quota fuel st).surplus
        + ((hgq_allocate_surplus_loop_fuel by_quota fuel st).slots.map Slot.allocated).sum
      = st.surplus + (st.slots.map Slot.allocated).sum ∧
    (hgq_allocate_surplus_loop_fuel by_quota fuel st).requested
        + ((hgq_allocate_surplus_loop_fuel by_quota fuel st).slots.map Slot.allocated).sum
      = st.requested + (st.slots.map Slot.allocated).sum ∧
    ((hgq_allocate_surplus_loop_fuel by_quota fuel st).slots.map Slot.subtree_requested).sum
        + ((hgq_allocate_surplus_loop_fuel by_quota fuel st).slots.map Slot.allocated).sum
      = (st.slots.map Slot.subtree_requested).sum + (st.slots.map Slot.allocated).sum ∧
    (surplus_loop_done by_quota st ∨ pos_count st.slots < fuel →
      surplus_loop_done by_quota (hgq_allocate_surplus_loop_fuel by_quota fuel st)) := by
  intro fuel
  induction fuel with
  | zero =>
    intro st hs
    refine ⟨⟨id, by simp [loop_fuel_zero], fun s h _ => SlotStep.step_refl s h⟩, hs, rfl, rfl, rfl, ?_⟩
    rintro (h | h)
    · exact h
    · exact absurd h (Nat.not_lt_zero _)
  | succ n ih =>
    intro st hs
    by_cases hd : surplus_loop_done by_quota st
    · rw [loop_fuel_of_done hd]
      exact ⟨⟨id, by simp, fun s h _ => SlotStep.step_refl s h⟩, hs, rfl, rfl, rfl, fun _ => hd⟩
    · rw [loop_fuel_succ_of_not_done hd]
      obtain ⟨n0, n1, n2, n3, n4⟩ := surplus_loop_next_spec hd
      obtain ⟨⟨g, hg, hstep⟩, i1, i2, i3, i4, i5⟩ := ih (surplus_loop_next by_quota st) n0
      have hZ : 0 < surplus_loop_Z by_quota st.slots := by
        unfold surplus_loop_done at hd
        push_neg at hd
        exact hd.2
      refine ⟨⟨g ∘ slot_allocate by_quota st.surplus (surplus_loop_Z by_quota st.slots), ?_, ?_⟩,
        i1, i2.trans n1, i3.trans n2, i4.trans n3, ?_⟩
      · rw [hg]
        show (List.map _ st.slots).map g = _
        rw [List.map_map]
      · intro s h1 h2
        have st1 := @slot_allocate_step by_quota _ _ hs hZ _ h1 h2
        exact st1.step_trans (hstep _ st1.2.2.2 (by rw [st1.1]; exact h2))
      · intro h
        apply i5
        rcases h with h | h
        · exact absurd h hd
        · rcases n4 with n4 | n4
          · exact Or.inl n4
          · exact Or.inr (by omega)

/-- More fuel than the number of outstanding groups does not change the result of the loop:
the loop ends before the fuel runs out. -/
theorem surplus_loop_fuel_stable (by_quota : Bool) : ∀ (fuel : Nat) (st : SurplusLoop) (k : Nat),
    pos_count st.slots < fuel →
    hgq_allocate_surplus_loop_fuel by_quota (fuel + k) st
      = hgq_allocate_surplus_loop_fuel by_quota fuel st := by
  intro fuel
  induction fuel with
  | zero => intro st k h; exact absurd h (Nat.not_lt_zero _)
  | succ n ih =>
    intro st k h
    by_cases hd : surplus_loop_done by_quota st
    · rw [loop_fuel_of_done hd, loop_fuel_of_done hd]
    · have e : n + 1 + k = (n + k) + 1 := by omega
      rw [e, loop_fuel_succ_of_not_done hd, loop_fuel_succ_of_not_done hd]
      obtain ⟨-, -, -, -, n4⟩ := surplus_loop_next_spec hd
      rcases n4 with n4 | n4
      · rw [loop_fuel_of_done n4, loop_fuel_of_done n4]
      · exact ih _ k (by omega)

theorem pos_count_le_length (slots : List Slot) : pos_count slots ≤ slots.length :=
  List.countP_le_length _

/-- The function `hgq_allocate_surplus_loop` on a state with nonnegative surplus. -/
theorem surplus_loop_spec (by_quota : Bool) (st : SurplusLoop) (hs : 0 ≤ st.surplus) :
    (∃ g : Slot → Slot,
      (hgq_allocate_surplus_loop by_quota st).slots = st.slots.map g ∧
      ∀ s, 0 ≤ s.subtree_requested → 0 ≤ s.grp.subtree_quota → SlotStep s (g s)) ∧
    0 ≤ (hgq_allocate_surplus_loop by_quota st).surplus ∧
    (hgq_allocate_surplus_loop by_quota st).surplus
        + ((hgq_allocate_surplus_loop by_quota st).slots.map Slot.allocated).sum
      = st.surplus + (st.slots.map Slot.allocated).sum ∧
    (hgq_allocate_surplus_loop by_quota st).requested
        + ((hgq_allocate_surplus_loop by_quota st).slots.map Slot.allocated).sum
      = st.requested + (st.slots.map Slot.allocated).sum ∧
    ((hgq_allocate_surplus_loop by_quota st).slots.map Slot.subtree_requested).sum
        + ((hgq_allocate_surplus_loop by_quota st).slots.map Slot.allocated).sum
      = (st.slots.map Slot.subtree_requested).sum + (st.slots.map Slot.allocated).sum ∧
    surplus_loop_done by_quota (hgq_allocate_surplus_loop by_quota st) := by
  obtain ⟨h1, h2, h3, h4, h5, h6⟩ :=
    surplus_loop_fuel_spec by_quota (st.slots.length + 1) st hs
  exact ⟨h1, h2, h3, h4, h5,
    h6 (Or.inr (Nat.lt_succ_of_le (pos_count_le_length _)))⟩

/-! ## One level of `hgq_allocate_surplus` -/

theorem outstanding_request_nonneg (g : GroupData) : 0 ≤ outstanding_request g := by
  unfold outstanding_request
  split_ifs with h
  · simp only [Bool.and_eq_true, decide_eq_true_eq] at h
    exact h.2.le
  · exact le_refl _

theorem outstanding_request_le (g : GroupData) (h : 0 ≤ g.subtree_requested) :
    outstanding_request g ≤ g.subtree_requested := by
  unfold outstanding_request
  split_ifs
  · exact le_refl _
  · exact h

theorem outstanding_request_of_not_accept {g : GroupData} (h : g.accept_surplus = false) :
    outstanding_request g = 0 := by
  simp [outstanding_request, h]

theorem outstanding_request_of_accept {g : GroupData} (h : g.accept_surplus = true)
    (h0 : 0 ≤ g.subtree_requested) : outstanding_request g = g.subtree_requested := by
  unfold outstanding_request
  simp only [h, Bool.true_and, decide_eq_true_eq]
  split_ifs with h1
  · rfl
  · linarith

theorem uniform_Z_nonpos {l : List Slot} (h0 : ∀ s ∈ l, 0 ≤ s.subtree_requested)
    (hZ : surplus_loop_Z false l ≤ 0) : (l.map Slot.subtree_requested).sum = 0 := by
  rw [surplus_loop_Z_eq] at hZ
  induction l with
  | nil => simp
  | cons x l ih =>
    simp only [List.map_cons, List.sum_cons] at hZ ⊢
    have hx := h0 x (List.mem_cons_self _ _)
    have hl : 0 ≤ (l.map (fun s => if s.subtree_requested > 0
        then slot_weight false s else 0)).sum := by
      apply sum_map_nonneg
      intro s _
      split_ifs
      · simp [slot_weight]
      · exact le_refl _
    have hw : slot_weight false x = 1 := by simp [slot_weight]
    by_cases hp : x.subtree_requested > 0
    · rw [if_pos hp, hw] at hZ
      linarith
    · rw [if_neg hp] at hZ
      have := ih (fun s hs => h0 s (List.mem_cons_of_mem _ hs)) (by linarith)
      rw [this]
      linarith

/-- One level of surplus allocation: a group gets at most its outstanding request, and
together the groups get the surplus or all they request, whichever is smaller. -/
theorem allocate_surplus_level_spec (groups : List GroupData) (s R : ℚ) (hs : 0 ≤ s)
    (hq : ∀ g ∈ groups, 0 ≤ g.subtree_quota)
    (hR : R = (groups.map outstanding_request).sum) :
    List.Forall₂
      (fun g sl => sl.grp = g ∧ 0 ≤ sl.allocated ∧ sl.allocated ≤ outstanding_request g)
      groups (allocate_surplus_level s R groups).slots ∧
    ((allocate_surplus_level s R groups).slots.map Slot.allocated).sum = min s R ∧
    (allocate_surplus_level s R groups).surplus = s - min s R ∧
    (allocate_surplus_level s R groups).requested = R - min s R := by
  unfold allocate_surplus_level
  by_cases hc : s ≥ R
  · rw [if_pos hc]
    simp only
    rw [min_eq_right hc]
    refine ⟨?_, ?_, rfl, by ring⟩
    · rw [List.forall₂_map_right_iff]
      exact List.forall₂_same.2
        (fun g _ => ⟨rfl, outstanding_request_nonneg g, le_refl _⟩)
    · rw [List.map_map, hR]
      rfl
  · rw [if_neg hc]
    have hlt : s < R := not_le.1 hc
    rw [min_eq_left hlt.le]
    set st0 : SurplusLoop :=
      { slots := groups.map
          (fun g => { grp := g, allocated := 0, subtree_requested := outstanding_request g })
        surplus := s
        requested := R } with hst0
    obtain ⟨⟨g1, e1, p1⟩, a1, b1, c1, d1, -⟩ := surplus_loop_spec true st0 hs
    obtain ⟨⟨g2, e2, p2⟩, a2, b2, c2, d2, f2⟩ :=
      surplus_loop_spec false (hgq_allocate_surplus_loop true st0) a1
    set st1 := hgq_allocate_surplus_loop true st0 with hst1
    set st2 := hgq_allocate_surplus_loop false st1 with hst2
    have hz0 : (st0.slots.map Slot.allocated).sum = 0 := by
      rw [hst0]
      simp only [List.map_map]
      apply sum_map_zero
      intro x _
      rfl
    have hr0 : (st0.slots.map Slot.subtree_requested).sum = R := by
      rw [hst0, hR]
      simp only [List.map_map]
      rfl
    have hslots : st2.slots = groups.map (fun x =>
        g2 (g1 { grp := x, allocated := 0, subtree_requested := outstanding_request x })) := by
      rw [e2, e1, hst0]
      simp only [List.map_map]
      rfl
    have hstep : ∀ x : GroupData, 0 ≤ x.subtree_quota →
        SlotStep { grp := x, allocated := 0, subtree_requested := outstanding_request x }
          (g2 (g1 { grp := x, allocated := 0, subtree_requested := outstanding_request x })) := by
      intro x hx
      have q1 := p1 { grp := x, allocated := 0, subtree_requested := outstanding_request x }
        (outstanding_request_nonneg x) hx
      exact q1.step_trans (p2 _ q1.2.2.2 (by rw [q1.1]; exact hx))
    have hsur : st2.surplus = 0 := by
      rcases f2 with f2 | f2
      · exact le_antisymm f2 a2
      · exfalso
        have hsr : (st2.slots.map Slot.subtree_requested).sum = 0 := by
          apply uniform_Z_nonpos _ f2
          intro sl hsl
          rw [hslots] at hsl
          obtain ⟨x, hx, rfl⟩ := List.mem_map.1 hsl
          exact (hstep x (hq x hx)).2.2.2
        linarith
    refine ⟨?_, by linarith, by rw [hsur]; ring, by linarith⟩
    rw [hslots, List.forall₂_map_right_iff]
    apply List.forall₂_same.2
    intro x hx
    obtain ⟨q1, q2, q3, q4⟩ := hstep x (hq x hx)
    simp only at q1 q2 q3
    exact ⟨q1, q3, by linarith⟩

/-! ## `hgq_allocate_surplus` on a tree -/

theorem SameSettings.settings_refl (d : GroupData) : SameSettings d d :=
  ⟨rfl, rfl, rfl, rfl, rfl, rfl, rfl, rfl⟩

theorem SameSettings.settings_trans {a b c : GroupData} (h1 : SameSettings a b) (h2 : SameSettings b c) :
    SameSettings a c := by
  obtain ⟨a1, a2, a3, a4, a5, a6, a7, a8⟩ := h1
  obtain ⟨b1, b2, b3, b4, b5, b6, b7, b8⟩ := h2
  exact ⟨b1.trans a1, b2.trans a2, b3.trans a3, b4.trans a4, b5.trans a5, b6.trans a6,
    b7.trans a7, b8.trans a8⟩

theorem SurplusFrame.surplus_refl (d : GroupData) : SurplusFrame d d :=
  ⟨SameSettings.settings_refl d, rfl, le_refl _⟩

theorem SurplusFrame.surplus_trans {a b c : GroupData} (h1 : SurplusFrame a b) (h2 : SurplusFrame b c) :
    SurplusFrame a c :=
  ⟨h1.1.settings_trans h2.1, h2.2.1.trans h1.2.1, h1.2.2.trans h2.2.2⟩

theorem surplusFrame_nodes_refl (t : GroupEntry) : List.Forall₂ SurplusFrame t.nodes t.nodes :=
  List.forall₂_same.2 (fun d _ => SurplusFrame.surplus_refl d)

theorem SurplusFrame.accept {d d' : GroupData} (h : SurplusFrame d d') :
    d'.accept_surplus = d.accept_surplus := h.1.2.2.2.1

theorem SurplusFrame.quotas {d d' : GroupData} (h : SurplusFrame d d') :
    d'.quota = d.quota ∧ d'.subtree_quota = d.subtree_quota :=
  ⟨h.1.2.2.2.2.1, h.1.2.2.2.2.2.1⟩

theorem total_allocated_mk (d : GroupData) (cs : List GroupEntry) :
    total_allocated (.mk d cs) = d.allocated + (cs.map total_allocated).sum := by
  unfold total_allocated
  rw [sum_nodes_mk]

theorem allocated_back_append (l1 : List Slot) (z : Slot) :
    allocated_back (l1 ++ [z]) = z.allocated := by
  simp [allocated_back]

theorem surplus_children_eq : ∀ (cs : List GroupEntry) (l1 rest : List Slot),
    l1.length = cs.length →
    hgq_allocate_surplus_children (l1 ++ rest) cs
      = List.zipWith
          (fun sl c => if sl.allocated > 0 then (hgq_allocate_surplus sl.allocated c).1 else c)
          l1 cs := by
  intro cs
  induction cs with
  | nil =>
    intro l1 rest h
    cases l1 with
    | nil => cases rest <;> simp [hgq_allocate_surplus_children]
    | cons a l => simp at h
  | cons c cs ih =>
    intro l1 rest h
    cases l1 with
    | nil => simp at h
    | cons a l =>
      simp only [List.cons_append, hgq_allocate_surplus_children, List.zipWith_cons_cons]
      exact congrArg _ (ih l rest (by simpa using h))

/-- The requests of the groups in the vector `groups` add up to `subtree_requested` of the
node when the requests are consistent. -/
theorem sum_outstanding_request {d : GroupData} {cs : List GroupEntry}
    (hc : Consistent (.mk d cs)) (splice : GroupData)
    (hsp : outstanding_request splice = d.requested) :
    d.subtree_requested
      = ((cs.map GroupEntry.data ++ [splice]).map outstanding_request).sum := by
  obtain ⟨⟨h1, h2⟩, h3⟩ := consistent_mk.1 hc
  simp only [GroupEntry.data_mk, GroupEntry.children_mk] at h1 h2
  rw [h2, List.map_append, List.sum_append, List.map_map]
  simp only [List.map_cons, List.map_nil, List.sum_cons, List.sum_nil, add_zero, hsp]
  rw [add_comm]
  congr 1
  apply sum_map_congr
  intro c hcm
  simp only [Function.comp]
  have h0 := consistent_subtree_requested_nonneg c (h3 c hcm)
  by_cases ha : c.data.accept_surplus = true
  · rw [if_pos ha, outstanding_request_of_accept ha h0]
  · rw [if_neg ha, outstanding_request_of_not_accept (by simpa using ha)]

theorem outstanding_request_splice_surplus {d : GroupData} (h : 0 ≤ d.requested) :
    outstanding_request (splice_surplus d) = d.requested :=
  outstanding_request_of_accept rfl h

/-- What a child gets from the level above fits its own subtree: the step of one child. -/
theorem handout_child_step {Fr : GroupData → GroupData → Prop}
    (hrefl : ∀ d, Fr d d) (hacc : ∀ d d', Fr d d' → d'.accept_surplus = d.accept_surplus)
    {f : ℚ → GroupEntry → GroupEntry × ℚ} {c : GroupEntry} {sl : Slot}
    (ih : HandoutSpec Fr sl.allocated (min sl.allocated c.data.subtree_requested) c
      (f sl.allocated c))
    (hc : Consistent c)
    (hrel : 0 ≤ sl.allocated ∧ sl.allocated ≤ outstanding_request c.data) :
    Consistent (if sl.allocated > 0 then (f sl.allocated c).1 else c) ∧
    List.Forall₂ Fr c.nodes (if sl.allocated > 0 then (f sl.allocated c).1 else c).nodes ∧
    total_allocated (if sl.allocated > 0 then (f sl.allocated c).1 else c)
      = total_allocated c + sl.allocated ∧
    (if (if sl.allocated > 0 then (f sl.allocated c).1 else c).data.accept_surplus then
        (if sl.allocated > 0 then (f sl.allocated c).1 else c).data.subtree_requested else 0)
      = (if c.data.accept_surplus then c.data.subtree_requested else 0) - sl.allocated := by
  obtain ⟨h0, hle⟩ := hrel
  have hsr := consistent_subtree_requested_nonneg c hc
  by_cases hp : sl.allocated > 0
  · simp only [if_pos hp]
    obtain ⟨i1, -, i3, i4, i5⟩ := ih
    have hacc' : c.data.accept_surplus = true := by
      by_contra hn
      rw [outstanding_request_of_not_accept (by simpa using hn)] at hle
      linarith
    have hmin : min sl.allocated c.data.subtree_requested = sl.allocated :=
      min_eq_left (hle.trans (outstanding_request_le _ hsr))
    rw [hmin] at i3 i4
    refine ⟨i1, i5, i4, ?_⟩
    rw [hacc _ _ (forall₂_nodes_head i5), hacc', if_pos rfl, i3, if_pos rfl]
  · simp only [if_neg hp]
    have hz : sl.allocated = 0 := le_antisymm (not_lt.1 hp) h0
    exact ⟨hc, List.forall₂_same.2 (fun d _ => hrefl d), by rw [hz, add_zero],
      by rw [hz, sub_zero]⟩

/-- Putting a node together again after a level of allocation: the children have taken what
the slots gave them and the node what its own slot holds. -/
theorem handout_assemble (Fr : GroupData → GroupData → Prop) {d : GroupData} (d' : GroupData)
    {cs : List GroupEntry} {l1 : List Slot} {z : Slot}
    (F : Slot → GroupEntry → GroupEntry) {given : ℚ} {Rel : GroupEntry → Slot → Prop}
    (hc : Consistent (.mk d cs))
    (hrel : List.Forall₂ Rel cs l1)
    (hF : ∀ c sl, c ∈ cs → Rel c sl →
      Consistent (F sl c) ∧
      List.Forall₂ Fr c.nodes (F sl c).nodes ∧
      total_allocated (F sl c) = total_allocated c + sl.allocated ∧
      (if (F sl c).data.accept_surplus then (F sl c).data.subtree_requested else 0)
        = (if c.data.accept_surplus then c.data.subtree_requested else 0) - sl.allocated)
    (hz : 0 ≤ z.allocated ∧ z.allocated ≤ d.requested)
    (hsum : ((l1 ++ [z]).map Slot.allocated).sum = given)
    (hhead : Fr d d') (ha : d'.allocated = d.allocated + z.allocated)
    (hr : d'.requested = d.requested - z.allocated)
    (hsr : d'.subtree_requested = d.subtree_requested - given) :
    Consistent (.mk d' (List.zipWith F l1 cs)) ∧
    total_allocated (.mk d' (List.zipWith F l1 cs)) = total_allocated (.mk d cs) + given ∧
    List.Forall₂ Fr (GroupEntry.mk d cs).nodes
      (GroupEntry.mk d' (List.zipWith F l1 cs)).nodes := by
  obtain ⟨⟨h1, h2⟩, h3⟩ := consistent_mk.1 hc
  simp only [GroupEntry.data_mk, GroupEntry.children_mk] at h1 h2
  simp only [List.map_append, List.sum_append, List.map_cons, List.map_nil, List.sum_cons,
    List.sum_nil, add_zero] at hsum
  refine ⟨consistent_mk.2 ⟨⟨?_, ?_⟩, ?_⟩, ?_, ?_⟩
  · simp only [GroupEntry.data_mk]
    rw [hr]; linarith [hz.2]
  · simp only [GroupEntry.data_mk, GroupEntry.children_mk]
    have := sum_zipWith F
      (fun c => if c.data.accept_surplus then c.data.subtree_requested else 0)
      (fun c => if c.data.accept_surplus then c.data.subtree_requested else 0)
      (fun sl => - sl.allocated) hrel
      (fun c sl hcm hr => by
        show (if (F sl c).data.accept_surplus then (F sl c).data.subtree_requested else 0) = _
        rw [(hF c sl hcm hr).2.2.2]; ring)
    rw [this, hsr, hr, h2]
    have hneg : ∀ l : List Slot,
        (l.map (fun sl => - sl.allocated)).sum = - (l.map Slot.allocated).sum := by
      intro l
      induction l with
      | nil => simp
      | cons a l ih => simp only [List.map_cons, List.sum_cons, ih]; ring
    rw [hneg]
    linarith
  · intro c' hc'
    obtain ⟨c, sl, hcm, hr, rfl⟩ := mem_zipWith hrel hc'
    exact (hF c sl hcm hr).1
  · rw [total_allocated_mk, total_allocated_mk,
      sum_zipWith F total_allocated total_allocated
        Slot.allocated hrel (fun c sl hcm hr => (hF c sl hcm hr).2.2.1), ha]
    linarith
  · exact nodes_forall₂_mk hhead
      (forall₂_zipWith hrel (fun c sl hcm hr => (hF c sl hcm hr).2.1))

theorem quotaNonneg_child_data {d : GroupData} {cs : List GroupEntry}
    (hq : QuotaNonneg (.mk d cs)) : ∀ c ∈ cs, 0 ≤ c.data.subtree_quota := by
  intro c hc
  have := (quotaNonneg_mk.1 hq).2 c hc
  cases c with
  | mk dc ccs => exact (quotaNonneg_mk.1 this).1.2

/-- The function `hgq_allocate_surplus` on a subtree with consistent requests: the subtree
takes the surplus or all it requests, whichever is smaller, returns the rest, and its
requests stay consistent. -/
theorem allocate_surplus_spec (t : GroupEntry) : ∀ (s : ℚ), 0 ≤ s → Consistent t →
    QuotaNonneg t →
    HandoutSpec SurplusFrame s (min s t.data.subtree_requested) t
      (hgq_allocate_surplus s t) := by
  induction t using GroupEntry.induct with
  | h d cs ih =>
    intro s hs hc hq
    have hsr := consistent_subtree_requested_nonneg _ hc
    simp only [GroupEntry.data_mk] at hsr ⊢
    rw [hgq_allocate_surplus]
    by_cases h1 : s ≤ 0
    · have hs0 : s = 0 := le_antisymm h1 hs
      rw [if_pos h1, hs0, min_eq_left hsr]
      exact ⟨hc, by simp, by simp, by simp, surplusFrame_nodes_refl _⟩
    · rw [if_neg h1]
      by_cases h2 : d.subtree_requested ≤ 0
      · have hr0 : d.subtree_requested = 0 := le_antisymm h2 hsr
        rw [if_pos h2, hr0, min_eq_right hs]
        exact ⟨hc, by simp, by simp [hr0], by simp, surplusFrame_nodes_refl _⟩
      · rw [if_neg h2]
        obtain ⟨⟨hreq, -⟩, hcc⟩ := consistent_mk.1 hc
        simp only [GroupEntry.data_mk] at hreq
        have hgroups : ∀ g ∈ cs.map GroupEntry.data ++ [splice_surplus d],
            0 ≤ g.subtree_quota := by
          intro g hg
          rcases List.mem_append.1 hg with hg | hg
          · obtain ⟨c, hcm, rfl⟩ := List.mem_map.1 hg
            exact quotaNonneg_child_data hq c hcm
          · rw [List.mem_singleton.1 hg]
            exact (quotaNonneg_mk.1 hq).1.1
        obtain ⟨l1, l2, l3, l4⟩ := allocate_surplus_level_spec
          (cs.map GroupEntry.data ++ [splice_surplus d]) s d.subtree_requested hs hgroups
          (sum_outstanding_request hc _ (outstanding_request_splice_surplus hreq))
        obtain ⟨sl, z, hsl, hrel, hz⟩ := forall₂_append_singleton_left l1
        rw [List.forall₂_map_left_iff] at hrel
        rw [outstanding_request_splice_surplus hreq] at hz
        simp only [hsl] at l2 ⊢
        rw [surplus_children_eq cs sl [z] hrel.length_eq.symm, allocated_back_append]
        obtain ⟨a1, a2, a3⟩ := handout_assemble SurplusFrame
          { d with
              allocated := d.allocated + z.allocated
              requested := d.requested - z.allocated
              subtree_requested :=
                (allocate_surplus_level s d.subtree_requested
                  (cs.map GroupEntry.data ++ [splice_surplus d])).requested }
          (fun sl c =>
            if sl.allocated > 0 then (hgq_allocate_surplus sl.allocated c).1 else c)
          hc hrel
          (fun c sl hcm hr => handout_child_step SurplusFrame.surplus_refl
            (fun _ _ h => h.accept)
            (ih c hcm sl.allocated hr.2.1 (hcc c hcm) ((quotaNonneg_mk.1 hq).2 c hcm))
            (hcc c hcm) hr.2)
          hz.2 l2 ⟨SameSettings.settings_refl d, by simp, by simp only; linarith [hz.2.1]⟩ rfl rfl l4
        exact ⟨a1, l3, l4, a2, a3⟩

/-! ## `hgq_fairshare` -/

theorem fairshare_children_eq_map (cs : List GroupEntry) :
    hgq_fairshare_children cs = cs.map hgq_fairshare := by
  induction cs with
  | nil => simp [hgq_fairshare_children]
  | cons c cs ih => simp [hgq_fairshare_children, ih]

theorem fairshare_leaf (d : GroupData) :
    hgq_fairshare (.mk d [])
      = (.mk { d with
              allocated := min d.requested d.quota
              requested := d.requested - min d.requested d.quota
              subtree_requested := d.requested - min d.requested d.quota } [],
          d.quota - min d.requested d.quota) := by
  rw [hgq_fairshare]
  simp

theorem fairshare_node (d : GroupData) {cs : List GroupEntry} (h : cs ≠ []) :
    hgq_fairshare (.mk d cs)
      = hgq_allocate_surplus
          (d.quota - min d.requested d.quota + (cs.map (fun c => (hgq_fairshare c).2)).sum)
          (.mk { d with
                 allocated := min d.requested d.quota
                 requested := d.requested - min d.requested d.quota
                 subtree_requested := d.requested - min d.requested d.quota +
                   (cs.map (fun c =>
                     if (hgq_fairshare c).1.data.accept_surplus then
                       (hgq_fairshare c).1.data.subtree_requested else 0)).sum }
            (cs.map (fun c => (hgq_fairshare c).1))) := by
  rw [hgq_fairshare]
  have he : cs.isEmpty = false := by
    cases cs with
    | nil => exact absurd rfl h
    | cons _ _ => rfl
  simp only [he, Bool.false_eq_true, if_false, fairshare_children_eq_map]
  rw [foldl_pair_sum (fun r : GroupEntry × ℚ => r.2)
    (fun r : GroupEntry × ℚ => r.1.data.accept_surplus = true)
    (fun r : GroupEntry × ℚ => r.1.data.subtree_requested)]
  simp only [List.map_map]
  rfl

theorem FairshareFrame.trans_surplus {a b c : GroupData} (h1 : FairshareFrame a b)
    (h2 : SurplusFrame b c) (h3 : 0 ≤ c.requested) : FairshareFrame a c := by
  obtain ⟨s1, e1, p1, -, m1⟩ := h1
  obtain ⟨s2, e2, l2⟩ := h2
  exact ⟨s1.settings_trans s2, e2.trans e1, p1.trans l2, h3, m1.trans l2⟩

theorem total_quota_mk (d : GroupData) (cs : List GroupEntry) :
    total_quota (.mk d cs) = d.quota + (cs.map total_quota).sum := by
  unfold total_quota
  rw [sum_nodes_mk]

/-- The function `hgq_fairshare` on a subtree with nonnegative quotas and demands: the
requests it leaves are consistent, the surplus it returns is what the quotas of the subtree
hold beyond what was allocated, and either no surplus is returned or no request of the
subtree (among the groups that accept surplus) is left. -/
theorem fairshare_spec (t : GroupEntry) : QuotaNonneg t → (∀ d ∈ t.nodes, 0 ≤ d.requested) →
    Consistent (hgq_fairshare t).1 ∧
    0 ≤ (hgq_fairshare t).2 ∧
    total_allocated (hgq_fairshare t).1 + (hgq_fairshare t).2 = total_quota t ∧
    ((hgq_fairshare t).2 = 0 ∨ (hgq_fairshare t).1.data.subtree_requested = 0) ∧
    List.Forall₂ FairshareFrame t.nodes (hgq_fairshare t).1.nodes := by
  induction t using GroupEntry.induct with
  | h d cs ih =>
    intro hq hd
    have hq0 := (quotaNonneg_mk.1 hq).1.1
    have hd0 : 0 ≤ d.requested := hd d (by rw [nodes_mk]; exact List.mem_cons_self _ _)
    have hmin0 : 0 ≤ min d.requested d.quota := le_min hd0 hq0
    have hminr : min d.requested d.quota ≤ d.requested := min_le_left _ _
    have hminq : min d.requested d.quota ≤ d.quota := min_le_right _ _
    have hframe0 : ∀ sr : ℚ, FairshareFrame d
        { d with
          allocated := min d.requested d.quota
          requested := d.requested - min d.requested d.quota
          subtree_requested := sr } := by
      intro sr
      exact ⟨SameSettings.settings_refl d, by simp, hmin0, by simp only; linarith, le_refl _⟩
    by_cases hcs : cs = []
    · subst hcs
      rw [fairshare_leaf]
      refine ⟨consistent_mk.2 ⟨⟨by simp only [GroupEntry.data_mk]; linarith, by simp⟩, by simp⟩,
        by simp only; linarith, ?_, ?_, ?_⟩
      · rw [total_allocated_mk, total_quota_mk]; simp
      · rcases min_choice d.requested d.quota with h | h
        · right; simp only [GroupEntry.data_mk]; rw [h]; ring
        · left; simp only; rw [h]; ring
      · exact nodes_forall₂_mk (hframe0 _) List.Forall₂.nil
    · rw [fairshare_node d hcs]
      have ihc : ∀ c ∈ cs,
          Consistent (hgq_fairshare c).1 ∧
          0 ≤ (hgq_fairshare c).2 ∧
          total_allocated (hgq_fairshare c).1 + (hgq_fairshare c).2 = total_quota c ∧
          ((hgq_fairshare c).2 = 0 ∨ (hgq_fairshare c).1.data.subtree_requested = 0) ∧
          List.Forall₂ FairshareFrame c.nodes (hgq_fairshare c).1.nodes := by
        intro c hc
        refine ih c hc ((quotaNonneg_mk.1 hq).2 c hc) (fun x hx => hd x ?_)
        rw [nodes_mk]
        exact List.mem_cons_of_mem _
          (List.mem_flatten.2 ⟨_, List.mem_map.2 ⟨c, hc, rfl⟩, hx⟩)
      set s := d.quota - min d.requested d.quota + (cs.map (fun c => (hgq_fairshare c).2)).sum
        with hs
      set mid : GroupEntry := .mk { d with
                 allocated := min d.requested d.quota
                 requested := d.requested - min d.requested d.quota
                 subtree_requested := d.requested - min d.requested d.quota +
                   (cs.map (fun c =>
                     if (hgq_fairshare c).1.data.accept_surplus then
                       (hgq_fairshare c).1.data.subtree_requested else 0)).sum }
            (cs.map (fun c => (hgq_fairshare c).1)) with hmid
      have hs0 : 0 ≤ s := by
        have : 0 ≤ (cs.map (fun c => (hgq_fairshare c).2)).sum :=
          sum_map_nonneg (fun c hc => (ihc c hc).2.1)
        rw [hs]; linarith
      have hmidframe : List.Forall₂ FairshareFrame (GroupEntry.mk d cs).nodes mid.nodes := by
        refine nodes_forall₂_mk (hframe0 _) ?_
        rw [List.forall₂_map_right_iff]
        exact List.forall₂_same.2 (fun c hc => (ihc c hc).2.2.2.2)
      have hmidc : Consistent mid := by
        refine consistent_mk.2 ⟨⟨by simp only [GroupEntry.data_mk]; linarith, ?_⟩, ?_⟩
        · simp only [GroupEntry.data_mk, GroupEntry.children_mk, List.map_map]
          rfl
        · intro c' hc'
          obtain ⟨c, hc, rfl⟩ := List.mem_map.1 hc'
          exact (ihc c hc).1
      have hmidq : QuotaNonneg mid :=
        quotaNonneg_of_frame (fun _ _ h => h.1) hmidframe hq
      obtain ⟨a1, a2, a3, a4, a5⟩ := allocate_surplus_spec mid s hs0 hmidc hmidq
      have hmidsr := consistent_subtree_requested_nonneg mid hmidc
      have hmidtotal : total_allocated mid + s = total_quota (.mk d cs) := by
        rw [hmid, total_allocated_mk, total_quota_mk, List.map_map, hs]
        have : (cs.map total_quota).sum
            = (cs.map (total_allocated ∘ fun c => (hgq_fairshare c).1)).sum
              + (cs.map (fun c => (hgq_fairshare c).2)).sum := by
          rw [← sum_map_add]
          apply sum_map_congr
          intro c hc
          exact (ihc c hc).2.2.1.symm
        rw [this]
        simp only
        ring
      refine ⟨a1, ?_, ?_, ?_, ?_⟩
      · rw [a2]; linarith [min_le_left s mid.data.subtree_requested]
      · rw [a4, a2]; linarith
      · rcases min_choice s mid.data.subtree_requested with h | h
        · left; rw [a2, h]; ring
        · right; rw [a3, h]; ring
      · have hreq := consistent_requested_nonneg a1
        have h5 : List.Forall₂ (fun b c => SurplusFrame b c ∧ 0 ≤ c.requested) mid.nodes
            (hgq_allocate_surplus s mid).1.nodes := by
          rw [List.forall₂_iff_zip] at a5 ⊢
          refine ⟨a5.1, fun {b c} hbc => ⟨a5.2 hbc, hreq c ?_⟩⟩
          exact (List.of_mem_zip hbc).2
        exact forall₂_trans _ (fun a b c h1 h2 => h1.trans_surplus h2.1 h2.2) hmidframe h5

/-! ## One round of `hgq_round_robin` -/

theorem rr_visit_none {amax : Option ℚ} {j : Nat} {st : RoundRobin} (h : st.slots[j]? = none) :
    rr_visit amax j st = (st, false) := by
  unfold rr_visit
  rw [h]

theorem rr_visit_skip {amax : Option ℚ} {j : Nat} {st : RoundRobin} {s : Slot}
    (h : st.slots[j]? = some s) (hs : ¬ 0 < s.subtree_requested) :
    rr_visit amax j st = (st, false) := by
  unfold rr_visit
  rw [h]
  simp only
  rw [if_neg]
  simp only [Bool.and_eq_true, decide_eq_true_eq, not_and]
  intro _
  exact hs

theorem rr_visit_take {m : ℚ} {j : Nat} {st : RoundRobin} {s : Slot}
    (h : st.slots[j]? = some s) (ha : s.grp.accept_surplus = true)
    (hs : 0 < s.subtree_requested) :
    rr_visit (some m) j st
      = (rr_take m j s st, decide ((rr_take m j s st).surplus < m)) := by
  unfold rr_visit
  rw [h]
  simp only
  rw [if_pos (by simp [ha, hs])]
  rfl

theorem RRSlot.accept_of_pos {g : GroupData} {sl : Slot} (h : RRSlot g sl)
    (hp : 0 < sl.subtree_requested) : sl.grp.accept_surplus = true := by
  obtain ⟨hs, hsum, -, h0, -⟩ := h
  rw [hs.2.2.2.1]
  by_contra hn
  rw [outstanding_request_of_not_accept (by simpa using hn)] at hsum
  linarith

theorem RRSlot.take {g : GroupData} {sl : Slot} (h : RRSlot g sl) {m : ℚ} (hm1 : 1 ≤ m)
    (hmi : IsInt m) (hp : 0 < sl.subtree_requested) :
    RRSlot g
      { grp := { sl.grp with rr := true }
        allocated := sl.allocated + min sl.subtree_requested m
        subtree_requested := sl.subtree_requested - min sl.subtree_requested m } := by
  obtain ⟨hs, hsum, h0, ha0, hi, hai, -⟩ := h
  have h1 : 1 ≤ min sl.subtree_requested m := le_min (hi.one_le_of_pos hp) hm1
  have h2 : min sl.subtree_requested m ≤ sl.subtree_requested := min_le_left _ _
  refine ⟨hs, ?_, ?_, ?_, hi.sub (hi.min hmi), hai.add (hi.min hmi), Or.inr ?_⟩
  · simp only; linarith
  · simp only; linarith
  · simp only; linarith
  · simp only; linarith

theorem sum_request_eq {groups : List GroupData} {slots : List Slot}
    (h : List.Forall₂ RRSlot groups slots) :
    (slots.map Slot.subtree_requested).sum + (slots.map Slot.allocated).sum
      = (groups.map outstanding_request).sum := by
  induction h with
  | nil => simp
  | cons hr _ ih =>
    simp only [List.map_cons, List.sum_cons]
    have := hr.2.1
    linarith

theorem pos_count_pos_of_sum_pos {slots : List Slot}
    (h : 0 < (slots.map Slot.subtree_requested).sum) : 0 < pos_count slots := by
  by_contra hn
  have h0 : pos_count slots = 0 := by omega
  unfold pos_count at h0
  rw [List.countP_eq_zero] at h0
  have : (slots.map Slot.subtree_requested).sum ≤ (slots.map (fun _ => (0 : ℚ))).sum := by
    apply sum_map_le
    intro s hs
    have := h0 s hs
    simpa using this
  simp at this
  linarith

theorem rr_pass_nil (amax : Option ℚ) (st : RoundRobin) : rr_pass amax [] st = st := rfl

theorem rr_pass_cons (amax : Option ℚ) (j : Nat) (js : List Nat) (st : RoundRobin) :
    rr_pass amax (j :: js) st
      = if (rr_visit amax j st).2 then (rr_visit amax j st).1
        else rr_pass amax js (rr_visit amax j st).1 := rfl

/-- One round over the indices `js` still to be visited: the slots stay in order, nothing is
allocated that is not taken from the surplus, which stays nonnegative, a group with a request
among `js` makes the round allocate at least one slot, and `outstanding` ends as the number of
groups with a request left unless less than one slot of surplus is left. -/
theorem rr_pass_spec (groups : List GroupData) {m : ℚ} (hm1 : 1 ≤ m) (hmi : IsInt m) :
    ∀ (js : List Nat) (st : RoundRobin), js.Nodup →
    List.Forall₂ RRSlot groups st.slots →
    m ≤ st.surplus →
    (m = 1 ∨ m * (pos_count_idx js st.slots : ℚ) ≤ st.surplus) →
    st.outstanding + (pos_count_idx js st.slots : ℚ) = (pos_count st.slots : ℚ) →
    List.Forall₂ RRSlot groups (rr_pass (some m) js st).slots ∧
    0 ≤ (rr_pass (some m) js st).surplus ∧
    (rr_pass (some m) js st).surplus ≤ st.surplus ∧
    (rr_pass (some m) js st).surplus + ((rr_pass (some m) js st).slots.map Slot.allocated).sum
      = st.surplus + (st.slots.map Slot.allocated).sum ∧
    (rr_pass (some m) js st).requested + ((rr_pass (some m) js st).slots.map Slot.allocated).sum
      = st.requested + (st.slots.map Slot.allocated).sum ∧
    (rr_pass (some m) js st).sumalloc + (rr_pass (some m) js st).surplus
      = st.sumalloc + st.surplus ∧
    (0 < pos_count_idx js st.slots → (rr_pass (some m) js st).surplus ≤ st.surplus - 1) ∧
    ((rr_pass (some m) js st).surplus < 1 ∨
      (rr_pass (some m) js st).outstanding = (pos_count (rr_pass (some m) js st).slots : ℚ)) := by
  intro js
  induction js with
  | nil =>
    intro st _ hrel hms _ hA
    rw [rr_pass_nil]
    refine ⟨hrel, by linarith, le_refl _, rfl, rfl, rfl, ?_, Or.inr ?_⟩
    · intro h; simp [pos_count_idx] at h
    · simpa [pos_count_idx] using hA
  | cons j js ih =>
    intro st hnd hrel hms hC hA
    have hnd' : js.Nodup := (List.nodup_cons.1 hnd).2
    have hj : j ∉ js := (List.nodup_cons.1 hnd).1
    rw [pos_count_idx_cons] at hC hA
    have hcase : (rr_visit (some m) j st = (st, false) ∧ opt_pos st.slots[j]? = false) ∨
        (∃ s, st.slots[j]? = some s ∧ 0 < s.subtree_requested) := by
      cases hs : st.slots[j]? with
      | none => exact Or.inl ⟨rr_visit_none hs, rfl⟩
      | some s =>
        by_cases hp : 0 < s.subtree_requested
        · exact Or.inr ⟨s, rfl, hp⟩
        · exact Or.inl ⟨rr_visit_skip hs hp, by simpa [opt_pos] using hp⟩
    rcases hcase with ⟨hv, hop⟩ | ⟨s, hs, hp⟩
    · -- a visit that changes nothing
      rw [rr_pass_cons, hv]
      simp only [Bool.false_eq_true, if_false]
      have hC' : m = 1 ∨ m * (pos_count_idx js st.slots : ℚ) ≤ st.surplus := by
        simpa [hop] using hC
      have hA' : st.outstanding + (pos_count_idx js st.slots : ℚ) = (pos_count st.slots : ℚ) := by
        simpa [hop] using hA
      obtain ⟨r1, r2, r3, r4, r5, r6, r7, r8⟩ := ih st hnd' hrel hms hC' hA'
      refine ⟨r1, r2, r3, r4, r5, r6, ?_, r8⟩
      intro hp
      rw [pos_count_idx_cons, hop] at hp
      exact r7 (by simpa using hp)
    · -- the group gets `a = min(subtree_requested[j], amax)`
      obtain ⟨g, hg, hslot⟩ := forall₂_getElem? hrel hs
      have hacc := hslot.accept_of_pos hp
      have hop : opt_pos st.slots[j]? = true := by rw [hs]; simpa [opt_pos] using hp
      rw [hop] at hC hA
      simp only [if_true, Nat.cast_add, Nat.cast_one] at hC hA
      have hsi : IsInt s.subtree_requested := hslot.2.2.2.2.1
      have ha1 : 1 ≤ min s.subtree_requested m := le_min (hsi.one_le_of_pos hp) hm1
      have ham : min s.subtree_requested m ≤ m := min_le_right _ _
      have has : min s.subtree_requested m ≤ s.subtree_requested := min_le_left _ _
      set st' := rr_take m j s st with hst'
      have hrel' : List.Forall₂ RRSlot groups st'.slots :=
        forall₂_set_right hrel hs (fun a _ ha => ha.take hm1 hmi hp)
      have hsum' : (st'.slots.map Slot.allocated).sum
          = (st.slots.map Slot.allocated).sum + min s.subtree_requested m := by
        rw [hst']
        simp only [rr_take]
        rw [sum_map_set Slot.allocated st.slots j s _ hs]
        ring
      have hcnt := countP_set (fun sl : Slot => decide (0 < sl.subtree_requested)) st.slots j s
        { grp := { s.grp with rr := true }
          allocated := s.allocated + min s.subtree_requested m
          subtree_requested := s.subtree_requested - min s.subtree_requested m } hs
      simp only [decide_eq_true_eq, hp, if_true] at hcnt
      have hidx : pos_count_idx js st'.slots = pos_count_idx js st.slots :=
        pos_count_idx_set hj _ _
      have hsur' : st'.surplus = st.surplus - min s.subtree_requested m := rfl
      have hA' : st'.outstanding + (pos_count_idx js st'.slots : ℚ)
          = (pos_count st'.slots : ℚ) := by
        rw [hidx]
        have hcq : ((List.countP (fun sl : Slot => decide (0 < sl.subtree_requested))
            st'.slots : ℕ) : ℚ) + 1
            = (pos_count st.slots : ℚ)
              + (if 0 < s.subtree_requested - min s.subtree_requested m then 1 else 0) := by
          have := congrArg (fun n : ℕ => (n : ℚ)) hcnt
          simp only [Nat.cast_add, Nat.cast_one, Nat.cast_ite, Nat.cast_zero] at this
          exact this
        have hout : st'.outstanding = (if s.subtree_requested - min s.subtree_requested m > 0
            then st.outstanding + 1 else st.outstanding) := rfl
        rw [hout]
        have hA2 := hA
        unfold pos_count at hcq hA2 ⊢
        split_ifs at hcq ⊢ with hgt <;> linarith
      have hC' : m = 1 ∨ m * (pos_count_idx js st'.slots : ℚ) ≤ st'.surplus := by
        rcases hC with hC | hC
        · exact Or.inl hC
        · right
          rw [hidx, hsur']
          have : m * ((pos_count_idx js st.slots : ℚ) + 1)
              = m * (pos_count_idx js st.slots : ℚ) + m := by ring
          linarith
      rw [rr_pass_cons, rr_visit_take hs hacc hp]
      simp only
      by_cases hb : st'.surplus < m
      · -- the `break`
        rw [if_pos (by simpa using hb)]
        refine ⟨hrel', by rw [hsur']; linarith, by rw [hsur']; linarith,
          by rw [hsum', hsur']; ring, ?_, ?_, fun _ => by rw [hsur']; linarith, ?_⟩
        · rw [hsum']
          show st.requested - min s.subtree_requested m + _ = _
          ring
        · show st.sumalloc + min s.subtree_requested m + (st.surplus - _) = _
          ring
        · rcases hC' with hC' | hC'
          · left; rw [← hC']; exact hb
          · right
            have hm0 : 0 < m := lt_of_lt_of_le one_pos hm1
            have hz : (pos_count_idx js st'.slots : ℚ) < 1 := by
              by_contra hn
              have : m * 1 ≤ m * (pos_count_idx js st'.slots : ℚ) :=
                mul_le_mul_of_nonneg_left (not_lt.1 hn) hm0.le
              linarith
            have hz' : pos_count_idx js st'.slots = 0 := by
              have : (pos_count_idx js st'.slots : ℚ) < ((1 : ℕ) : ℚ) := by simpa using hz
              have := Nat.cast_lt.1 this
              omega
            rw [hz'] at hA'
            simpa using hA'
      · rw [if_neg (by simpa using hb)]
        obtain ⟨r1, r2, r3, r4, r5, r6, r7, r8⟩ :=
          ih st' hnd' hrel' (not_lt.1 hb) hC' hA'
        refine ⟨r1, r2, by rw [hsur'] at r3; linarith, by rw [r4, hsum', hsur']; ring, ?_, ?_,
          fun _ => by rw [hsur'] at r3; linarith, r8⟩
        · rw [r5, hsum']
          show st.requested - min s.subtree_requested m + _ = _
          ring
        · rw [r6]
          show st.sumalloc + min s.subtree_requested m + (st.surplus - _) = _
          ring

/-! ## The `while` loop of `hgq_round_robin` -/

theorem rr_loop_zero (idx : List Nat) (st : RoundRobin) : rr_loop idx 0 st = st := rfl

theorem rr_loop_of_done {idx : List Nat} {st : RoundRobin} (h : rr_done st) (fuel : Nat) :
    rr_loop idx fuel st = st := by
  cases fuel with
  | zero => rfl
  | succ n =>
    rw [rr_loop]
    exact if_neg h

theorem rr_loop_succ {idx : List Nat} {st : RoundRobin} (h : ¬ rr_done st) (fuel : Nat) :
    rr_loop idx (fuel + 1) st
      = if (rr_pass (rr_amax st.surplus st.outstanding) idx
              { st with outstanding := 0, sumalloc := 0 }).sumalloc < 1 then
          rr_pass (rr_amax st.surplus st.outstanding) idx
            { st with outstanding := 0, sumalloc := 0 }
        else
          rr_loop idx fuel
            (rr_pass (rr_amax st.surplus st.outstanding) idx
              { st with outstanding := 0, sumalloc := 0 }) := by
  rw [rr_loop]
  unfold rr_done at h
  rw [if_pos (not_not.1 h)]

/-- At the head of the loop, with a whole slot of surplus and a request left, `amax` is a
finite positive integer within the surplus, and the round that follows allocates at least
one slot and keeps the invariants. -/
theorem rr_round_spec (groups : List GroupData) (idx : List Nat)
    (hidx : idx.Perm (List.range groups.length)) (st : RoundRobin)
    (hrel : List.Forall₂ RRSlot groups st.slots) (hreq : st.requested
      = (st.slots.map Slot.subtree_requested).sum)
    (hout : st.surplus < 1 ∨ st.outstanding = (pos_count st.slots : ℚ))
    (hnd : ¬ rr_done st) :
    1 ≤ st.outstanding ∧
    (∃ m : ℚ, rr_amax st.surplus st.outstanding = some m ∧ 1 ≤ m ∧ m ≤ st.surplus) ∧
    List.Forall₂ RRSlot groups
      (rr_pass (rr_amax st.surplus st.outstanding) idx
        { st with outstanding := 0, sumalloc := 0 }).slots ∧
    0 ≤ (rr_pass (rr_amax st.surplus st.outstanding) idx
        { st with outstanding := 0, sumalloc := 0 }).surplus ∧
    (rr_pass (rr_amax st.surplus st.outstanding) idx
        { st with outstanding := 0, sumalloc := 0 }).surplus ≤ st.surplus - 1 ∧
    1 ≤ (rr_pass (rr_amax st.surplus st.outstanding) idx
        { st with outstanding := 0, sumalloc := 0 }).sumalloc ∧
    (rr_pass (rr_amax st.surplus st.outstanding) idx
        { st with outstanding := 0, sumalloc := 0 }).surplus
      + ((rr_pass (rr_amax st.surplus st.outstanding) idx
        { st with outstanding := 0, sumalloc := 0 }).slots.map Slot.allocated).sum
      = st.surplus + (st.slots.map Slot.allocated).sum ∧
    (rr_pass (rr_amax st.surplus st.outstanding) idx
        { st with outstanding := 0, sumalloc := 0 }).requested
      = ((rr_pass (rr_amax st.surplus st.outstanding) idx
        { st with outstanding := 0, sumalloc := 0 }).slots.map Slot.subtree_requested).sum ∧
    ((rr_pass (rr_amax st.surplus st.outstanding) idx
        { st with outstanding := 0, sumalloc := 0 }).surplus < 1 ∨
      (rr_pass (rr_amax st.surplus st.outstanding) idx
        { st with outstanding := 0, sumalloc := 0 }).outstanding
      = (pos_count (rr_pass (rr_amax st.surplus st.outstanding) idx
        { st with outstanding := 0, sumalloc := 0 }).slots : ℚ)) := by
  unfold rr_done at hnd
  obtain ⟨hs1, hr0⟩ := not_not.1 hnd
  have hpos : 0 < pos_count st.slots := pos_count_pos_of_sum_pos (by rw [← hreq]; exact hr0)
  have hk : st.outstanding = (pos_count st.slots : ℚ) := by
    rcases hout with h | h
    · linarith
    · exact h
  have hk1 : (1 : ℚ) ≤ st.outstanding := by
    rw [hk]
    exact_mod_cast hpos
  have hk0 : st.outstanding ≠ 0 := by linarith
  have hamax : rr_amax st.surplus st.outstanding
      = some (max 1 ((⌊st.surplus / st.outstanding⌋ : ℤ) : ℚ)) := by
    unfold rr_amax
    rw [if_neg hk0]
  set m : ℚ := max 1 ((⌊st.surplus / st.outstanding⌋ : ℤ) : ℚ) with hm
  have hm1 : 1 ≤ m := le_max_left _ _
  have hmi : IsInt m := IsInt.one.max (IsInt.intCast _)
  have hfl : ((⌊st.surplus / st.outstanding⌋ : ℤ) : ℚ) * st.outstanding ≤ st.surplus := by
    have h1 : ((⌊st.surplus / st.outstanding⌋ : ℤ) : ℚ) ≤ st.surplus / st.outstanding :=
      Int.floor_le _
    have h2 := mul_le_mul_of_nonneg_right h1 (by linarith : (0 : ℚ) ≤ st.outstanding)
    rwa [div_mul_cancel₀ _ hk0] at h2
  have hms : m ≤ st.surplus := by
    apply max_le hs1
    have h1 : ((⌊st.surplus / st.outstanding⌋ : ℤ) : ℚ) ≤ st.surplus / st.outstanding :=
      Int.floor_le _
    have h2 : st.surplus / st.outstanding ≤ st.surplus :=
      div_le_self (by linarith) hk1
    linarith
  have hlen : st.slots.length = groups.length := hrel.length_eq.symm
  have hcnt : pos_count_idx idx st.slots = pos_count st.slots := by
    rw [pos_count_idx_perm hidx, ← hlen, pos_count_idx_range]
  have hC : m = 1 ∨ m * (pos_count_idx idx st.slots : ℚ) ≤ st.surplus := by
    rcases max_choice 1 ((⌊st.surplus / st.outstanding⌋ : ℤ) : ℚ) with h | h
    · exact Or.inl h
    · right
      rw [hcnt, ← hk, hm, h]
      exact hfl
  have hnodup : idx.Nodup := hidx.nodup_iff.2 (List.nodup_range _)
  obtain ⟨r1, r2, r3, r4, r5, r6, r7, r8⟩ := rr_pass_spec groups hm1 hmi idx
    { st with outstanding := 0, sumalloc := 0 } hnodup hrel hms hC
    (by simp only [zero_add]; rw [hcnt])
  rw [hamax]
  simp only at r3 r4 r5 r6 r7
  have hdrop := r7 (by rw [hcnt]; exact hpos)
  have e1 := sum_request_eq hrel
  have e2 := sum_request_eq r1
  refine ⟨hk1, ⟨m, rfl, hm1, hms⟩, r1, r2, hdrop, by linarith, r4, by linarith, r8⟩

theorem floor_toNat_drop {a b : ℚ} (ha : 1 ≤ a) (hb : b ≤ a - 1) :
    ⌊b⌋.toNat < ⌊a⌋.toNat := by
  have h1 : ⌊b⌋ ≤ ⌊a⌋ - 1 := by
    have : ⌊b⌋ ≤ ⌊a - 1⌋ := Int.floor_mono hb
    rwa [Int.floor_sub_one] at this
  have h2 : (1 : ℤ) ≤ ⌊a⌋ := Int.le_floor.2 (by simpa using ha)
  omega

/-- The loop of `hgq_round_robin`, whatever the fuel: the invariants hold at the end, and
with fuel beyond `floor(surplus)` the loop has ended because its test failed. -/
theorem rr_loop_spec (groups : List GroupData) (idx : List Nat)
    (hidx : idx.Perm (List.range groups.length)) : ∀ (fuel : Nat) (st : RoundRobin),
    List.Forall₂ RRSlot groups st.slots → 0 ≤ st.surplus →
    st.requested = (st.slots.map Slot.subtree_requested).sum →
    (st.surplus < 1 ∨ st.outstanding = (pos_count st.slots : ℚ)) →
    List.Forall₂ RRSlot groups (rr_loop idx fuel st).slots ∧
    0 ≤ (rr_loop idx fuel st).surplus ∧
    (rr_loop idx fuel st).surplus + ((rr_loop idx fuel st).slots.map Slot.allocated).sum
      = st.surplus + (st.slots.map Slot.allocated).sum ∧
    (rr_loop idx fuel st).requested
      = ((rr_loop idx fuel st).slots.map Slot.subtree_requested).sum ∧
    (rr_done st ∨ ⌊st.surplus⌋.toNat < fuel → rr_done (rr_loop idx fuel st)) := by
  intro fuel
  induction fuel with
  | zero =>
    intro st hrel hs hreq _
    rw [rr_loop_zero]
    refine ⟨hrel, hs, rfl, hreq, ?_⟩
    rintro (h | h)
    · exact h
    · exact absurd h (Nat.not_lt_zero _)
  | succ n ih =>
    intro st hrel hs hreq hout
    by_cases hd : rr_done st
    · rw [rr_loop_of_done hd]
      exact ⟨hrel, hs, rfl, hreq, fun _ => hd⟩
    · obtain ⟨-, -, p1, p2, p3, p4, p5, p6, p7⟩ := rr_round_spec groups idx hidx st hrel hreq hout hd
      rw [rr_loop_succ hd, if_neg (not_lt.2 p4)]
      obtain ⟨i1, i2, i3, i4, i5⟩ := ih _ p1 p2 p6 p7
      refine ⟨i1, i2, i3.trans p5, i4, ?_⟩
      intro h
      apply i5
      rcases h with h | h
      · exact absurd h hd
      · right
        have hs1 : 1 ≤ st.surplus := by
          unfold rr_done at hd
          exact (not_not.1 hd).1
        have := floor_toNat_drop hs1 p3
        omega

/-- More fuel than `floor(surplus)` does not change the result of the loop: the loop ends
before the fuel runs out. -/
theorem rr_loop_fuel_stable (groups : List GroupData) (idx : List Nat)
    (hidx : idx.Perm (List.range groups.length)) : ∀ (fuel : Nat) (st : RoundRobin) (k : Nat),
    List.Forall₂ RRSlot groups st.slots →
    st.requested = (st.slots.map Slot.subtree_requested).sum →
    (st.surplus < 1 ∨ st.outstanding = (pos_count st.slots : ℚ)) →
    ⌊st.surplus⌋.toNat < fuel →
    rr_loop idx (fuel + k) st = rr_loop idx fuel st := by
  intro fuel
  induction fuel with
  | zero => intro st k _ _ _ h; exact absurd h (Nat.not_lt_zero _)
  | succ n ih =>
    intro st k hrel hreq hout h
    by_cases hd : rr_done st
    · rw [rr_loop_of_done hd, rr_loop_of_done hd]
    · obtain ⟨-, -, p1, p2, p3, p4, p5, p6, p7⟩ := rr_round_spec groups idx hidx st hrel hreq hout hd
      have e : n + 1 + k = (n + k) + 1 := by omega
      rw [e, rr_loop_succ hd, rr_loop_succ hd, if_neg (not_lt.2 p4), if_neg (not_lt.2 p4)]
      apply ih _ k p1 p6 p7
      have hs1 : 1 ≤ st.surplus := by
        unfold rr_done at hd
        exact (not_not.1 hd).1
      have := floor_toNat_drop hs1 p3
      omega

/-! ## One level of `hgq_round_robin` -/

theorem sorted_idx_perm (groups : List GroupData) :
    (sorted_idx groups).Perm (List.range groups.length) :=
  List.perm_insertionSort _ _

theorem initial_outstanding_eq (groups : List GroupData) :
    initial_outstanding groups
      = (pos_count (groups.map (fun g =>
          ({ grp := g, allocated := 0, subtree_requested := outstanding_request g } : Slot))) : ℚ) := by
  unfold initial_outstanding pos_count
  have key : ∀ (l : List GroupData) (a : ℚ),
      l.foldl (fun acc g =>
          if g.accept_surplus && g.subtree_requested > 0 then acc + 1 else acc) a
      = a + (List.countP (fun s : Slot => decide (0 < s.subtree_requested))
          (l.map (fun g =>
            ({ grp := g, allocated := 0, subtree_requested := outstanding_request g } : Slot))) : ℚ) := by
    intro l
    induction l with
    | nil => intro a; simp
    | cons g l ih =>
      intro a
      simp only [List.foldl_cons, ih, List.map_cons, List.countP_cons]
      by_cases h : (g.accept_surplus && decide (g.subtree_requested > 0)) = true
      · have hp : 0 < outstanding_request g := by
          unfold outstanding_request
          rw [if_pos h]
          simp only [Bool.and_eq_true, decide_eq_true_eq] at h
          exact h.2
        simp only [h, if_true, hp, decide_True, Nat.cast_add, Nat.cast_one]
        ring
      · have hp : ¬ 0 < outstanding_request g := by
          unfold outstanding_request
          rw [if_neg h]
          exact lt_irrefl _
        simp only [h, hp, decide_False, Bool.false_eq_true, if_false, add_zero]
  rw [key groups 0, zero_add]

/-- One level of round robin: a group gets at most its outstanding request, in whole slots,
and together the groups get the whole slots of the surplus or all they request, whichever
is smaller. -/
theorem round_robin_level_spec (groups : List GroupData) (s R : ℚ) (hs : 0 ≤ s)
    (hint : ∀ g ∈ groups, IsInt (outstanding_request g))
    (hR : R = (groups.map outstanding_request).sum) :
    List.Forall₂ RRSlot groups (round_robin_level s R groups).slots ∧
    ((round_robin_level s R groups).slots.map Slot.allocated).sum = min ((⌊s⌋ : ℤ) : ℚ) R ∧
    (round_robin_level s R groups).surplus = s - min ((⌊s⌋ : ℤ) : ℚ) R ∧
    (round_robin_level s R groups).requested = R - min ((⌊s⌋ : ℤ) : ℚ) R := by
  unfold round_robin_level
  set st0 : RoundRobin :=
    { slots := groups.map
        (fun g => { grp := g, allocated := 0, subtree_requested := outstanding_request g })
      surplus := s
      requested := R
      outstanding := initial_outstanding groups
      sumalloc := 0 } with hst0
  have hrel0 : List.Forall₂ RRSlot groups st0.slots := by
    rw [hst0]
    simp only
    rw [List.forall₂_map_right_iff]
    apply List.forall₂_same.2
    intro g hg
    exact ⟨SameSettings.settings_refl g, by simp, outstanding_request_nonneg g, le_refl _, hint g hg,
      IsInt.zero, Or.inl rfl⟩
  have hz0 : (st0.slots.map Slot.allocated).sum = 0 := by
    rw [hst0]
    simp only [List.map_map]
    exact sum_map_zero (fun _ _ => rfl)
  have hr0 : st0.requested = (st0.slots.map Slot.subtree_requested).sum := by
    rw [hst0]
    simp only [List.map_map]
    rw [hR]
    rfl
  obtain ⟨r1, r2, r3, r4, r5⟩ := rr_loop_spec groups (sorted_idx groups) (sorted_idx_perm groups)
    (⌊s⌋.toNat + 1) st0 hrel0 hs hr0 (Or.inr (initial_outstanding_eq groups))
  have hdone := r5 (Or.inr (Nat.lt_succ_self _))
  set r := rr_loop (sorted_idx groups) (⌊s⌋.toNat + 1) st0 with hr
  have e1 := sum_request_eq r1
  have hs0 : st0.surplus = s := rfl
  rw [hz0, hs0, add_zero] at r3
  -- what was handed out
  have hG : IsInt ((r.slots.map Slot.allocated).sum) := by
    apply IsInt.sum
    intro sl hsl
    obtain ⟨g, _, hg⟩ := forall₂_mem_right r1 hsl
    exact hg.2.2.2.2.2.1
  have hsr0 : 0 ≤ (r.slots.map Slot.subtree_requested).sum := by
    apply sum_map_nonneg
    intro sl hsl
    obtain ⟨g, _, hg⟩ := forall₂_mem_right r1 hsl
    exact hg.2.2.1
  have hRint : IsInt R := by
    rw [hR]
    exact IsInt.sum hint
  have hmin : (r.slots.map Slot.allocated).sum = min ((⌊s⌋ : ℤ) : ℚ) R := by
    unfold rr_done at hdone
    by_cases h1 : r.surplus < 1
    · obtain ⟨z, hz⟩ := hG
      have hfl : ⌊s⌋ = z := by
        rw [Int.floor_eq_iff]
        constructor
        · rw [← hz]; linarith
        · rw [← hz]; linarith
      rw [hfl, ← hz, min_eq_left]
      rw [hR]; linarith
    · have h2 : r.requested ≤ 0 := by
        by_contra hn
        exact hdone ⟨not_lt.1 h1, not_le.1 hn⟩
      have h3 : (r.slots.map Slot.subtree_requested).sum = 0 := by
        rw [r4] at h2
        exact le_antisymm h2 hsr0
      have h4 : (r.slots.map Slot.allocated).sum = R := by rw [hR]; linarith
      rw [h4, min_eq_right]
      obtain ⟨z, hz⟩ := hRint
      rw [hz]
      have : z ≤ ⌊s⌋ := Int.le_floor.2 (by rw [← hz, ← h4]; linarith)
      exact_mod_cast this
  refine ⟨r1, hmin, by rw [← hmin]; linarith, ?_⟩
  rw [r4, ← hmin, hR]
  linarith

/-! ## `hgq_round_robin` on a tree -/

theorem RRFrame.rr_refl (d : GroupData) : RRFrame d d :=
  ⟨SurplusFrame.surplus_refl d, id, id, id⟩

theorem RRFrame.rr_trans {a b c : GroupData} (h1 : RRFrame a b) (h2 : RRFrame b c) : RRFrame a c :=
  ⟨h1.1.surplus_trans h2.1, fun h => h2.2.1 (h1.2.1 h), fun h => h2.2.2.1 (h1.2.2.1 h),
    fun h => h2.2.2.2 (h1.2.2.2 h)⟩

theorem RRFrame.set_rr {d d' : GroupData} (h : RRFrame d d') (b : Bool) :
    RRFrame d { d' with rr := b } := h

theorem mark_rr_mk (b : Bool) (d : GroupData) (cs : List GroupEntry) :
    mark_rr b (.mk d cs) = .mk { d with rr := d.rr || b } cs := rfl

theorem mark_rr_consistent {b : Bool} {t : GroupEntry} (h : Consistent t) :
    Consistent (mark_rr b t) := by
  cases t with
  | mk d cs =>
    rw [mark_rr_mk]
    obtain ⟨h1, h2⟩ := consistent_mk.1 h
    exact consistent_mk.2 ⟨h1, h2⟩

theorem mark_rr_total_allocated (b : Bool) (t : GroupEntry) :
    total_allocated (mark_rr b t) = total_allocated t := by
  cases t with
  | mk d cs => rw [mark_rr_mk, total_allocated_mk, total_allocated_mk]

theorem mark_rr_data (b : Bool) (t : GroupEntry) :
    (mark_rr b t).data.accept_surplus = t.data.accept_surplus ∧
    (mark_rr b t).data.subtree_requested = t.data.subtree_requested := by
  cases t with
  | mk d cs => exact ⟨rfl, rfl⟩

theorem mark_rr_frame {b : Bool} {c t : GroupEntry}
    (h : List.Forall₂ RRFrame c.nodes t.nodes) :
    List.Forall₂ RRFrame c.nodes (mark_rr b t).nodes := by
  cases t with
  | mk d cs =>
    rw [mark_rr_mk]
    rw [nodes_mk] at h ⊢
    obtain ⟨x, u, hx, hu, hcu⟩ := List.forall₂_cons_right_iff.1 h
    rw [hcu]
    exact List.Forall₂.cons (hx.set_rr _) hu

theorem round_robin_children_eq : ∀ (cs : List GroupEntry) (l1 rest : List Slot),
    l1.length = cs.length →
    hgq_round_robin_children (l1 ++ rest) cs
      = List.zipWith
          (fun sl c => mark_rr sl.grp.rr
            (if sl.allocated > 0 then (hgq_round_robin sl.allocated c).1 else c))
          l1 cs := by
  intro cs
  induction cs with
  | nil =>
    intro l1 rest h
    cases l1 with
    | nil => cases rest <;> simp [hgq_round_robin_children]
    | cons a l => simp at h
  | cons c cs ih =>
    intro l1 rest h
    cases l1 with
    | nil => simp at h
    | cons a l =>
      simp only [List.cons_append, hgq_round_robin_children, List.zipWith_cons_cons]
      exact congrArg _ (ih l rest (by simpa using h))

theorem force_integer_of_int {d : GroupData} (h : IsInt d.subtree_requested) :
    force_integer d = d := by
  unfold force_integer
  rw [if_neg]
  rw [h.floor_eq]
  exact fun hn => hn rfl

theorem outstanding_request_splice_rr {d : GroupData} (h : 0 ≤ d.requested) :
    outstanding_request (splice_rr d) = d.requested :=
  outstanding_request_of_accept rfl h

theorem outstanding_request_int {g : GroupData} (h : IsInt g.subtree_requested) :
    IsInt (outstanding_request g) := by
  unfold outstanding_request
  split_ifs
  · exact h
  · exact IsInt.zero

theorem intRequests_mk {d : GroupData} {cs : List GroupEntry} :
    IntRequests (.mk d cs) ↔
      (IsInt d.requested ∧ IsInt d.subtree_requested) ∧ ∀ c ∈ cs, IntRequests c := by
  unfold IntRequests
  simp only [nodes_mk, List.mem_cons, List.mem_flatten, List.mem_map, forall_eq_or_imp]
  constructor
  · rintro ⟨h1, h2⟩
    exact ⟨h1, fun c hc x hx => h2 x ⟨_, ⟨c, hc, rfl⟩, hx⟩⟩
  · rintro ⟨h1, h2⟩
    refine ⟨h1, ?_⟩
    rintro x ⟨l, ⟨c, hc, rfl⟩, hx⟩
    exact h2 c hc x hx

theorem intRequests_data {t : GroupEntry} (h : IntRequests t) :
    IsInt t.data.requested ∧ IsInt t.data.subtree_requested := by
  cases t with
  | mk d cs => exact (intRequests_mk.1 h).1

theorem floor_of_lt_one {s : ℚ} (h0 : 0 ≤ s) (h1 : s < 1) : ((⌊s⌋ : ℤ) : ℚ) = 0 := by
  have : ⌊s⌋ = 0 := by
    rw [Int.floor_eq_iff]
    constructor
    · simpa using h0
    · simpa using h1
  rw [this]; simp

theorem floor_cast_nonneg {s : ℚ} (h0 : 0 ≤ s) : (0 : ℚ) ≤ ((⌊s⌋ : ℤ) : ℚ) := by
  have : (0 : ℤ) ≤ ⌊s⌋ := Int.floor_nonneg.2 h0
  exact_mod_cast this

/-- The function `hgq_round_robin` on a subtree with consistent integer requests: the
subtree takes the whole slots of the surplus or all it requests, whichever is smaller,
returns the rest, and its requests stay consistent integers. -/
theorem round_robin_spec (t : GroupEntry) : ∀ (s : ℚ), 0 ≤ s → Consistent t →
    IntRequests t →
    HandoutSpec RRFrame s (min ((⌊s⌋ : ℤ) : ℚ) t.data.subtree_requested) t
      (hgq_round_robin s t) := by
  induction t using GroupEntry.induct with
  | h d cs ih =>
    intro s hs hc hi
    have hsr := consistent_subtree_requested_nonneg _ hc
    obtain ⟨⟨hdi, hsri⟩, hci⟩ := intRequests_mk.1 hi
    simp only [GroupEntry.data_mk] at hsr ⊢
    rw [hgq_round_robin]
    simp only [force_integer_of_int hsri]
    have hfl0 := floor_cast_nonneg hs
    by_cases h1 : d.subtree_requested ≤ 0
    · have hr0 : d.subtree_requested = 0 := le_antisymm h1 hsr
      rw [if_pos h1, hr0, min_eq_right hfl0]
      exact ⟨hc, by simp, by simp [hr0], by simp,
        List.forall₂_same.2 (fun x _ => RRFrame.rr_refl x)⟩
    · rw [if_neg h1]
      by_cases h2 : s < 1
      · rw [if_pos h2, floor_of_lt_one hs h2, min_eq_left hsr]
        exact ⟨hc, by simp, by simp, by simp,
          List.forall₂_same.2 (fun x _ => RRFrame.rr_refl x)⟩
      · rw [if_neg h2]
        obtain ⟨⟨hreq, -⟩, hcc⟩ := consistent_mk.1 hc
        simp only [GroupEntry.data_mk] at hreq
        have hgroups : ∀ g ∈ cs.map GroupEntry.data ++ [splice_rr d],
            IsInt (outstanding_request g) := by
          intro g hg
          rcases List.mem_append.1 hg with hg | hg
          · obtain ⟨c, hcm, rfl⟩ := List.mem_map.1 hg
            exact outstanding_request_int (intRequests_data (hci c hcm)).2
          · rw [List.mem_singleton.1 hg, outstanding_request_splice_rr hreq]
            exact hdi
        obtain ⟨l1, l2, l3, l4⟩ := round_robin_level_spec
          (cs.map GroupEntry.data ++ [splice_rr d]) s d.subtree_requested hs hgroups
          (sum_outstanding_request hc _ (outstanding_request_splice_rr hreq))
        obtain ⟨sl, z, hsl, hrel, hz⟩ := forall₂_append_singleton_left l1
        rw [List.forall₂_map_left_iff] at hrel
        have hzle : z.allocated ≤ d.requested := by
          have := hz.2.1
          rw [outstanding_request_splice_rr hreq] at this
          linarith [hz.2.2.1]
        simp only [hsl] at l2 ⊢
        rw [round_robin_children_eq cs sl [z] hrel.length_eq.symm, allocated_back_append]
        have hgiven : IsInt (min ((⌊s⌋ : ℤ) : ℚ) d.subtree_requested) :=
          (IsInt.intCast _).min hsri
        obtain ⟨a1, a2, a3⟩ := handout_assemble RRFrame
          { d with
              allocated := d.allocated + z.allocated
              requested := d.requested - z.allocated
              subtree_requested :=
                (round_robin_level s d.subtree_requested
                  (cs.map GroupEntry.data ++ [splice_rr d])).requested
              rr := rr_back (sl ++ [z]) d.rr }
          (fun sl c => mark_rr sl.grp.rr
            (if sl.allocated > 0 then (hgq_round_robin sl.allocated c).1 else c))
          hc hrel
          (fun c sl hcm hr => by
            have hle : sl.allocated ≤ outstanding_request c.data := by
              have := hr.2.1
              linarith [hr.2.2.1]
            have hih := ih c hcm sl.allocated hr.2.2.2.1 (hcc c hcm) (hci c hcm)
            rw [hr.2.2.2.2.2.1.floor_eq] at hih
            obtain ⟨b1, b2, b3, b4⟩ := handout_child_step RRFrame.rr_refl
              (fun _ _ h => h.1.accept) hih (hcc c hcm) ⟨hr.2.2.2.1, hle⟩
            refine ⟨mark_rr_consistent b1, mark_rr_frame b2, ?_, ?_⟩
            · rw [mark_rr_total_allocated]; exact b3
            · rw [(mark_rr_data _ _).1, (mark_rr_data _ _).2]; exact b4)
          ⟨hz.2.2.2.1, hzle⟩ l2
          ⟨⟨SameSettings.settings_refl d, by simp, by simp only; linarith [hz.2.2.2.1]⟩,
            fun h => h.add hz.2.2.2.2.2.1, fun h => h.sub hz.2.2.2.2.2.1,
            fun _ => by simp only; rw [l4]; exact hsri.sub hgiven⟩
          rfl rfl l4
        exact ⟨a1, l3, l4, a2, a3⟩

/-! ## `hgq_recover_remainders` -/

theorem round_for_precision_int {x : ℚ} (h : IsInt x) : round_for_precision x = x := by
  obtain ⟨z, rfl⟩ := h
  unfold round_for_precision
  have : ⌊(1 / 2 : ℚ) + (z : ℚ)⌋ = z := by
    rw [Int.floor_eq_iff]
    constructor <;> linarith
  rw [this]

theorem round_for_precision_isInt (x : ℚ) : IsInt (round_for_precision x) := ⟨_, rfl⟩

theorem round_for_precision_nonneg {x : ℚ} (h : 0 ≤ x) : 0 ≤ round_for_precision x := by
  unfold round_for_precision
  have : (0 : ℤ) ≤ ⌊(1 / 2 : ℚ) + x⌋ := Int.floor_nonneg.2 (by linarith)
  exact_mod_cast this

theorem round_for_precision_add_int (x : ℚ) (z : ℤ) :
    round_for_precision (x + z) = round_for_precision x + z := by
  unfold round_for_precision
  rw [← add_assoc, Int.floor_add_int]
  push_cast
  ring

theorem recover_children_eq_map (cs : List GroupEntry) :
    hgq_recover_remainders_children cs = cs.map hgq_recover_remainders := by
  induction cs with
  | nil => simp [hgq_recover_remainders_children]
  | cons c cs ih => simp [hgq_recover_remainders_children, ih]

/-- The fields of a node after the first part of `hgq_recover_remainders`, before the
children are visited. -/
theorem recover_local (d : GroupData) (hr : 0 ≤ d.requested) :
    let frac := d.allocated - ((⌊d.allocated⌋ : ℤ) : ℚ)
    round_for_precision (d.allocated - frac) = ((⌊d.allocated⌋ : ℤ) : ℚ) ∧
    round_for_precision (d.allocated - frac) + round_for_precision (d.requested + frac)
      = round_for_precision (d.allocated + d.requested) ∧
    0 ≤ round_for_precision (d.requested + frac) ∧
    0 ≤ frac ∧ frac < 1 := by
  intro frac
  have hf0 : 0 ≤ frac := by
    have := Int.floor_le d.allocated
    show 0 ≤ d.allocated - _
    linarith
  have hf1 : frac < 1 := by
    have := Int.lt_floor_add_one d.allocated
    show d.allocated - _ < 1
    linarith
  have e1 : d.allocated - frac = ((⌊d.allocated⌋ : ℤ) : ℚ) := by
    show d.allocated - (d.allocated - _) = _
    ring
  have e2 : round_for_precision (d.allocated - frac) = ((⌊d.allocated⌋ : ℤ) : ℚ) := by
    rw [e1]
    exact round_for_precision_int (IsInt.intCast _)
  refine ⟨e2, ?_, round_for_precision_nonneg (by linarith), hf0, hf1⟩
  rw [e2]
  have e3 : d.allocated + d.requested = (d.requested + frac) + ((⌊d.allocated⌋ : ℤ) : ℚ) := by
    show _ = d.requested + (d.allocated - _) + _
    ring
  rw [e3, round_for_precision_add_int]
  ring

theorem foldl_triple_sum {α γ : Type} (f : α → ℚ) (p : α → Prop) [DecidablePred p]
    (g : α → ℚ) (h : γ → α → γ) (l : List α) (a b : ℚ) (c : γ) :
    (l.foldl (fun acc r => (acc.1 + f r, if p r then (acc.2.1 + g r, h acc.2.2 r) else acc.2))
        (a, b, c)).1 = a + (l.map f).sum ∧
    (l.foldl (fun acc r => (acc.1 + f r, if p r then (acc.2.1 + g r, h acc.2.2 r) else acc.2))
        (a, b, c)).2.1 = b + (l.map (fun r => if p r then g r else 0)).sum := by
  induction l generalizing a b c with
  | nil => simp
  | cons x l ih =>
    simp only [List.foldl_cons, List.map_cons, List.sum_cons]
    by_cases hp : p x
    · simp only [hp, if_true]
      obtain ⟨i1, i2⟩ := ih (a + f x) (b + g x) (h c x)
      rw [i1, i2]
      exact ⟨by ring, by ring⟩
    · simp only [hp, if_false]
      obtain ⟨i1, i2⟩ := ih (a + f x) b c
      rw [i1, i2]
      exact ⟨by ring, by ring⟩

theorem recover_leaf (d : GroupData) :
    hgq_recover_remainders (.mk d [])
      = (.mk { d with
              allocated := round_for_precision
                (d.allocated - (d.allocated - ((⌊d.allocated⌋ : ℤ) : ℚ)))
              requested := round_for_precision
                (d.requested + (d.allocated - ((⌊d.allocated⌋ : ℤ) : ℚ)))
              subtree_requested := round_for_precision
                (d.requested + (d.allocated - ((⌊d.allocated⌋ : ℤ) : ℚ)))
              subtree_rr_time :=
                if round_for_precision
                    (d.requested + (d.allocated - ((⌊d.allocated⌋ : ℤ) : ℚ))) > 0
                then d.rr_time else DBL_MAX } [],
          d.allocated - ((⌊d.allocated⌋ : ℤ) : ℚ)) := by
  rw [hgq_recover_remainders]
  simp

theorem recover_accumulate_eq (a b c : ℚ) (rs : List (GroupEntry × ℚ)) :
    (recover_accumulate a b c rs).1 = a + (rs.map (fun r => r.2)).sum ∧
    (recover_accumulate a b c rs).2.1
      = b + (rs.map (fun r =>
          if r.1.data.accept_surplus then r.1.data.subtree_requested else 0)).sum :=
  foldl_triple_sum (fun r : GroupEntry × ℚ => r.2)
    (fun r : GroupEntry × ℚ => r.1.data.accept_surplus = true)
    (fun r : GroupEntry × ℚ => r.1.data.subtree_requested)
    (fun (acc : ℚ) (r : GroupEntry × ℚ) =>
      if r.1.data.subtree_requested > 0 then min acc r.1.data.subtree_rr_time else acc)
    rs a b c

/-- The node `hgq_recover_remainders` calls `hgq_round_robin` on, and the surplus it passes. -/
theorem recover_node (d : GroupData) {cs : List GroupEntry} (h : cs ≠ []) :
    ∃ (srt : ℚ),
    hgq_recover_remainders (.mk d cs)
      = hgq_round_robin
          (d.allocated - ((⌊d.allocated⌋ : ℤ) : ℚ)
            + (cs.map (fun c => (hgq_recover_remainders c).2)).sum)
          (.mk { d with
                 allocated := round_for_precision
                   (d.allocated - (d.allocated - ((⌊d.allocated⌋ : ℤ) : ℚ)))
                 requested := round_for_precision
                   (d.requested + (d.allocated - ((⌊d.allocated⌋ : ℤ) : ℚ)))
                 subtree_requested := round_for_precision
                     (d.requested + (d.allocated - ((⌊d.allocated⌋ : ℤ) : ℚ))) +
                   (cs.map (fun c =>
                     if (hgq_recover_remainders c).1.data.accept_surplus then
                       (hgq_recover_remainders c).1.data.subtree_requested else 0)).sum
                 subtree_rr_time := srt }
            (cs.map (fun c => (hgq_recover_remainders c).1))) := by
  have he : cs.isEmpty = false := by
    cases cs with
    | nil => exact absurd rfl h
    | cons _ _ => rfl
  refine ⟨(recover_accumulate (d.allocated - ((⌊d.allocated⌋ : ℤ) : ℚ))
    (round_for_precision (d.requested + (d.allocated - ((⌊d.allocated⌋ : ℤ) : ℚ))))
    (if round_for_precision (d.requested + (d.allocated - ((⌊d.allocated⌋ : ℤ) : ℚ))) > 0
      then d.rr_time else DBL_MAX) (cs.map hgq_recover_remainders)).2.2, ?_⟩
  rw [hgq_recover_remainders]
  simp only [he, Bool.false_eq_true, if_false, recover_children_eq_map]
  obtain ⟨f1, f2⟩ := recover_accumulate_eq (d.allocated - ((⌊d.allocated⌋ : ℤ) : ℚ))
    (round_for_precision (d.requested + (d.allocated - ((⌊d.allocated⌋ : ℤ) : ℚ))))
    (if round_for_precision (d.requested + (d.allocated - ((⌊d.allocated⌋ : ℤ) : ℚ))) > 0
      then d.rr_time else DBL_MAX) (cs.map hgq_recover_remainders)
  simp only [List.map_map] at f1 f2
  rw [f1, f2]
  simp only [List.map_map]
  rfl

theorem RecoverFrame.trans_rr {a b c : GroupData} (h1 : RecoverFrame a b) (h2 : RRFrame b c)
    (h3 : 0 ≤ c.requested) : RecoverFrame a c := by
  obtain ⟨⟨c1, c2, c3, c4, c5, c6, c7⟩, e1, i1, i2, l1, -⟩ := h1
  obtain ⟨⟨⟨s1, s2, s3, s4, s5, s6, s7, -⟩, e2, l2⟩, j1, j2, -⟩ := h2
  exact ⟨⟨s1.trans c1, s2.trans c2, s3.trans c3, s4.trans c4, s5.trans c5, s6.trans c6,
    s7.trans c7⟩, e2.trans e1, j1 i1, j2 i2, l1.trans l2, h3⟩

theorem intRequests_of_frame {t t' : GroupEntry}
    (h : List.Forall₂ RRFrame t.nodes t'.nodes) (hi : IntRequests t) : IntRequests t' := by
  intro d' hd'
  obtain ⟨d, hd, hr⟩ := forall₂_mem_right h hd'
  exact ⟨hr.2.2.1 (hi d hd).1, hr.2.2.2 (hi d hd).2⟩

/-- The function `hgq_recover_remainders` on a subtree with nonnegative requests: the
requests it leaves are consistent integers, the surplus it returns is nonnegative and is what
the allocations of the subtree lost, and either less than one slot is returned or no request
of the subtree (among the groups that accept surplus) is left. -/
theorem recover_spec (t : GroupEntry) : (∀ d ∈ t.nodes, 0 ≤ d.requested) →
    Consistent (hgq_recover_remainders t).1 ∧
    IntRequests (hgq_recover_remainders t).1 ∧
    0 ≤ (hgq_recover_remainders t).2 ∧
    total_allocated (hgq_recover_remainders t).1 + (hgq_recover_remainders t).2
      = total_allocated t ∧
    ((hgq_recover_remainders t).2 < 1 ∨
      (hgq_recover_remainders t).1.data.subtree_requested = 0) ∧
    List.Forall₂ RecoverFrame t.nodes (hgq_recover_remainders t).1.nodes := by
  induction t using GroupEntry.induct with
  | h d cs ih =>
    intro hd
    have hd0 : 0 ≤ d.requested := hd d (by rw [nodes_mk]; exact List.mem_cons_self _ _)
    obtain ⟨e1, e2, e3, e4, e5⟩ := recover_local d hd0
    have hframe0 : ∀ sr srt : ℚ, RecoverFrame d
        { d with
          allocated := round_for_precision
            (d.allocated - (d.allocated - ((⌊d.allocated⌋ : ℤ) : ℚ)))
          requested := round_for_precision
            (d.requested + (d.allocated - ((⌊d.allocated⌋ : ℤ) : ℚ)))
          subtree_requested := sr
          subtree_rr_time := srt } := by
      intro sr srt
      exact ⟨⟨rfl, rfl, rfl, rfl, rfl, rfl, rfl⟩, e2, round_for_precision_isInt _,
        round_for_precision_isInt _, by simp only; rw [e1], e3⟩
    by_cases hcs : cs = []
    · subst hcs
      rw [recover_leaf]
      refine ⟨consistent_mk.2 ⟨⟨e3, by simp⟩, by simp⟩, ?_, e4, ?_, Or.inl e5,
        nodes_forall₂_mk (hframe0 _ _) List.Forall₂.nil⟩
      · exact intRequests_mk.2
          ⟨⟨round_for_precision_isInt _, round_for_precision_isInt _⟩, by simp⟩
      · rw [total_allocated_mk, total_allocated_mk]
        simp only [List.map_nil, List.sum_nil, add_zero]
        rw [e1]; ring
    · obtain ⟨srt, hnode⟩ := recover_node d hcs
      rw [hnode]
      have ihc : ∀ c ∈ cs,
          Consistent (hgq_recover_remainders c).1 ∧
          IntRequests (hgq_recover_remainders c).1 ∧
          0 ≤ (hgq_recover_remainders c).2 ∧
          total_allocated (hgq_recover_remainders c).1 + (hgq_recover_remainders c).2
            = total_allocated c ∧
          ((hgq_recover_remainders c).2 < 1 ∨
            (hgq_recover_remainders c).1.data.subtree_requested = 0) ∧
          List.Forall₂ RecoverFrame c.nodes (hgq_recover_remainders c).1.nodes := by
        intro c hc
        refine ih c hc (fun x hx => hd x ?_)
        rw [nodes_mk]
        exact List.mem_cons_of_mem _
          (List.mem_flatten.2 ⟨_, List.mem_map.2 ⟨c, hc, rfl⟩, hx⟩)
      set s := d.allocated - ((⌊d.allocated⌋ : ℤ) : ℚ)
            + (cs.map (fun c => (hgq_recover_remainders c).2)).sum with hs
      set mid : GroupEntry := .mk { d with
                 allocated := round_for_precision
                   (d.allocated - (d.allocated - ((⌊d.allocated⌋ : ℤ) : ℚ)))
                 requested := round_for_precision
                   (d.requested + (d.allocated - ((⌊d.allocated⌋ : ℤ) : ℚ)))
                 subtree_requested := round_for_precision
                     (d.requested + (d.allocated - ((⌊d.allocated⌋ : ℤ) : ℚ))) +
                   (cs.map (fun c =>
                     if (hgq_recover_remainders c).1.data.accept_surplus then
                       (hgq_recover_remainders c).1.data.subtree_requested else 0)).sum
                 subtree_rr_time := srt }
            (cs.map (fun c => (hgq_recover_remainders c).1)) with hmid
      have hs0 : 0 ≤ s := by
        have : 0 ≤ (cs.map (fun c => (hgq_recover_remainders c).2)).sum :=
          sum_map_nonneg (fun c hc => (ihc c hc).2.2.1)
        rw [hs]; linarith
      have hmidframe : List.Forall₂ RecoverFrame (GroupEntry.mk d cs).nodes mid.nodes := by
        refine nodes_forall₂_mk (hframe0 _ _) ?_
        rw [List.forall₂_map_right_iff]
        exact List.forall₂_same.2 (fun c hc => (ihc c hc).2.2.2.2.2)
      have hmidc : Consistent mid := by
        refine consistent_mk.2 ⟨⟨e3, ?_⟩, ?_⟩
        · simp only [GroupEntry.data_mk, GroupEntry.children_mk, List.map_map]
          rfl
        · intro c' hc'
          obtain ⟨c, hc, rfl⟩ := List.mem_map.1 hc'
          exact (ihc c hc).1
      have hmidi : IntRequests mid := by
        refine intRequests_mk.2 ⟨⟨round_for_precision_isInt _, ?_⟩, ?_⟩
        · apply (round_for_precision_isInt _).add
          apply IsInt.sum
          intro c hc
          split_ifs
          · exact (intRequests_data (ihc c hc).2.1).2
          · exact IsInt.zero
        · intro c' hc'
          obtain ⟨c, hc, rfl⟩ := List.mem_map.1 hc'
          exact (ihc c hc).2.1
      obtain ⟨a1, a2, a3, a4, a5⟩ := round_robin_spec mid s hs0 hmidc hmidi
      have hmidsr := consistent_subtree_requested_nonneg mid hmidc
      have hfl := floor_cast_nonneg hs0
      have hfle : ((⌊s⌋ : ℤ) : ℚ) ≤ s := Int.floor_le s
      have hflt : s < ((⌊s⌋ : ℤ) : ℚ) + 1 := Int.lt_floor_add_one s
      have hmidtotal : total_allocated mid + s = total_allocated (.mk d cs) := by
        rw [hmid, total_allocated_mk, total_allocated_mk, List.map_map, hs]
        have : (cs.map total_allocated).sum
            = (cs.map (total_allocated ∘ fun c => (hgq_recover_remainders c).1)).sum
              + (cs.map (fun c => (hgq_recover_remainders c).2)).sum := by
          rw [← sum_map_add]
          apply sum_map_congr
          intro c hc
          exact (ihc c hc).2.2.2.1.symm
        rw [this]
        simp only
        rw [e1]
        ring
      refine ⟨a1, intRequests_of_frame a5 hmidi, ?_, ?_, ?_, ?_⟩
      · rw [a2]; linarith [min_le_left ((⌊s⌋ : ℤ) : ℚ) mid.data.subtree_requested]
      · rw [a4, a2]; linarith
      · rcases min_choice ((⌊s⌋ : ℤ) : ℚ) mid.data.subtree_requested with h | h
        · left; rw [a2, h]; linarith
        · right; rw [a3, h]; ring
      · have hreq := consistent_requested_nonneg a1
        have h5 : List.Forall₂ (fun b c => RRFrame b c ∧ 0 ≤ c.requested) mid.nodes
            (hgq_round_robin s mid).1.nodes := by
          rw [List.forall₂_iff_zip] at a5 ⊢
          refine ⟨a5.1, fun {b c} hbc => ⟨a5.2 hbc, hreq c ?_⟩⟩
          exact (List.of_mem_zip hbc).2
        exact forall₂_trans _ (fun a b c h1 h2 => h1.trans_rr h2.1 h2.2) hmidframe h5

/-! ## Groups that decline surplus -/

theorem subtree_at_nil (t : GroupEntry) : subtree_at t [] = some t := by
  cases t; rfl

theorem subtree_at_cons (d : GroupData) (cs : List GroupEntry) (i : Nat) (rest : List Nat) :
    subtree_at (.mk d cs) (i :: rest)
      = match cs[i]? with
        | some c => subtree_at c rest
        | none => none := rfl

theorem subtree_at_cons_some {d : GroupData} {cs : List GroupEntry} {i : Nat}
    {rest : List Nat} {m : GroupEntry} (h : subtree_at (.mk d cs) (i :: rest) = some m) :
    ∃ c, cs[i]? = some c ∧ subtree_at c rest = some m := by
  rw [subtree_at_cons] at h
  cases hc : cs[i]? with
  | none => rw [hc] at h; cases h
  | some c => rw [hc] at h; exact ⟨c, rfl, h⟩

theorem subtree_at_of_child {d : GroupData} {cs : List GroupEntry} {i : Nat}
    {rest : List Nat} {c : GroupEntry} (hc : cs[i]? = some c) :
    subtree_at (.mk d cs) (i :: rest) = subtree_at c rest := by
  rw [subtree_at_cons, hc]

/-- The subtree at a nonempty path depends on the children only. -/
theorem subtree_at_children {t t' : GroupEntry} (h : t.children = t'.children)
    {p : List Nat} (hp : p ≠ []) : subtree_at t p = subtree_at t' p := by
  cases p with
  | nil => exact absurd rfl hp
  | cons i rest =>
    cases t with
    | mk d cs =>
      cases t' with
      | mk d' cs' =>
        simp only [GroupEntry.children_mk] at h
        subst h
        rfl

theorem budget_at_cons_pos (oversub : Bool) {Q : ℚ} (hQ : 0 < Q) (d : GroupData)
    {cs : List GroupEntry} {i : Nat} (rest : List Nat) {c : GroupEntry} (hc : cs[i]? = some c) :
    budget_at oversub Q (.mk d cs) (i :: rest)
      = budget_at oversub (child_budget oversub Q cs c.data) c rest := by
  rw [budget_at, if_neg (not_le.2 hQ), hc]

theorem budget_at_cons_nonpos (oversub : Bool) {Q : ℚ} (hQ : Q ≤ 0) (d : GroupData)
    (cs : List GroupEntry) (i : Nat) (rest : List Nat) :
    budget_at oversub Q (.mk d cs) (i :: rest) = 0 := by
  rw [budget_at, if_pos hQ]

/-- The node at the end of a path after `hgq_assign_quotas` on the root is the node that was
there, after `hgq_assign_quotas` with the budget passed down the path. -/
theorem assign_subtree_at (oversub : Bool) : ∀ (p : List Nat) (t : GroupEntry) (Q : ℚ)
    (n : GroupEntry), subtree_at t p = some n →
    subtree_at (hgq_assign_quotas oversub Q t) p
      = some (hgq_assign_quotas oversub (budget_at oversub Q t p) n) := by
  intro p
  induction p with
  | nil =>
    intro t Q n h
    rw [subtree_at_nil] at h
    cases h
    rw [subtree_at_nil]
    cases t
    rfl
  | cons i rest ih =>
    intro t Q n h
    cases t with
    | mk d cs =>
      obtain ⟨c, hc, hn⟩ := subtree_at_cons_some h
      by_cases hQ : Q ≤ 0
      · rw [assign_nonpos oversub hQ, budget_at_cons_nonpos oversub hQ,
          assign_nonpos oversub (le_refl _), h]
      · rw [assign_pos oversub (not_le.1 hQ), budget_at_cons_pos oversub (not_le.1 hQ) d rest hc]
        have hc' : (cs.map (fun c =>
            hgq_assign_quotas oversub (child_budget oversub Q cs c.data) c))[i]?
            = some (hgq_assign_quotas oversub (child_budget oversub Q cs c.data) c) := by
          rw [List.getElem?_map, hc]
          rfl
        rw [subtree_at_of_child hc']
        exact ih c _ n hn

/-! ### Surplus allocation leaves them alone -/

theorem surplus_loop_fuel_declined (by_quota : Bool) : ∀ (fuel : Nat) (st : SurplusLoop),
    ∃ G : Slot → Slot,
      (hgq_allocate_surplus_loop_fuel by_quota fuel st).slots = st.slots.map G ∧
      ∀ s, ¬ 0 < s.subtree_requested → G s = s := by
  intro fuel
  induction fuel with
  | zero => intro st; exact ⟨id, by simp [loop_fuel_zero], fun _ _ => rfl⟩
  | succ n ih =>
    intro st
    by_cases hd : surplus_loop_done by_quota st
    · rw [loop_fuel_of_done hd]
      exact ⟨id, by simp, fun _ _ => rfl⟩
    · rw [loop_fuel_succ_of_not_done hd]
      obtain ⟨G, hG, hG0⟩ := ih (surplus_loop_next by_quota st)
      refine ⟨G ∘ slot_allocate by_quota st.surplus (surplus_loop_Z by_quota st.slots), ?_, ?_⟩
      · rw [hG]
        show (List.map _ st.slots).map G = _
        rw [List.map_map]
      · intro s hs
        have : slot_allocate by_quota st.surplus (surplus_loop_Z by_quota st.slots) s = s := by
          unfold slot_allocate
          rw [if_neg hs]
        simp only [Function.comp, this]
        exact hG0 s hs

/-- One level of surplus allocation gives nothing to a group that declines surplus. -/
theorem allocate_surplus_level_declined (s R : ℚ) (groups : List GroupData) :
    ∃ G : GroupData → Slot,
      (allocate_surplus_level s R groups).slots = groups.map G ∧
      ∀ g, g.accept_surplus = false → (G g).allocated = 0 := by
  unfold allocate_surplus_level
  by_cases hc : s ≥ R
  · rw [if_pos hc]
    exact ⟨_, rfl, fun g hg => outstanding_request_of_not_accept hg⟩
  · rw [if_neg hc]
    obtain ⟨G1, h1, z1⟩ := surplus_loop_fuel_declined true
      ((groups.map (fun g =>
          ({ grp := g, allocated := 0, subtree_requested := outstanding_request g } : Slot))).length
        + 1)
      { slots := groups.map
          (fun g => { grp := g, allocated := 0, subtree_requested := outstanding_request g })
        surplus := s
        requested := R }
    obtain ⟨G2, h2, z2⟩ := surplus_loop_fuel_declined false
      ((hgq_allocate_surplus_loop true
        { slots := groups.map
            (fun g => { grp := g, allocated := 0, subtree_requested := outstanding_request g })
          surplus := s
          requested := R }).slots.length + 1)
      (hgq_allocate_surplus_loop true
        { slots := groups.map
            (fun g => { grp := g, allocated := 0, subtree_requested := outstanding_request g })
          surplus := s
          requested := R })
    refine ⟨fun g => G2 (G1
      ({ grp := g, allocated := 0, subtree_requested := outstanding_request g } : Slot)),
      ?_, ?_⟩
    · show (hgq_allocate_surplus_loop_fuel false _ _).slots = _
      rw [h2]
      show List.map G2 (hgq_allocate_surplus_loop_fuel true _ _).slots = _
      rw [h1, List.map_map, List.map_map]
      rfl
    · intro g hg
      have e0 : ∀ sl : Slot, sl.subtree_requested = 0 → ¬ 0 < sl.subtree_requested :=
        fun sl h => by rw [h]; exact lt_irrefl _
      have e1 := e0 ⟨g, 0, outstanding_request g⟩ (outstanding_request_of_not_accept hg)
      simp only [z1 _ e1, z2 _ e1]

theorem surplus_children_getElem : ∀ (cs : List GroupEntry) (slots : List Slot) (i : Nat)
    (c : GroupEntry), cs[i]? = some c →
    (hgq_allocate_surplus_children slots cs)[i]?
      = some (match slots[i]? with
          | some sl => if sl.allocated > 0 then (hgq_allocate_surplus sl.allocated c).1 else c
          | none => c) := by
  intro cs
  induction cs with
  | nil => intro slots i c h; simp at h
  | cons x cs ih =>
    intro slots i c h
    cases slots with
    | nil =>
      simp only [hgq_allocate_surplus_children]
      rw [h]
      simp
    | cons sl slots =>
      cases i with
      | zero =>
        simp only [List.getElem?_cons_zero, Option.some.injEq] at h
        subst h
        simp [hgq_allocate_surplus_children]
      | succ i =>
        simp only [List.getElem?_cons_succ] at h
        simp only [hgq_allocate_surplus_children, List.getElem?_cons_succ]
        exact ih slots i c h

/-- The subtree of a group that declines surplus is not touched by `hgq_allocate_surplus` on a
node above it. -/
theorem allocate_surplus_subtree_at : ∀ (p : List Nat), p ≠ [] → ∀ (t : GroupEntry) (s : ℚ)
    (m : GroupEntry), subtree_at t p = some m → m.data.accept_surplus = false →
    subtree_at (hgq_allocate_surplus s t).1 p = some m := by
  intro p
  induction p with
  | nil => intro h; exact absurd rfl h
  | cons i rest ih =>
    intro _ t s m h hm
    cases t with
    | mk d cs =>
      obtain ⟨c, hc, hn⟩ := subtree_at_cons_some h
      rw [hgq_allocate_surplus]
      by_cases h1 : s ≤ 0
      · rw [if_pos h1]; exact h
      · rw [if_neg h1]
        by_cases h2 : d.subtree_requested ≤ 0
        · rw [if_pos h2]; exact h
        · rw [if_neg h2]
          simp only
          obtain ⟨G, hG, hG0⟩ := allocate_surplus_level_declined s d.subtree_requested
            (cs.map GroupEntry.data ++ [splice_surplus d])
          rw [subtree_at_of_child (surplus_children_getElem cs _ i c hc), hG]
          have hi : i < cs.length := by
            by_contra hn'
            rw [List.getElem?_eq_none (not_lt.1 hn')] at hc
            cases hc
          have hsl : (List.map G (cs.map GroupEntry.data ++ [splice_surplus d]))[i]?
              = some (G c.data) := by
            rw [List.getElem?_map, List.getElem?_append_left (by simpa using hi),
              List.getElem?_map, hc]
            rfl
          rw [hsl]
          simp only
          by_cases hrest : rest = []
          · subst hrest
            rw [subtree_at_nil] at hn
            cases hn
            rw [hG0 _ hm, if_neg (lt_irrefl _), subtree_at_nil]
          · split_ifs
            · exact ih hrest c _ m hn hm
            · exact hn

/-! ### Round robin leaves them alone -/

theorem rr_visit_declined {groups : List GroupData} (amax : Option ℚ) (j : Nat)
    {st : RoundRobin} (h : List.Forall₂ DeclinedSlot groups st.slots) :
    List.Forall₂ DeclinedSlot groups (rr_visit amax j st).1.slots := by
  unfold rr_visit
  cases hs : st.slots[j]? with
  | none => exact h
  | some s =>
    simp only
    by_cases hc : (s.grp.accept_surplus && decide (s.subtree_requested > 0)) = true
    · rw [if_pos hc]
      simp only
      apply forall₂_set_right h hs
      intro g _ hg
      simp only [Bool.and_eq_true, decide_eq_true_eq] at hc
      refine ⟨hg.1, fun hf => ?_⟩
      rw [← hg.1, hc.1] at hf
      cases hf
    · rw [if_neg hc]
      exact h

theorem rr_pass_declined {groups : List GroupData} (amax : Option ℚ) : ∀ (js : List Nat)
    (st : RoundRobin), List.Forall₂ DeclinedSlot groups st.slots →
    List.Forall₂ DeclinedSlot groups (rr_pass amax js st).slots := by
  intro js
  induction js with
  | nil => intro st h; exact h
  | cons j js ih =>
    intro st h
    rw [rr_pass_cons]
    split_ifs
    · exact rr_visit_declined amax j h
    · exact ih _ (rr_visit_declined amax j h)

theorem rr_loop_declined {groups : List GroupData} (idx : List Nat) : ∀ (fuel : Nat)
    (st : RoundRobin), List.Forall₂ DeclinedSlot groups st.slots →
    List.Forall₂ DeclinedSlot groups (rr_loop idx fuel st).slots := by
  intro fuel
  induction fuel with
  | zero => intro st h; exact h
  | succ n ih =>
    intro st h
    by_cases hd : rr_done st
    · rw [rr_loop_of_done hd]; exact h
    · rw [rr_loop_succ hd]
      split_ifs
      · exact rr_pass_declined _ idx _ h
      · exact ih _ (rr_pass_declined _ idx _ h)

/-- One level of round robin gives nothing to a group that declines surplus and does not set
its `rr` flag. -/
theorem round_robin_level_declined (s R : ℚ) (groups : List GroupData) :
    List.Forall₂ DeclinedSlot groups (round_robin_level s R groups).slots := by
  unfold round_robin_level
  apply rr_loop_declined
  simp only
  rw [List.forall₂_map_right_iff]
  exact List.forall₂_same.2 (fun g _ => ⟨rfl, fun _ => ⟨rfl, rfl⟩⟩)

theorem forall₂_getElem?_left {α β : Type} {R : α → β → Prop} {l : List α} {l' : List β}
    (h : List.Forall₂ R l l') {j : Nat} {a : α} (hj : l[j]? = some a) :
    ∃ b, l'[j]? = some b ∧ R a b := by
  induction h generalizing j with
  | nil => simp at hj
  | cons hr _ ih =>
    cases j with
    | zero =>
      simp only [List.getElem?_cons_zero, Option.some.injEq] at hj
      subst hj
      exact ⟨_, by simp, hr⟩
    | succ j =>
      simp only [List.getElem?_cons_succ] at hj ⊢
      exact ih hj

theorem round_robin_children_getElem : ∀ (cs : List GroupEntry) (slots : List Slot) (i : Nat)
    (c : GroupEntry), cs[i]? = some c →
    (hgq_round_robin_children slots cs)[i]?
      = some (match slots[i]? with
          | some sl => mark_rr sl.grp.rr
              (if sl.allocated > 0 then (hgq_round_robin sl.allocated c).1 else c)
          | none => c) := by
  intro cs
  induction cs with
  | nil => intro slots i c h; simp at h
  | cons x cs ih =>
    intro slots i c h
    cases slots with
    | nil =>
      simp only [hgq_round_robin_children]
      rw [h]
      simp
    | cons sl slots =>
      cases i with
      | zero =>
        simp only [List.getElem?_cons_zero, Option.some.injEq] at h
        subst h
        simp [hgq_round_robin_children]
      | succ i =>
        simp only [List.getElem?_cons_succ] at h
        simp only [hgq_round_robin_children, List.getElem?_cons_succ]
        exact ih slots i c h

theorem mark_rr_self (t : GroupEntry) : mark_rr t.data.rr t = t := by
  cases t with
  | mk d cs =>
    rw [mark_rr_mk]
    simp

theorem mark_rr_children (b : Bool) (t : GroupEntry) :
    (mark_rr b t).children = t.children := by
  cases t; rfl

/-- The subtree of a group that declines surplus is not touched by `hgq_round_robin` on a
node above it. -/
theorem round_robin_subtree_at : ∀ (p : List Nat), p ≠ [] → ∀ (t : GroupEntry) (s : ℚ)
    (m : GroupEntry), subtree_at t p = some m → m.data.accept_surplus = false →
    subtree_at (hgq_round_robin s t).1 p = some m := by
  intro p
  induction p with
  | nil => intro h; exact absurd rfl h
  | cons i rest ih =>
    intro _ t s m h hm
    cases t with
    | mk d cs =>
      obtain ⟨c, hc, hn⟩ := subtree_at_cons_some h
      have hkeep : subtree_at (.mk (force_integer d) cs) (i :: rest) = some m := by
        rw [subtree_at_of_child hc]; exact hn
      rw [hgq_round_robin]
      simp only
      by_cases h1 : (force_integer d).subtree_requested ≤ 0
      · rw [if_pos h1]; exact hkeep
      · rw [if_neg h1]
        by_cases h2 : s < 1
        · rw [if_pos h2]; exact hkeep
        · rw [if_neg h2]
          have hrel := round_robin_level_declined s (force_integer d).subtree_requested
            (cs.map GroupEntry.data ++ [splice_rr (force_integer d)])
          rw [subtree_at_of_child (round_robin_children_getElem cs _ i c hc)]
          have hi : i < cs.length := by
            by_contra hn'
            rw [List.getElem?_eq_none (not_lt.1 hn')] at hc
            cases hc
          have hg : (cs.map GroupEntry.data ++ [splice_rr (force_integer d)])[i]?
              = some c.data := by
            rw [List.getElem?_append_left (by simpa using hi), List.getElem?_map, hc]
            rfl
          obtain ⟨sl, hsl, hdecl⟩ := forall₂_getElem?_left hrel hg
          rw [hsl]
          simp only
          by_cases hrest : rest = []
          · subst hrest
            rw [subtree_at_nil] at hn
            cases hn
            obtain ⟨e1, e2⟩ := hdecl.2 hm
            rw [e1, if_neg (lt_irrefl _), e2, mark_rr_self, subtree_at_nil]
          · rw [subtree_at_children (mark_rr_children _ _) hrest]
            split_ifs
            · exact ih hrest c _ m hn hm
            · exact hn

/-! ### The phases of a cycle on the subtree of a group that declines surplus -/

theorem allocate_surplus_accept (s : ℚ) (t : GroupEntry) :
    (hgq_allocate_surplus s t).1.data.accept_surplus = t.data.accept_surplus := by
  cases t with
  | mk d cs =>
    rw [hgq_allocate_surplus]
    split_ifs <;> rfl

theorem fairshare_accept (t : GroupEntry) :
    (hgq_fairshare t).1.data.accept_surplus = t.data.accept_surplus := by
  cases t with
  | mk d cs =>
    by_cases hcs : cs = []
    · subst hcs
      rw [fairshare_leaf]
      rfl
    · rw [fairshare_node d hcs, allocate_surplus_accept]
      rfl

theorem force_integer_accept (d : GroupData) :
    (force_integer d).accept_surplus = d.accept_surplus := by
  unfold force_integer
  split_ifs <;> rfl

theorem round_robin_accept (s : ℚ) (t : GroupEntry) :
    (hgq_round_robin s t).1.data.accept_surplus = t.data.accept_surplus := by
  cases t with
  | mk d cs =>
    rw [hgq_round_robin]
    simp only
    split_ifs <;> simp only [GroupEntry.data_mk, force_integer_accept]

theorem recover_accept (t : GroupEntry) :
    (hgq_recover_remainders t).1.data.accept_surplus = t.data.accept_surplus := by
  cases t with
  | mk d cs =>
    by_cases hcs : cs = []
    · subst hcs
      rw [recover_leaf]
      rfl
    · obtain ⟨srt, h⟩ := recover_node d hcs
      rw [h, round_robin_accept]
      rfl

theorem assign_accept (oversub : Bool) (Q : ℚ) (t : GroupEntry) :
    (hgq_assign_quotas oversub Q t).data.accept_surplus = t.data.accept_surplus := by
  have := forall₂_nodes_head (assign_frame oversub t Q)
  rw [this]

/-- After `hgq_fairshare` on the root, the subtree of a group that declines surplus is what
`hgq_fairshare` on the group alone makes of it. -/
theorem fairshare_subtree_at : ∀ (p : List Nat), p ≠ [] → ∀ (t m : GroupEntry),
    subtree_at t p = some m → m.data.accept_surplus = false →
    subtree_at (hgq_fairshare t).1 p = some (hgq_fairshare m).1 := by
  intro p
  induction p with
  | nil => intro h; exact absurd rfl h
  | cons i rest ih =>
    intro hp t m h hm
    cases t with
    | mk d cs =>
      obtain ⟨c, hc, hn⟩ := subtree_at_cons_some h
      have hcs : cs ≠ [] := by
        intro he
        rw [he] at hc
        simp at hc
      rw [fairshare_node d hcs]
      apply allocate_surplus_subtree_at _ hp
      · have hc' : (cs.map (fun c => (hgq_fairshare c).1))[i]? = some (hgq_fairshare c).1 := by
          rw [List.getElem?_map, hc]
          rfl
        rw [subtree_at_of_child hc']
        by_cases hrest : rest = []
        · subst hrest
          rw [subtree_at_nil] at hn
          cases hn
          rw [subtree_at_nil]
        · exact ih hrest c m hn hm
      · rw [fairshare_accept]; exact hm

/-- After `hgq_recover_remainders` on the root, the subtree of a group that declines surplus
is what `hgq_recover_remainders` on the group alone makes of it. -/
theorem recover_subtree_at : ∀ (p : List Nat), p ≠ [] → ∀ (t m : GroupEntry),
    subtree_at t p = some m → m.data.accept_surplus = false →
    subtree_at (hgq_recover_remainders t).1 p = some (hgq_recover_remainders m).1 := by
  intro p
  induction p with
  | nil => intro h; exact absurd rfl h
  | cons i rest ih =>
    intro hp t m h hm
    cases t with
    | mk d cs =>
      obtain ⟨c, hc, hn⟩ := subtree_at_cons_some h
      have hcs : cs ≠ [] := by
        intro he
        rw [he] at hc
        simp at hc
      obtain ⟨srt, hnode⟩ := recover_node d hcs
      rw [hnode]
      apply round_robin_subtree_at _ hp
      · have hc' : (cs.map (fun c => (hgq_recover_remainders c).1))[i]?
            = some (hgq_recover_remainders c).1 := by
          rw [List.getElem?_map, hc]
          rfl
        rw [subtree_at_of_child hc']
        by_cases hrest : rest = []
        · subst hrest
          rw [subtree_at_nil] at hn
          cases hn
          rw [subtree_at_nil]
        · exact ih hrest c m hn hm
      · rw [recover_accept]; exact hm

/-- After a cycle on the root, the subtree of a group that declines surplus is what a cycle
on the group alone, with the budget that was passed to it, makes of it. -/
theorem cycle_subtree_at (oversub : Bool) (P : ℚ) (t : GroupEntry) (p : List Nat)
    (hp : p ≠ []) (n : GroupEntry) (h : subtree_at t p = some n)
    (hn : n.data.accept_surplus = false) :
    subtree_at (hgq_cycle oversub P t) p
      = some (hgq_cycle oversub (budget_at oversub P t p) n) := by
  unfold hgq_cycle
  have h1 := assign_subtree_at oversub p t P n h
  have a1 : (hgq_assign_quotas oversub (budget_at oversub P t p) n).data.accept_surplus = false := by
    rw [assign_accept]; exact hn
  have h2 := fairshare_subtree_at p hp _ _ h1 a1
  have a2 : (hgq_fairshare
      (hgq_assign_quotas oversub (budget_at oversub P t p) n)).1.data.accept_surplus = false := by
    rw [fairshare_accept]; exact a1
  exact recover_subtree_at p hp _ _ h2 a2

/-- C5: the subtree of a group `n` that declines surplus ends a cycle as a cycle on `n`
alone, with the budget passed to `n`, leaves it; so it is the same in any two cycles with the
same oversubscription flag that pass the same budget to `n`, whatever the rest of the two
trees and the two pool sizes; and `hgq_allocate_surplus` and `hgq_round_robin` on a parent of
`n` leave `n` as it is. -/
theorem isolation (oversub : Bool) (P1 P2 : ℚ) (t1 t2 : GroupEntry) (p1 p2 : List Nat)
    (n : GroupEntry) (hp1 : p1 ≠ []) (hp2 : p2 ≠ [])
    (h1 : subtree_at t1 p1 = some n) (h2 : subtree_at t2 p2 = some n)
    (hn : n.data.accept_surplus = false)
    (hb : budget_at oversub P1 t1 p1 = budget_at oversub P2 t2 p2) :
    subtree_at (hgq_cycle oversub P1 t1) p1 = subtree_at (hgq_cycle oversub P2 t2) p2 ∧
    subtree_at (hgq_cycle oversub P1 t1) p1
      = some (hgq_cycle oversub (budget_at oversub P1 t1 p1) n) ∧
    (∀ (s : ℚ) (t : GroupEntry) (i : Nat), subtree_at t [i] = some n →
      subtree_at (hgq_allocate_surplus s t).1 [i] = some n ∧
      subtree_at (hgq_round_robin s t).1 [i] = some n) := by
  refine ⟨?_, cycle_subtree_at oversub P1 t1 p1 hp1 n h1 hn, ?_⟩
  · rw [cycle_subtree_at oversub P1 t1 p1 hp1 n h1 hn,
      cycle_subtree_at oversub P2 t2 p2 hp2 n h2 hn, hb]
  · intro s t i h
    exact ⟨allocate_surplus_subtree_at [i] (by simp) t s n h hn,
      round_robin_subtree_at [i] (by simp) t s n h hn⟩

/-- C5 (witness): group `b` of scenario 3 (static 10, demand 20, declines surplus) is passed
the budget 10 in a pool of 100 next to `a` and in a pool of 60 next to `c`; it ends both
cycles in the same state, and scenario 3 ends with `a = 5`, `b = 10`. -/
theorem isolation_witness :
    ([1] : List Nat) ≠ [] ∧
    subtree_at example_surplus_refused [1] = some (leaf_group "b" 10 true false 20 0) ∧
    subtree_at example_other_siblings [1] = some (leaf_group "b" 10 true false 20 0) ∧
    (leaf_group "b" 10 true false 20 0).data.accept_surplus = false ∧
    budget_at false 100 example_surplus_refused [1]
      = budget_at false 60 example_other_siblings [1] ∧
    subtree_at (hgq_cycle false 100 example_surplus_refused) [1]
      = subtree_at (hgq_cycle false 60 example_other_siblings) [1] ∧
    (hgq_cycle false 100 example_surplus_refused).nodes.map GroupData.allocated = [0, 5, 10] ∧
    (hgq_cycle false 60 example_other_siblings).nodes.map GroupData.allocated = [0, 50, 10] :=
  ⟨by simp, rfl, rfl, rfl, by decide!,
    (isolation false 100 60 example_surplus_refused example_other_siblings [1] [1]
      (leaf_group "b" 10 true false 20 0) (by simp) (by simp) rfl rfl rfl (by decide!)).1,
    by decide!, by decide!⟩

/-! ## The allocation cycle -/

theorem isInt_iff_floor {x : ℚ} : IsInt x ↔ ((⌊x⌋ : ℤ) : ℚ) = x :=
  ⟨fun h => h.floor_eq, fun h => ⟨⌊x⌋, h.symm⟩⟩

theorem forall₂_sum_le {α β : Type} {R : α → β → Prop} {f : β → ℚ} {g : α → ℚ}
    (hR : ∀ a b, R a b → f b ≤ g a) {l : List α} {l' : List β} (h : List.Forall₂ R l l') :
    (l'.map f).sum ≤ (l.map g).sum := by
  induction h with
  | nil => simp
  | cons hr _ ih =>
    simp only [List.map_cons, List.sum_cons]
    linarith [hR _ _ hr]

theorem forall₂_sum_eq {α β : Type} {R : α → β → Prop} {f : β → ℚ} {g : α → ℚ}
    (hR : ∀ a b, R a b → f b = g a) {l : List α} {l' : List β} (h : List.Forall₂ R l l') :
    (l'.map f).sum = (l.map g).sum := by
  induction h with
  | nil => simp
  | cons hr _ ih =>
    simp only [List.map_cons, List.sum_cons]
    rw [hR _ _ hr, ih]

/-- The state after `hgq_assign_quotas` on a fresh tree: the quotas are nonnegative and the
demands are untouched. -/
theorem assign_state (oversub : Bool) (P : ℚ) (t : GroupEntry) (hf : fresh t = true)
    (hd : ∀ d ∈ t.nodes, 0 ≤ d.requested) :
    QuotaNonneg (hgq_assign_quotas oversub P t) ∧
    (∀ d ∈ (hgq_assign_quotas oversub P t).nodes, 0 ≤ d.requested) ∧
    List.Forall₂ (fun d d' => d'.requested = d.requested ∧
        d'.accept_surplus = d.accept_surplus)
      t.nodes (hgq_assign_quotas oversub P t).nodes := by
  have hfr := assign_frame oversub t P
  refine ⟨assign_quota_nonneg oversub t P hf, ?_, ?_⟩
  · intro d' hd'
    obtain ⟨d, hdm, hr⟩ := forall₂_mem_right hfr hd'
    rw [hr]
    exact hd d hdm
  · exact hfr.imp (fun d d' h => by rw [h]; exact ⟨rfl, rfl⟩)

/-- The first two phases of a cycle on a fresh tree with nonnegative demands, node by
node. -/
theorem fairshare_frames (oversub : Bool) (P : ℚ) (t : GroupEntry) (hf : fresh t = true)
    (hd : ∀ d ∈ t.nodes, 0 ≤ d.requested) :
    List.Forall₂
      (fun d d2 => ∃ d1, d1.requested = d.requested ∧
        d1.accept_surplus = d.accept_surplus ∧ 0 ≤ d1.quota ∧ FairshareFrame d1 d2)
      t.nodes (hgq_fairshare (hgq_assign_quotas oversub P t)).1.nodes := by
  obtain ⟨hq, hd1, hfr⟩ := assign_state oversub P t hf hd
  obtain ⟨f1, f2, f3, f4, f5⟩ := fairshare_spec _ hq hd1
  have hfr' : List.Forall₂ (fun d d1 => d1.requested = d.requested ∧
      d1.accept_surplus = d.accept_surplus ∧ 0 ≤ d1.quota)
      t.nodes (hgq_assign_quotas oversub P t).nodes := by
    rw [List.forall₂_iff_zip] at hfr ⊢
    refine ⟨hfr.1, fun {a b} hab => ?_⟩
    obtain ⟨h1, h2⟩ := hfr.2 hab
    exact ⟨h1, h2, (hq b (List.of_mem_zip hab).2).1⟩
  exact forall₂_trans
    (fun d d2 => ∃ d1, d1.requested = d.requested ∧
      d1.accept_surplus = d.accept_surplus ∧ 0 ≤ d1.quota ∧ FairshareFrame d1 d2)
    (fun a b c h1 h2 => ⟨b, h1.1, h1.2.1, h1.2.2, h2⟩) hfr' f5

/-- The three phases of a cycle on a fresh tree with nonnegative demands, node by node. -/
theorem cycle_frames (oversub : Bool) (P : ℚ) (t : GroupEntry) (hf : fresh t = true)
    (hd : ∀ d ∈ t.nodes, 0 ≤ d.requested) :
    List.Forall₂
      (fun d d3 => ∃ d1 d2, d1.requested = d.requested ∧
        d1.accept_surplus = d.accept_surplus ∧ 0 ≤ d1.quota ∧
        FairshareFrame d1 d2 ∧ RecoverFrame d2 d3)
      t.nodes (hgq_cycle oversub P t).nodes := by
  obtain ⟨hq, hd1, -⟩ := assign_state oversub P t hf hd
  obtain ⟨f1, -⟩ := fairshare_spec _ hq hd1
  obtain ⟨-, -, -, -, -, r6⟩ := recover_spec _ (consistent_requested_nonneg f1)
  exact forall₂_trans _
    (fun a b c h1 h2 => by
      obtain ⟨d1, e1, e2, e3, e4⟩ := h1
      exact ⟨d1, b, e1, e2, e3, e4, h2⟩) (fairshare_frames oversub P t hf hd) r6

/-- The totals through the three phases of a cycle on a fresh tree with nonnegative demands
and pool, with oversubscription off. -/
theorem cycle_totals (P : ℚ) (t : GroupEntry) (hf : fresh t = true) (hP : 0 ≤ P)
    (hd : ∀ d ∈ t.nodes, 0 ≤ d.requested) :
    ∃ s2 s3 : ℚ, 0 ≤ s2 ∧ 0 ≤ s3 ∧
      total_allocated (hgq_fairshare (hgq_assign_quotas false P t)).1 + s2 = P ∧
      total_allocated (hgq_cycle false P t) + s3
        = total_allocated (hgq_fairshare (hgq_assign_quotas false P t)).1 ∧
      (s2 = 0 ∨ (hgq_fairshare (hgq_assign_quotas false P t)).1.data.subtree_requested = 0) ∧
      (s3 < 1 ∨ (hgq_cycle false P t).data.subtree_requested = 0) ∧
      Consistent (hgq_fairshare (hgq_assign_quotas false P t)).1 ∧
      Consistent (hgq_cycle false P t) := by
  obtain ⟨hq, hd1, -⟩ := assign_state false P t hf hd
  obtain ⟨f1, f2, f3, f4, -⟩ := fairshare_spec _ hq hd1
  obtain ⟨r1, r2, r3, r4, r5, -⟩ := recover_spec _ (consistent_requested_nonneg f1)
  rw [assign_total_quota t P hP hf] at f3
  exact ⟨_, _, f2, r3, f3, r4, f4, r5, f1, r1⟩

/-- C1 (as amended): with oversubscription off, on a freshly constructed tree with a
nonnegative pool size and nonnegative demands, the sum of `allocated` over all nodes after
`hgq_assign_quotas`, `hgq_fairshare` and `hgq_recover_remainders` is at most the pool size and
at most the sum of the demands. -/
theorem conservation (P : ℚ) (t : GroupEntry) (hf : fresh t = true) (hP : 0 ≤ P)
    (hd : ∀ d ∈ t.nodes, 0 ≤ d.requested) :
    total_allocated (hgq_cycle false P t) ≤ min P (total_requested t) := by
  obtain ⟨s2, s3, h2, h3, e2, e3, -⟩ := cycle_totals P t hf hP hd
  have hfr := fairshare_frames false P t hf hd
  apply le_min
  · linarith
  · have : total_allocated (hgq_fairshare (hgq_assign_quotas false P t)).1
        ≤ total_requested t := by
      unfold total_allocated total_requested
      apply forall₂_sum_le _ hfr
      rintro d d2 ⟨d1, e1, -, -, -, a1, -, a3, -⟩
      rw [← e1, ← a1]
      linarith
    linarith

/-- C1 (counterexample): with oversubscription on, a static group of quota 200 that demands
200 slots in a pool of 100 is allocated 200 slots, more than the pool holds. -/
theorem conservation_fails_with_oversubscription :
    ¬ (total_allocated (hgq_cycle true 100 example_oversubscribed)
        ≤ min 100 (total_requested example_oversubscribed)) := by
  decide!

/-- C1 (witness): the conservation bound on scenario 3 of the specification. -/
theorem conservation_witness :
    fresh example_surplus_refused = true ∧ (0 : ℚ) ≤ 100 ∧
    (∀ d ∈ example_surplus_refused.nodes, 0 ≤ d.requested) ∧
    total_allocated (hgq_cycle false 100 example_surplus_refused)
      ≤ min 100 (total_requested example_surplus_refused) :=
  ⟨by decide!, by norm_num, by decide!,
    conservation 100 example_surplus_refused (by decide!) (by norm_num) (by decide!)⟩

theorem forall₂_all_zip {α β : Type} {R : α → β → Prop} [∀ a b, Decidable (R a b)]
    {l : List α} {l' : List β} (h : List.Forall₂ R l l') :
    (l.zip l').all (fun p => decide (R p.1 p.2)) = true := by
  rw [List.all_eq_true]
  rintro ⟨a, b⟩ hp
  simpa using List.forall₂_zip h hp

/-- C2 (as amended): on a freshly constructed tree whose demands are nonnegative integers,
for every pool size and either setting of the oversubscription flag, every node's final
`allocated` is at most the `requested` value it had when the cycle started. -/
theorem no_over_allocation (oversub : Bool) (P : ℚ) (t : GroupEntry) (hf : fresh t = true)
    (hd : ∀ d ∈ t.nodes, 0 ≤ d.requested ∧ ((⌊d.requested⌋ : ℤ) : ℚ) = d.requested) :
    List.Forall₂ (fun d d3 => d3.allocated ≤ d.requested)
      t.nodes (hgq_cycle oversub P t).nodes := by
  have hfr := cycle_frames oversub P t hf (fun d h => (hd d h).1)
  rw [List.forall₂_iff_zip] at hfr ⊢
  refine ⟨hfr.1, fun {d d3} hp => ?_⟩
  obtain ⟨d1, d2, e1, -, -, hF, hR⟩ := hfr.2 hp
  obtain ⟨-, a1, -⟩ := hF
  obtain ⟨-, b1, -, -, -, b4⟩ := hR
  have hint : IsInt d.requested := isInt_iff_floor.2 (hd d (List.of_mem_zip hp).1).2
  rw [a1, e1, round_for_precision_int hint] at b1
  linarith

/-- C2 (counterexample): two groups that demand 0.6 slots each; their fractions add up to a
whole slot, which round robin gives to the first, so it ends with 1 slot for a demand of
0.6. -/
theorem no_over_allocation_fails_for_fractional_demand :
    ¬ List.Forall₂ (fun d d3 => d3.allocated ≤ d.requested)
        example_fractional.nodes (hgq_cycle false 10 example_fractional).nodes :=
  fun h => absurd (forall₂_all_zip h) (by decide!)

/-- C2 (witness): no node of scenario 3 gets more than it demanded. -/
theorem no_over_allocation_witness :
    fresh example_surplus_refused = true ∧
    (∀ d ∈ example_surplus_refused.nodes,
      0 ≤ d.requested ∧ ((⌊d.requested⌋ : ℤ) : ℚ) = d.requested) ∧
    List.Forall₂ (fun d d3 => d3.allocated ≤ d.requested)
      example_surplus_refused.nodes (hgq_cycle false 100 example_surplus_refused).nodes :=
  ⟨by decide!, by decide!,
    no_over_allocation false 100 example_surplus_refused (by decide!) (by decide!)⟩

/-- C3: in every state with nonnegative quotas and demands (as `hgq_assign_quotas` leaves
it), after `hgq_fairshare` and then `hgq_recover_remainders` every node's `allocated` is a
nonnegative integer. -/
theorem integrality (t : GroupEntry)
    (hq : ∀ d ∈ t.nodes, 0 ≤ d.quota ∧ 0 ≤ d.subtree_quota)
    (hd : ∀ d ∈ t.nodes, 0 ≤ d.requested) :
    ∀ d ∈ (hgq_recover_remainders (hgq_fairshare t).1).1.nodes,
      0 ≤ d.allocated ∧ ((⌊d.allocated⌋ : ℤ) : ℚ) = d.allocated := by
  obtain ⟨f1, -, -, -, f5⟩ := fairshare_spec t hq hd
  obtain ⟨-, -, -, -, -, r6⟩ := recover_spec _ (consistent_requested_nonneg f1)
  intro d3 hd3
  obtain ⟨d2, hd2, hR⟩ := forall₂_mem_right r6 hd3
  obtain ⟨d1, -, hF⟩ := forall₂_mem_right f5 hd2
  obtain ⟨-, -, a2, -⟩ := hF
  obtain ⟨-, -, b2, -, b3, -⟩ := hR
  exact ⟨le_trans (floor_cast_nonneg a2) b3, isInt_iff_floor.1 b2⟩

/-- C3 (witness): the quotas assigned in the example with fractional demands are not
negative, and the final allocations are nonnegative integers. -/
theorem integrality_witness :
    (∀ d ∈ (hgq_assign_quotas false 10 example_fractional).nodes,
      0 ≤ d.quota ∧ 0 ≤ d.subtree_quota) ∧
    (∀ d ∈ (hgq_assign_quotas false 10 example_fractional).nodes, 0 ≤ d.requested) ∧
    ∀ d ∈ (hgq_cycle false 10 example_fractional).nodes,
      0 ≤ d.allocated ∧ ((⌊d.allocated⌋ : ℤ) : ℚ) = d.allocated :=
  ⟨by decide!, by decide!,
    integrality (hgq_assign_quotas false 10 example_fractional) (by decide!) (by decide!)⟩

/-- C6 (as amended): on a freshly constructed tree with nonnegative demands, a node that
declines surplus and whose demand is an integer not above the `quota` assigned to it by
`hgq_assign_quotas` ends the cycle with `allocated` equal to that demand. -/
theorem declined_surplus_exact (oversub : Bool) (P : ℚ) (t : GroupEntry) (hf : fresh t = true)
    (hd : ∀ d ∈ t.nodes, 0 ≤ d.requested) :
    List.Forall₂
      (fun d1 d3 => d1.accept_surplus = false →
        ((⌊d1.requested⌋ : ℤ) : ℚ) = d1.requested → d1.requested ≤ d1.quota →
        d3.allocated = d1.requested)
      (hgq_assign_quotas oversub P t).nodes (hgq_cycle oversub P t).nodes := by
  obtain ⟨hq, hd1, -⟩ := assign_state oversub P t hf hd
  obtain ⟨f1, -, -, -, f5⟩ := fairshare_spec _ hq hd1
  obtain ⟨-, -, -, -, -, r6⟩ := recover_spec _ (consistent_requested_nonneg f1)
  refine forall₂_trans _ ?_ f5 r6
  rintro d1 d2 d3 ⟨-, a1, a2, a3, a4⟩ ⟨-, b1, -, -, b3, b4⟩ - hint hle
  have hmin : min d1.requested d1.quota = d1.requested := min_eq_left hle
  rw [hmin] at a4
  have h2 : d2.allocated = d1.requested := by linarith
  have hfl : ((⌊d2.allocated⌋ : ℤ) : ℚ) = d1.requested := by rw [h2, hint]
  rw [a1, round_for_precision_int (isInt_iff_floor.2 hint)] at b1
  rw [hfl] at b3
  linarith

/-- C6 (counterexample): a group that declines surplus and demands half a slot within its
quota of 10 ends the cycle with no slot at all. -/
theorem declined_surplus_exact_fails_for_fractional_demand :
    ¬ List.Forall₂
      (fun d1 d3 => d1.accept_surplus = false → d1.requested ≤ d1.quota →
        d3.allocated = d1.requested)
      (hgq_assign_quotas false 100 example_half_slot).nodes
      (hgq_cycle false 100 example_half_slot).nodes :=
  fun h => absurd (forall₂_all_zip h) (by decide!)

/-- C6 (witness): group `b` declines surplus and demands 7 slots within its quota of 10; it
ends with 7 slots, while `a` gets its quota and the 3 slots `b` left. -/
theorem declined_surplus_exact_witness :
    fresh example_within_quota = true ∧
    (∀ d ∈ example_within_quota.nodes, 0 ≤ d.requested) ∧
    List.Forall₂
      (fun d1 d3 => d1.accept_surplus = false →
        ((⌊d1.requested⌋ : ℤ) : ℚ) = d1.requested → d1.requested ≤ d1.quota →
        d3.allocated = d1.requested)
      (hgq_assign_quotas false 20 example_within_quota).nodes
      (hgq_cycle false 20 example_within_quota).nodes ∧
    (hgq_cycle false 20 example_within_quota).nodes.map GroupData.allocated = [0, 13, 7] :=
  ⟨by decide!, by decide!,
    declined_surplus_exact false 20 example_within_quota (by decide!) (by decide!),
    by decide!⟩

/-! ## The claims about `hgq_assign_quotas` -/

theorem assign_children_eq (oversub : Bool) {Q : ℚ} (hQ : 0 < Q) (d : GroupData)
    (cs : List GroupEntry) :
    (hgq_assign_quotas oversub Q (.mk d cs)).children
      = cs.map (fun c => hgq_assign_quotas oversub (child_budget oversub Q cs c.data) c) := by
  rw [assign_pos oversub hQ]
  rfl

/-- C12 (as amended): in scenario 2 (groups `a` static 10 demand 5 and `b` static 10 demand
20, both accepting surplus, root demand 0, pool 100) the full cycle ends with
`allocated(a) = 5` and `allocated(b) = 20`, with either setting of the oversubscription flag:
`b` gets its quota of 10, the 5 slots `a` leaves and 5 of the 80 slots of quota the root
does not use. -/
theorem surplus_flowing_up (oversub : Bool) :
    allocated_at (hgq_cycle oversub 100 example_surplus_up) [0] = some 5 ∧
    allocated_at (hgq_cycle oversub 100 example_surplus_up) [1] = some 20 := by
  cases oversub <;> decide!

/-- C12 (counterexample): scenario 2 does not end with `allocated(a) = 5` and
`allocated(b) = 15`. -/
theorem surplus_flowing_up_not_fifteen :
    ¬ (allocated_at (hgq_cycle false 100 example_surplus_up) [0] = some 5 ∧
       allocated_at (hgq_cycle false 100 example_surplus_up) [1] = some 15) := by
  decide!

/-- C19 (as amended): `hgq_assign_quotas(q)` with `q <= 0` returns at once and leaves the
node and its whole subtree as they are; so on a freshly constructed subtree, whose derived
quotas are zero, every node has `quota = 0` and `subtree_quota = 0` after the call. -/
theorem assign_nonpositive_budget (oversub : Bool) (q : ℚ) (t : GroupEntry) (hq : q ≤ 0) :
    hgq_assign_quotas oversub q t = t ∧
    (fresh t = true →
      ∀ d ∈ (hgq_assign_quotas oversub q t).nodes, d.quota = 0 ∧ d.subtree_quota = 0) := by
  refine ⟨assign_nonpos oversub hq t, fun hf d hd => ?_⟩
  rw [assign_nonpos oversub hq t] at hd
  have := List.all_eq_true.1 hf d hd
  obtain ⟨-, h1, h2, -⟩ := fresh_node_iff.1 this
  exact ⟨h1, h2⟩

/-- C19 (counterexample): a leaf whose `quota` and `subtree_quota` are 5 from an earlier call
keeps them when `hgq_assign_quotas(0)` is called on it. -/
theorem assign_nonpositive_budget_keeps_stale_quota :
    ¬ ∀ d ∈ (hgq_assign_quotas false 0 example_stale).nodes,
      d.quota = 0 ∧ d.subtree_quota = 0 := by
  decide!

/-- C19 (witness): a call with budget 0 on the fresh tree of scenario 3. -/
theorem assign_nonpositive_budget_witness :
    (0 : ℚ) ≤ 0 ∧ hgq_assign_quotas false 0 example_surplus_refused = example_surplus_refused ∧
    (fresh example_surplus_refused = true →
      ∀ d ∈ (hgq_assign_quotas false 0 example_surplus_refused).nodes,
        d.quota = 0 ∧ d.subtree_quota = 0) :=
  ⟨le_refl _, assign_nonpositive_budget false 0 example_surplus_refused (le_refl _)⟩

/-- C18: with oversubscription on, a node other than the root that receives the subtree
budget `Q > 0` has `quota = Q = subtree_quota` after `hgq_assign_quotas`, and when the
configured quotas of its static children have a positive sum every static child is passed
exactly its configured quota, whatever `Q` is. -/
theorem oversubscription_mode (t : GroupEntry) (Q : ℚ) (hn : t.data.name ≠ "<none>")
    (hQ : 0 < Q) (hcs : ∀ c ∈ t.children, 0 ≤ c.data.config_quota) :
    (hgq_assign_quotas true Q t).data.quota = Q ∧
    (hgq_assign_quotas true Q t).data.subtree_quota = Q ∧
    (hgq_assign_quotas true Q t).children
      = t.children.map (fun c => hgq_assign_quotas true (child_budget true Q t.children c.data) c) ∧
    (0 < static_sum t.children → ∀ c ∈ t.children, c.data.static_quota = true →
      child_budget true Q t.children c.data = c.data.config_quota) := by
  obtain ⟨d, cs⟩ := t
  simp only [GroupEntry.data_mk, GroupEntry.children_mk] at hn hcs ⊢
  refine ⟨?_, ?_, assign_children_eq true hQ d cs, ?_⟩
  · rw [assign_pos true hQ]
    simp only [GroupEntry.data_mk, if_true, if_neg hn]
    rw [if_neg (not_lt.2 hQ.le)]
  · rw [assign_pos true hQ]
    rfl
  · intro hS c hc hs
    unfold child_budget
    rw [quota_sums_eq]
    simp only [static_budget, if_true, if_pos hS]
    rw [child_quota_static hs (hcs c hc) (by rw [div_self hS.ne']; norm_num), div_self hS.ne',
      mul_one]

/-- C18 (witness): group `a` with budget 10 and static subgroups of quotas 5 and 20: `a`
keeps `quota = 10` and the subgroups are passed 5 and 20. -/
theorem oversubscription_mode_witness :
    example_branch.data.name ≠ "<none>" ∧ (0 : ℚ) < 10 ∧
    (∀ c ∈ example_branch.children, 0 ≤ c.data.config_quota) ∧
    (hgq_assign_quotas true 10 example_branch).data.quota = 10 ∧
    (hgq_assign_quotas true 10 example_branch).nodes.map GroupData.subtree_quota
      = [10, 5, 20] :=
  ⟨by decide!, by norm_num, by decide!,
    (oversubscription_mode example_branch 10 (by decide!) (by norm_num) (by decide!)).1,
    by decide!⟩

/-! ### The settings of every node are the same after surplus allocation and round robin -/

theorem sameSettings_nodes_refl (l : List GroupData) : List.Forall₂ SameSettings l l :=
  List.forall₂_same.2 (fun x _ => SameSettings.settings_refl x)

theorem allocate_surplus_children_settings : ∀ (cs : List GroupEntry),
    (∀ c ∈ cs, ∀ s : ℚ, List.Forall₂ SameSettings c.nodes (hgq_allocate_surplus s c).1.nodes) →
    ∀ slots : List Slot,
    List.Forall₂ (fun c c' => List.Forall₂ SameSettings c.nodes c'.nodes) cs
      (hgq_allocate_surplus_children slots cs) := by
  intro cs
  induction cs with
  | nil =>
    intro _ slots
    cases slots <;> simp [hgq_allocate_surplus_children]
  | cons c cs ih =>
    intro h slots
    cases slots with
    | nil =>
      simp only [hgq_allocate_surplus_children]
      exact List.forall₂_same.2 (fun x _ => sameSettings_nodes_refl _)
    | cons sl slots =>
      simp only [hgq_allocate_surplus_children]
      refine List.Forall₂.cons ?_ (ih (fun x hx => h x (List.mem_cons_of_mem _ hx)) slots)
      split_ifs
      · exact h c (List.mem_cons_self _ _) _
      · exact sameSettings_nodes_refl _

/-- The function `hgq_allocate_surplus` leaves the settings of every node of the subtree as
they are, for every state and every surplus. -/
theorem allocate_surplus_settings (t : GroupEntry) : ∀ s : ℚ,
    List.Forall₂ SameSettings t.nodes (hgq_allocate_surplus s t).1.nodes := by
  induction t using GroupEntry.induct with
  | h d cs ih =>
    intro s
    rw [hgq_allocate_surplus]
    split_ifs
    · exact sameSettings_nodes_refl _
    · exact sameSettings_nodes_refl _
    · exact nodes_forall₂_mk ⟨rfl, rfl, rfl, rfl, rfl, rfl, rfl, rfl⟩
        (allocate_surplus_children_settings cs ih _)

theorem sameSettings_force_integer (d : GroupData) : SameSettings d (force_integer d) := by
  unfold force_integer
  split_ifs
  · exact ⟨rfl, rfl, rfl, rfl, rfl, rfl, rfl, rfl⟩
  · exact SameSettings.settings_refl d

theorem sameSettings_mark_rr {l : List GroupData} (b : Bool) (t : GroupEntry)
    (h : List.Forall₂ SameSettings l t.nodes) :
    List.Forall₂ SameSettings l (mark_rr b t).nodes := by
  obtain ⟨d, cs⟩ := t
  rw [mark_rr_mk]
  rw [nodes_mk] at h ⊢
  cases h with
  | cons h1 h2 => exact List.Forall₂.cons h1 h2

theorem round_robin_children_settings : ∀ (cs : List GroupEntry),
    (∀ c ∈ cs, ∀ s : ℚ, List.Forall₂ SameSettings c.nodes (hgq_round_robin s c).1.nodes) →
    ∀ slots : List Slot,
    List.Forall₂ (fun c c' => List.Forall₂ SameSettings c.nodes c'.nodes) cs
      (hgq_round_robin_children slots cs) := by
  intro cs
  induction cs with
  | nil =>
    intro _ slots
    cases slots <;> simp [hgq_round_robin_children]
  | cons c cs ih =>
    intro h slots
    cases slots with
    | nil =>
      simp only [hgq_round_robin_children]
      exact List.forall₂_same.2 (fun x _ => sameSettings_nodes_refl _)
    | cons sl slots =>
      simp only [hgq_round_robin_children]
      refine List.Forall₂.cons ?_ (ih (fun x hx => h x (List.mem_cons_of_mem _ hx)) slots)
      apply sameSettings_mark_rr
      split_ifs
      · exact h c (List.mem_cons_self _ _) _
      · exact sameSettings_nodes_refl _

/-- The function `hgq_round_robin` leaves the settings of every node of the subtree as they
are, for every state and every surplus. -/
theorem round_robin_settings (t : GroupEntry) : ∀ s : ℚ,
    List.Forall₂ SameSettings t.nodes (hgq_round_robin s t).1.nodes := by
  induction t using GroupEntry.induct with
  | h d cs ih =>
    intro s
    rw [hgq_round_robin]
    have hfi := sameSettings_force_integer d
    simp only
    split_ifs
    · exact nodes_forall₂_mk hfi (List.forall₂_same.2 (fun x _ => sameSettings_nodes_refl _))
    · exact nodes_forall₂_mk hfi (List.forall₂_same.2 (fun x _ => sameSettings_nodes_refl _))
    · exact nodes_forall₂_mk hfi (round_robin_children_settings cs ih _)

/-- C20: for every node state and every surplus value, after `hgq_allocate_surplus(surplus)`
and after `hgq_round_robin(surplus)` return, on every path, every node of the subtree has the
name, `config_quota`, `static_quota`, `accept_surplus`, `quota`, `subtree_quota`, `rr_time`
and `subtree_rr_time` it had before the call; only `allocated`, `requested`,
`subtree_requested` and `rr` may differ. -/
theorem splice_reverted (s : ℚ) (t : GroupEntry) :
    List.Forall₂ SameSettings t.nodes (hgq_allocate_surplus s t).1.nodes ∧
    List.Forall₂ SameSettings t.nodes (hgq_round_robin s t).1.nodes :=
  ⟨allocate_surplus_settings t s, round_robin_settings t s⟩

/-! ## Invariants of the rounds of `hgq_round_robin` -/

/-- An invariant `K` of the visits of one round, indexed by the indices still to be visited,
holds when the round ends, for the indices that were left: none, or those cut off by the
`break`, which is taken only with less than `amax` of surplus left. -/
theorem rr_pass_invariant (groups : List GroupData) {m : ℚ} (hm1 : 1 ≤ m) (hmi : IsInt m)
    (K : List Nat → List Slot → Prop)
    (hskip : ∀ (j : Nat) (js : List Nat) (slots : List Slot), j ∉ js →
      List.Forall₂ RRSlot groups slots → opt_pos slots[j]? = false →
      K (j :: js) slots → K js slots)
    (htake : ∀ (j : Nat) (js : List Nat) (slots : List Slot) (s : Slot), j ∉ js →
      List.Forall₂ RRSlot groups slots → slots[j]? = some s → 0 < s.subtree_requested →
      K (j :: js) slots →
      K js (slots.set j
        { grp := { s.grp with rr := true }
          allocated := s.allocated + min s.subtree_requested m
          subtree_requested := s.subtree_requested - min s.subtree_requested m })) :
    ∀ (js : List Nat) (st : RoundRobin), js.Nodup →
    List.Forall₂ RRSlot groups st.slots →
    m ≤ st.surplus →
    (m = 1 ∨ m * (pos_count_idx js st.slots : ℚ) ≤ st.surplus) →
    K js st.slots →
    ∃ js' : List Nat, K js' (rr_pass (some m) js st).slots ∧
      List.Forall₂ RRSlot groups (rr_pass (some m) js st).slots ∧
      (js' = [] ∨
        ((rr_pass (some m) js st).surplus < m ∧
          (m = 1 ∨ m * (pos_count_idx js' (rr_pass (some m) js st).slots : ℚ)
            ≤ (rr_pass (some m) js st).surplus))) := by
  intro js
  induction js with
  | nil =>
    intro st _ hrel _ _ hK
    rw [rr_pass_nil]
    exact ⟨[], hK, hrel, Or.inl rfl⟩
  | cons j js ih =>
    intro st hnd hrel hms hC hK
    have hnd' : js.Nodup := (List.nodup_cons.1 hnd).2
    have hj : j ∉ js := (List.nodup_cons.1 hnd).1
    rw [pos_count_idx_cons] at hC
    have hcase : (rr_visit (some m) j st = (st, false) ∧ opt_pos st.slots[j]? = false) ∨
        (∃ s, st.slots[j]? = some s ∧ 0 < s.subtree_requested) := by
      cases hs : st.slots[j]? with
      | none => exact Or.inl ⟨rr_visit_none hs, rfl⟩
      | some s =>
        by_cases hp : 0 < s.subtree_requested
        · exact Or.inr ⟨s, rfl, hp⟩
        · exact Or.inl ⟨rr_visit_skip hs hp, by simpa [opt_pos] using hp⟩
    rcases hcase with ⟨hv, hop⟩ | ⟨s, hs, hp⟩
    · rw [rr_pass_cons, hv]
      simp only [Bool.false_eq_true, if_false]
      have hC' : m = 1 ∨ m * (pos_count_idx js st.slots : ℚ) ≤ st.surplus := by
        simpa [hop] using hC
      exact ih st hnd' hrel hms hC' (hskip j js st.slots hj hrel hop hK)
    · obtain ⟨g, hg, hslot⟩ := forall₂_getElem? hrel hs
      have hacc := hslot.accept_of_pos hp
      have hop : opt_pos st.slots[j]? = true := by rw [hs]; simpa [opt_pos] using hp
      rw [hop] at hC
      simp only [if_true, Nat.cast_add, Nat.cast_one] at hC
      have hsi : IsInt s.subtree_requested := hslot.2.2.2.2.1
      have ha1 : 1 ≤ min s.subtree_requested m := le_min (hsi.one_le_of_pos hp) hm1
      have ham : min s.subtree_requested m ≤ m := min_le_right _ _
      set st' := rr_take m j s st with hst'
      have hrel' : List.Forall₂ RRSlot groups st'.slots :=
        forall₂_set_right hrel hs (fun a _ ha => ha.take hm1 hmi hp)
      have hidx : pos_count_idx js st'.slots = pos_count_idx js st.slots :=
        pos_count_idx_set hj _ _
      have hsur' : st'.surplus = st.surplus - min s.subtree_requested m := rfl
      have hC' : m = 1 ∨ m * (pos_count_idx js st'.slots : ℚ) ≤ st'.surplus := by
        rcases hC with hC | hC
        · exact Or.inl hC
        · right
          rw [hidx, hsur']
          have : m * ((pos_count_idx js st.slots : ℚ) + 1)
              = m * (pos_count_idx js st.slots : ℚ) + m := by ring
          linarith
      have hK' : K js st'.slots := htake j js st.slots s hj hrel hs hp hK
      rw [rr_pass_cons, rr_visit_take hs hacc hp]
      simp only
      by_cases hb : st'.surplus < m
      · rw [if_pos (by simpa using hb)]
        exact ⟨js, hK', hrel', Or.inr ⟨hb, hC'⟩⟩
      · rw [if_neg (by simpa using hb)]
        exact ih st' hnd' hrel' (not_lt.1 hb) hC' hK'

/-- An invariant `I` of the rounds that every round either keeps or ends, with less than one
slot of surplus left, in a state where `F` holds, makes `F` hold when the loop ends. -/
theorem rr_loop_invariant (groups : List GroupData) (idx : List Nat)
    (hidx : idx.Perm (List.range groups.length)) (I F : List Slot → Prop)
    (hIF : ∀ slots, I slots → F slots)
    (hround : ∀ (st : RoundRobin) (m : ℚ), List.Forall₂ RRSlot groups st.slots → 1 ≤ m →
      IsInt m → m ≤ st.surplus →
      (m = 1 ∨ m * (pos_count_idx idx st.slots : ℚ) ≤ st.surplus) → I st.slots →
      I (rr_pass (some m) idx st).slots ∨
        ((rr_pass (some m) idx st).surplus < 1 ∧ F (rr_pass (some m) idx st).slots)) :
    ∀ (fuel : Nat) (st : RoundRobin),
    List.Forall₂ RRSlot groups st.slots → 0 ≤ st.surplus →
    st.requested = (st.slots.map Slot.subtree_requested).sum →
    (st.surplus < 1 ∨ st.outstanding = (pos_count st.slots : ℚ)) →
    I st.slots → F (rr_loop idx fuel st).slots := by
  intro fuel
  induction fuel with
  | zero =>
    intro st _ _ _ _ hI
    rw [rr_loop_zero]
    exact hIF _ hI
  | succ n ih =>
    intro st hrel hs hreq hout hI
    by_cases hd : rr_done st
    · rw [rr_loop_of_done hd]
      exact hIF _ hI
    · obtain ⟨hk1, ⟨m, hm, hm1, hms⟩, p1, p2, p3, p4, p5, p6, p7⟩ :=
        rr_round_spec groups idx hidx st hrel hreq hout hd
      have hd' := hd
      unfold rr_done at hd'
      obtain ⟨hs1, hr0⟩ := not_not.1 hd'
      have hk : st.outstanding = (pos_count st.slots : ℚ) := by
        rcases hout with h | h
        · linarith
        · exact h
      have hk0 : st.outstanding ≠ 0 := by linarith
      have hmeq : m = max 1 ((⌊st.surplus / st.outstanding⌋ : ℤ) : ℚ) := by
        unfold rr_amax at hm
        rw [if_neg hk0] at hm
        exact (Option.some.inj hm).symm
      have hmi : IsInt m := by rw [hmeq]; exact IsInt.one.max (IsInt.intCast _)
      have hfl : ((⌊st.surplus / st.outstanding⌋ : ℤ) : ℚ) * st.outstanding ≤ st.surplus := by
        have h1 : ((⌊st.surplus / st.outstanding⌋ : ℤ) : ℚ) ≤ st.surplus / st.outstanding :=
          Int.floor_le _
        have h2 := mul_le_mul_of_nonneg_right h1 (by linarith : (0 : ℚ) ≤ st.outstanding)
        rwa [div_mul_cancel₀ _ hk0] at h2
      have hlen : st.slots.length = groups.length := hrel.length_eq.symm
      have hcnt : pos_count_idx idx st.slots = pos_count st.slots := by
        rw [pos_count_idx_perm hidx, ← hlen, pos_count_idx_range]
      have hC : m = 1 ∨ m * (pos_count_idx idx st.slots : ℚ) ≤ st.surplus := by
        rcases max_choice 1 ((⌊st.surplus / st.outstanding⌋ : ℤ) : ℚ) with h | h
        · exact Or.inl (hmeq.trans h)
        · right
          rw [hcnt, ← hk, hmeq, h]
          exact hfl
      rw [rr_loop_succ hd, if_neg (not_lt.2 p4)]
      rw [hm] at p1 p2 p6 p7 ⊢
      have hr := hround { st with outstanding := 0, sumalloc := 0 } m hrel hm1 hmi hms hC hI
      rcases hr with hr | ⟨hr1, hr2⟩
      · exact ih _ p1 p2 p6 p7 hr
      · rw [rr_loop_of_done]
        · exact hr2
        · unfold rr_done
          intro h
          linarith [h.1]

/-! ### Slots under `List.set` -/

theorem slot_allocated_of_getElem {slots : List Slot} {j : Nat} {s : Slot}
    (h : slots[j]? = some s) : slot_allocated slots j = s.allocated := by
  unfold slot_allocated
  rw [h]

theorem slot_request_of_getElem {slots : List Slot} {j : Nat} {s : Slot}
    (h : slots[j]? = some s) : slot_request slots j = s.subtree_requested := by
  unfold slot_request
  rw [h]

theorem slot_allocated_set_ne (slots : List Slot) {j x : Nat} (h : j ≠ x) (s : Slot) :
    slot_allocated (slots.set j s) x = slot_allocated slots x := by
  unfold slot_allocated
  rw [List.getElem?_set_ne h]

theorem slot_request_set_ne (slots : List Slot) {j x : Nat} (h : j ≠ x) (s : Slot) :
    slot_request (slots.set j s) x = slot_request slots x := by
  unfold slot_request
  rw [List.getElem?_set_ne h]

theorem getElem?_set_of_some {slots : List Slot} {j : Nat} {old : Slot}
    (h : slots[j]? = some old) (s : Slot) : (slots.set j s)[j]? = some s := by
  have hlt : j < slots.length := by
    by_contra hn
    rw [List.getElem?_eq_none (not_lt.1 hn)] at h
    exact Option.noConfusion h
  simp [List.getElem?_set, hlt]

theorem slot_allocated_set_self {slots : List Slot} {j : Nat} {old : Slot}
    (h : slots[j]? = some old) (s : Slot) : slot_allocated (slots.set j s) j = s.allocated :=
  slot_allocated_of_getElem (getElem?_set_of_some h s)

theorem slot_request_set_self {slots : List Slot} {j : Nat} {old : Slot}
    (h : slots[j]? = some old) (s : Slot) :
    slot_request (slots.set j s) j = s.subtree_requested :=
  slot_request_of_getElem (getElem?_set_of_some h s)

theorem slot_request_of_not_pos {slots : List Slot} {j : Nat}
    (h : opt_pos slots[j]? = false) : ¬ 0 < slot_request slots j := by
  unfold slot_request
  cases hs : slots[j]? with
  | none => simp
  | some s =>
    rw [hs] at h
    simpa [opt_pos] using h

theorem never_after_tail {x y j : Nat} {js : List Nat} (h : never_after x y (j :: js)) :
    never_after x y js := by
  intro l1 l2 e
  exact h (j :: l1) l2 (by rw [e]; rfl)

theorem never_after_head {x y : Nat} {js : List Nat} (h : never_after x y (y :: js)) :
    x ∉ js :=
  h [] js rfl

/-! ### The order of the indices -/

theorem orderedInsert_congr {α : Type} (r r' : α → α → Prop) [DecidableRel r]
    [DecidableRel r'] (a : α) : ∀ l : List α, (∀ b ∈ l, r a b ↔ r' a b) →
    l.orderedInsert r a = l.orderedInsert r' a := by
  intro l
  induction l with
  | nil => intro _; rfl
  | cons b l ih =>
    intro h
    simp only [List.orderedInsert]
    have hb := h b (List.mem_cons_self _ _)
    rw [ih (fun c hc => h c (List.mem_cons_of_mem _ hc))]
    by_cases hr : r a b
    · rw [if_pos hr, if_pos (hb.1 hr)]
    · rw [if_neg hr, if_neg (fun h' => hr (hb.2 h'))]

theorem insertionSort_congr {α : Type} (r r' : α → α → Prop) [DecidableRel r]
    [DecidableRel r'] : ∀ l : List α, (∀ a ∈ l, ∀ b ∈ l, r a b ↔ r' a b) →
    l.insertionSort r = l.insertionSort r' := by
  intro l
  induction l with
  | nil => intro _; rfl
  | cons a l ih =>
    intro h
    simp only [List.insertionSort]
    rw [ih (fun x hx y hy => h x (List.mem_cons_of_mem _ hx) y (List.mem_cons_of_mem _ hy))]
    apply orderedInsert_congr
    intro b hb
    have hb' : b ∈ l := (List.perm_insertionSort r' l).mem_iff.1 hb
    exact h a (List.mem_cons_self _ _) b (List.mem_cons_of_mem _ hb')

/-- The vector `idx` is sorted by `subtree_rr_time`. -/
theorem sorted_idx_sorted (groups : List GroupData) :
    List.Sorted (fun a b => rr_key groups a ≤ rr_key groups b) (sorted_idx groups) := by
  have e : sorted_idx groups
      = (List.range groups.length).insertionSort
          (fun a b => rr_key groups a ≤ rr_key groups b) := by
    unfold sorted_idx
    apply insertionSort_congr
    intro a ha b hb
    have ha' : a < groups.length := List.mem_range.1 ha
    have hb' : b < groups.length := List.mem_range.1 hb
    unfold ord_by_rr_time rr_key
    rw [List.getElem?_eq_getElem ha', List.getElem?_eq_getElem hb']
  rw [e]
  haveI : IsTotal ℕ (fun a b => rr_key groups a ≤ rr_key groups b) :=
    ⟨fun a b => le_total _ _⟩
  haveI : IsTrans ℕ (fun a b => rr_key groups a ≤ rr_key groups b) :=
    ⟨fun a b c h1 h2 => le_trans h1 h2⟩
  exact List.sorted_insertionSort _ _

/-- A group with a strictly smaller `subtree_rr_time` never comes after one with a larger
`subtree_rr_time` in `idx`. -/
theorem sorted_idx_never_after (groups : List GroupData) {x y : Nat}
    (ht : rr_key groups x < rr_key groups y) : never_after x y (sorted_idx groups) := by
  intro l1 l2 e hx
  have hs := sorted_idx_sorted groups
  rw [e] at hs
  have h2 := (List.pairwise_append.1 hs).2.1
  have h3 := (List.pairwise_cons.1 h2).1 x hx
  simp only at h3
  linarith

/-! ### The ordering rule of one call of `hgq_round_robin` -/

/-- The initial state of the rounds. -/
theorem rr_initial_state (groups : List GroupData)
    (hint : ∀ g ∈ groups, IsInt (outstanding_request g)) :
    List.Forall₂ RRSlot groups
      (groups.map (fun g =>
        ({ grp := g, allocated := 0, subtree_requested := outstanding_request g } : Slot))) := by
  rw [List.forall₂_map_right_iff]
  apply List.forall₂_same.2
  intro g hg
  exact ⟨SameSettings.settings_refl g, by simp, outstanding_request_nonneg g, le_refl _,
    hint g hg, IsInt.zero, Or.inl rfl⟩

theorem rr_initial_slot (groups : List GroupData) (j : Nat) :
    slot_allocated (groups.map (fun g =>
        ({ grp := g, allocated := 0, subtree_requested := outstanding_request g } : Slot))) j
      = 0 := by
  unfold slot_allocated
  rw [List.getElem?_map]
  cases groups[j]? <;> rfl

theorem rr_initial_request (groups : List GroupData) {j : Nat} {g : GroupData}
    (h : groups[j]? = some g) :
    slot_request (groups.map (fun g =>
        ({ grp := g, allocated := 0, subtree_requested := outstanding_request g } : Slot))) j
      = outstanding_request g := by
  unfold slot_request
  rw [List.getElem?_map, h]
  rfl

/-- One level of round robin serves in ascending `subtree_rr_time`: when the group of index
`x` has a request and a strictly smaller `subtree_rr_time` than the group of index `y`, and
`y` is allocated something, then `x` is allocated at least one slot. -/
theorem round_robin_level_order (groups : List GroupData) (s R : ℚ) (hs : 0 ≤ s)
    (hint : ∀ g ∈ groups, IsInt (outstanding_request g))
    (hR : R = (groups.map outstanding_request).sum)
    {x y : Nat} {gx gy : GroupData} (hx : groups[x]? = some gx) (hy : groups[y]? = some gy)
    (hpx : 0 < outstanding_request gx)
    (ht : gx.subtree_rr_time < gy.subtree_rr_time) :
    slot_allocated (round_robin_level s R groups).slots y = 0 ∨
      1 ≤ slot_allocated (round_robin_level s R groups).slots x := by
  have hxy : x ≠ y := by
    intro h
    rw [h, hy] at hx
    rw [Option.some.inj hx] at ht
    exact lt_irrefl _ ht
  have hkey : rr_key groups x < rr_key groups y := by
    unfold rr_key
    rw [hx, hy]
    exact ht
  have hna := sorted_idx_never_after groups hkey
  have hxlt : x < groups.length := by
    by_contra hn
    rw [List.getElem?_eq_none (not_lt.1 hn)] at hx
    exact Option.noConfusion hx
  have hxmem : x ∈ sorted_idx groups :=
    (sorted_idx_perm groups).mem_iff.2 (List.mem_range.2 hxlt)
  have hnodup : (sorted_idx groups).Nodup :=
    (sorted_idx_perm groups).nodup_iff.2 (List.nodup_range _)
  have key := rr_loop_invariant groups (sorted_idx groups) (sorted_idx_perm groups)
    (fun slots => (slot_allocated slots y = 0 ∨ 1 ≤ slot_allocated slots x) ∧
      (1 ≤ slot_allocated slots x ∨ 0 < slot_request slots x))
    (fun slots => (slot_allocated slots y = 0 ∨ 1 ≤ slot_allocated slots x) ∧
      (1 ≤ slot_allocated slots x ∨ 0 < slot_request slots x))
    (fun _ h => h)
    (by
      intro st m hrel hm1 hmi hms hC hI
      left
      obtain ⟨js', hK, -, -⟩ := rr_pass_invariant groups hm1 hmi
        (fun js slots =>
          ((slot_allocated slots y = 0 ∨ 1 ≤ slot_allocated slots x) ∧
            (1 ≤ slot_allocated slots x ∨ 0 < slot_request slots x)) ∧
          (x ∉ js → y ∈ js → 1 ≤ slot_allocated slots x) ∧ never_after x y js)
        (by
          intro j js slots hj hrelj hop ⟨hJ, h3, hn⟩
          refine ⟨hJ, ?_, never_after_tail hn⟩
          intro hxj hyj
          by_cases hjx : j = x
          · subst hjx
            rcases hJ.2 with h | h
            · exact h
            · exact absurd h (slot_request_of_not_pos hop)
          · exact h3 (fun h => by
              rcases List.mem_cons.1 h with h | h
              · exact hjx h.symm
              · exact hxj h) (List.mem_cons_of_mem _ hyj))
        (by
          intro j js slots sj hj hrelj hsj hp ⟨hJ, h3, hn⟩
          obtain ⟨g, -, hslot⟩ := forall₂_getElem? hrelj hsj
          have ha1 : 1 ≤ min sj.subtree_requested m :=
            le_min (hslot.2.2.2.2.1.one_le_of_pos hp) hm1
          have ha0 : 0 ≤ sj.allocated := hslot.2.2.2.1
          by_cases hjx : j = x
          · subst hjx
            have e := slot_allocated_set_self hsj
              { grp := { sj.grp with rr := true }
                allocated := sj.allocated + min sj.subtree_requested m
                subtree_requested := sj.subtree_requested - min sj.subtree_requested m }
            have h1 : 1 ≤ sj.allocated + min sj.subtree_requested m := by linarith
            refine ⟨⟨Or.inr ?_, Or.inl ?_⟩, fun _ _ => ?_, never_after_tail hn⟩ <;>
              rw [e] <;> exact h1
          · have ex := slot_allocated_set_ne slots hjx
              { grp := { sj.grp with rr := true }
                allocated := sj.allocated + min sj.subtree_requested m
                subtree_requested := sj.subtree_requested - min sj.subtree_requested m }
            have erx := slot_request_set_ne slots hjx
              { grp := { sj.grp with rr := true }
                allocated := sj.allocated + min sj.subtree_requested m
                subtree_requested := sj.subtree_requested - min sj.subtree_requested m }
            by_cases hjy : j = y
            · subst hjy
              have hxjs : x ∉ js := never_after_head hn
              have h1 : 1 ≤ slot_allocated slots x :=
                h3 (fun h => by
                  rcases List.mem_cons.1 h with h | h
                  · exact hjx h.symm
                  · exact hxjs h) (List.mem_cons_self _ _)
              refine ⟨⟨Or.inr ?_, Or.inl ?_⟩, fun _ _ => ?_, never_after_tail hn⟩ <;>
                rw [ex] <;> exact h1
            · have ey := slot_allocated_set_ne slots hjy
                { grp := { sj.grp with rr := true }
                  allocated := sj.allocated + min sj.subtree_requested m
                  subtree_requested := sj.subtree_requested - min sj.subtree_requested m }
              refine ⟨⟨?_, ?_⟩, ?_, never_after_tail hn⟩
              · rw [ex, ey]; exact hJ.1
              · rw [ex, erx]; exact hJ.2
              · intro hxj hyj
                rw [ex]
                exact h3 (fun h => by
                  rcases List.mem_cons.1 h with h | h
                  · exact hjx h.symm
                  · exact hxj h) (List.mem_cons_of_mem _ hyj))
        (sorted_idx groups) st hnodup hrel hms hC
        ⟨hI, fun h _ => absurd hxmem h, hna⟩
      exact hK.1)
  unfold round_robin_level
  have hr0 : R = ((groups.map (fun g =>
      ({ grp := g, allocated := 0, subtree_requested := outstanding_request g } : Slot))).map
        Slot.subtree_requested).sum := by
    rw [List.map_map, hR]
    rfl
  have := key (⌊s⌋.toNat + 1)
    { slots := groups.map
        (fun g => { grp := g, allocated := 0, subtree_requested := outstanding_request g })
      surplus := s
      requested := R
      outstanding := initial_outstanding groups
      sumalloc := 0 }
    (rr_initial_state groups hint) hs hr0 (Or.inr (initial_outstanding_eq groups))
    ⟨Or.inl (rr_initial_slot groups y),
      Or.inr (by rw [rr_initial_request groups hx]; exact hpx)⟩
  exact this.1

/-! ### Two groups with equal requests in one level of round robin -/

theorem never_after_or {x y : Nat} : ∀ {js : List Nat}, js.Nodup →
    never_after x y js ∨ never_after y x js := by
  intro js
  induction js with
  | nil =>
    intro _
    left
    intro l1 l2 e
    cases l1 <;> simp at e
  | cons j js ih =>
    intro hnd
    have hj : j ∉ js := (List.nodup_cons.1 hnd).1
    have key : ∀ {u v : Nat}, never_after u v js → j ≠ v → never_after u v (j :: js) := by
      intro u v h hjv l1 l2 e
      cases l1 with
      | nil =>
        simp only [List.nil_append, List.cons.injEq] at e
        exact absurd e.1 hjv
      | cons a l1 =>
        simp only [List.cons_append, List.cons.injEq] at e
        exact h l1 l2 e.2
    have first : ∀ {v : Nat}, never_after j v (j :: js) := by
      intro v l1 l2 e hx
      cases l1 with
      | nil =>
        simp only [List.nil_append, List.cons.injEq] at e
        rw [← e.2] at hx
        exact hj hx
      | cons a l1 =>
        simp only [List.cons_append, List.cons.injEq] at e
        apply hj
        rw [e.2]
        exact List.mem_append_right _ (List.mem_cons_of_mem _ hx)
    by_cases hjx : j = x
    · left
      rw [← hjx]
      exact first
    · by_cases hjy : j = y
      · right
        rw [← hjy]
        exact first
      · rcases ih (List.nodup_cons.1 hnd).2 with h | h
        · exact Or.inl (key h hjy)
        · exact Or.inr (key h hjx)

theorem slot_request_nonneg {groups : List GroupData} {slots : List Slot}
    (h : List.Forall₂ RRSlot groups slots) (j : Nat) : 0 ≤ slot_request slots j := by
  unfold slot_request
  cases hs : slots[j]? with
  | none => exact le_refl _
  | some s =>
    obtain ⟨g, -, hg⟩ := forall₂_getElem? h hs
    exact hg.2.2.1

theorem slot_request_isInt {groups : List GroupData} {slots : List Slot}
    (h : List.Forall₂ RRSlot groups slots) (j : Nat) : IsInt (slot_request slots j) := by
  unfold slot_request
  cases hs : slots[j]? with
  | none => exact IsInt.zero
  | some s =>
    obtain ⟨g, -, hg⟩ := forall₂_getElem? h hs
    exact hg.2.2.2.2.1

theorem opt_pos_of_slot_request {slots : List Slot} {j : Nat} (h : 0 < slot_request slots j) :
    opt_pos slots[j]? = true := by
  unfold slot_request at h
  cases hs : slots[j]? with
  | none => rw [hs] at h; exact absurd h (lt_irrefl _)
  | some s =>
    rw [hs] at h
    simpa [opt_pos] using h

/-- One level of round robin, for two groups with equal requests of which `x` never comes
after `y` in `idx`: `x` ends with as much as `y` or with one slot more. -/
theorem round_robin_level_pair (groups : List GroupData) (s R : ℚ) (hs : 0 ≤ s)
    (hint : ∀ g ∈ groups, IsInt (outstanding_request g))
    (hR : R = (groups.map outstanding_request).sum)
    {x y : Nat} {gx gy : GroupData} (hx : groups[x]? = some gx) (hy : groups[y]? = some gy)
    (hxy : x ≠ y) (heq : outstanding_request gx = outstanding_request gy)
    (hna : never_after x y (sorted_idx groups)) :
    slot_allocated (round_robin_level s R groups).slots x
        = slot_allocated (round_robin_level s R groups).slots y ∨
      slot_allocated (round_robin_level s R groups).slots x
        = slot_allocated (round_robin_level s R groups).slots y + 1 := by
  have hylt : y < groups.length := by
    by_contra hn
    rw [List.getElem?_eq_none (not_lt.1 hn)] at hy
    exact Option.noConfusion hy
  have hymem : y ∈ sorted_idx groups :=
    (sorted_idx_perm groups).mem_iff.2 (List.mem_range.2 hylt)
  have hxlt : x < groups.length := by
    by_contra hn
    rw [List.getElem?_eq_none (not_lt.1 hn)] at hx
    exact Option.noConfusion hx
  have hxmem : x ∈ sorted_idx groups :=
    (sorted_idx_perm groups).mem_iff.2 (List.mem_range.2 hxlt)
  have hnodup : (sorted_idx groups).Nodup :=
    (sorted_idx_perm groups).nodup_iff.2 (List.nodup_range _)
  have key := rr_loop_invariant groups (sorted_idx groups) (sorted_idx_perm groups)
    (fun slots => slot_allocated slots x = slot_allocated slots y ∧
      slot_request slots x = slot_request slots y)
    (fun slots => slot_allocated slots x = slot_allocated slots y ∨
      slot_allocated slots x = slot_allocated slots y + 1)
    (fun _ h => Or.inl h.1)
    (by
      intro st m hrel hm1 hmi hms hC hI
      have hm0 : (0 : ℚ) < m := lt_of_lt_of_le one_pos hm1
      obtain ⟨js', hK, hrel', hend⟩ := rr_pass_invariant groups hm1 hmi
        (fun js slots =>
          never_after x y js ∧ (x ∈ js → y ∈ js) ∧
          (x ∈ js → slot_allocated slots x = slot_allocated slots y ∧
            slot_request slots x = slot_request slots y) ∧
          (x ∉ js → y ∈ js →
            slot_allocated slots x
              = slot_allocated slots y + min (slot_request slots y) m ∧
            slot_request slots x
              = slot_request slots y - min (slot_request slots y) m) ∧
          (x ∉ js → y ∉ js → slot_allocated slots x = slot_allocated slots y ∧
            slot_request slots x = slot_request slots y))
        (by
          intro j js slots hj hrelj hop ⟨hn, h2, h3, h4, h5⟩
          have hz : slot_request slots j = 0 :=
            le_antisymm (not_lt.1 (slot_request_of_not_pos hop)) (slot_request_nonneg hrelj j)
          by_cases hjx : j = x
          · subst hjx
            have hE := h3 (List.mem_cons_self _ _)
            have hy' : y ∈ js := by
              rcases List.mem_cons.1 (h2 (List.mem_cons_self _ _)) with h | h
              · exact absurd h.symm hxy
              · exact h
            refine ⟨never_after_tail hn, fun h => absurd h hj, fun h => absurd h hj, ?_, ?_⟩
            · intro _ _
              rw [← hE.2, hz, min_eq_left hm0.le, add_zero, sub_zero]
              exact ⟨hE.1, rfl⟩
            · intro _ h
              exact absurd hy' h
          · by_cases hjy : j = y
            · subst hjy
              have hxjs : x ∉ js := never_after_head hn
              have hxc : x ∉ j :: js := fun h => by
                rcases List.mem_cons.1 h with h | h
                · exact hjx h.symm
                · exact hxjs h
              have hB := h4 hxc (List.mem_cons_self _ _)
              rw [hz, min_eq_left hm0.le, add_zero, sub_zero] at hB
              refine ⟨never_after_tail hn, fun h => absurd h hxjs, fun h => absurd h hxjs,
                fun _ h => absurd h hj, fun _ _ => ?_⟩
              exact ⟨hB.1, by rw [hB.2, hz]⟩
            · have mx : x ∈ j :: js ↔ x ∈ js := by
                simp [List.mem_cons, Ne.symm hjx]
              have my : y ∈ j :: js ↔ y ∈ js := by
                simp [List.mem_cons, Ne.symm hjy]
              exact ⟨never_after_tail hn, fun h => my.1 (h2 (mx.2 h)), fun h => h3 (mx.2 h),
                fun h1 h2' => h4 (fun h => h1 (mx.1 h)) (my.2 h2'),
                fun h1 h2' => h5 (fun h => h1 (mx.1 h)) (fun h => h2' (my.1 h))⟩)
        (by
          intro j js slots sj hj hrelj hsj hp ⟨hn, h2, h3, h4, h5⟩
          by_cases hjx : j = x
          · subst hjx
            have hE := h3 (List.mem_cons_self _ _)
            have hy' : y ∈ js := by
              rcases List.mem_cons.1 (h2 (List.mem_cons_self _ _)) with h | h
              · exact absurd h.symm hxy
              · exact h
            have ea := slot_allocated_set_self hsj
              { grp := { sj.grp with rr := true }
                allocated := sj.allocated + min sj.subtree_requested m
                subtree_requested := sj.subtree_requested - min sj.subtree_requested m }
            have er := slot_request_set_self hsj
              { grp := { sj.grp with rr := true }
                allocated := sj.allocated + min sj.subtree_requested m
                subtree_requested := sj.subtree_requested - min sj.subtree_requested m }
            have ya := slot_allocated_set_ne slots hxy
              { grp := { sj.grp with rr := true }
                allocated := sj.allocated + min sj.subtree_requested m
                subtree_requested := sj.subtree_requested - min sj.subtree_requested m }
            have yr := slot_request_set_ne slots hxy
              { grp := { sj.grp with rr := true }
                allocated := sj.allocated + min sj.subtree_requested m
                subtree_requested := sj.subtree_requested - min sj.subtree_requested m }
            have e1 := slot_allocated_of_getElem hsj
            have e2 := slot_request_of_getElem hsj
            refine ⟨never_after_tail hn, fun h => absurd h hj, fun h => absurd h hj, ?_, ?_⟩
            · intro _ _
              rw [ea, er, ya, yr, ← hE.1, ← hE.2, e1, e2]
              exact ⟨rfl, rfl⟩
            · intro _ h
              exact absurd hy' h
          · have xa := slot_allocated_set_ne slots hjx
              { grp := { sj.grp with rr := true }
                allocated := sj.allocated + min sj.subtree_requested m
                subtree_requested := sj.subtree_requested - min sj.subtree_requested m }
            have xr := slot_request_set_ne slots hjx
              { grp := { sj.grp with rr := true }
                allocated := sj.allocated + min sj.subtree_requested m
                subtree_requested := sj.subtree_requested - min sj.subtree_requested m }
            by_cases hjy : j = y
            · subst hjy
              have hxjs : x ∉ js := never_after_head hn
              have hxc : x ∉ j :: js := fun h => by
                rcases List.mem_cons.1 h with h | h
                · exact hjx h.symm
                · exact hxjs h
              have hB := h4 hxc (List.mem_cons_self _ _)
              have ea := slot_allocated_set_self hsj
                { grp := { sj.grp with rr := true }
                  allocated := sj.allocated + min sj.subtree_requested m
                  subtree_requested := sj.subtree_requested - min sj.subtree_requested m }
              have er := slot_request_set_self hsj
                { grp := { sj.grp with rr := true }
                  allocated := sj.allocated + min sj.subtree_requested m
                  subtree_requested := sj.subtree_requested - min sj.subtree_requested m }
              have e1 := slot_allocated_of_getElem hsj
              have e2 := slot_request_of_getElem hsj
              rw [e1, e2] at hB
              refine ⟨never_after_tail hn, fun h => absurd h hxjs, fun h => absurd h hxjs,
                fun _ h => absurd h hj, fun _ _ => ?_⟩
              rw [ea, er, xa, xr]
              exact hB
            · have ya := slot_allocated_set_ne slots hjy
                { grp := { sj.grp with rr := true }
                  allocated := sj.allocated + min sj.subtree_requested m
                  subtree_requested := sj.subtree_requested - min sj.subtree_requested m }
              have yr := slot_request_set_ne slots hjy
                { grp := { sj.grp with rr := true }
                  allocated := sj.allocated + min sj.subtree_requested m
                  subtree_requested := sj.subtree_requested - min sj.subtree_requested m }
              have mx : x ∈ j :: js ↔ x ∈ js := by
                simp [List.mem_cons, Ne.symm hjx]
              have my : y ∈ j :: js ↔ y ∈ js := by
                simp [List.mem_cons, Ne.symm hjy]
              rw [xa, xr, ya, yr]
              exact ⟨never_after_tail hn, fun h => my.1 (h2 (mx.2 h)), fun h => h3 (mx.2 h),
                fun h1 h2' => h4 (fun h => h1 (mx.1 h)) (my.2 h2'),
                fun h1 h2' => h5 (fun h => h1 (mx.1 h)) (fun h => h2' (my.1 h))⟩)
        (sorted_idx groups) st hnodup hrel hms hC
        ⟨hna, fun _ => hymem, fun _ => hI, fun h _ => absurd hxmem h,
          fun _ h => absurd hymem h⟩
      obtain ⟨hn, h2, h3, h4, h5⟩ := hK
      by_cases hxj : x ∈ js'
      · exact Or.inl (h3 hxj)
      · by_cases hyj : y ∈ js'
        · have hB := h4 hxj hyj
          by_cases hpy : 0 < slot_request (rr_pass (some m) (sorted_idx groups) st).slots y
          · right
            have hbreak : js' ≠ [] := fun h => by rw [h] at hyj; exact absurd hyj (List.not_mem_nil _)
            rcases hend with h | ⟨hlt, hcnt⟩
            · exact absurd h hbreak
            · have hc1 : 1 ≤ pos_count_idx js'
                  (rr_pass (some m) (sorted_idx groups) st).slots := by
                unfold pos_count_idx
                exact List.countP_pos_iff.2 ⟨y, hyj, opt_pos_of_slot_request hpy⟩
              have hc1' : (1 : ℚ) ≤ (pos_count_idx js'
                  (rr_pass (some m) (sorted_idx groups) st).slots : ℚ) := by
                exact_mod_cast hc1
              have hm1' : m = 1 := by
                rcases hcnt with h | h
                · exact h
                · have : m * 1 ≤ m * (pos_count_idx js'
                      (rr_pass (some m) (sorted_idx groups) st).slots : ℚ) :=
                    mul_le_mul_of_nonneg_left hc1' hm0.le
                  linarith
              subst hm1'
              have hr1 : 1 ≤ slot_request (rr_pass (some 1) (sorted_idx groups) st).slots y :=
                (slot_request_isInt hrel' y).one_le_of_pos hpy
              rw [min_eq_right hr1] at hB
              exact ⟨hlt, Or.inr hB.1⟩
          · left
            have hz : slot_request (rr_pass (some m) (sorted_idx groups) st).slots y = 0 :=
              le_antisymm (not_lt.1 hpy) (slot_request_nonneg hrel' y)
            rw [hz, min_eq_left hm0.le, add_zero, sub_zero] at hB
            exact ⟨hB.1, by rw [hB.2, hz]⟩
        · exact Or.inl (h5 hxj hyj))
  unfold round_robin_level
  have hr0 : R = ((groups.map (fun g =>
      ({ grp := g, allocated := 0, subtree_requested := outstanding_request g } : Slot))).map
        Slot.subtree_requested).sum := by
    rw [List.map_map, hR]
    rfl
  exact key (⌊s⌋.toNat + 1)
    { slots := groups.map
        (fun g => { grp := g, allocated := 0, subtree_requested := outstanding_request g })
      surplus := s
      requested := R
      outstanding := initial_outstanding groups
      sumalloc := 0 }
    (rr_initial_state groups hint) hs hr0 (Or.inr (initial_outstanding_eq groups))
    ⟨by rw [rr_initial_slot, rr_initial_slot],
      by rw [rr_initial_request groups hx, rr_initial_request groups hy, heq]⟩

/-! ## The round-robin ordering rule -/

theorem getElem?_lt_length {α : Type} {l : List α} {j : Nat} {a : α} (h : l[j]? = some a) :
    j < l.length := by
  by_contra hn
  rw [List.getElem?_eq_none (not_lt.1 hn)] at h
  exact Option.noConfusion h

theorem groups_getElem?_child {cs : List GroupEntry} {j : Nat} {c : GroupEntry}
    (h : cs[j]? = some c) (z : GroupData) :
    (cs.map GroupEntry.data ++ [z])[j]? = some c.data := by
  have hlt : j < (cs.map GroupEntry.data).length := by
    rw [List.length_map]
    exact getElem?_lt_length h
  rw [List.getElem?_append_left hlt, List.getElem?_map, h]
  rfl

/-- The groups of one level of round robin on a node with consistent integer requests have
integer requests that add up to the node's `subtree_requested`. -/
theorem round_robin_groups {d : GroupData} {cs : List GroupEntry}
    (hc : Consistent (.mk d cs)) (hi : IntRequests (.mk d cs)) :
    (∀ g ∈ cs.map GroupEntry.data ++ [splice_rr d], IsInt (outstanding_request g)) ∧
    d.subtree_requested
      = ((cs.map GroupEntry.data ++ [splice_rr d]).map outstanding_request).sum := by
  obtain ⟨⟨hdi, -⟩, hci⟩ := intRequests_mk.1 hi
  obtain ⟨⟨hreq, -⟩, -⟩ := consistent_mk.1 hc
  simp only [GroupEntry.data_mk] at hreq
  refine ⟨?_, sum_outstanding_request hc _ (outstanding_request_splice_rr hreq)⟩
  intro g hg
  rcases List.mem_append.1 hg with hg | hg
  · obtain ⟨c, hcm, rfl⟩ := List.mem_map.1 hg
    exact outstanding_request_int (intRequests_data (hci c hcm)).2
  · rw [List.mem_singleton.1 hg, outstanding_request_splice_rr hreq]
    exact hdi

/-- The amount `allocated[j]` of a call of `hgq_round_robin` is what the subtree of child `j`
holds more after the call. -/
theorem round_robin_credit_spec (s : ℚ) (d : GroupData) (cs : List GroupEntry) (hs : 0 ≤ s)
    (hc : Consistent (.mk d cs)) (hi : IntRequests (.mk d cs)) (j : Nat) (c : GroupEntry)
    (hj : cs[j]? = some c) :
    ∃ c', (hgq_round_robin s (.mk d cs)).1.children[j]? = some c' ∧
      total_allocated c' = total_allocated c + round_robin_credit s (.mk d cs) j := by
  obtain ⟨⟨hdi, hsri⟩, hci⟩ := intRequests_mk.1 hi
  obtain ⟨-, hcc⟩ := consistent_mk.1 hc
  have hcm : c ∈ cs := List.getElem?_mem hj
  rw [hgq_round_robin]
  unfold round_robin_credit
  simp only [force_integer_of_int hsri]
  by_cases h1 : d.subtree_requested ≤ 0
  · rw [if_pos h1, if_pos h1]
    exact ⟨c, by simpa using hj, by ring⟩
  · rw [if_neg h1, if_neg h1]
    by_cases h2 : s < 1
    · rw [if_pos h2, if_pos h2]
      exact ⟨c, by simpa using hj, by ring⟩
    · rw [if_neg h2, if_neg h2]
      obtain ⟨hint, hR⟩ := round_robin_groups hc hi
      obtain ⟨l1, -⟩ := round_robin_level_spec
        (cs.map GroupEntry.data ++ [splice_rr d]) s d.subtree_requested hs hint hR
      obtain ⟨sl, hsl, hslot⟩ := forall₂_getElem?_left l1 (groups_getElem?_child hj _)
      simp only [GroupEntry.children_mk]
      rw [round_robin_children_getElem cs _ j c hj, hsl, slot_allocated_of_getElem hsl]
      refine ⟨_, rfl, ?_⟩
      simp only
      rw [mark_rr_total_allocated]
      have hle : sl.allocated ≤ outstanding_request c.data := by
        have := hslot.2.1
        linarith [hslot.2.2.1]
      have hih := round_robin_spec c sl.allocated hslot.2.2.2.1 (hcc c hcm) (hci c hcm)
      rw [hslot.2.2.2.2.2.1.floor_eq] at hih
      exact (handout_child_step RRFrame.rr_refl (fun _ _ h => h.1.accept) hih (hcc c hcm)
        ⟨hslot.2.2.2.1, hle⟩).2.2.1

/-- One level of round robin with at least one whole slot of surplus gives a slot to the
group with a request whose `subtree_rr_time` is strictly the smallest among the groups with a
request. -/
theorem round_robin_level_first (groups : List GroupData) (s R : ℚ) (hs : 1 ≤ s)
    (hint : ∀ g ∈ groups, IsInt (outstanding_request g))
    (hR : R = (groups.map outstanding_request).sum)
    {x : Nat} {gx : GroupData} (hx : groups[x]? = some gx)
    (hpx : 0 < outstanding_request gx)
    (hmin : ∀ (z : Nat) (gz : GroupData), z ≠ x → groups[z]? = some gz →
      0 < outstanding_request gz → gx.subtree_rr_time < gz.subtree_rr_time) :
    1 ≤ slot_allocated (round_robin_level s R groups).slots x := by
  have hs0 : 0 ≤ s := by linarith
  obtain ⟨l1, l2, -, -⟩ := round_robin_level_spec groups s R hs0 hint hR
  obtain ⟨slx, hslx, hrx⟩ := forall₂_getElem?_left l1 hx
  rw [slot_allocated_of_getElem hslx]
  by_contra hlt
  have hx0 : slx.allocated = 0 :=
    hrx.2.2.2.2.2.1.lt_one_nonneg hrx.2.2.2.1 (not_le.1 hlt)
  -- every other group holds nothing either
  have hall : ∀ sl ∈ (round_robin_level s R groups).slots, sl.allocated = 0 := by
    intro sl hsl
    obtain ⟨z, hz⟩ := List.getElem?_of_mem hsl
    obtain ⟨gz, hgz, hrz⟩ := forall₂_getElem? l1 hz
    by_cases hzx : z = x
    · rw [hzx, hslx] at hz
      rw [← Option.some.inj hz]
      exact hx0
    · by_contra hne
      have hpos : 0 < sl.allocated := lt_of_le_of_ne hrz.2.2.2.1 (Ne.symm hne)
      have hpz : 0 < outstanding_request gz := by
        have := hrz.2.1
        linarith [hrz.2.2.1]
      have := round_robin_level_order groups s R hs0 hint hR hx hgz hpx
        (hmin z gz hzx hgz hpz)
      rw [slot_allocated_of_getElem hz, slot_allocated_of_getElem hslx] at this
      rcases this with h | h
      · exact hne h
      · exact hlt h
  have hsum : ((round_robin_level s R groups).slots.map Slot.allocated).sum = 0 := by
    rw [← sum_map_zero (fun sl _ => rfl : ∀ sl ∈ (round_robin_level s R groups).slots,
      (fun _ : Slot => (0 : ℚ)) sl = 0)]
    exact sum_map_congr hall
  rw [hsum] at l2
  have hfl : (1 : ℚ) ≤ ((⌊s⌋ : ℤ) : ℚ) := by
    have : (1 : ℤ) ≤ ⌊s⌋ := Int.le_floor.2 (by simpa using hs)
    exact_mod_cast this
  have hRx : outstanding_request gx ≤ R := by
    rw [hR]
    have hmem : gx ∈ groups := List.getElem?_mem hx
    exact List.single_le_sum (fun y hy => by
      obtain ⟨g, -, rfl⟩ := List.mem_map.1 hy
      exact outstanding_request_nonneg g) _ (List.mem_map_of_mem _ hmem)
  have hR1 : 1 ≤ R := le_trans ((hint gx (List.getElem?_mem hx)).one_le_of_pos hpx) hRx
  have : (1 : ℚ) ≤ min ((⌊s⌋ : ℤ) : ℚ) R := le_min hfl hR1
  linarith

theorem outstanding_request_pos {g : GroupData} (h : 0 < outstanding_request g) :
    g.accept_surplus = true ∧ 0 < g.subtree_requested := by
  unfold outstanding_request at h
  split_ifs at h with hc
  · simpa using hc
  · exact absurd h (lt_irrefl _)

theorem intRequests_of_floor {t : GroupEntry}
    (h : ∀ n ∈ t.nodes, ((⌊n.requested⌋ : ℤ) : ℚ) = n.requested ∧
      ((⌊n.subtree_requested⌋ : ℤ) : ℚ) = n.subtree_requested) : IntRequests t :=
  fun n hn => ⟨isInt_iff_floor.2 (h n hn).1, isInt_iff_floor.2 (h n hn).2⟩

/-- C14: in one call of `hgq_round_robin` on a node whose requests are consistent whole
numbers (as `hgq_recover_remainders` leaves them), `round_robin_credit` being the amount
`allocated[j]` the call computes for child `j` and adds to its subtree: when child `x` accepts
surplus, has a positive remaining demand and a strictly smaller `subtree_rr_time` than child
`y`, then whenever `y` is credited at least one slot `x` is credited at least one slot too;
and with at least one whole slot of surplus a child whose `subtree_rr_time` is strictly the
smallest among the participants with demand is credited at least one slot. -/
theorem round_robin_ordering_rule (s : ℚ) (d : GroupData) (cs : List GroupEntry)
    (x y : Nat) (cx cy : GroupEntry) (hs : 0 ≤ s) (hc : Consistent (.mk d cs))
    (hi : ∀ n ∈ (GroupEntry.mk d cs).nodes, ((⌊n.requested⌋ : ℤ) : ℚ) = n.requested ∧
      ((⌊n.subtree_requested⌋ : ℤ) : ℚ) = n.subtree_requested)
    (hx : cs[x]? = some cx) (hy : cs[y]? = some cy)
    (hax : cx.data.accept_surplus = true) (hpx : 0 < cx.data.subtree_requested)
    (ht : cx.data.subtree_rr_time < cy.data.subtree_rr_time) :
    (∀ (j : Nat) (c : GroupEntry), cs[j]? = some c →
      ∃ c', (hgq_round_robin s (.mk d cs)).1.children[j]? = some c' ∧
        total_allocated c' = total_allocated c + round_robin_credit s (.mk d cs) j) ∧
    (1 ≤ round_robin_credit s (.mk d cs) y → 1 ≤ round_robin_credit s (.mk d cs) x) ∧
    (1 ≤ s →
      (∀ (z : Nat) (cz : GroupEntry), z ≠ x → cs[z]? = some cz →
        cz.data.accept_surplus = true → 0 < cz.data.subtree_requested →
        cx.data.subtree_rr_time < cz.data.subtree_rr_time) →
      (0 < d.requested → cx.data.subtree_rr_time < d.rr_time) →
      1 ≤ round_robin_credit s (.mk d cs) x) := by
  have hi' : IntRequests (.mk d cs) := intRequests_of_floor hi
  obtain ⟨⟨-, hsri⟩, -⟩ := intRequests_mk.1 hi'
  obtain ⟨⟨hreq, -⟩, -⟩ := consistent_mk.1 hc
  simp only [GroupEntry.data_mk] at hreq
  obtain ⟨hint, hR⟩ := round_robin_groups hc hi'
  have hgx := groups_getElem?_child hx (splice_rr d)
  have hgy := groups_getElem?_child hy (splice_rr d)
  have hox : 0 < outstanding_request cx.data := by
    rw [outstanding_request_of_accept hax hpx.le]
    exact hpx
  have hsr : 0 < d.subtree_requested := by
    rw [hR]
    refine lt_of_lt_of_le hox ?_
    exact List.single_le_sum (fun v hv => by
      obtain ⟨g, -, rfl⟩ := List.mem_map.1 hv
      exact outstanding_request_nonneg g) _ (List.mem_map_of_mem _ (List.getElem?_mem hgx))
  refine ⟨fun j c hj => round_robin_credit_spec s d cs hs hc hi' j c hj, ?_, ?_⟩
  · unfold round_robin_credit
    simp only [force_integer_of_int hsri]
    simp only [if_neg (not_le.2 hsr)]
    by_cases h2 : s < 1
    · simp only [if_pos h2]
      intro h
      norm_num at h
    · simp only [if_neg h2]
      intro h
      rcases round_robin_level_order _ s d.subtree_requested hs hint hR hgx hgy hox ht
        with h0 | h1
      · rw [h0] at h
        norm_num at h
      · exact h1
  · intro hs1 hmin hself
    unfold round_robin_credit
    simp only [force_integer_of_int hsri]
    rw [if_neg (not_le.2 hsr), if_neg (not_lt.2 hs1)]
    apply round_robin_level_first _ s d.subtree_requested hs1 hint hR hgx hox
    intro z gz hzx hgz hpz
    by_cases hz : z < cs.length
    · have hcz : cs[z]? = some cs[z] := List.getElem?_eq_getElem hz
      rw [groups_getElem?_child hcz (splice_rr d)] at hgz
      rw [← Option.some.inj hgz] at hpz ⊢
      obtain ⟨h1, h2⟩ := outstanding_request_pos hpz
      exact hmin z cs[z] hzx hcz h1 h2
    · have hlen : (cs.map GroupEntry.data).length ≤ z := by
        rw [List.length_map]
        exact not_lt.1 hz
      rw [List.getElem?_append_right hlen] at hgz
      have hmem : gz ∈ [splice_rr d] := List.getElem?_mem hgz
      rw [List.mem_singleton.1 hmem] at hpz ⊢
      rw [outstanding_request_splice_rr hreq] at hpz
      exact hself hpz

/-- C14 (witness): scenario 5 of the specification. When `hgq_round_robin(5)` is called on the
root, `a` (`rr_time` 1) is credited 3 slots and `b` (`rr_time` 2) is credited 2, and the cycle
ends with `a = 3`, `b = 2`. -/
theorem round_robin_ordering_rule_witness :
    (0 : ℚ) ≤ 5 ∧ Consistent example_round_robin_state ∧
    (∀ n ∈ example_round_robin_state.nodes, ((⌊n.requested⌋ : ℤ) : ℚ) = n.requested ∧
      ((⌊n.subtree_requested⌋ : ℤ) : ℚ) = n.subtree_requested) ∧
    (1 ≤ round_robin_credit 5 example_round_robin_state 1 →
      1 ≤ round_robin_credit 5 example_round_robin_state 0) ∧
    round_robin_credit 5 example_round_robin_state 0 = 3 ∧
    round_robin_credit 5 example_round_robin_state 1 = 2 ∧
    (hgq_cycle false 5 example_round_robin).nodes.map GroupData.allocated = [0, 3, 2] :=
  ⟨by norm_num, by unfold Consistent requests_consistent; decide!, by decide!,
    (round_robin_ordering_rule 5 example_round_robin_root
      [example_round_robin_a, example_round_robin_b] 0 1
      example_round_robin_a example_round_robin_b
      (by norm_num) (by unfold Consistent requests_consistent; decide!) (by decide!)
      rfl rfl (by decide!) (by decide!) (by decide!)).2.1,
    by decide!, by decide!, by decide!⟩

/-! ## The children of a node through the phases of a cycle -/

theorem mark_rr_false (t : GroupEntry) : mark_rr false t = t := by
  obtain ⟨d, cs⟩ := t
  rw [mark_rr_mk]
  simp

/-- What `hgq_allocate_surplus` does to the child of index `i`. -/
theorem allocate_surplus_child (s : ℚ) (d : GroupData) (cs : List GroupEntry) (i : Nat)
    (c : GroupEntry) (h : cs[i]? = some c) :
    (hgq_allocate_surplus s (.mk d cs)).1.children[i]?
      = some (if allocate_surplus_credit s (.mk d cs) i > 0 then
          (hgq_allocate_surplus (allocate_surplus_credit s (.mk d cs) i) c).1 else c) := by
  rw [hgq_allocate_surplus]
  unfold allocate_surplus_credit
  by_cases h1 : s ≤ 0
  · simp only [if_pos h1, GroupEntry.children_mk, h, gt_iff_lt, lt_self_iff_false, if_false]
  · simp only [if_neg h1]
    by_cases h2 : d.subtree_requested ≤ 0
    · simp only [if_pos h2, GroupEntry.children_mk, h, gt_iff_lt, lt_self_iff_false, if_false]
    · simp only [if_neg h2, GroupEntry.children_mk]
      rw [surplus_children_getElem cs _ i c h]
      unfold slot_allocated
      cases (allocate_surplus_level s d.subtree_requested
        (cs.map GroupEntry.data ++ [splice_surplus d])).slots[i]? with
      | none => simp
      | some sl => rfl

/-- What `hgq_round_robin` does to the child of index `i`. -/
theorem round_robin_child (s : ℚ) (d : GroupData) (cs : List GroupEntry) (i : Nat)
    (c : GroupEntry) (h : cs[i]? = some c) :
    ∃ b : Bool, (hgq_round_robin s (.mk d cs)).1.children[i]?
      = some (mark_rr b (if round_robin_credit s (.mk d cs) i > 0 then
          (hgq_round_robin (round_robin_credit s (.mk d cs) i) c).1 else c)) := by
  rw [hgq_round_robin]
  unfold round_robin_credit
  by_cases h1 : (force_integer d).subtree_requested ≤ 0
  · refine ⟨false, ?_⟩
    simp only [if_pos h1, GroupEntry.children_mk, h, gt_iff_lt, lt_self_iff_false, if_false,
      mark_rr_false]
  · simp only [if_neg h1]
    by_cases h2 : s < 1
    · refine ⟨false, ?_⟩
      simp only [if_pos h2, GroupEntry.children_mk, h, gt_iff_lt, lt_self_iff_false, if_false,
        mark_rr_false]
    · simp only [if_neg h2, GroupEntry.children_mk]
      rw [round_robin_children_getElem cs _ i c h]
      unfold slot_allocated
      cases (round_robin_level s (force_integer d).subtree_requested
        (cs.map GroupEntry.data ++ [splice_rr (force_integer d)])).slots[i]? with
      | none => exact ⟨false, by simp [mark_rr_false]⟩
      | some sl => exact ⟨sl.grp.rr, rfl⟩

/-- The budget passed to the child of index `i` by `hgq_assign_quotas`. -/
theorem assign_child (oversub : Bool) (P : ℚ) (d : GroupData) (cs : List GroupEntry) (i : Nat)
    (c : GroupEntry) (h : cs[i]? = some c) :
    (hgq_assign_quotas oversub P (.mk d cs)).children[i]?
      = some (hgq_assign_quotas oversub (budget_at oversub P (.mk d cs) [i]) c) := by
  have hb : budget_at oversub P (.mk d cs) [i]
      = if P ≤ 0 then 0 else child_budget oversub P cs c.data := by
    unfold budget_at
    rw [h]
    obtain ⟨dc, csc⟩ := c
    rfl
  rw [hb]
  by_cases hP : P ≤ 0
  · rw [if_pos hP, assign_nonpos oversub hP, assign_nonpos oversub (le_refl _)]
    simpa using h
  · rw [if_neg hP, assign_children_eq oversub (not_le.1 hP), List.getElem?_map, h]
    rfl

/-- The call of `hgq_allocate_surplus` at the end of `hgq_fairshare` on a node with
children, and the state it is called in. -/
theorem fairshare_root_step (d : GroupData) (cs : List GroupEntry) (hcs : cs ≠ [])
    (hq : QuotaNonneg (.mk d cs)) (hd : ∀ x ∈ (GroupEntry.mk d cs).nodes, 0 ≤ x.requested) :
    ∃ (s : ℚ) (d' : GroupData),
      hgq_fairshare (.mk d cs)
        = hgq_allocate_surplus s (.mk d' (cs.map (fun c => (hgq_fairshare c).1))) ∧
      0 ≤ s ∧ Consistent (.mk d' (cs.map (fun c => (hgq_fairshare c).1))) ∧
      QuotaNonneg (.mk d' (cs.map (fun c => (hgq_fairshare c).1))) := by
  have hq0 := (quotaNonneg_mk.1 hq).1.1
  have hd0 : 0 ≤ d.requested := hd d (by rw [nodes_mk]; exact List.mem_cons_self _ _)
  have hmin0 : 0 ≤ min d.requested d.quota := le_min hd0 hq0
  have hminr : min d.requested d.quota ≤ d.requested := min_le_left _ _
  have hminq : min d.requested d.quota ≤ d.quota := min_le_right _ _
  have ihc : ∀ c ∈ cs,
      Consistent (hgq_fairshare c).1 ∧ 0 ≤ (hgq_fairshare c).2 ∧
      List.Forall₂ FairshareFrame c.nodes (hgq_fairshare c).1.nodes := by
    intro c hc
    have := fairshare_spec c ((quotaNonneg_mk.1 hq).2 c hc) (fun x hx => hd x (by
      rw [nodes_mk]
      exact List.mem_cons_of_mem _
        (List.mem_flatten.2 ⟨_, List.mem_map.2 ⟨c, hc, rfl⟩, hx⟩)))
    exact ⟨this.1, this.2.1, this.2.2.2.2⟩
  refine ⟨_, _, fairshare_node d hcs, ?_, ?_, ?_⟩
  · have : 0 ≤ (cs.map (fun c => (hgq_fairshare c).2)).sum :=
      sum_map_nonneg (fun c hc => (ihc c hc).2.1)
    linarith
  · refine consistent_mk.2 ⟨⟨by simp only [GroupEntry.data_mk]; linarith, ?_⟩, ?_⟩
    · simp only [GroupEntry.data_mk, GroupEntry.children_mk, List.map_map]
      rfl
    · intro c' hc'
      obtain ⟨c, hc, rfl⟩ := List.mem_map.1 hc'
      exact (ihc c hc).1
  · refine quotaNonneg_of_frame (fun _ _ (h : FairshareFrame _ _) => h.1)
      (nodes_forall₂_mk ?_ ?_) hq
    · exact ⟨SameSettings.settings_refl d, by simp, hmin0, by simp only; linarith, le_refl _⟩
    · rw [List.forall₂_map_right_iff]
      exact List.forall₂_same.2 (fun c hc => (ihc c hc).2.2)

/-- The call of `hgq_round_robin` at the end of `hgq_recover_remainders` on a node with
children, and the state it is called in. -/
theorem recover_root_step (d : GroupData) (cs : List GroupEntry) (hcs : cs ≠ [])
    (hd : ∀ x ∈ (GroupEntry.mk d cs).nodes, 0 ≤ x.requested) :
    ∃ (s : ℚ) (d' : GroupData),
      hgq_recover_remainders (.mk d cs)
        = hgq_round_robin s (.mk d' (cs.map (fun c => (hgq_recover_remainders c).1))) ∧
      0 ≤ s ∧ Consistent (.mk d' (cs.map (fun c => (hgq_recover_remainders c).1))) ∧
      IntRequests (.mk d' (cs.map (fun c => (hgq_recover_remainders c).1))) := by
  have hd0 : 0 ≤ d.requested := hd d (by rw [nodes_mk]; exact List.mem_cons_self _ _)
  obtain ⟨e1, e2, e3, e4, e5⟩ := recover_local d hd0
  have ihc : ∀ c ∈ cs,
      Consistent (hgq_recover_remainders c).1 ∧ IntRequests (hgq_recover_remainders c).1 ∧
      0 ≤ (hgq_recover_remainders c).2 := by
    intro c hc
    have := recover_spec c (fun x hx => hd x (by
      rw [nodes_mk]
      exact List.mem_cons_of_mem _
        (List.mem_flatten.2 ⟨_, List.mem_map.2 ⟨c, hc, rfl⟩, hx⟩)))
    exact ⟨this.1, this.2.1, this.2.2.1⟩
  obtain ⟨srt, hnode⟩ := recover_node d hcs
  refine ⟨_, _, hnode, ?_, ?_, ?_⟩
  · have : 0 ≤ (cs.map (fun c => (hgq_recover_remainders c).2)).sum :=
      sum_map_nonneg (fun c hc => (ihc c hc).2.2)
    linarith
  · refine consistent_mk.2 ⟨⟨e3, ?_⟩, ?_⟩
    · simp only [GroupEntry.data_mk, GroupEntry.children_mk, List.map_map]
      rfl
    · intro c' hc'
      obtain ⟨c, hc, rfl⟩ := List.mem_map.1 hc'
      exact (ihc c hc).1
  · refine intRequests_mk.2 ⟨⟨round_for_precision_isInt _, ?_⟩, ?_⟩
    · apply (round_for_precision_isInt _).add
      apply IsInt.sum
      intro c hc
      split_ifs
      · exact (intRequests_data (ihc c hc).2.1).2
      · exact IsInt.zero
    · intro c' hc'
      obtain ⟨c, hc, rfl⟩ := List.mem_map.1 hc'
      exact (ihc c hc).2.1

theorem ne_nil_of_getElem? {α : Type} {l : List α} {i : Nat} {a : α} (h : l[i]? = some a) :
    l ≠ [] := by
  intro hn
  rw [hn] at h
  simp at h

/-- The child of index `i` of the root through the three phases of a cycle: it is assigned
its budget and gets its fair share, then the amount `hgq_allocate_surplus` on the root
computes for it, then its remainders are recovered, then it gets the amount `hgq_round_robin`
on the root computes for it. -/
theorem cycle_child_chain (oversub : Bool) (P : ℚ) (d : GroupData) (cs : List GroupEntry)
    (hf : fresh (.mk d cs) = true) (hd : ∀ x ∈ (GroupEntry.mk d cs).nodes, 0 ≤ x.requested)
    (hcs : cs ≠ []) :
    ∃ (s2 : ℚ) (d2 : GroupData) (cs2 : List GroupEntry) (s3 : ℚ) (d3 : GroupData)
      (cs3 : List GroupEntry),
      0 ≤ s2 ∧ Consistent (.mk d2 cs2) ∧ QuotaNonneg (.mk d2 cs2) ∧
      0 ≤ s3 ∧ Consistent (.mk d3 cs3) ∧ IntRequests (.mk d3 cs3) ∧
      hgq_cycle oversub P (.mk d cs) = (hgq_round_robin s3 (.mk d3 cs3)).1 ∧
      ∀ (i : Nat) (c : GroupEntry), cs[i]? = some c →
        ∃ (f f' r : GroupEntry),
          f = (hgq_fairshare
            (hgq_assign_quotas oversub (budget_at oversub P (.mk d cs) [i]) c)).1 ∧
          f' = (if allocate_surplus_credit s2 (.mk d2 cs2) i > 0 then
            (hgq_allocate_surplus (allocate_surplus_credit s2 (.mk d2 cs2) i) f).1 else f) ∧
          r = (hgq_recover_remainders f').1 ∧
          cs2[i]? = some f ∧ cs3[i]? = some r ∧
          ∃ b : Bool, (hgq_cycle oversub P (.mk d cs)).children[i]?
            = some (mark_rr b (if round_robin_credit s3 (.mk d3 cs3) i > 0 then
                (hgq_round_robin (round_robin_credit s3 (.mk d3 cs3) i) r).1 else r)) := by
  obtain ⟨hq1, hd1, -⟩ := assign_state oversub P (.mk d cs) hf hd
  have hch1 := assign_child oversub P d cs
  cases h1 : hgq_assign_quotas oversub P (.mk d cs) with
  | mk d1 cs1 =>
    rw [h1] at hq1 hd1 hch1
    simp only [GroupEntry.children_mk] at hch1
    obtain ⟨c0, hc0⟩ : ∃ c0, cs[0]? = some c0 := by
      cases cs with
      | nil => exact absurd rfl hcs
      | cons a l => exact ⟨a, by simp⟩
    have hcs1 : cs1 ≠ [] := ne_nil_of_getElem? (hch1 0 c0 hc0)
    obtain ⟨s2, d2, hfs, hs2, hc2, hq2⟩ := fairshare_root_step d1 cs1 hcs1 hq1 hd1
    obtain ⟨f1, -⟩ := fairshare_spec (.mk d1 cs1) hq1 hd1
    have hch2 := allocate_surplus_child s2 d2 (cs1.map (fun c => (hgq_fairshare c).1))
    rw [← hfs] at hch2
    cases h2 : (hgq_fairshare (.mk d1 cs1)).1 with
    | mk dd2 ccs2 =>
      rw [h2] at f1 hch2
      simp only [GroupEntry.children_mk] at hch2
      have hd2 := consistent_requested_nonneg f1
      have hm0 : (cs1.map (fun c => (hgq_fairshare c).1))[0]?
          = some (hgq_fairshare
              (hgq_assign_quotas oversub (budget_at oversub P (.mk d cs) [0]) c0)).1 := by
        rw [List.getElem?_map, hch1 0 c0 hc0]
        rfl
      have hccs2 : ccs2 ≠ [] := ne_nil_of_getElem? (hch2 0 _ hm0)
      obtain ⟨s3, d3, hrc, hs3, hc3, hi3⟩ := recover_root_step dd2 ccs2 hccs2 hd2
      have hch3 := round_robin_child s3 d3 (ccs2.map (fun c => (hgq_recover_remainders c).1))
      rw [← hrc] at hch3
      have hcyc : hgq_cycle oversub P (.mk d cs)
          = (hgq_recover_remainders (.mk dd2 ccs2)).1 := by
        unfold hgq_cycle
        rw [h1, h2]
      refine ⟨s2, d2, _, s3, d3, _, hs2, hc2, hq2, hs3, hc3, hi3, by rw [hcyc, hrc], ?_⟩
      intro i c hi
      have e1 : (cs1.map (fun c => (hgq_fairshare c).1))[i]?
          = some (hgq_fairshare
              (hgq_assign_quotas oversub (budget_at oversub P (.mk d cs) [i]) c)).1 := by
        rw [List.getElem?_map, hch1 i c hi]
        rfl
      have e2 := hch2 i _ e1
      have e3 : (ccs2.map (fun c => (hgq_recover_remainders c).1))[i]?
          = some (hgq_recover_remainders
              (if allocate_surplus_credit s2
                    (.mk d2 (cs1.map (fun c => (hgq_fairshare c).1))) i > 0 then
                (hgq_allocate_surplus (allocate_surplus_credit s2
                    (.mk d2 (cs1.map (fun c => (hgq_fairshare c).1))) i)
                  (hgq_fairshare
                    (hgq_assign_quotas oversub (budget_at oversub P (.mk d cs) [i]) c)).1).1
              else (hgq_fairshare
                    (hgq_assign_quotas oversub (budget_at oversub P (.mk d cs) [i]) c)).1)).1 := by
        rw [List.getElem?_map, e2]
        rfl
      obtain ⟨b, hb⟩ := hch3 i _ e3
      refine ⟨_, _, _, rfl, rfl, rfl, e1, e3, b, ?_⟩
      rw [hcyc]
      exact hb

/-! ### A lower bound on what a child of the root ends with -/

theorem slot_allocate_twin (by_quota : Bool) (surplus Z : ℚ) {s1 s2 : Slot}
    (h : TwinSlot s1 s2) :
    TwinSlot (slot_allocate by_quota surplus Z s1) (slot_allocate by_quota surplus Z s2) := by
  obtain ⟨h1, h2, h3⟩ := h
  unfold TwinSlot slot_allocate slot_amount slot_weight
  rw [h2, h3]
  split_ifs <;> simp [h1, h2, h3]

/-- The slots after `hgq_allocate_surplus_loop` are the images of the slots before it under
one function, which treats slots alike that agree on allocation, request and quota. -/
theorem surplus_loop_fuel_twin (by_quota : Bool) : ∀ (fuel : Nat) (st : SurplusLoop),
    ∃ f : Slot → Slot,
      (hgq_allocate_surplus_loop_fuel by_quota fuel st).slots = st.slots.map f ∧
      ∀ s1 s2, TwinSlot s1 s2 → TwinSlot (f s1) (f s2) := by
  intro fuel
  induction fuel with
  | zero =>
    intro st
    exact ⟨id, by rw [loop_fuel_zero]; simp, fun _ _ h => h⟩
  | succ n ih =>
    intro st
    by_cases hd : surplus_loop_done by_quota st
    · exact ⟨id, by rw [loop_fuel_of_done hd]; simp, fun _ _ h => h⟩
    · rw [loop_fuel_succ_of_not_done hd]
      obtain ⟨g, hg, hgt⟩ := ih (surplus_loop_next by_quota st)
      refine ⟨g ∘ slot_allocate by_quota st.surplus (surplus_loop_Z by_quota st.slots), ?_, ?_⟩
      · rw [hg]
        show (List.map _ st.slots).map g = _
        rw [List.map_map]
      · intro s1 s2 h
        exact hgt _ _ (slot_allocate_twin _ _ _ h)

theorem outstanding_request_congr {g1 g2 : GroupData}
    (h1 : g1.accept_surplus = g2.accept_surplus)
    (h2 : g1.subtree_requested = g2.subtree_requested) :
    outstanding_request g1 = outstanding_request g2 := by
  unfold outstanding_request
  rw [h1, h2]

/-- One level of surplus allocation gives equal amounts to groups that agree on
`accept_surplus`, `subtree_requested` and `subtree_quota`. -/
theorem allocate_surplus_level_twin (s R : ℚ) (groups : List GroupData) :
    ∃ F : GroupData → Slot,
      (allocate_surplus_level s R groups).slots = groups.map F ∧
      ∀ g1 g2 : GroupData, g1.accept_surplus = g2.accept_surplus →
        g1.subtree_requested = g2.subtree_requested → g1.subtree_quota = g2.subtree_quota →
        (F g1).allocated = (F g2).allocated := by
  have hout : ∀ g1 g2 : GroupData, g1.accept_surplus = g2.accept_surplus →
      g1.subtree_requested = g2.subtree_requested →
      outstanding_request g1 = outstanding_request g2 := by
    intro g1 g2 h1 h2
    unfold outstanding_request
    rw [h1, h2]
  unfold allocate_surplus_level
  split_ifs with h
  · exact ⟨_, rfl, fun g1 g2 h1 h2 _ => hout g1 g2 h1 h2⟩
  · unfold hgq_allocate_surplus_loop
    obtain ⟨f1, hf1, ht1⟩ := surplus_loop_fuel_twin true
      ((groups.map (fun g =>
        ({ grp := g, allocated := 0, subtree_requested := outstanding_request g } : Slot))).length
        + 1)
      { slots := groups.map
          (fun g => { grp := g, allocated := 0, subtree_requested := outstanding_request g })
        surplus := s
        requested := R }
    obtain ⟨f2, hf2, ht2⟩ := surplus_loop_fuel_twin false
      ((hgq_allocate_surplus_loop_fuel true
        ((groups.map (fun g =>
          ({ grp := g, allocated := 0, subtree_requested := outstanding_request g } : Slot))).length
          + 1)
        { slots := groups.map
            (fun g => { grp := g, allocated := 0, subtree_requested := outstanding_request g })
          surplus := s
          requested := R }).slots.length + 1)
      (hgq_allocate_surplus_loop_fuel true
        ((groups.map (fun g =>
          ({ grp := g, allocated := 0, subtree_requested := outstanding_request g } : Slot))).length
          + 1)
        { slots := groups.map
            (fun g => { grp := g, allocated := 0, subtree_requested := outstanding_request g })
          surplus := s
          requested := R })
    refine ⟨fun g => f2 (f1 ⟨g, 0, outstanding_request g⟩), ?_, ?_⟩
    · rw [hf2, hf1]
      simp only [List.map_map]
      rfl
    · intro g1 g2 h1 h2 h3
      have h0 : TwinSlot ⟨g1, 0, outstanding_request g1⟩ ⟨g2, 0, outstanding_request g2⟩ :=
        ⟨rfl, hout g1 g2 h1 h2, h3⟩
      exact (ht2 _ _ (ht1 _ _ h0)).1

/-- The call `hgq_allocate_surplus` computes equal amounts for two children that agree on
`accept_surplus`, `subtree_requested` and `subtree_quota`. -/
theorem allocate_surplus_credit_twin (s : ℚ) (d : GroupData) (cs : List GroupEntry)
    {i j : Nat} {ci cj : GroupEntry} (hi : cs[i]? = some ci) (hj : cs[j]? = some cj)
    (h1 : ci.data.accept_surplus = cj.data.accept_surplus)
    (h2 : ci.data.subtree_requested = cj.data.subtree_requested)
    (h3 : ci.data.subtree_quota = cj.data.subtree_quota) :
    allocate_surplus_credit s (.mk d cs) i = allocate_surplus_credit s (.mk d cs) j := by
  unfold allocate_surplus_credit
  by_cases hs1 : s ≤ 0
  · simp only [if_pos hs1]
  simp only [if_neg hs1]
  by_cases hs2 : d.subtree_requested ≤ 0
  · simp only [if_pos hs2]
  simp only [if_neg hs2]
  · obtain ⟨F, hF, hFt⟩ := allocate_surplus_level_twin s d.subtree_requested
      (cs.map GroupEntry.data ++ [splice_surplus d])
    have ei : (allocate_surplus_level s d.subtree_requested
        (cs.map GroupEntry.data ++ [splice_surplus d])).slots[i]? = some (F ci.data) := by
      rw [hF, List.getElem?_map, groups_getElem?_child hi]
      rfl
    have ej : (allocate_surplus_level s d.subtree_requested
        (cs.map GroupEntry.data ++ [splice_surplus d])).slots[j]? = some (F cj.data) := by
      rw [hF, List.getElem?_map, groups_getElem?_child hj]
      rfl
    rw [slot_allocated_of_getElem ei, slot_allocated_of_getElem ej]
    exact hFt _ _ h1 h2 h3

/-- The call `hgq_round_robin` on a node with consistent whole requests computes amounts
that differ by at most one slot for two children with equal requests. -/
theorem round_robin_credit_fair (s : ℚ) (d : GroupData) (cs : List GroupEntry) (hs : 0 ≤ s)
    (hc : Consistent (.mk d cs)) (hi : IntRequests (.mk d cs))
    {i j : Nat} {ci cj : GroupEntry} (hci : cs[i]? = some ci) (hcj : cs[j]? = some cj)
    (heq : outstanding_request ci.data = outstanding_request cj.data) :
    |round_robin_credit s (.mk d cs) i - round_robin_credit s (.mk d cs) j| ≤ 1 := by
  by_cases hij : i = j
  · rw [hij]
    simp
  obtain ⟨⟨-, hsri⟩, -⟩ := intRequests_mk.1 hi
  obtain ⟨hint, hR⟩ := round_robin_groups hc hi
  unfold round_robin_credit
  simp only [force_integer_of_int hsri]
  by_cases hs1 : d.subtree_requested ≤ 0
  · simp only [if_pos hs1]
    simp
  simp only [if_neg hs1]
  by_cases hs2 : s < 1
  · simp only [if_pos hs2]
    simp
  simp only [if_neg hs2]
  · have hgi := groups_getElem?_child hci (splice_rr d)
    have hgj := groups_getElem?_child hcj (splice_rr d)
    have hnodup : (sorted_idx (cs.map GroupEntry.data ++ [splice_rr d])).Nodup :=
      (sorted_idx_perm _).nodup_iff.2 (List.nodup_range _)
    rcases never_after_or hnodup with h | h
    · rcases round_robin_level_pair _ s d.subtree_requested hs hint hR hgi hgj hij heq h
        with e | e
      · rw [e]; simp
      · rw [e]; simp
    · rcases round_robin_level_pair _ s d.subtree_requested hs hint hR hgj hgi
        (Ne.symm hij) heq.symm h with e | e
      · rw [e]; simp
      · rw [e]; simp

/-! ### A leaf through the phases -/

theorem allocate_surplus_leaf_shape (s : ℚ) (x : GroupData) :
    ∃ x' : GroupData, (hgq_allocate_surplus s (.mk x [])).1 = .mk x' [] := by
  have hch : ∀ slots : List Slot, hgq_allocate_surplus_children slots [] = [] := by
    intro slots
    cases slots <;> simp [hgq_allocate_surplus_children]
  rw [hgq_allocate_surplus]
  simp only [hch]
  split_ifs
  · exact ⟨_, rfl⟩
  · exact ⟨_, rfl⟩
  · exact ⟨_, rfl⟩

theorem round_robin_leaf_shape (s : ℚ) (x : GroupData) :
    ∃ x' : GroupData, (hgq_round_robin s (.mk x [])).1 = .mk x' [] := by
  have hch : ∀ slots : List Slot, hgq_round_robin_children slots [] = [] := by
    intro slots
    cases slots <;> simp [hgq_round_robin_children]
  rw [hgq_round_robin]
  simp only [hch]
  split_ifs
  · exact ⟨_, rfl⟩
  · exact ⟨_, rfl⟩
  · exact ⟨_, rfl⟩

theorem total_allocated_leaf (x : GroupData) : total_allocated (.mk x []) = x.allocated := by
  rw [total_allocated_mk]
  simp

/-- A fresh leaf after `hgq_assign_quotas`: a leaf with the same demand and setting of
`accept_surplus`, whose own `quota` is its `subtree_quota`, none negative. -/
theorem assign_leaf (oversub : Bool) (B : ℚ) (c : GroupData) (hf : fresh_node c = true) :
    ∃ c1 : GroupData, hgq_assign_quotas oversub B (.mk c []) = .mk c1 [] ∧
      c1.requested = c.requested ∧ c1.accept_surplus = c.accept_surplus ∧
      c1.quota = c1.subtree_quota ∧ 0 ≤ c1.quota := by
  obtain ⟨-, hq0, hsq0, -, -⟩ := fresh_node_iff.1 hf
  by_cases hB : B ≤ 0
  · rw [assign_nonpos oversub hB]
    exact ⟨c, rfl, rfl, rfl, by rw [hq0, hsq0], by rw [hq0]⟩
  · rw [assign_pos oversub (not_le.1 hB)]
    refine ⟨_, rfl, rfl, rfl, ?_, ?_⟩
    · simp only [List.map_nil, List.sum_nil, sub_zero, ite_self, if_neg (not_lt.2 (not_le.1 hB).le)]
    · simp only [List.map_nil, List.sum_nil, sub_zero, ite_self, if_neg (not_lt.2 (not_le.1 hB).le)]
      exact (not_le.1 hB).le

/-- A leaf with nonnegative quota and demand after its fair share, the amount `cr` of
surplus and the recovery of remainders: what it holds and what it still requests are
functions of its demand, its quota and `cr` alone. -/
theorem leaf_phases (c1 : GroupData) (hq : 0 ≤ c1.quota) (hsq : 0 ≤ c1.subtree_quota)
    (hr : 0 ≤ c1.requested) (cr : ℚ) :
    ∃ (x : GroupData) (A : ℚ),
      (hgq_recover_remainders
        (if cr > 0 then (hgq_allocate_surplus cr (hgq_fairshare (.mk c1 [])).1).1
         else (hgq_fairshare (.mk c1 [])).1)).1 = .mk x [] ∧
      x.accept_surplus = c1.accept_surplus ∧
      A = min c1.requested c1.quota
        + (if cr > 0 then min cr (c1.requested - min c1.requested c1.quota) else 0) ∧
      x.allocated = round_for_precision (A - (A - ((⌊A⌋ : ℤ) : ℚ))) ∧
      x.subtree_requested
        = round_for_precision (c1.requested - A + (A - ((⌊A⌋ : ℤ) : ℚ))) := by
  have hqn : QuotaNonneg (.mk c1 []) := by
    intro y hy
    rw [nodes_mk] at hy
    simp only [List.map_nil, List.flatten_nil, List.mem_singleton] at hy
    rw [hy]
    exact ⟨hq, hsq⟩
  have hdn : ∀ y ∈ (GroupEntry.mk c1 []).nodes, 0 ≤ y.requested := by
    intro y hy
    rw [nodes_mk] at hy
    simp only [List.map_nil, List.flatten_nil, List.mem_singleton] at hy
    rw [hy]
    exact hr
  obtain ⟨f1, -, -, -, f5⟩ := fairshare_spec (.mk c1 []) hqn hdn
  have hfq : QuotaNonneg (hgq_fairshare (.mk c1 [])).1 :=
    quotaNonneg_of_frame (fun _ _ (h : FairshareFrame _ _) => h.1) f5 hqn
  rw [fairshare_leaf] at f1 hfq ⊢
  simp only at f1 hfq ⊢
  -- the leaf after the surplus
  have key : ∃ a3 : GroupData,
      (if cr > 0 then
        (hgq_allocate_surplus cr
          (.mk { c1 with
                 allocated := min c1.requested c1.quota
                 requested := c1.requested - min c1.requested c1.quota
                 subtree_requested := c1.requested - min c1.requested c1.quota } [])).1
       else
        (.mk { c1 with
               allocated := min c1.requested c1.quota
               requested := c1.requested - min c1.requested c1.quota
               subtree_requested := c1.requested - min c1.requested c1.quota } []))
        = .mk a3 [] ∧
      a3.accept_surplus = c1.accept_surplus ∧
      a3.allocated = min c1.requested c1.quota
        + (if cr > 0 then min cr (c1.requested - min c1.requested c1.quota) else 0) ∧
      a3.allocated + a3.requested = c1.requested := by
    by_cases hcr : cr > 0
    · simp only [if_pos hcr]
      obtain ⟨-, -, -, s4, s5⟩ := allocate_surplus_spec _ cr hcr.le f1 hfq
      obtain ⟨a3, ha3⟩ := allocate_surplus_leaf_shape cr
        { c1 with
          allocated := min c1.requested c1.quota
          requested := c1.requested - min c1.requested c1.quota
          subtree_requested := c1.requested - min c1.requested c1.quota }
      rw [ha3] at s4 s5
      have hh := forall₂_nodes_head s5
      simp only [GroupEntry.data_mk] at hh s4
      rw [total_allocated_leaf, total_allocated_leaf] at s4
      refine ⟨a3, ha3, hh.1.2.2.2.1, s4, ?_⟩
      have := hh.2.1
      simp only at this
      linarith
    · simp only [if_neg hcr]
      exact ⟨_, rfl, rfl, by simp, by simp⟩
  obtain ⟨a3, h3, h3a, h3b, h3c⟩ := key
  rw [h3, recover_leaf]
  refine ⟨_, a3.allocated, rfl, h3a, h3b, rfl, ?_⟩
  simp only
  have : a3.requested = c1.requested - a3.allocated := by linarith
  rw [this]

theorem leaf_final_shape (b : Bool) (cr : ℚ) (x : GroupData) :
    ∃ y : GroupData,
      mark_rr b (if cr > 0 then (hgq_round_robin cr (.mk x [])).1 else .mk x [])
        = .mk y [] := by
  split_ifs
  · obtain ⟨x', hx'⟩ := round_robin_leaf_shape cr x
    rw [hx', mark_rr_mk]
    exact ⟨_, rfl⟩
  · rw [mark_rr_mk]
    exact ⟨_, rfl⟩

/-- C13 (as amended): for every fresh tree with nonnegative demands, every pool size and
either setting of the oversubscription flag, any two leaf groups that are children of the
root, both accept surplus, are assigned equal `subtree_quota` and have equal initial demand
end the cycle with final `allocated` values that differ by at most one slot. -/
theorem round_robin_fairness (oversub : Bool) (P : ℚ) (d : GroupData) (cs : List GroupEntry)
    (i j : Nat) (a b : GroupData) (hf : fresh (.mk d cs) = true)
    (hd : ∀ x ∈ (GroupEntry.mk d cs).nodes, 0 ≤ x.requested)
    (hi : cs[i]? = some (.mk a [])) (hj : cs[j]? = some (.mk b []))
    (haa : a.accept_surplus = true) (hab : b.accept_surplus = true)
    (hreq : a.requested = b.requested)
    (hq : (hgq_assign_quotas oversub P (.mk d cs)).children[i]?.map
        (fun n => n.data.subtree_quota)
      = (hgq_assign_quotas oversub P (.mk d cs)).children[j]?.map
        (fun n => n.data.subtree_quota)) :
    ∃ ni nj : GroupEntry,
      (hgq_cycle oversub P (.mk d cs)).children[i]? = some ni ∧
      (hgq_cycle oversub P (.mk d cs)).children[j]? = some nj ∧
      |ni.data.allocated - nj.data.allocated| ≤ 1 := by
  obtain ⟨s2, d2, cs2, s3, d3, cs3, hs2, hc2, hq2, hs3, hc3, hi3, hcyc, hch⟩ :=
    cycle_child_chain oversub P d cs hf hd (ne_nil_of_getElem? hi)
  obtain ⟨fi, fi', ri, hfi, hfi', hri, h2i, h3i, bi, hbi⟩ := hch i _ hi
  obtain ⟨fj, fj', rj, hfj, hfj', hrj, h2j, h3j, bj, hbj⟩ := hch j _ hj
  have hmi : GroupEntry.mk a [] ∈ cs := List.getElem?_mem hi
  have hmj : GroupEntry.mk b [] ∈ cs := List.getElem?_mem hj
  have hfa : fresh_node a = true := (fresh_mk.1 ((fresh_mk.1 hf).2 _ hmi)).1
  have hfb : fresh_node b = true := (fresh_mk.1 ((fresh_mk.1 hf).2 _ hmj)).1
  have hda : 0 ≤ a.requested := by
    apply hd a
    rw [nodes_mk]
    exact List.mem_cons_of_mem _
      (List.mem_flatten.2 ⟨_, List.mem_map.2 ⟨_, hmi, rfl⟩, by rw [nodes_mk]; simp⟩)
  obtain ⟨a1, ha1, ha1r, ha1a, ha1q, ha1n⟩ :=
    assign_leaf oversub (budget_at oversub P (.mk d cs) [i]) a hfa
  obtain ⟨b1, hb1, hb1r, hb1a, hb1q, hb1n⟩ :=
    assign_leaf oversub (budget_at oversub P (.mk d cs) [j]) b hfb
  have hsq : a1.subtree_quota = b1.subtree_quota := by
    rw [assign_child oversub P d cs i _ hi, assign_child oversub P d cs j _ hj, ha1, hb1]
      at hq
    exact Option.some.inj hq
  have hqq : a1.quota = b1.quota := by rw [ha1q, hb1q, hsq]
  have hrr : a1.requested = b1.requested := by rw [ha1r, hb1r, hreq]
  have hacc : a1.accept_surplus = b1.accept_surplus := by rw [ha1a, hb1a, haa, hab]
  rw [ha1] at hfi
  rw [hb1] at hfj
  -- equal amounts of surplus
  have hcr : allocate_surplus_credit s2 (.mk d2 cs2) i
      = allocate_surplus_credit s2 (.mk d2 cs2) j := by
    apply allocate_surplus_credit_twin s2 d2 cs2 h2i h2j
    · rw [hfi, hfj, fairshare_leaf, fairshare_leaf]
      exact hacc
    · rw [hfi, hfj, fairshare_leaf, fairshare_leaf]
      simp only [GroupEntry.data_mk]
      rw [hrr, hqq]
    · rw [hfi, hfj, fairshare_leaf, fairshare_leaf]
      exact hsq
  -- the leaves when round robin is called on the root
  obtain ⟨xi, Ai, hxi, hxia, hAi, hxial, hxisr⟩ := leaf_phases a1 ha1n
    (by rw [← ha1q]; exact ha1n) (by rw [ha1r]; exact hda)
    (allocate_surplus_credit s2 (.mk d2 cs2) i)
  obtain ⟨xj, Aj, hxj, hxja, hAj, hxjal, hxjsr⟩ := leaf_phases b1 hb1n
    (by rw [← hb1q]; exact hb1n) (by rw [hb1r, ← hreq]; exact hda)
    (allocate_surplus_credit s2 (.mk d2 cs2) j)
  rw [← hfi, ← hfi', ← hri] at hxi
  rw [← hfj, ← hfj', ← hrj] at hxj
  have hA : Ai = Aj := by rw [hAi, hAj, hcr, hrr, hqq]
  have hal : xi.allocated = xj.allocated := by rw [hxial, hxjal, hA]
  have hsr : xi.subtree_requested = xj.subtree_requested := by
    rw [hxisr, hxjsr, hA, hrr]
  have hout : outstanding_request ri.data = outstanding_request rj.data := by
    rw [hxi, hxj]
    exact outstanding_request_congr
      (show xi.accept_surplus = xj.accept_surplus by rw [hxia, hxja, hacc]) hsr
  have hfair := round_robin_credit_fair s3 d3 cs3 hs3 hc3 hi3 h3i h3j hout
  obtain ⟨ni, hni, hti⟩ := round_robin_credit_spec s3 d3 cs3 hs3 hc3 hi3 i ri h3i
  obtain ⟨nj, hnj, htj⟩ := round_robin_credit_spec s3 d3 cs3 hs3 hc3 hi3 j rj h3j
  rw [← hcyc] at hni hnj
  refine ⟨ni, nj, hni, hnj, ?_⟩
  have hsi : ∃ y, ni = .mk y [] := by
    rw [hni] at hbi
    rw [Option.some.inj hbi, hxi]
    exact leaf_final_shape _ _ _
  have hsj : ∃ y, nj = .mk y [] := by
    rw [hnj] at hbj
    rw [Option.some.inj hbj, hxj]
    exact leaf_final_shape _ _ _
  obtain ⟨yi, hyi⟩ := hsi
  obtain ⟨yj, hyj⟩ := hsj
  rw [hyi, hxi, total_allocated_leaf, total_allocated_leaf] at hti
  rw [hyj, hxj, total_allocated_leaf, total_allocated_leaf] at htj
  rw [hyi, hyj]
  simp only [GroupEntry.data_mk]
  rw [hti, htj, hal]
  have : xj.allocated + round_robin_credit s3 (.mk d3 cs3) i
      - (xj.allocated + round_robin_credit s3 (.mk d3 cs3) j)
      = round_robin_credit s3 (.mk d3 cs3) i - round_robin_credit s3 (.mk d3 cs3) j := by
    ring
  rw [this]
  exact hfair

/-- C13 (counterexample): the sibling leaves `g.a` and `g.b` accept surplus, are assigned the
`subtree_quota` 2.5 each and demand 10 slots each. Round robin on `g` gives the slot made of
their two halves to `g.a`, and round robin on the root gives `g` the slot made of the halves
of `h1` and `h2`, which `g` passes to `g.a` again: `g.a` ends with 4 slots and `g.b` with 2. -/
theorem round_robin_fairness_fails_below_the_root :
    (hgq_assign_quotas false 6 example_two_levels).nodes.map GroupData.subtree_quota
      = [6, 5, 5 / 2, 5 / 2, 1 / 2, 1 / 2] ∧
    allocated_at (hgq_cycle false 6 example_two_levels) [0, 0] = some 4 ∧
    allocated_at (hgq_cycle false 6 example_two_levels) [0, 1] = some 2 ∧
    ¬ (|(4 : ℚ) - 2| ≤ 1) := by
  refine ⟨by decide!, by decide!, by decide!, ?_⟩
  norm_num

/-- C13 (witness): scenario 5 of the specification: `a` and `b` have quota 0 and demand 10
each; in a pool of 5 slots they end with 3 and 2. -/
theorem round_robin_fairness_witness :
    fresh example_round_robin = true ∧
    (∀ x ∈ example_round_robin.nodes, 0 ≤ x.requested) ∧
    (∃ ni nj : GroupEntry,
      (hgq_cycle false 5 example_round_robin).children[0]? = some ni ∧
      (hgq_cycle false 5 example_round_robin).children[1]? = some nj ∧
      |ni.data.allocated - nj.data.allocated| ≤ 1) ∧
    (hgq_cycle false 5 example_round_robin).nodes.map GroupData.allocated = [0, 3, 2] :=
  ⟨by decide!, by decide!,
    round_robin_fairness false 5 example_round_robin.data example_round_robin.children 0 1
      (leaf_group "a" 0 true true 10 1).data (leaf_group "b" 0 true true 10 2).data
      (by decide!) (by decide!) rfl rfl rfl rfl rfl
      (by decide!),
    by decide!⟩

/-! ## The breadth-first sequence `hgq_groups` -/

theorem nodes_length_pos (t : GroupEntry) : 0 < t.nodes.length := by
  obtain ⟨d, cs⟩ := t
  simp [GroupEntry.nodes]

theorem nodes_length_eq (t : GroupEntry) :
    t.nodes.length = 1 + (GroupEntry.nodes_list t.children).length := by
  obtain ⟨d, cs⟩ := t
  simp [GroupEntry.nodes]
  omega

theorem weight_nil : weight [] = 0 := rfl

theorem weight_cons (x : List Nat × GroupEntry) (q : List (List Nat × GroupEntry)) :
    weight (x :: q) = x.2.nodes.length + weight q := by
  simp [weight]

theorem weight_append (q r : List (List Nat × GroupEntry)) :
    weight (q ++ r) = weight q + weight r := by
  simp [weight]

theorem weight_kids_from (p : List Nat) : ∀ (cs : List GroupEntry) (k : Nat),
    weight (kids_from p k cs) = (GroupEntry.nodes_list cs).length
  | [], _ => rfl
  | c :: cs, k => by
    simp only [kids_from, weight_cons, GroupEntry.nodes_list, List.length_append,
      weight_kids_from p cs (k + 1)]

theorem kids_nil : kids [] = [] := rfl

theorem kids_cons (x : List Nat × GroupEntry) (q : List (List Nat × GroupEntry)) :
    kids (x :: q) = kids_from x.1 0 x.2.children ++ kids q := by
  simp [kids]

theorem weight_kids (q : List (List Nat × GroupEntry)) :
    weight (kids q) + q.length = weight q := by
  induction q with
  | nil => rfl
  | cons x q ih =>
    rw [kids_cons, weight_append, weight_kids_from, weight_cons, nodes_length_eq x.2,
      List.length_cons]
    omega

theorem weight_eq_zero {q : List (List Nat × GroupEntry)} (h : weight q = 0) : q = [] := by
  cases q with
  | nil => rfl
  | cons x q =>
    rw [weight_cons] at h
    have := nodes_length_pos x.2
    omega

/-- With enough fuel the loop emits the nodes of the front of the queue, and goes on with the
rest of the queue followed by the children of the front. -/
theorem breadth_first_paths_append : ∀ (q r : List (List Nat × GroupEntry)) (fuel : Nat),
    weight q + weight r ≤ fuel →
    breadth_first_paths fuel (q ++ r) = q ++ breadth_first_paths (fuel - q.length) (r ++ kids q)
  | [], r, fuel, _ => by simp [kids_nil]
  | x :: q, r, fuel, h => by
    rw [weight_cons] at h
    have hx := nodes_length_eq x.2
    obtain ⟨f, rfl⟩ : ∃ f, fuel = f + 1 := ⟨fuel - 1, by omega⟩
    have ih := breadth_first_paths_append q (r ++ kids_from x.1 0 x.2.children) f (by
      rw [weight_append, weight_kids_from]
      omega)
    have e : breadth_first_paths (f + 1) (x :: q ++ r)
        = x :: breadth_first_paths f (q ++ (r ++ kids_from x.1 0 x.2.children)) := by
      rw [← List.append_assoc]
      rfl
    rw [e, ih, kids_cons, List.append_assoc, List.length_cons, Nat.add_sub_add_right]
    rfl

theorem levels_from_nil : ∀ n, levels_from n [] = []
  | 0 => rfl
  | n + 1 => by simp [levels_from, kids_nil, levels_from_nil n]

/-- With enough fuel the loop emits the queue level by level. -/
theorem breadth_first_paths_levels : ∀ (n : Nat) (q : List (List Nat × GroupEntry)) (fuel : Nat),
    weight q ≤ n → weight q ≤ fuel → breadth_first_paths fuel q = levels_from n q
  | 0, q, fuel, hn, _ => by
    have : q = [] := weight_eq_zero (by omega)
    subst this
    cases fuel <;> rfl
  | n + 1, q, fuel, hn, hf => by
    have h := breadth_first_paths_append q [] fuel (by simpa [weight_nil] using hf)
    rw [List.append_nil, List.nil_append] at h
    have hk := weight_kids q
    rcases Nat.eq_zero_or_pos q.length with h0 | h0
    · have : q = [] := List.length_eq_zero.1 h0
      subst this
      rw [levels_from_nil]
      cases fuel <;> rfl
    · rw [h, breadth_first_paths_levels n (kids q) (fuel - q.length) (by omega) (by omega)]
      rfl

theorem kids_from_snd (p : List Nat) : ∀ (cs : List GroupEntry) (k : Nat),
    (kids_from p k cs).map Prod.snd = cs
  | [], _ => rfl
  | c :: cs, k => by simp [kids_from, kids_from_snd p cs (k + 1)]

theorem breadth_first_paths_snd : ∀ (fuel : Nat) (q : List (List Nat × GroupEntry)),
    (breadth_first_paths fuel q).map Prod.snd = breadth_first fuel (q.map Prod.snd)
  | 0, _ => rfl
  | _ + 1, [] => rfl
  | fuel + 1, x :: q => by
    simp [breadth_first_paths, breadth_first, breadth_first_paths_snd fuel, kids_from_snd]

theorem subtree_at_append : ∀ (p : List Nat) (t : GroupEntry) (k : Nat),
    subtree_at t (p ++ [k]) = (subtree_at t p).bind (fun n => n.children[k]?)
  | [], .mk d cs, k => by
    rw [List.nil_append, subtree_at_cons, subtree_at_nil]
    cases h : cs[k]? with
    | none => simp [h]
    | some c => simp [h, subtree_at_nil]
  | i :: rest, .mk d cs, k => by
    rw [List.cons_append, subtree_at_cons, subtree_at_cons]
    cases h : cs[i]? with
    | none => rfl
    | some c => exact subtree_at_append rest c k

theorem mem_kids_from (p : List Nat) (P : List Nat) (c : GroupEntry) :
    ∀ (cs : List GroupEntry) (k0 : Nat),
    (P, c) ∈ kids_from p k0 cs ↔ ∃ k, P = p ++ [k0 + k] ∧ cs[k]? = some c
  | [], k0 => by simp [kids_from]
  | a :: cs, k0 => by
    rw [kids_from, List.mem_cons, mem_kids_from p P c cs (k0 + 1)]
    constructor
    · rintro (h | ⟨k, h1, h2⟩)
      · refine ⟨0, ?_, ?_⟩
        · simpa using (Prod.mk.inj h).1
        · simpa using ((Prod.mk.inj h).2).symm
      · exact ⟨k + 1, by rw [h1]; congr 2; omega, by simpa using h2⟩
    · rintro ⟨k, h1, h2⟩
      cases k with
      | zero =>
        left
        have : a = c := by simpa using h2
        rw [h1, this]
        rfl
      | succ k =>
        right
        exact ⟨k, by rw [h1]; congr 2; omega, by simpa using h2⟩

theorem mem_kids {q : List (List Nat × GroupEntry)} {P : List Nat} {c : GroupEntry} :
    (P, c) ∈ kids q ↔ ∃ x ∈ q, ∃ k, P = x.1 ++ [k] ∧ x.2.children[k]? = some c := by
  unfold kids
  rw [List.mem_flatMap]
  constructor
  · rintro ⟨x, hx, h⟩
    obtain ⟨k, h1, h2⟩ := (mem_kids_from x.1 P c _ 0).1 h
    exact ⟨x, hx, k, by simpa using h1, h2⟩
  · rintro ⟨x, hx, k, h1, h2⟩
    exact ⟨x, hx, (mem_kids_from x.1 P c _ 0).2 ⟨k, by simpa using h1, h2⟩⟩

theorem kids_from_nodup (p : List Nat) : ∀ (cs : List GroupEntry) (k0 : Nat),
    ((kids_from p k0 cs).map Prod.fst).Nodup
  | [], _ => by simp [kids_from]
  | a :: cs, k0 => by
    rw [kids_from, List.map_cons, List.nodup_cons]
    refine ⟨?_, kids_from_nodup p cs (k0 + 1)⟩
    intro h
    obtain ⟨⟨P, c⟩, hm, hP⟩ := List.mem_map.1 h
    obtain ⟨k, h1, _⟩ := (mem_kids_from p P c cs (k0 + 1)).1 hm
    have h3 : p ++ [k0 + 1 + k] = p ++ [k0] := by rw [← h1]; exact hP
    have := List.append_cancel_left h3
    simp at this
    omega

theorem kids_nodup : ∀ (q : List (List Nat × GroupEntry)), (q.map Prod.fst).Nodup →
    ((kids q).map Prod.fst).Nodup
  | [], _ => by simp [kids_nil]
  | x :: q, h => by
    rw [List.map_cons, List.nodup_cons] at h
    rw [kids_cons, List.map_append, List.nodup_append]
    refine ⟨kids_from_nodup _ _ _, kids_nodup q h.2, ?_⟩
    intro P hA hB
    obtain ⟨⟨P1, c1⟩, hm1, hP1⟩ := List.mem_map.1 hA
    obtain ⟨⟨P2, c2⟩, hm2, hP2⟩ := List.mem_map.1 hB
    obtain ⟨k1, e1, _⟩ := (mem_kids_from x.1 P1 c1 _ 0).1 hm1
    obtain ⟨y, hy, k2, e2, _⟩ := mem_kids.1 hm2
    have e : x.1 ++ [0 + k1] = y.1 ++ [k2] := by
      rw [← e1, ← e2]
      exact hP1.trans hP2.symm
    have e' := (List.append_inj' e rfl).1
    exact h.1 (e' ▸ List.mem_map_of_mem Prod.fst hy)

theorem levelOf_root (t : GroupEntry) : LevelOf t 0 [([], t)] := by
  refine ⟨?_, by simp, ?_⟩
  · intro x hx
    rw [List.mem_singleton] at hx
    subst hx
    exact ⟨rfl, subtree_at_nil t⟩
  · intro p g hp hg
    have : p = [] := List.length_eq_zero.1 hp
    subst this
    rw [subtree_at_nil] at hg
    rw [List.mem_singleton, Option.some.inj hg]

theorem exists_concat_of_length {p : List Nat} {d : Nat} (h : p.length = d + 1) :
    ∃ p' k, p = p' ++ [k] ∧ p'.length = d := by
  rcases List.eq_nil_or_concat p with rfl | ⟨p', k, rfl⟩
  · cases h
  · refine ⟨p', k, by simp, ?_⟩
    simpa using h

theorem levelOf_kids {t : GroupEntry} {d : Nat} {q : List (List Nat × GroupEntry)}
    (h : LevelOf t d q) : LevelOf t (d + 1) (kids q) := by
  obtain ⟨ha, hb, hc⟩ := h
  refine ⟨?_, kids_nodup q hb, ?_⟩
  · rintro ⟨P, c⟩ hx
    obtain ⟨y, hy, k, e, hk⟩ := mem_kids.1 hx
    obtain ⟨hl, hs⟩ := ha y hy
    refine ⟨by simp [e, hl], ?_⟩
    show subtree_at t P = some c
    rw [e, subtree_at_append, hs]
    exact hk
  · intro p g hp hg
    obtain ⟨p', k, rfl, hl⟩ := exists_concat_of_length hp
    rw [subtree_at_append] at hg
    cases hn : subtree_at t p' with
    | none => rw [hn] at hg; cases hg
    | some n =>
      rw [hn] at hg
      exact mem_kids.2 ⟨(p', n), hc p' n hl hn, k, rfl, hg⟩

theorem levels_from_valid {t : GroupEntry} : ∀ (n d : Nat) (q : List (List Nat × GroupEntry)),
    LevelOf t d q → ∀ x ∈ levels_from n q, subtree_at t x.1 = some x.2 ∧ d ≤ x.1.length
  | 0, _, _, _, x, hx => by cases hx
  | n + 1, d, q, h, x, hx => by
    rw [levels_from, List.mem_append] at hx
    rcases hx with hx | hx
    · exact ⟨(h.1 x hx).2, le_of_eq (h.1 x hx).1.symm⟩
    · have := levels_from_valid n (d + 1) (kids q) (levelOf_kids h) x hx
      exact ⟨this.1, by omega⟩

theorem levels_from_sorted {t : GroupEntry} : ∀ (n d : Nat) (q : List (List Nat × GroupEntry)),
    LevelOf t d q →
    List.Pairwise (fun x y : List Nat × GroupEntry => x.1.length ≤ y.1.length) (levels_from n q)
  | 0, _, _, _ => List.Pairwise.nil
  | n + 1, d, q, h => by
    rw [levels_from, List.pairwise_append]
    refine ⟨?_, levels_from_sorted n (d + 1) (kids q) (levelOf_kids h), ?_⟩
    · rw [List.pairwise_iff_forall_sublist]
      intro a b hab
      have ha := (h.1 a (hab.subset (by simp))).1
      have hb := (h.1 b (hab.subset (by simp))).1
      omega
    · intro a ha b hb
      have h1 := (h.1 a ha).1
      have h2 := (levels_from_valid n (d + 1) (kids q) (levelOf_kids h) b hb).2
      omega

theorem levels_from_nodup {t : GroupEntry} : ∀ (n d : Nat) (q : List (List Nat × GroupEntry)),
    LevelOf t d q → ((levels_from n q).map Prod.fst).Nodup
  | 0, _, _, _ => List.nodup_nil
  | n + 1, d, q, h => by
    rw [levels_from, List.map_append, List.nodup_append]
    refine ⟨h.2.1, levels_from_nodup n (d + 1) (kids q) (levelOf_kids h), ?_⟩
    intro P hA hB
    obtain ⟨a, ha, ea⟩ := List.mem_map.1 hA
    obtain ⟨b, hb, eb⟩ := List.mem_map.1 hB
    have h1 := (h.1 a ha).1
    have h2 := (levels_from_valid n (d + 1) (kids q) (levelOf_kids h) b hb).2
    rw [ea] at h1
    rw [eb] at h2
    omega

theorem levels_from_complete {t : GroupEntry} :
    ∀ (n d : Nat) (q : List (List Nat × GroupEntry)), LevelOf t d q →
    ∀ (p : List Nat) (g : GroupEntry), d ≤ p.length → p.length < d + n →
      subtree_at t p = some g → (p, g) ∈ levels_from n q
  | 0, _, _, _, _, _, h1, h2, _ => by omega
  | n + 1, d, q, h, p, g, h1, h2, hg => by
    rw [levels_from, List.mem_append]
    rcases Nat.eq_or_lt_of_le h1 with e | e
    · exact Or.inl (h.2.2 p g e.symm hg)
    · exact Or.inr (levels_from_complete n (d + 1) (kids q) (levelOf_kids h) p g (by omega)
        (by omega) hg)

theorem levels_from_parent {t : GroupEntry} :
    ∀ (n d : Nat) (q : List (List Nat × GroupEntry)), LevelOf t d q →
    ∀ (i : Nat) (x : List Nat × GroupEntry), (levels_from n q)[i]? = some x →
      i < q.length ∨
      ∃ p k, x.1 = p ++ [k] ∧ ∃ j y, j < i ∧ (levels_from n q)[j]? = some y ∧ y.1 = p
  | 0, _, _, _, i, x, hx => by simp [levels_from] at hx
  | n + 1, d, q, h, i, x, hx => by
    rcases Nat.lt_or_ge i q.length with hi | hi
    · exact Or.inl hi
    · right
      rw [levels_from, List.getElem?_append_right hi] at hx
      rcases levels_from_parent n (d + 1) (kids q) (levelOf_kids h) _ x hx with h1 | h1
      · have hm : (x.1, x.2) ∈ kids q := by
          have : (kids q)[i - q.length]? = some x := by
            have h2 : levels_from n (kids q) = kids q ++ (levels_from n (kids q)).drop (kids q).length := by
              cases n with
              | zero => simp [levels_from] at hx
              | succ n => simp [levels_from]
            rw [h2, List.getElem?_append_left h1] at hx
            exact hx
          exact List.getElem?_mem this
        obtain ⟨y, hy, k, e, _⟩ := mem_kids.1 hm
        obtain ⟨j, hj, ej⟩ := List.getElem_of_mem hy
        refine ⟨y.1, k, e, j, y, by omega, ?_, rfl⟩
        rw [levels_from, List.getElem?_append_left hj, List.getElem?_eq_getElem hj, ej]
      · obtain ⟨p, k, e, j, y, hj, hy, ey⟩ := h1
        refine ⟨p, k, e, j + q.length, y, by omega, ?_, ey⟩
        rw [levels_from, List.getElem?_append_right (by omega)]
        simpa using hy

theorem nodes_length_le_of_mem : ∀ (cs : List GroupEntry) (c : GroupEntry), c ∈ cs →
    c.nodes.length ≤ (GroupEntry.nodes_list cs).length
  | a :: cs, c, h => by
    rw [GroupEntry.nodes_list, List.length_append]
    rcases List.mem_cons.1 h with rfl | h
    · omega
    · have := nodes_length_le_of_mem cs c h
      omega

/-- A node at depth `n` stands in a tree of more than `n` nodes. -/
theorem subtree_at_depth : ∀ (p : List Nat) (t g : GroupEntry), subtree_at t p = some g →
    p.length < t.nodes.length
  | [], t, _, _ => nodes_length_pos t
  | i :: rest, .mk d cs, g, h => by
    obtain ⟨c, hc, hg⟩ := subtree_at_cons_some h
    have h1 := subtree_at_depth rest c g hg
    have h2 := nodes_length_le_of_mem cs c (List.getElem?_mem hc)
    have h3 := nodes_length_eq (.mk d cs)
    simp only [GroupEntry.children_mk] at h3
    simp only [List.length_cons]
    omega

/-- The breadth-first sequence of any tree: there is a list of paths, one for each entry of
`hgq_groups`, such that each entry is the node at its path, no path occurs twice, every node
of the tree has its path in the list, the first path is the empty one, the path of the
parent of an entry stands before the entry, and the lengths of the paths never decrease. -/
theorem hgq_groups_spec (t : GroupEntry) :
    ∃ ps : List (List Nat),
      List.Forall₂ (fun p g => subtree_at t p = some g) ps (hgq_groups t) ∧
      ps.Nodup ∧
      (∀ p g, subtree_at t p = some g → p ∈ ps) ∧
      ps[0]? = some [] ∧
      (∀ (i : Nat) (p : List Nat) (k : Nat), ps[i]? = some (p ++ [k]) →
        ∃ j : Nat, j < i ∧ ps[j]? = some p) ∧
      List.Pairwise (fun p q => p.length ≤ q.length) ps := by
  have hL := levelOf_root t
  have hw : weight [(([] : List Nat), t)] = t.nodes.length := by simp [weight]
  have e : hgq_groups t = (levels_from t.nodes.length [([], t)]).map Prod.snd := by
    unfold hgq_groups
    rw [← breadth_first_paths_levels t.nodes.length [([], t)] t.nodes.length (by omega)
      (by omega), breadth_first_paths_snd]
    rfl
  refine ⟨(levels_from t.nodes.length [([], t)]).map Prod.fst, ?_, ?_, ?_, ?_, ?_, ?_⟩
  · rw [e, List.forall₂_map_left_iff, List.forall₂_map_right_iff, List.forall₂_same]
    intro x hx
    exact (levels_from_valid _ 0 _ hL x hx).1
  · exact levels_from_nodup _ 0 _ hL
  · intro p g hg
    have hd := subtree_at_depth p t g hg
    have := levels_from_complete t.nodes.length 0 _ hL p g (Nat.zero_le _) (by omega) hg
    exact List.mem_map.2 ⟨(p, g), this, rfl⟩
  · obtain ⟨n, hn⟩ : ∃ n, t.nodes.length = n + 1 := ⟨t.nodes.length - 1, by
      have := nodes_length_pos t; omega⟩
    rw [hn]
    simp [levels_from]
  · intro i p k hi
    rw [List.getElem?_map] at hi
    cases hx : (levels_from t.nodes.length [([], t)])[i]? with
    | none => rw [hx] at hi; cases hi
    | some x =>
      rw [hx] at hi
      have hx1 : x.1 = p ++ [k] := Option.some.inj hi
      rcases levels_from_parent _ 0 _ hL i x hx with h1 | ⟨p', k', e', j, y, hj, hy, ey⟩
      · exfalso
        have h0 : i = 0 := by simpa using h1
        subst h0
        obtain ⟨n, hn⟩ : ∃ n, t.nodes.length = n + 1 := ⟨t.nodes.length - 1, by
          have := nodes_length_pos t; omega⟩
        rw [hn] at hx
        have : x = ([], t) := by
          have h2 : (levels_from (n + 1) [(([] : List Nat), t)])[0]? = some ([], t) := by
            simp [levels_from]
          rw [h2] at hx
          exact (Option.some.inj hx).symm
        rw [this] at hx1
        simp at hx1
      · refine ⟨j, hj, ?_⟩
        rw [List.getElem?_map, hy]
        have : p' = p := (List.append_inj' (e'.symm.trans hx1) rfl).1
        simp [ey, this]
  · rw [List.pairwise_map]
    exact levels_from_sorted _ 0 _ hL

/-- C17: the vector `hgq_groups` that `hgq_construct_tree` fills for the tree it has built
holds every node of the tree exactly once, starts with the root, lists every node after its
parent, and lists the nodes in non-decreasing depth.  Nodes are told apart by their place in
the tree: there is a list of paths (child indices from the root), one for each entry of
`hgq_groups`, such that each entry is the node at its path, no path occurs twice, every node
of the tree has its path in the list, the first path is the empty one with the root as the
first entry, the path of the parent of an entry stands at an earlier index, and the lengths
of the paths never decrease along the list. -/
theorem breadth_first_sequence (cfg : GroupConfig) :
    ∃ ps : List (List Nat),
      List.Forall₂ (fun p g => subtree_at (hgq_construct_tree cfg) p = some g) ps
        (hgq_groups (hgq_construct_tree cfg)) ∧
      ps.Nodup ∧
      (∀ p g, subtree_at (hgq_construct_tree cfg) p = some g → p ∈ ps) ∧
      (ps[0]? = some [] ∧
        (hgq_groups (hgq_construct_tree cfg))[0]? = some (hgq_construct_tree cfg)) ∧
      (∀ (i : Nat) (p : List Nat) (k : Nat), ps[i]? = some (p ++ [k]) →
        ∃ j : Nat, j < i ∧ ps[j]? = some p) ∧
      List.Pairwise (fun p q => p.length ≤ q.length) ps := by
  obtain ⟨ps, h1, h2, h3, h4, h5, h6⟩ := hgq_groups_spec (hgq_construct_tree cfg)
  refine ⟨ps, h1, h2, h3, ⟨h4, ?_⟩, h5, h6⟩
  cases ps with
  | nil => cases h4
  | cons p ps =>
    obtain ⟨g, gs, hp, _, e⟩ := List.forall₂_cons_left_iff.1 h1
    have : p = [] := by simpa using h4
    subst this
    rw [subtree_at_nil] at hp
    rw [e, Option.some.inj hp]
    simp

/-! ## The comparison of names and the components of a name -/

theorem ci_less_chars_irrefl : ∀ a : List Char, ci_less_chars a a = false
  | [] => rfl
  | c :: a => by simp [ci_less_chars, ci_less_chars_irrefl a]

theorem ci_less_chars_asymm : ∀ a b : List Char, ci_less_chars a b = true →
    ci_less_chars b a = false
  | [], [], _ => rfl
  | [], _ :: _, _ => rfl
  | _ :: _, [], h => by simp [ci_less_chars] at h
  | x :: a, y :: b, h => by
    simp only [ci_less_chars] at h ⊢
    split_ifs at h ⊢ <;> first
      | omega
      | rfl
      | exact ci_less_chars_asymm a b h

theorem ci_less_chars_le_trans : ∀ a b c : List Char, ci_less_chars b a = false →
    ci_less_chars c b = false → ci_less_chars c a = false
  | [], _, [], _, _ => rfl
  | [], _, _ :: _, _, _ => rfl
  | _ :: _, [], _, h1, _ => by simp [ci_less_chars] at h1
  | _ :: _, _ :: _, [], _, h2 => by simp [ci_less_chars] at h2
  | x :: a, y :: b, z :: c, h1, h2 => by
    simp only [ci_less_chars] at h1 h2 ⊢
    split_ifs at h1 h2 ⊢ <;> first
      | omega
      | rfl
      | exact ci_less_chars_le_trans a b c h1 h2

theorem ci_equiv_iff : ∀ a b : List Char,
    ci_equiv a b = true ↔ a.map lower_code = b.map lower_code
  | [], [] => by simp [ci_equiv, ci_less_chars]
  | [], _ :: _ => by simp [ci_equiv, ci_less_chars]
  | _ :: _, [] => by simp [ci_equiv, ci_less_chars]
  | x :: a, y :: b => by
    have ih := ci_equiv_iff a b
    simp only [ci_equiv, Bool.and_eq_true, Bool.not_eq_true'] at ih ⊢
    simp only [ci_less_chars, List.map_cons, List.cons.injEq]
    rw [← ih]
    split_ifs <;> constructor <;> intro h <;>
      first
      | omega
      | (simp at h; done)
      | (obtain ⟨h5, _⟩ := h; omega)
      | exact ⟨by omega, h⟩
      | exact h.2

theorem ci_less_chars_of_prefix : ∀ (a b : List Char) (x : Nat) (r : List Nat),
    b.map lower_code = a.map lower_code ++ x :: r → ci_less_chars a b = true
  | [], [], _, _, h => by simp at h
  | [], _ :: _, _, _, _ => rfl
  | _ :: _, [], _, _, h => by simp at h
  | c :: a, e :: b, x, r, h => by
    simp only [List.map_cons, List.cons_append, List.cons.injEq] at h
    simp only [ci_less_chars, h.1, lt_irrefl, if_false]
    exact ci_less_chars_of_prefix a b x r h.2

theorem lower_code_dot : lower_code '.' = 46 := by decide

theorem eq_dot_of_lower_code {c : Char} (h : lower_code c = 46) : c = '.' := by
  simp only [lower_code, Char.toLower] at h
  split_ifs at h with hu
  · exfalso
    generalize c.toNat = n at *
    obtain ⟨h1, h2⟩ := hu
    interval_cases n <;> revert h <;> decide
  · have := Char.ofNat_toNat c
    rw [h] at this
    exact this.symm

theorem dot_iff_of_lower_code {c e : Char} (h : lower_code c = lower_code e) :
    c = '.' ↔ e = '.' := by
  constructor
  · rintro rfl
    exact eq_dot_of_lower_code (h.symm.trans lower_code_dot)
  · rintro rfl
    exact eq_dot_of_lower_code (h.trans lower_code_dot)

theorem split_dots_ne_nil : ∀ s : List Char, split_dots s ≠ []
  | [] => by simp [split_dots]
  | c :: cs => by
    have ih := split_dots_ne_nil cs
    rw [split_dots]
    split_ifs
    · simp
    · cases h : split_dots cs <;> simp

theorem split_dots_cons_dot (cs : List Char) :
    split_dots ('.' :: cs) = [] :: split_dots cs := by
  simp [split_dots]

theorem split_dots_cons_ne {c : Char} (hc : c ≠ '.') (cs : List Char) :
    ∃ w ws, split_dots cs = w :: ws ∧ split_dots (c :: cs) = (c :: w) :: ws := by
  cases h : split_dots cs with
  | nil => exact absurd h (split_dots_ne_nil cs)
  | cons w ws =>
    refine ⟨w, ws, rfl, ?_⟩
    rw [split_dots, if_neg hc, h]

theorem join_with_cons_cons {α : Type} (sep : α) (w w2 : List α) (ws : List (List α)) :
    join_with sep (w :: w2 :: ws) = w ++ sep :: join_with sep (w2 :: ws) := rfl

theorem join_with_head_cons {α : Type} (sep c : α) (w : List α) (ws : List (List α)) :
    join_with sep ((c :: w) :: ws) = c :: join_with sep (w :: ws) := by
  cases ws <;> rfl

theorem join_split : ∀ s : List Char, join_with '.' (split_dots s) = s
  | [] => rfl
  | c :: cs => by
    have ih := join_split cs
    by_cases hc : c = '.'
    · subst hc
      rw [split_dots_cons_dot]
      cases h : split_dots cs with
      | nil => exact absurd h (split_dots_ne_nil cs)
      | cons w ws =>
        rw [h] at ih
        rw [join_with_cons_cons, ih]
        rfl
    · obtain ⟨w, ws, h1, h2⟩ := split_dots_cons_ne hc cs
      rw [h2, join_with_head_cons, ← h1, ih]

theorem map_join_with {α β : Type} (f : α → β) (sep : α) : ∀ ws : List (List α),
    (join_with sep ws).map f = join_with (f sep) (ws.map (List.map f))
  | [] => rfl
  | [w] => rfl
  | w :: w2 :: ws => by
    have ih := map_join_with f sep (w2 :: ws)
    simp only [join_with_cons_cons, List.map_append, List.map_cons] at ih ⊢
    rw [ih]

theorem join_with_concat {α : Type} (sep : α) (w : List α) : ∀ ws : List (List α), ws ≠ [] →
    join_with sep (ws ++ [w]) = join_with sep ws ++ sep :: w
  | [], h => absurd rfl h
  | [v], _ => rfl
  | v :: v2 :: ws, _ => by
    have ih := join_with_concat sep w (v2 :: ws) (by simp)
    simp only [List.cons_append] at ih ⊢
    rw [join_with_cons_cons, ih, join_with_cons_cons, List.append_assoc]
    rfl

/-- The characters of a name after `tolower` are its components after `tolower`, joined by
dots. -/
theorem map_lower_code_eq (s : List Char) :
    s.map lower_code = join_with 46 ((split_dots s).map (List.map lower_code)) := by
  conv_lhs => rw [← join_split s]
  rw [map_join_with, lower_code_dot]

theorem split_dots_congr : ∀ a b : List Char, a.map lower_code = b.map lower_code →
    (split_dots a).map (List.map lower_code) = (split_dots b).map (List.map lower_code)
  | [], [], _ => rfl
  | [], _ :: _, h => by simp at h
  | _ :: _, [], h => by simp at h
  | c :: a, e :: b, h => by
    simp only [List.map_cons, List.cons.injEq] at h
    have ih := split_dots_congr a b h.2
    by_cases hc : c = '.'
    · have he : e = '.' := (dot_iff_of_lower_code h.1).1 hc
      subst hc
      subst he
      rw [split_dots_cons_dot, split_dots_cons_dot, List.map_cons, List.map_cons, ih]
    · have he : e ≠ '.' := fun he => hc ((dot_iff_of_lower_code h.1).2 he)
      obtain ⟨w, ws, h1, h2⟩ := split_dots_cons_ne hc a
      obtain ⟨v, vs, h3, h4⟩ := split_dots_cons_ne he b
      rw [h1, h3] at ih
      simp only [List.map_cons, List.cons.injEq] at ih
      rw [h2, h4]
      simp only [List.map_cons, List.cons.injEq]
      exact ⟨⟨h.1, ih.1⟩, ih.2⟩

/-- Two names are the same under the comparison if and only if they have the same number of
components and their components are the same under the comparison. -/
theorem ci_equiv_iff_split (a b : List Char) :
    ci_equiv a b = true ↔
      (split_dots a).map (List.map lower_code) = (split_dots b).map (List.map lower_code) := by
  rw [ci_equiv_iff]
  constructor
  · exact split_dots_congr a b
  · intro h
    rw [map_lower_code_eq a, map_lower_code_eq b, h]

/-- A name whose components are all but the last of the components of another name comes
before it in the order. -/
theorem ci_less_of_parent {a b : List Char} {k : List Nat} {init : List (List Nat)}
    (hi : init ≠ []) (ha : (split_dots a).map (List.map lower_code) = init)
    (hb : (split_dots b).map (List.map lower_code) = init ++ [k]) :
    ci_less_chars a b = true := by
  apply ci_less_chars_of_prefix a b 46 k
  rw [map_lower_code_eq a, map_lower_code_eq b, ha, hb, join_with_concat 46 k init hi]

/-- The components of the proper dotted prefixes of a name are the nonempty proper initial
segments of its components. -/
theorem dotted_prefixes_take : ∀ (s p : List Char), p ∈ dotted_prefixes s →
    ∃ m, 0 < m ∧ m < (split_dots s).length ∧ split_dots p = (split_dots s).take m
  | [], _, h => by simp [dotted_prefixes] at h
  | c :: cs, p, h => by
    rw [dotted_prefixes, List.mem_append] at h
    by_cases hc : c = '.'
    · subst hc
      rw [split_dots_cons_dot]
      have hne := split_dots_ne_nil cs
      have hl : 0 < (split_dots cs).length := List.length_pos.2 hne
      rcases h with h | h
      · simp only [if_true, List.mem_singleton] at h
        subst h
        exact ⟨1, by omega, by simp only [List.length_cons]; omega, by simp [split_dots]⟩
      · obtain ⟨p', hp', rfl⟩ := List.mem_map.1 h
        obtain ⟨m, h1, h2, h3⟩ := dotted_prefixes_take cs p' hp'
        exact ⟨m + 1, by omega, by simp only [List.length_cons]; omega, by
          rw [split_dots_cons_dot, h3, List.take_succ_cons]⟩
    · rcases h with h | h
      · simp [hc] at h
      · obtain ⟨p', hp', rfl⟩ := List.mem_map.1 h
        obtain ⟨m, h1, h2, h3⟩ := dotted_prefixes_take cs p' hp'
        obtain ⟨w, ws, e1, e2⟩ := split_dots_cons_ne hc cs
        obtain ⟨v, vs, e3, e4⟩ := split_dots_cons_ne hc p'
        obtain ⟨m', rfl⟩ : ∃ m', m = m' + 1 := ⟨m - 1, by omega⟩
        rw [e1, e3, List.take_succ_cons] at h3
        rw [e1] at h2
        refine ⟨m' + 1, by omega, by rw [e2]; exact h2, ?_⟩
        rw [e2, e4, List.take_succ_cons]
        simp only [List.cons.injEq] at h3 ⊢
        exact ⟨⟨trivial, h3.1⟩, h3.2⟩

theorem take_dotted_prefixes : ∀ (s : List Char) (m : Nat), 0 < m →
    m < (split_dots s).length →
    ∃ p ∈ dotted_prefixes s, split_dots p = (split_dots s).take m
  | [], m, h1, h2 => by
    simp [split_dots] at h2
    omega
  | c :: cs, m, h1, h2 => by
    obtain ⟨m', rfl⟩ : ∃ m', m = m' + 1 := ⟨m - 1, by omega⟩
    by_cases hc : c = '.'
    · subst hc
      rw [split_dots_cons_dot] at h2 ⊢
      simp only [List.length_cons] at h2
      rcases Nat.eq_zero_or_pos m' with h0 | h0
      · subst h0
        exact ⟨[], by simp [dotted_prefixes], by simp [split_dots]⟩
      · obtain ⟨p, hp, e⟩ := take_dotted_prefixes cs m' h0 (by omega)
        refine ⟨'.' :: p, ?_, ?_⟩
        · rw [dotted_prefixes, List.mem_append]
          exact Or.inr (List.mem_map_of_mem _ hp)
        · rw [split_dots_cons_dot, e, List.take_succ_cons]
    · obtain ⟨w, ws, e1, e2⟩ := split_dots_cons_ne hc cs
      rw [e2] at h2 ⊢
      have h2' : m' + 1 < (split_dots cs).length := by rw [e1]; exact h2
      obtain ⟨p, hp, e⟩ := take_dotted_prefixes cs (m' + 1) (by omega) h2'
      obtain ⟨v, vs, e3, e4⟩ := split_dots_cons_ne hc p
      refine ⟨c :: p, ?_, ?_⟩
      · rw [dotted_prefixes, List.mem_append]
        exact Or.inr (List.mem_map_of_mem _ hp)
      · rw [e1, e3, List.take_succ_cons] at e
        rw [e4, List.take_succ_cons]
        simp only [List.cons.injEq] at e ⊢
        exact ⟨⟨trivial, e.1⟩, e.2⟩

/-! ## The walk along `chmap` and the insertion of a group -/

theorem ci_equiv_congr_right (a : List Char) {k k' : List Char}
    (h : k.map lower_code = k'.map lower_code) : ci_equiv a k = ci_equiv a k' := by
  rw [Bool.eq_iff_iff, ci_equiv_iff, ci_equiv_iff, h]

theorem ci_equiv_false_of_ne {a k q : List Char} (ha : ci_equiv a k = true)
    (hq : q.map lower_code ≠ k.map lower_code) : ci_equiv a q = false := by
  rw [← Bool.not_eq_true]
  intro h
  rw [ci_equiv_iff] at ha h
  exact hq (h.symm.trans ha)

theorem find_child_nil (k : List Char) : find_child k [] = none := rfl

theorem find_child_cons (k : List Char) (c : GroupEntry) (cs : List GroupEntry) :
    find_child k (c :: cs) = if ci_equiv (child_key c) k then some c else find_child k cs := rfl

theorem find_child_congr {k k' : List Char} (h : k.map lower_code = k'.map lower_code) :
    ∀ cs : List GroupEntry, find_child k cs = find_child k' cs
  | [] => rfl
  | c :: cs => by
    rw [find_child_cons, find_child_cons, ci_equiv_congr_right _ h, find_child_congr h cs]

theorem find_child_eq_none_iff (k : List Char) : ∀ cs : List GroupEntry,
    find_child k cs = none ↔ cs.any (fun c => ci_equiv (child_key c) k) = false
  | [] => by simp [find_child]
  | c :: cs => by
    rw [find_child_cons, List.any_cons]
    cases h : ci_equiv (child_key c) k
    · simpa using find_child_eq_none_iff k cs
    · simp

theorem find_child_append (q : List Char) (n : GroupEntry) : ∀ cs : List GroupEntry,
    find_child q (cs ++ [n])
      = match find_child q cs with
        | some c => some c
        | none => if ci_equiv (child_key n) q then some n else none
  | [] => by simp [find_child]
  | c :: cs => by
    rw [List.cons_append, find_child_cons, find_child_cons]
    cases h : ci_equiv (child_key c) q
    · simpa using find_child_append q n cs
    · simp

theorem has_path_nil (t : GroupEntry) : has_path [] t = true := by
  cases t; rfl

theorem has_path_cons (k : List Char) (ks : List (List Char)) (d : GroupData)
    (cs : List GroupEntry) :
    has_path (k :: ks) (.mk d cs)
      = match find_child k cs with
        | some c => has_path ks c
        | none => false := rfl

theorem has_path_leaf (d : GroupData) : ∀ qs : List (List Char),
    has_path qs (.mk d []) = decide (qs = [])
  | [] => rfl
  | q :: qs => by simp [has_path_cons, find_child_nil]

theorem has_path_congr : ∀ (qs qs' : List (List Char)) (t : GroupEntry),
    qs.map (List.map lower_code) = qs'.map (List.map lower_code) →
    has_path qs t = has_path qs' t
  | [], [], _, _ => rfl
  | [], _ :: _, _, h => by simp at h
  | _ :: _, [], _, h => by simp at h
  | q :: qs, q' :: qs', .mk d cs, h => by
    simp only [List.map_cons, List.cons.injEq] at h
    rw [has_path_cons, has_path_cons, find_child_congr h.1 cs]
    cases find_child q' cs with
    | none => rfl
    | some c => exact has_path_congr qs qs' c h.2

/-- The walk reaches the group at a path only if it reaches the groups above it. -/
theorem has_path_take : ∀ (qs : List (List Char)) (t : GroupEntry) (m : Nat),
    has_path qs t = true → has_path (qs.take m) t = true
  | [], t, m, _ => by simp [has_path_nil]
  | q :: qs, t, 0, _ => by simp [has_path_nil]
  | q :: qs, .mk d cs, m + 1, h => by
    rw [List.take_succ_cons, has_path_cons]
    rw [has_path_cons] at h
    cases hc : find_child q cs with
    | none => rw [hc] at h; cases h
    | some c =>
      rw [hc] at h
      exact has_path_take qs c m h

theorem insert_group_single (cfg : GroupConfig) (g : String) (k : List Char) (d : GroupData)
    (cs : List GroupEntry) :
    insert_group cfg g [k] (.mk d cs)
      = if cs.any (fun c => ci_equiv (child_key c) k) then .mk d cs
        else .mk d (cs ++ [new_group cfg g]) := by
  rw [insert_group]

theorem insert_group_cons (cfg : GroupConfig) (g : String) (k k2 : List Char)
    (ks : List (List Char)) (d : GroupData) (cs : List GroupEntry) :
    insert_group cfg g (k :: k2 :: ks) (.mk d cs)
      = .mk d (insert_child cfg g k (k2 :: ks) cs) := by
  rw [insert_group]

theorem insert_child_nil (cfg : GroupConfig) (g : String) (k : List Char)
    (ks : List (List Char)) : insert_child cfg g k ks [] = [] := by
  rw [insert_child]

theorem insert_child_cons (cfg : GroupConfig) (g : String) (k : List Char)
    (ks : List (List Char)) (c : GroupEntry) (cs : List GroupEntry) :
    insert_child cfg g k ks (c :: cs)
      = if ci_equiv (child_key c) k then insert_group cfg g ks c :: cs
        else c :: insert_child cfg g k ks cs := by
  rw [insert_child]

theorem insert_group_data (cfg : GroupConfig) (g : String) :
    ∀ (gp : List (List Char)) (t : GroupEntry), (insert_group cfg g gp t).data = t.data
  | [], t => by rw [insert_group]
  | [k], .mk d cs => by
    rw [insert_group_single]
    split_ifs <;> rfl
  | k :: k2 :: ks, .mk d cs => by rw [insert_group_cons]; rfl

theorem child_key_insert_group (cfg : GroupConfig) (g : String) (gp : List (List Char))
    (t : GroupEntry) : child_key (insert_group cfg g gp t) = child_key t := by
  unfold child_key
  rw [insert_group_data]

theorem insert_child_of_none (cfg : GroupConfig) (g : String) (k : List Char)
    (ks : List (List Char)) : ∀ cs : List GroupEntry, find_child k cs = none →
    insert_child cfg g k ks cs = cs
  | [], _ => insert_child_nil cfg g k ks
  | c :: cs, h => by
    rw [find_child_cons] at h
    rw [insert_child_cons]
    cases hc : ci_equiv (child_key c) k
    · rw [hc] at h
      simp only [Bool.false_eq_true, if_false] at h ⊢
      rw [insert_child_of_none cfg g k ks cs h]
    · rw [hc] at h
      simp at h

/-- The walk finds the group the insertion went on with under its key, and every other
group under the key it had. -/
theorem find_child_insert_child (cfg : GroupConfig) (g : String) (k : List Char)
    (ks : List (List Char)) (q : List Char) :
    ∀ (cs : List GroupEntry) (c : GroupEntry), find_child k cs = some c →
    find_child q (insert_child cfg g k ks cs)
      = if q.map lower_code = k.map lower_code then some (insert_group cfg g ks c)
        else find_child q cs
  | [], _, h => by cases h
  | a :: cs, c, h => by
    rw [find_child_cons] at h
    rw [insert_child_cons]
    cases ha : ci_equiv (child_key a) k
    · rw [ha] at h
      simp only [Bool.false_eq_true, if_false] at h ⊢
      rw [find_child_cons, find_child_cons, find_child_insert_child cfg g k ks q cs c h]
      by_cases hq : q.map lower_code = k.map lower_code
      · simp only [if_pos hq, ci_equiv_congr_right _ hq, ha]
        simp
      · simp only [if_neg hq]
    · rw [ha] at h
      simp only [if_true] at h ⊢
      have hac : a = c := Option.some.inj h
      subst hac
      rw [find_child_cons, find_child_cons, child_key_insert_group]
      by_cases hq : q.map lower_code = k.map lower_code
      · simp only [if_pos hq, ci_equiv_congr_right _ hq, ha]
        simp
      · simp only [if_neg hq, ci_equiv_false_of_ne ha hq]
        simp

/-- The decomposition of the children at the group the insertion goes on with. -/
theorem insert_child_split (cfg : GroupConfig) (g : String) (k : List Char)
    (ks : List (List Char)) :
    ∀ (cs : List GroupEntry) (c : GroupEntry), find_child k cs = some c →
    ∃ l1 l2, cs = l1 ++ c :: l2 ∧
      insert_child cfg g k ks cs = l1 ++ insert_group cfg g ks c :: l2
  | [], _, h => by cases h
  | a :: cs, c, h => by
    rw [find_child_cons] at h
    rw [insert_child_cons]
    cases ha : ci_equiv (child_key a) k
    · rw [ha] at h
      simp only [Bool.false_eq_true, if_false] at h ⊢
      obtain ⟨l1, l2, e1, e2⟩ := insert_child_split cfg g k ks cs c h
      exact ⟨a :: l1, l2, by rw [e1]; rfl, by rw [e2]; rfl⟩
    · rw [ha] at h
      simp only [if_true] at h ⊢
      have hac : a = c := Option.some.inj h
      subst hac
      exact ⟨[], cs, rfl, rfl⟩

theorem new_group_eq (cfg : GroupConfig) (g : String) :
    ∃ d, new_group cfg g = .mk d [] ∧ d.name = g := ⟨_, rfl, rfl⟩

/-- What the walk reaches after the insertion of a group: what it reached before, and the
path of the new group if the walk reached its parent. -/
theorem has_path_insert_group (cfg : GroupConfig) (g : String) :
    ∀ (gp : List (List Char)), gp.getLast? = some (child_key (new_group cfg g)) →
    ∀ (t : GroupEntry) (qs : List (List Char)),
      has_path qs (insert_group cfg g gp t)
        = (has_path qs t ||
            (has_path gp.dropLast t &&
              decide (qs.map (List.map lower_code) = gp.map (List.map lower_code))))
  | [], h, _, _ => by simp at h
  | [k], h, .mk d cs, qs => by
    have hk : child_key (new_group cfg g) = k := by simpa using h.symm
    rw [insert_group_single]
    simp only [List.dropLast_single, has_path_nil, Bool.true_and]
    cases hf : find_child k cs with
    | none =>
      rw [if_neg (by rw [(find_child_eq_none_iff k cs).1 hf]; simp)]
      cases qs with
      | nil => simp [has_path_nil]
      | cons q qs =>
        rw [has_path_cons, has_path_cons, find_child_append]
        by_cases hq : q.map lower_code = k.map lower_code
        · have hn : find_child q cs = none := by rw [find_child_congr hq]; exact hf
          have he : ci_equiv (child_key (new_group cfg g)) q = true := by
            rw [hk, ci_equiv_iff, hq]
          obtain ⟨dn, hn1, _⟩ := new_group_eq cfg g
          rw [hn]
          simp only [he, if_true, Bool.false_or]
          rw [hn1]
          simp only [has_path_leaf]
          simp [hq]
        · have he : ci_equiv (child_key (new_group cfg g)) q = false := by
            rw [hk, ← Bool.not_eq_true, ci_equiv_iff]
            exact fun e => hq e.symm
          have hd : decide ((q :: qs).map (List.map lower_code)
              = [k].map (List.map lower_code)) = false := by
            simp [hq]
          rw [hd, Bool.or_false, he]
          cases find_child q cs <;> simp
    | some c =>
      have ha : cs.any (fun c => ci_equiv (child_key c) k) = true := by
        rw [← Bool.not_eq_false, ← find_child_eq_none_iff, hf]
        simp
      rw [if_pos ha]
      cases hp : has_path qs (.mk d cs) with
      | true => rfl
      | false =>
        rw [Bool.false_or, eq_comm, decide_eq_false_iff_not]
        intro e
        cases qs with
        | nil => simp at e
        | cons q qs =>
          simp only [List.map_cons, List.map_nil, List.cons.injEq, List.map_eq_nil_iff] at e
          obtain ⟨e1, e2⟩ := e
          subst e2
          rw [has_path_cons, find_child_congr e1, hf] at hp
          simp only [has_path_nil] at hp
          cases hp
  | k :: k2 :: ks, h, .mk d cs, qs => by
    have h' : (k2 :: ks).getLast? = some (child_key (new_group cfg g)) := by
      rw [← h, List.getLast?_cons_cons]
    have ih := has_path_insert_group cfg g (k2 :: ks) h'
    rw [insert_group_cons, List.dropLast_cons₂]
    cases qs with
    | nil => simp [has_path_nil]
    | cons q qs =>
      rw [has_path_cons, has_path_cons, has_path_cons]
      cases hf : find_child k cs with
      | none =>
        rw [insert_child_of_none cfg g k _ cs hf]
        simp
      | some c =>
        rw [find_child_insert_child cfg g k _ q cs c hf]
        by_cases hq : q.map lower_code = k.map lower_code
        · rw [if_pos hq, find_child_congr hq, hf]
          simp only [ih c qs, List.map_cons, List.cons.injEq, hq, true_and]
        · rw [if_neg hq]
          have hd : decide ((q :: qs).map (List.map lower_code)
              = (k :: k2 :: ks).map (List.map lower_code)) = false := by
            simp [hq]
          rw [hd, Bool.and_false, Bool.or_false]

theorem parse_group_name_ne_nil (g : String) : parse_group_name g ≠ [] :=
  split_dots_ne_nil g.data

theorem parse_getLast (cfg : GroupConfig) (g : String) :
    (parse_group_name g).getLast? = some (child_key (new_group cfg g)) := by
  have hn : (new_group cfg g).data.name = g := rfl
  unfold child_key
  rw [hn]
  cases h : (parse_group_name g).getLast? with
  | none => exact absurd (List.getLast?_eq_none_iff.1 h) (parse_group_name_ne_nil g)
  | some k => rfl

/-- The insertion of a group keeps what the walk reaches. -/
theorem has_path_insert_group_mono (cfg : GroupConfig) (g : String) (t : GroupEntry)
    (qs : List (List Char)) (h : has_path qs t = true) :
    has_path qs (insert_group cfg g (parse_group_name g) t) = true := by
  rw [has_path_insert_group cfg g _ (parse_getLast cfg g), h, Bool.true_or]

theorem insert_names_nil (cfg : GroupConfig) (t : GroupEntry) : insert_names cfg [] t = t := rfl

theorem insert_names_cons (cfg : GroupConfig) (g : String) (S : List String)
    (t : GroupEntry) :
    insert_names cfg (g :: S) t
      = insert_names cfg S (insert_group cfg g (parse_group_name g) t) := rfl

theorem insert_names_append (cfg : GroupConfig) (S1 S2 : List String) (t : GroupEntry) :
    insert_names cfg (S1 ++ S2) t = insert_names cfg S2 (insert_names cfg S1 t) := by
  unfold insert_names
  rw [List.foldl_append]

theorem insert_names_concat (cfg : GroupConfig) (S : List String) (g : String)
    (t : GroupEntry) :
    insert_names cfg (S ++ [g]) t
      = insert_group cfg g (parse_group_name g) (insert_names cfg S t) := by
  rw [insert_names_append]
  rfl

theorem hgq_construct_tree_eq (cfg : GroupConfig) :
    hgq_construct_tree cfg = insert_names cfg (sorted_names cfg) (root_group 0 []) := rfl

theorem has_path_insert_names_mono (cfg : GroupConfig) (qs : List (List Char)) :
    ∀ (S : List String) (t : GroupEntry), has_path qs t = true →
    has_path qs (insert_names cfg S t) = true
  | [], _, h => h
  | g :: S, t, h => by
    rw [insert_names_cons]
    exact has_path_insert_names_mono cfg qs S _ (has_path_insert_group_mono cfg g t qs h)

theorem nodes_list_append (l1 l2 : List GroupEntry) :
    GroupEntry.nodes_list (l1 ++ l2) = GroupEntry.nodes_list l1 ++ GroupEntry.nodes_list l2 := by
  simp [nodes_list_eq]

theorem group_names_of_mk (d : GroupData) (cs : List GroupEntry) :
    group_names_of (.mk d cs) = (GroupEntry.nodes_list cs).map GroupData.name := rfl

theorem names_nodes (t : GroupEntry) :
    t.nodes.map GroupData.name = t.data.name :: group_names_of t := by
  cases t
  rfl

/-- The insertion of a group leaves the tree as it is, or the walk reached the parent of the
group and the group is the one node more that the tree has. -/
theorem group_names_insert_group (cfg : GroupConfig) (g : String) :
    ∀ (gp : List (List Char)) (t : GroupEntry),
      insert_group cfg g gp t = t ∨
      (has_path gp.dropLast t = true ∧
        ∀ n, n ∈ group_names_of (insert_group cfg g gp t) ↔ n = g ∨ n ∈ group_names_of t)
  | [], t => Or.inl (by rw [insert_group])
  | [k], .mk d cs => by
    rw [insert_group_single]
    by_cases ha : cs.any (fun c => ci_equiv (child_key c) k) = true
    · left
      rw [if_pos ha]
    · right
      rw [if_neg ha]
      refine ⟨has_path_nil _, ?_⟩
      intro n
      obtain ⟨dn, hn1, hn2⟩ := new_group_eq cfg g
      rw [group_names_of_mk, group_names_of_mk, nodes_list_append, hn1]
      simp [GroupEntry.nodes_list, GroupEntry.nodes, hn2, or_comm]
  | k :: k2 :: ks, .mk d cs => by
    rw [insert_group_cons, List.dropLast_cons₂]
    cases hf : find_child k cs with
    | none =>
      left
      rw [insert_child_of_none cfg g k _ cs hf]
    | some c =>
      obtain ⟨l1, l2, e1, e2⟩ := insert_child_split cfg g k (k2 :: ks) cs c hf
      rcases group_names_insert_group cfg g (k2 :: ks) c with h | ⟨h1, h2⟩
      · left
        rw [e2, h, ← e1]
      · right
        refine ⟨by rw [has_path_cons, hf]; exact h1, ?_⟩
        intro n
        have hd := insert_group_data cfg g (k2 :: ks) c
        have h3 := names_nodes (insert_group cfg g (k2 :: ks) c)
        have h4 := names_nodes c
        rw [group_names_of_mk, group_names_of_mk, e2, e1, nodes_list_append,
          nodes_list_append, GroupEntry.nodes_list, GroupEntry.nodes_list]
        simp only [List.map_append, List.mem_append, h3, h4, List.mem_cons, h2 n, hd]
        tauto

/-! ## The groups of the tree that `hgq_construct_tree` builds -/

theorem root_group_leaf : ∃ d, root_group 0 [] = .mk d [] ∧ d.name = hgq_root_name :=
  ⟨_, rfl, rfl⟩

/-- Every group of the tree built from a list of names is a group of the tree it started
from or has a name of the list. -/
theorem group_names_insert_names (cfg : GroupConfig) :
    ∀ (S : List String) (t : GroupEntry) (n : String),
      n ∈ group_names_of (insert_names cfg S t) → n ∈ S ∨ n ∈ group_names_of t
  | [], _, _, h => Or.inr h
  | g :: S, t, n, h => by
    rw [insert_names_cons] at h
    rcases group_names_insert_names cfg S _ n h with h1 | h1
    · exact Or.inl (List.mem_cons_of_mem _ h1)
    · rcases group_names_insert_group cfg g (parse_group_name g) t with e | ⟨_, e⟩
      · rw [e] at h1
        exact Or.inr h1
      · rcases (e n).1 h1 with h2 | h2
        · exact Or.inl (h2 ▸ List.mem_cons_self _ _)
        · exact Or.inr h2

theorem insert_names_data (cfg : GroupConfig) :
    ∀ (S : List String) (t : GroupEntry), (insert_names cfg S t).data = t.data
  | [], _ => rfl
  | g :: S, t => by
    rw [insert_names_cons, insert_names_data cfg S, insert_group_data]

theorem mem_sorted_names (cfg : GroupConfig) (g : String) :
    g ∈ sorted_names cfg ↔ g ∈ cfg.group_names ∧ g ≠ hgq_root_name := by
  unfold sorted_names
  rw [(List.perm_insertionSort _ _).mem_iff, List.mem_filter]
  simp

theorem sorted_names_sorted (cfg : GroupConfig) :
    List.Sorted (fun a b => ci_less b a = false) (sorted_names cfg) := by
  haveI : IsTotal String (fun a b => ci_less b a = false) :=
    ⟨fun a b => by
      cases h : ci_less b a with
      | false => exact Or.inl rfl
      | true => exact Or.inr (ci_less_chars_asymm _ _ h)⟩
  haveI : IsTrans String (fun a b => ci_less b a = false) :=
    ⟨fun a b c h1 h2 => ci_less_chars_le_trans a.data b.data c.data h1 h2⟩
  exact List.sorted_insertionSort _ _

/-- The walk reaches exactly the groups of the tree: it reaches a group at a path if and
only if a node of the tree has a name with the components of the path. -/
theorem has_path_iff_insert_group (cfg : GroupConfig) (g : String) (t : GroupEntry)
    (h : ∀ qs, qs ≠ [] → (has_path qs t = true ↔
      ∃ n ∈ group_names_of t, (parse_group_name n).map (List.map lower_code)
        = qs.map (List.map lower_code))) :
    ∀ qs, qs ≠ [] → (has_path qs (insert_group cfg g (parse_group_name g) t) = true ↔
      ∃ n ∈ group_names_of (insert_group cfg g (parse_group_name g) t),
        (parse_group_name n).map (List.map lower_code) = qs.map (List.map lower_code)) := by
  intro qs hq
  rcases group_names_insert_group cfg g (parse_group_name g) t with e | ⟨e1, e2⟩
  · rw [e]
    exact h qs hq
  · rw [has_path_insert_group cfg g _ (parse_getLast cfg g), e1, Bool.true_and, Bool.or_eq_true,
      decide_eq_true_iff, h qs hq]
    constructor
    · rintro (⟨n, hn, hn2⟩ | h1)
      · exact ⟨n, (e2 n).2 (Or.inr hn), hn2⟩
      · exact ⟨g, (e2 g).2 (Or.inl rfl), h1.symm⟩
    · rintro ⟨n, hn, hn2⟩
      rcases (e2 n).1 hn with h1 | h1
      · subst h1
        exact Or.inr hn2.symm
      · exact Or.inl ⟨n, h1, hn2⟩

theorem has_path_iff_insert_names (cfg : GroupConfig) :
    ∀ (S : List String) (t : GroupEntry),
    (∀ qs, qs ≠ [] → (has_path qs t = true ↔
      ∃ n ∈ group_names_of t, (parse_group_name n).map (List.map lower_code)
        = qs.map (List.map lower_code))) →
    ∀ qs, qs ≠ [] → (has_path qs (insert_names cfg S t) = true ↔
      ∃ n ∈ group_names_of (insert_names cfg S t),
        (parse_group_name n).map (List.map lower_code) = qs.map (List.map lower_code))
  | [], _, h => h
  | g :: S, t, h => by
    rw [insert_names_cons]
    exact has_path_iff_insert_names cfg S _ (has_path_iff_insert_group cfg g t h)

theorem has_path_iff_root :
    ∀ qs, qs ≠ [] → (has_path qs (root_group 0 []) = true ↔
      ∃ n ∈ group_names_of (root_group 0 []),
        (parse_group_name n).map (List.map lower_code) = qs.map (List.map lower_code)) := by
  intro qs hq
  obtain ⟨d, e, _⟩ := root_group_leaf
  rw [e, has_path_leaf, group_names_of_mk]
  simp [hq, GroupEntry.nodes_list]

theorem map_take_dropLast {α β : Type} (f : α → β) (l l' : List α) (m : Nat)
    (h : l.map f = l'.map f) (hm : m < l.length) :
    (l.take m).map f = (l'.dropLast.take m).map f := by
  have hl : l.length = l'.length := by
    have := congrArg List.length h
    simpa using this
  rw [List.dropLast_eq_take, List.take_take, List.map_take, List.map_take, h,
    Nat.min_eq_left (by omega)]

/-- The walk reaches a group only if the path of the group and the paths above it all
belong to names that were entered. -/
theorem has_path_listed (cfg : GroupConfig) : ∀ (S : List String) (qs : List (List Char)),
    has_path qs (insert_names cfg S (root_group 0 [])) = true →
    ∀ m, 0 < m → m ≤ qs.length →
      ∃ h ∈ S, (parse_group_name h).map (List.map lower_code)
        = (qs.take m).map (List.map lower_code) := by
  intro S
  induction S using List.reverseRecOn with
  | nil =>
    intro qs h m h1 h2
    obtain ⟨d, e, _⟩ := root_group_leaf
    rw [insert_names_nil, e, has_path_leaf, decide_eq_true_iff] at h
    subst h
    simp at h2
    omega
  | append_singleton S s ih =>
    intro qs h m h1 h2
    rw [insert_names_concat, has_path_insert_group cfg s _ (parse_getLast cfg s),
      Bool.or_eq_true, Bool.and_eq_true, decide_eq_true_iff] at h
    rcases h with h | ⟨h3, h4⟩
    · obtain ⟨x, hx, hx2⟩ := ih qs h m h1 h2
      exact ⟨x, List.mem_append_left _ hx, hx2⟩
    · rcases Nat.eq_or_lt_of_le h2 with e | e
      · refine ⟨s, by simp, ?_⟩
        rw [e, List.take_length, h4]
      · have hl : qs.length = (parse_group_name s).length := by
          have := congrArg List.length h4
          simpa using this
        have hk := map_take_dropLast (List.map lower_code) qs (parse_group_name s) m h4 e
        obtain ⟨x, hx, hx2⟩ := ih (parse_group_name s).dropLast h3 m h1 (by
          rw [List.length_dropLast]
          omega)
        exact ⟨x, List.mem_append_left _ hx, hx2.trans hk.symm⟩

/-- The walk reaches the group of a name that was entered if the paths above it all belong
to names of the sorted list: a parent stands before its children in the sorted list, so it
is entered first. -/
theorem has_path_of_listed (cfg : GroupConfig) : ∀ (n : Nat) (qs : List (List Char)),
    qs.length = n → 0 < n → ∀ A B : List String,
    List.Sorted (fun a b => ci_less b a = false) (A ++ B) →
    (∀ m, 0 < m → m ≤ qs.length →
      ∃ h ∈ A ++ B, (parse_group_name h).map (List.map lower_code)
        = (qs.take m).map (List.map lower_code)) →
    (∃ h ∈ A, (parse_group_name h).map (List.map lower_code)
        = qs.map (List.map lower_code)) →
    has_path qs (insert_names cfg A (root_group 0 [])) = true := by
  intro n
  induction n using Nat.strong_induction_on with
  | _ n ih =>
    intro qs hn hpos A B hs hgood ⟨h, hA, hh⟩
    obtain ⟨A1, A2, rfl⟩ := List.append_of_mem hA
    have hlen : (parse_group_name h).length = n := by
      have := congrArg List.length hh
      simpa [hn] using this
    have hp : has_path (parse_group_name h).dropLast
        (insert_names cfg A1 (root_group 0 [])) = true := by
      by_cases hd : (parse_group_name h).dropLast = []
      · rw [hd, has_path_nil]
      · have hdl : (parse_group_name h).dropLast.length = n - 1 := by
          rw [List.length_dropLast, hlen]
        have hn1 : 0 < n - 1 := by
          rw [← hdl]
          exact List.length_pos.2 hd
        have hgood' : ∀ m, 0 < m → m ≤ (parse_group_name h).dropLast.length →
            ∃ x ∈ A1 ++ (h :: A2 ++ B), (parse_group_name x).map (List.map lower_code)
              = ((parse_group_name h).dropLast.take m).map (List.map lower_code) := by
          intro m h1 h2
          obtain ⟨x, hx, hx2⟩ := hgood m h1 (by omega)
          refine ⟨x, by simpa using hx, ?_⟩
          rw [hx2]
          exact map_take_dropLast _ qs _ m hh.symm (by omega)
        obtain ⟨x, hx, hx2⟩ := hgood' (n - 1) hn1 (by omega)
        rw [← hdl, List.take_length] at hx2
        have hless : ci_less x h = true := by
          refine @ci_less_of_parent x.data h.data
            (((parse_group_name h).getLast (parse_group_name_ne_nil h)).map lower_code)
            ((parse_group_name h).dropLast.map (List.map lower_code)) ?_ hx2 ?_
          · exact fun e => hd (List.map_eq_nil_iff.1 e)
          · show (parse_group_name h).map (List.map lower_code) = _
            conv_lhs => rw [← List.dropLast_append_getLast (parse_group_name_ne_nil h)]
            rw [List.map_append]
            rfl
        have hs' : List.Sorted (fun a b => ci_less b a = false) (A1 ++ (h :: (A2 ++ B))) := by
          simpa using hs
        have hxA1 : x ∈ A1 := by
          rcases List.mem_append.1 hx with h1 | h1
          · exact h1
          · exfalso
            have hs2 := (List.pairwise_append.1 hs').2.1
            rcases List.mem_cons.1 h1 with h2 | h2
            · rw [h2] at hless
              have := ci_less_chars_irrefl h.data
              unfold ci_less at hless
              rw [this] at hless
              cases hless
            · have h3 := List.rel_of_pairwise_cons hs2 (by simpa using h2)
              rw [hless] at h3
              cases h3
        exact ih (n - 1) (by omega) _ hdl hn1 A1 (h :: A2 ++ B) (by simpa using hs) hgood'
          ⟨x, hxA1, hx2⟩
    have e : A1 ++ h :: A2 = (A1 ++ [h]) ++ A2 := by simp
    rw [has_path_congr qs (parse_group_name h) _ hh.symm, e, insert_names_append]
    apply has_path_insert_names_mono
    rw [insert_names_concat, has_path_insert_group cfg h _ (parse_getLast cfg h), hp]
    simp

/-- The groups the walk reaches in the tree that `hgq_construct_tree` builds: the group of a
name that was kept is reached if and only if each of the paths above it belongs to a name
that was kept. -/
theorem has_path_construct_tree (cfg : GroupConfig) (g : String) (hg : g ∈ sorted_names cfg) :
    has_path (parse_group_name g) (hgq_construct_tree cfg) = true ↔
      ∀ m, 0 < m → m < (parse_group_name g).length →
        ∃ h ∈ sorted_names cfg, (parse_group_name h).map (List.map lower_code)
          = ((parse_group_name g).take m).map (List.map lower_code) := by
  rw [hgq_construct_tree_eq]
  constructor
  · intro h m h1 h2
    exact has_path_listed cfg _ _ h m h1 (le_of_lt h2)
  · intro h
    have hl : 0 < (parse_group_name g).length := List.length_pos.2 (parse_group_name_ne_nil g)
    refine has_path_of_listed cfg _ _ rfl hl (sorted_names cfg) [] (by
      rw [List.append_nil]
      exact sorted_names_sorted cfg) ?_ ⟨g, hg, rfl⟩
    intro m h1 h2
    rw [List.append_nil]
    rcases Nat.eq_or_lt_of_le h2 with e | e
    · exact ⟨g, hg, by rw [e, List.take_length]⟩
    · exact h m h1 e

/-! ## The reserved root name and the membership of the configured names -/

/-- What the test `gname == hgq_root_name` achieves: the root carries the name `<none>` and
every other node carries a listed name that is not exactly `<none>`. -/
theorem reserved_root_name (cfg : GroupConfig) :
    (hgq_construct_tree cfg).data.name = hgq_root_name ∧
    ∀ n ∈ group_names_of (hgq_construct_tree cfg),
      n ∈ cfg.group_names ∧ n ≠ hgq_root_name := by
  rw [hgq_construct_tree_eq]
  refine ⟨by rw [insert_names_data]; rfl, ?_⟩
  intro n hn
  rcases group_names_insert_names cfg _ _ n hn with h | h
  · exact (mem_sorted_names cfg n).1 h
  · obtain ⟨d, e, _⟩ := root_group_leaf
    rw [e, group_names_of_mk] at h
    simp [GroupEntry.nodes_list] at h

/-- C15 (defect of the code): the claim says that `hgq_construct_tree` rejects every listed
name that equals the reserved root name `<none>` under the case-insensitive comparison.  The
function compares names with `Accountant::ci_less` in its sort and in `chmap`, but tests the
reserved name with `==`: for the list with the only name `<NONE>`, which equals `<none>`
under `ci_less`, the tree has a node other than the root with that name. -/
theorem reserved_root_name_admits_upper_case :
    "<NONE>" ∈ example_upper_case_root.group_names ∧
    ci_less "<NONE>" hgq_root_name = false ∧ ci_less hgq_root_name "<NONE>" = false ∧
    group_names_of (hgq_construct_tree example_upper_case_root) = ["<NONE>"] := by
  decide!

/-- The groups of the tree that `hgq_construct_tree` builds, by names: a listed name other
than the reserved root name is the name of a node, under the case-insensitive comparison, if
and only if each of its proper dotted prefixes is, under that comparison, a listed name
other than the reserved root name. -/
theorem construct_tree_membership (cfg : GroupConfig) (g : String)
    (hg : g ∈ cfg.group_names) (hr : g ≠ hgq_root_name) :
    (∃ n ∈ group_names_of (hgq_construct_tree cfg), ci_equiv n.data g.data = true) ↔
      ∀ p ∈ dotted_prefixes g.data,
        ∃ h ∈ cfg.group_names, h ≠ hgq_root_name ∧ ci_equiv h.data p = true := by
  have hgS : g ∈ sorted_names cfg := (mem_sorted_names cfg g).2 ⟨hg, hr⟩
  have hJ := has_path_iff_insert_names cfg (sorted_names cfg) _ has_path_iff_root
    (parse_group_name g) (parse_group_name_ne_nil g)
  rw [← hgq_construct_tree_eq] at hJ
  have h1 : (∃ n ∈ group_names_of (hgq_construct_tree cfg), ci_equiv n.data g.data = true) ↔
      has_path (parse_group_name g) (hgq_construct_tree cfg) = true := by
    rw [hJ]
    constructor
    · rintro ⟨n, hn, e⟩
      exact ⟨n, hn, (ci_equiv_iff_split _ _).1 e⟩
    · rintro ⟨n, hn, e⟩
      exact ⟨n, hn, (ci_equiv_iff_split _ _).2 e⟩
  rw [h1, has_path_construct_tree cfg g hgS]
  constructor
  · intro h p hp
    obtain ⟨m, hm1, hm2, hm3⟩ := dotted_prefixes_take g.data p hp
    obtain ⟨x, hx, hx2⟩ := h m hm1 hm2
    have hx' := (mem_sorted_names cfg x).1 hx
    refine ⟨x, hx'.1, hx'.2, (ci_equiv_iff_split _ _).2 ?_⟩
    rw [hm3]
    exact hx2
  · intro h m hm1 hm2
    obtain ⟨p, hp, hp2⟩ := take_dotted_prefixes g.data m hm1 hm2
    obtain ⟨x, hx1, hx2, hx3⟩ := h p hp
    refine ⟨x, (mem_sorted_names cfg x).2 ⟨hx1, hx2⟩, ?_⟩
    have := (ci_equiv_iff_split _ _).1 hx3
    rw [hp2] at this
    exact this

/-- C16, amended: for every `GROUP_NAMES` list, a listed name other than the reserved root
name is a node of the tree built by `hgq_construct_tree`, names being compared
case-insensitively, if and only if every proper dotted prefix of it is, under that
comparison, a listed name other than the reserved root name itself (which is dropped from
the list); a name with a missing ancestor is skipped.  Listing the same names in another
order does not change whether the name is a node. -/
theorem tree_membership (cfg : GroupConfig) (g : String)
    (hg : g ∈ cfg.group_names) (hr : g ≠ hgq_root_name) :
    ((∃ n ∈ group_names_of (hgq_construct_tree cfg), ci_equiv n.data g.data = true) ↔
      ∀ p ∈ dotted_prefixes g.data,
        ∃ h ∈ cfg.group_names, h ≠ hgq_root_name ∧ ci_equiv h.data p = true) ∧
    ∀ names : List String, names.Perm cfg.group_names →
      ((∃ n ∈ group_names_of (hgq_construct_tree { cfg with group_names := names }),
          ci_equiv n.data g.data = true) ↔
        ∃ n ∈ group_names_of (hgq_construct_tree cfg), ci_equiv n.data g.data = true) := by
  refine ⟨construct_tree_membership cfg g hg hr, ?_⟩
  intro names hp
  rw [construct_tree_membership cfg g hg hr,
    construct_tree_membership { cfg with group_names := names } g (hp.mem_iff.2 hg) hr]
  constructor
  · intro h p hpp
    obtain ⟨x, hx1, hx2⟩ := h p hpp
    exact ⟨x, hp.mem_iff.1 hx1, hx2⟩
  · intro h p hpp
    obtain ⟨x, hx1, hx2⟩ := h p hpp
    exact ⟨x, hp.mem_iff.2 hx1, hx2⟩

/-- C16 as stated fails: in the list `<none>`, `<none>.x` the name `<none>.x` is listed and
is not the reserved name, its only proper dotted prefix `<none>` is listed, and the tree has
no node but the root. -/
theorem tree_membership_fails_below_reserved_name :
    "<none>.x" ∈ example_below_reserved.group_names ∧
    ci_equiv "<none>.x".data hgq_root_name.data = false ∧
    dotted_prefixes "<none>.x".data = ["<none>".data] ∧
    (∀ p ∈ dotted_prefixes "<none>.x".data,
      ∃ h ∈ example_below_reserved.group_names, ci_equiv h.data p = true) ∧
    group_names_of (hgq_construct_tree example_below_reserved) = [] := by
  decide!

/-- The list with the only name `a.b.c`: the name is listed and not reserved, its proper
dotted prefixes `a` and `a.b` are not listed, and the tree has only the root; a list with
parents and children in two levels and mixed case has the nodes whose ancestors are
listed. -/
theorem tree_membership_witness :
    ("a.b.c" ∈ example_missing_parent.group_names ∧ "a.b.c" ≠ hgq_root_name) ∧
    dotted_prefixes "a.b.c".data = ["a".data, "a.b".data] ∧
    (hgq_construct_tree example_missing_parent).nodes.map GroupData.name = ["<none>"] ∧
    ¬ (∃ n ∈ group_names_of (hgq_construct_tree example_missing_parent),
        ci_equiv n.data "a.b.c".data = true) ∧
    (∃ n ∈ group_names_of (hgq_construct_tree example_groups),
        ci_equiv n.data "A.B.c".data = true) ∧
    group_names_of (hgq_construct_tree example_groups) = ["a", "a.b", "A.B.c", "B", "b.x"] :=
  ⟨⟨by decide, by decide⟩, by decide!, by decide!,
    fun h => by
      have h1 := (tree_membership example_missing_parent "a.b.c" (by decide) (by decide)).1.1 h
      revert h1
      decide!,
    (tree_membership example_groups "A.B.c" (by decide) (by decide)).1.2 (by decide!),
    by decide!⟩

/-! ## Fair share: the bounds of a node and the accounting of the surplus -/

/-- C26: in exact arithmetic, for every subtree with nonnegative quotas and nonnegative
demands, the value that `hgq_fairshare()` returns on a node is the sum of `quota` over the
node and all its descendants minus the sum of `allocated` over the same nodes after the
call; the call leaves every `quota` as it was. -/
theorem fairshare_surplus_identity (t : GroupEntry) (hq : QuotaNonneg t)
    (hd : ∀ d ∈ t.nodes, 0 ≤ d.requested) :
    (hgq_fairshare t).2 = total_quota t - total_allocated (hgq_fairshare t).1 ∧
    (hgq_fairshare t).2
      = total_quota (hgq_fairshare t).1 - total_allocated (hgq_fairshare t).1 ∧
    List.Forall₂ (fun d d' => d'.quota = d.quota) t.nodes (hgq_fairshare t).1.nodes := by
  obtain ⟨-, -, h3, -, h5⟩ := fairshare_spec t hq hd
  have hfr : List.Forall₂ (fun d d' => d'.quota = d.quota) t.nodes (hgq_fairshare t).1.nodes :=
    h5.imp (fun d d' h => h.1.2.2.2.2.1)
  have hsum : total_quota (hgq_fairshare t).1 = total_quota t := by
    unfold total_quota
    exact forall₂_sum_eq (fun a b h => h) hfr
  refine ⟨by linarith, by rw [hsum]; linarith, hfr⟩

/-- The tree `example_surplus_refused` with the quotas of a pool of 30: the quotas are 10, 10
and 10, fair share allocates 5 to `a` and 10 to `b`, which declines surplus, and returns
`30 - 15 = 15`. -/
theorem fairshare_surplus_identity_witness :
    QuotaNonneg (hgq_assign_quotas false 30 example_surplus_refused) ∧
    (∀ d ∈ (hgq_assign_quotas false 30 example_surplus_refused).nodes, 0 ≤ d.requested) ∧
    (hgq_assign_quotas false 30 example_surplus_refused).nodes.map GroupData.quota
      = [10, 10, 10] ∧
    (hgq_fairshare (hgq_assign_quotas false 30 example_surplus_refused)).1.nodes.map
      GroupData.allocated = [0, 5, 10] ∧
    (hgq_fairshare (hgq_assign_quotas false 30 example_surplus_refused)).2 = 15 ∧
    (hgq_fairshare (hgq_assign_quotas false 30 example_surplus_refused)).2
      = total_quota (hgq_assign_quotas false 30 example_surplus_refused)
        - total_allocated
            (hgq_fairshare (hgq_assign_quotas false 30 example_surplus_refused)).1 :=
  ⟨by unfold QuotaNonneg; decide!, by decide!, by decide!, by decide!, by decide!,
    (fairshare_surplus_identity (hgq_assign_quotas false 30 example_surplus_refused)
      (by unfold QuotaNonneg; decide!) (by decide!)).1⟩

/-! ## Surplus allocation when the surplus is short, and the slots of round robin -/

/-- C23: in exact arithmetic, for every node with consistent requests (the state that
`hgq_fairshare` leaves on its children) and nonnegative quotas, if
`0 < surplus < subtree_requested` then `hgq_allocate_surplus(surplus)` allocates with the
quota-weighted pass followed by the uniform pass, after which the remaining surplus is
exactly 0; the amounts in the vector `allocated`, for the children and the node, sum to the
incoming surplus, the call returns 0, and the sum of `allocated` over the node and its
descendants has grown by the incoming surplus. -/
theorem case_b_no_residual (s : ℚ) (d : GroupData) (cs : List GroupEntry)
    (hc : Consistent (.mk d cs)) (hq : QuotaNonneg (.mk d cs)) (h0 : 0 < s)
    (h1 : s < d.subtree_requested) :
    allocate_surplus_level s d.subtree_requested (cs.map GroupEntry.data ++ [splice_surplus d])
      = hgq_allocate_surplus_loop false
          (hgq_allocate_surplus_loop true
            { slots := (cs.map GroupEntry.data ++ [splice_surplus d]).map
                (fun g => { grp := g, allocated := 0, subtree_requested := outstanding_request g })
              surplus := s
              requested := d.subtree_requested }) ∧
    (allocate_surplus_level s d.subtree_requested
      (cs.map GroupEntry.data ++ [splice_surplus d])).surplus = 0 ∧
    ((allocate_surplus_level s d.subtree_requested
      (cs.map GroupEntry.data ++ [splice_surplus d])).slots.map Slot.allocated).sum = s ∧
    (hgq_allocate_surplus s (.mk d cs)).2 = 0 ∧
    total_allocated (hgq_allocate_surplus s (.mk d cs)).1 = total_allocated (.mk d cs) + s := by
  have hR := sum_outstanding_request hc (splice_surplus d) (by
    unfold outstanding_request splice_surplus
    have := (consistent_mk.1 hc).1.1
    simp only [GroupEntry.data_mk] at this
    simp only [Bool.true_and, decide_eq_true_eq]
    split_ifs with h
    · rfl
    · linarith [not_lt.1 h])
  have hqs : ∀ g ∈ cs.map GroupEntry.data ++ [splice_surplus d], 0 ≤ g.subtree_quota := by
    intro g hg
    rcases List.mem_append.1 hg with h | h
    · obtain ⟨c, hc1, rfl⟩ := List.mem_map.1 h
      exact quotaNonneg_child_data hq c hc1
    · rw [List.mem_singleton] at h
      subst h
      exact (quotaNonneg_mk.1 hq).1.1
  obtain ⟨-, l2, l3, -⟩ := allocate_surplus_level_spec _ s d.subtree_requested (le_of_lt h0) hqs hR
  have hmin : min s d.subtree_requested = s := min_eq_left (le_of_lt h1)
  obtain ⟨-, a2, -, a4, -⟩ := allocate_surplus_spec (.mk d cs) s (le_of_lt h0) hc hq
  simp only [GroupEntry.data_mk, hmin] at a2 a4
  refine ⟨?_, by rw [l3, hmin, sub_self], by rw [l2, hmin], by rw [a2, sub_self], a4⟩
  unfold allocate_surplus_level
  rw [if_neg (not_le.2 h1)]

/-- Scenario 5 of the specification at the call `hgq_allocate_surplus(5)` on the root: the
groups `a` and `b` request 10 slots each and have no quota, the quota-weighted pass gives
nothing, the uniform pass gives 2.5 to each, and no surplus is left. -/
theorem case_b_no_residual_witness :
    Consistent example_round_robin_state ∧ QuotaNonneg example_round_robin_state ∧
    (0 : ℚ) < 5 ∧ (5 : ℚ) < example_round_robin_root.subtree_requested ∧
    (hgq_allocate_surplus 5 example_round_robin_state).1.nodes.map GroupData.allocated
      = [0, 5 / 2, 5 / 2] ∧
    (hgq_allocate_surplus 5 example_round_robin_state).2 = 0 ∧
    total_allocated (hgq_allocate_surplus 5 example_round_robin_state).1
      = total_allocated example_round_robin_state + 5 :=
  ⟨by unfold Consistent requests_consistent; decide!, by unfold QuotaNonneg; decide!,
    by norm_num, by decide!, by decide!,
    (case_b_no_residual 5 example_round_robin_root
      [example_round_robin_a, example_round_robin_b]
      (by unfold Consistent requests_consistent; decide!) (by unfold QuotaNonneg; decide!)
      (by norm_num) (by decide!)).2.2.2.1,
    (case_b_no_residual 5 example_round_robin_root
      [example_round_robin_a, example_round_robin_b]
      (by unfold Consistent requests_consistent; decide!) (by unfold QuotaNonneg; decide!)
      (by norm_num) (by decide!)).2.2.2.2⟩

/-- C25: for every node with consistent nonnegative integer requests (a state that
`hgq_recover_remainders` leaves), `hgq_round_robin(s)` with an integer `s` such that
`1 <= s <= subtree_requested` returns 0 and raises the sum of `allocated` over the node and
its descendants by exactly `s`. -/
theorem round_robin_places_every_slot (s : ℚ) (t : GroupEntry) (hc : Consistent t)
    (hi : ∀ n ∈ t.nodes, ((⌊n.requested⌋ : ℤ) : ℚ) = n.requested ∧
      ((⌊n.subtree_requested⌋ : ℤ) : ℚ) = n.subtree_requested)
    (hs : ((⌊s⌋ : ℤ) : ℚ) = s) (h1 : 1 ≤ s) (h2 : s ≤ t.data.subtree_requested) :
    (hgq_round_robin s t).2 = 0 ∧
    total_allocated (hgq_round_robin s t).1 = total_allocated t + s := by
  obtain ⟨-, a2, -, a4, -⟩ := round_robin_spec t s (by linarith) hc (intRequests_of_floor hi)
  rw [hs, min_eq_left h2] at a2 a4
  exact ⟨by rw [a2, sub_self], a4⟩

/-- Scenario 5 of the specification at the call `hgq_round_robin(5)` on the root: the five
slots go to `a` (3) and `b` (2), and the call returns 0. -/
theorem round_robin_places_every_slot_witness :
    Consistent example_round_robin_state ∧
    (∀ n ∈ example_round_robin_state.nodes, ((⌊n.requested⌋ : ℤ) : ℚ) = n.requested ∧
      ((⌊n.subtree_requested⌋ : ℤ) : ℚ) = n.subtree_requested) ∧
    ((⌊(5 : ℚ)⌋ : ℤ) : ℚ) = 5 ∧ (1 : ℚ) ≤ 5 ∧
    (5 : ℚ) ≤ example_round_robin_state.data.subtree_requested ∧
    (hgq_round_robin 5 example_round_robin_state).1.nodes.map GroupData.allocated = [0, 3, 2] ∧
    (hgq_round_robin 5 example_round_robin_state).2 = 0 ∧
    total_allocated (hgq_round_robin 5 example_round_robin_state).1
      = total_allocated example_round_robin_state + 5 :=
  ⟨by unfold Consistent requests_consistent; decide!, by decide!, by decide!, by norm_num,
    by decide!, by decide!,
    (round_robin_places_every_slot 5 example_round_robin_state
      (by unfold Consistent requests_consistent; decide!) (by decide!) (by decide!)
      (by norm_num) (by decide!)).1,
    (round_robin_places_every_slot 5 example_round_robin_state
      (by unfold Consistent requests_consistent; decide!) (by decide!) (by decide!)
      (by norm_num) (by decide!)).2⟩

/-! ## Surplus allocation when the surplus covers every request -/

theorem zipWith_map_left_self {α β γ : Type} (f : β → α → γ) (g : α → β) : ∀ l : List α,
    List.zipWith f (l.map g) l = l.map (fun a => f (g a) a)
  | [] => rfl
  | a :: l => by simp [zipWith_map_left_self f g l]

/-- The call `hgq_allocate_surplus(surplus)` with `surplus >= subtree_requested > 0`: every
group of the vector `groups` is given its outstanding request, and the children that are
given something are called with it. -/
theorem allocate_surplus_direct (s : ℚ) (d : GroupData) (cs : List GroupEntry)
    (h0 : 0 < d.subtree_requested) (h1 : d.subtree_requested ≤ s) :
    hgq_allocate_surplus s (.mk d cs)
      = (.mk { d with
               allocated := d.allocated + outstanding_request (splice_surplus d)
               requested := d.requested - outstanding_request (splice_surplus d)
               subtree_requested := 0 }
          (cs.map (fun c =>
            if outstanding_request c.data > 0 then
              (hgq_allocate_surplus (outstanding_request c.data) c).1
            else c)),
        s - d.subtree_requested) := by
  have hs : ¬ s ≤ 0 := not_le.2 (lt_of_lt_of_le h0 h1)
  rw [hgq_allocate_surplus, if_neg hs, if_neg (not_le.2 h0)]
  unfold allocate_surplus_level
  simp only [if_pos (show s ≥ d.subtree_requested from h1), List.map_append, List.map_cons,
    List.map_nil, List.map_map]
  rw [surplus_children_eq cs _ _ (by simp), allocated_back_append]
  simp only [← List.map_map]
  rw [List.map_map, zipWith_map_left_self]
  rfl

theorem outstanding_request_pos_iff (g : GroupData) :
    0 < outstanding_request g ↔ g.accept_surplus = true ∧ 0 < g.subtree_requested := by
  unfold outstanding_request
  by_cases h : (g.accept_surplus && decide (g.subtree_requested > 0)) = true
  · rw [if_pos h]
    simp only [Bool.and_eq_true, decide_eq_true_eq] at h
    exact ⟨fun _ => h, fun _ => h.2⟩
  · rw [if_neg h]
    simp only [Bool.and_eq_true, decide_eq_true_eq] at h
    exact ⟨fun h0 => absurd h0 (lt_irrefl 0), fun h0 => absurd h0 h⟩

theorem outstanding_request_of_pos {g : GroupData} (h : 0 < outstanding_request g) :
    outstanding_request g = g.subtree_requested := by
  obtain ⟨h1, h2⟩ := (outstanding_request_pos_iff g).1 h
  exact outstanding_request_of_accept h1 (le_of_lt h2)

/-- The call `hgq_allocate_surplus(surplus)` on a subtree with consistent requests, with
`surplus >= subtree_requested > 0`: all that is requested is allocated. -/
theorem allocate_surplus_direct_spec (t : GroupEntry) : Consistent t → ∀ s : ℚ,
    0 < t.data.subtree_requested → t.data.subtree_requested ≤ s →
    (hgq_allocate_surplus s t).2 = s - t.data.subtree_requested ∧
    (hgq_allocate_surplus s t).1.data.subtree_requested = 0 ∧
    (hgq_allocate_surplus s t).1.data.requested = 0 ∧
    (hgq_allocate_surplus s t).1.data.allocated = t.data.allocated + t.data.requested ∧
    total_allocated (hgq_allocate_surplus s t).1
      = total_allocated t + t.data.subtree_requested := by
  induction t using GroupEntry.induct with
  | h d cs ih =>
    intro hc s h0 h1
    simp only [GroupEntry.data_mk] at h0 h1 ⊢
    obtain ⟨⟨hreq, -⟩, hcc⟩ := consistent_mk.1 hc
    simp only [GroupEntry.data_mk] at hreq
    have hsp := outstanding_request_splice_surplus hreq
    have hR := sum_outstanding_request hc (splice_surplus d) hsp
    rw [allocate_surplus_direct s d cs h0 h1, hsp]
    refine ⟨rfl, rfl, by simp, rfl, ?_⟩
    rw [total_allocated_mk, total_allocated_mk, List.map_map]
    have hch : ∀ c ∈ cs,
        (total_allocated ∘ fun c =>
            if outstanding_request c.data > 0 then
              (hgq_allocate_surplus (outstanding_request c.data) c).1
            else c) c
          = total_allocated c + outstanding_request c.data := by
      intro c hcm
      simp only [Function.comp]
      by_cases hp : outstanding_request c.data > 0
      · rw [if_pos hp]
        have e := outstanding_request_of_pos hp
        have hp' : 0 < c.data.subtree_requested := by rw [← e]; exact hp
        rw [e]
        exact (ih c hcm (hcc c hcm) c.data.subtree_requested hp' (le_refl _)).2.2.2.2
      · rw [if_neg hp]
        have := outstanding_request_nonneg c.data
        have e : outstanding_request c.data = 0 := le_antisymm (not_lt.1 hp) this
        rw [e, add_zero]
    rw [sum_map_congr hch, sum_map_add, hR]
    simp only [List.map_append, List.map_cons, List.map_nil, List.sum_append, List.sum_cons,
      List.sum_nil, List.map_map, hsp, add_zero]
    have e2 : (cs.map (outstanding_request ∘ GroupEntry.data)).sum
        = (cs.map (fun c => outstanding_request c.data)).sum := rfl
    rw [e2]
    ring

/-- C21: for every node with consistent requests (the state that `hgq_fairshare` leaves on
its children: `subtree_requested` is the node's own `requested` plus the `subtree_requested`
of the children that accept surplus, all nonnegative, at the node and below it), if
`surplus >= subtree_requested > 0` then `hgq_allocate_surplus(surplus)` returns
`surplus - subtree_requested`, gives the node its own `requested`, calls every child that
accepts surplus and has a positive `subtree_requested` with exactly that amount, which the
subtree of the child takes, leaves the other children as they are, and leaves
`requested = 0` at the node and `subtree_requested = 0` at the node and at every child that
accepts surplus. -/
theorem case_a_direct_allocation (s : ℚ) (d : GroupData) (cs : List GroupEntry)
    (hc : Consistent (.mk d cs)) (h0 : 0 < d.subtree_requested)
    (h1 : d.subtree_requested ≤ s) :
    (hgq_allocate_surplus s (.mk d cs)).2 = s - d.subtree_requested ∧
    (hgq_allocate_surplus s (.mk d cs)).1.data.allocated = d.allocated + d.requested ∧
    (hgq_allocate_surplus s (.mk d cs)).1.data.requested = 0 ∧
    (hgq_allocate_surplus s (.mk d cs)).1.data.subtree_requested = 0 ∧
    List.Forall₂
      (fun c c' =>
        c' = (if c.data.accept_surplus = true ∧ 0 < c.data.subtree_requested then
            (hgq_allocate_surplus c.data.subtree_requested c).1 else c) ∧
        total_allocated c'
          = total_allocated c
            + (if c.data.accept_surplus = true ∧ 0 < c.data.subtree_requested then
                c.data.subtree_requested else 0) ∧
        (c.data.accept_surplus = true → c'.data.subtree_requested = 0))
      cs (hgq_allocate_surplus s (.mk d cs)).1.children ∧
    total_allocated (hgq_allocate_surplus s (.mk d cs)).1
      = total_allocated (.mk d cs) + d.subtree_requested := by
  obtain ⟨a1, a2, a3, a4, a5⟩ := allocate_surplus_direct_spec (.mk d cs) hc s h0 h1
  simp only [GroupEntry.data_mk] at a1 a2 a3 a4 a5
  refine ⟨a1, a4, a3, a2, ?_, a5⟩
  obtain ⟨-, hcc⟩ := consistent_mk.1 hc
  rw [allocate_surplus_direct s d cs h0 h1]
  simp only [GroupEntry.children_mk]
  rw [List.forall₂_map_right_iff, List.forall₂_same]
  intro c hcm
  by_cases hp : c.data.accept_surplus = true ∧ 0 < c.data.subtree_requested
  · have hp' : outstanding_request c.data > 0 := (outstanding_request_pos_iff _).2 hp
    have e := outstanding_request_of_pos hp'
    obtain ⟨-, b2, -, -, b5⟩ :=
      allocate_surplus_direct_spec c (hcc c hcm) c.data.subtree_requested hp.2 (le_refl _)
    rw [if_pos hp', e]
    simp only [if_pos hp]
    exact ⟨trivial, b5, fun _ => b2⟩
  · have hp' : ¬ outstanding_request c.data > 0 := fun h =>
      hp ((outstanding_request_pos_iff _).1 h)
    simp only [if_neg hp, if_neg hp', add_zero]
    refine ⟨trivial, trivial, fun ha => ?_⟩
    have h0c := consistent_subtree_requested_nonneg c (hcc c hcm)
    have : ¬ 0 < c.data.subtree_requested := fun h => hp ⟨ha, h⟩
    exact le_antisymm (not_lt.1 this) h0c

/-- Scenario 5 of the specification at a call `hgq_allocate_surplus(25)` on the root: the
subtree requests 20 slots, `a` and `b` are given 10 each, 5 are returned and no request is
left. -/
theorem case_a_direct_allocation_witness :
    Consistent example_round_robin_state ∧
    (0 : ℚ) < example_round_robin_root.subtree_requested ∧
    example_round_robin_root.subtree_requested ≤ 25 ∧
    (hgq_allocate_surplus 25 example_round_robin_state).2 = 25 - 20 ∧
    (hgq_allocate_surplus 25 example_round_robin_state).1.nodes.map GroupData.allocated
      = [0, 10, 10] ∧
    (hgq_allocate_surplus 25 example_round_robin_state).1.nodes.map
      GroupData.subtree_requested = [0, 0, 0] ∧
    total_allocated (hgq_allocate_surplus 25 example_round_robin_state).1
      = total_allocated example_round_robin_state
        + example_round_robin_root.subtree_requested :=
  ⟨by unfold Consistent requests_consistent; decide!, by decide!, by decide!, by decide!,
    by decide!, by decide!,
    (case_a_direct_allocation 25 example_round_robin_root
      [example_round_robin_a, example_round_robin_b]
      (by unfold Consistent requests_consistent; decide!) (by decide!) (by decide!)).2.2.2.2.2⟩

/-! ## The number of iterations of `hgq_allocate_surplus_loop` -/

theorem loop_iter_zero (by_quota : Bool) (st : SurplusLoop) :
    hgq_allocate_surplus_loop_iter by_quota 0 st = 0 := rfl

theorem loop_iter_of_surplus_nonpos {by_quota : Bool} {st : SurplusLoop}
    (h : st.surplus ≤ 0) (fuel : Nat) : hgq_allocate_surplus_loop_iter by_quota fuel st = 0 := by
  cases fuel with
  | zero => rfl
  | succ n => rw [hgq_allocate_surplus_loop_iter, if_neg (not_lt.2 h)]

theorem loop_iter_of_break {by_quota : Bool} {st : SurplusLoop} (hs : 0 < st.surplus)
    (hZ : surplus_loop_Z by_quota st.slots ≤ 0) (fuel : Nat) :
    hgq_allocate_surplus_loop_iter by_quota (fuel + 1) st = 1 := by
  rw [hgq_allocate_surplus_loop_iter, if_pos hs]
  simp only [hZ, if_true]

theorem loop_iter_succ_of_not_done {by_quota : Bool} {st : SurplusLoop}
    (h : ¬ surplus_loop_done by_quota st) (fuel : Nat) :
    hgq_allocate_surplus_loop_iter by_quota (fuel + 1) st
      = 1 + hgq_allocate_surplus_loop_iter by_quota fuel (surplus_loop_next by_quota st) := by
  unfold surplus_loop_done at h
  push_neg at h
  rw [hgq_allocate_surplus_loop_iter]
  simp only [gt_iff_lt, h.1, if_true, not_le.2 h.2, if_false]
  rfl

/-- An iteration that does not leave the loop brings the surplus to zero, so that the test
of the loop fails, or brings the remaining request of at least one more group to zero. -/
theorem surplus_loop_next_progress {by_quota : Bool} {st : SurplusLoop}
    (_ : ¬ surplus_loop_done by_quota st) :
    (surplus_loop_next by_quota st).surplus = 0 ∨
    pos_count (surplus_loop_next by_quota st).slots < pos_count st.slots := by
  by_cases hn : surplus_loop_never_gt by_quota st.surplus
      (surplus_loop_Z by_quota st.slots) st.slots = true
  · left
    show (if _ then _ else _) = _
    simp [hn]
  · right
    rw [surplus_loop_never_gt_eq] at hn
    push_neg at hn
    obtain ⟨x, hx, hxr, hxg⟩ := hn
    have hxg' : (slot_amount by_quota st.surplus (surplus_loop_Z by_quota st.slots) x).2
        = true := by
      simpa using hxg
    show List.countP _ (st.slots.map _) < List.countP _ st.slots
    rw [List.countP_map]
    apply countP_lt_of_exists
    · intro s _ hpos
      simp only [Function.comp, slot_allocate, decide_eq_true_eq] at hpos ⊢
      by_contra hc
      rw [if_neg hc] at hpos
      exact hc hpos
    · refine ⟨x, hx, ?_, ?_⟩
      · simpa using hxr
      · simp only [Function.comp, slot_allocate, decide_eq_true_eq, if_pos hxr,
          slot_amount_eq_request hxg']
        simp

theorem loop_iter_le (by_quota : Bool) : ∀ (fuel : Nat) (st : SurplusLoop),
    hgq_allocate_surplus_loop_iter by_quota fuel st ≤ pos_count st.slots + 1 := by
  intro fuel
  induction fuel with
  | zero => intro st; rw [loop_iter_zero]; omega
  | succ n ih =>
    intro st
    by_cases hd : surplus_loop_done by_quota st
    · rcases le_or_lt st.surplus 0 with hs | hs
      · rw [loop_iter_of_surplus_nonpos hs]
        omega
      · rcases hd with hd | hd
        · exact absurd hs (not_lt.2 hd)
        · rw [loop_iter_of_break hs hd]
          omega
    · rw [loop_iter_succ_of_not_done hd]
      rcases surplus_loop_next_progress hd with h | h
      · rw [loop_iter_of_surplus_nonpos (le_of_eq h)]
        omega
      · have := ih (surplus_loop_next by_quota st)
        omega

theorem loop_iter_stable (by_quota : Bool) : ∀ (fuel : Nat) (st : SurplusLoop) (k : Nat),
    pos_count st.slots < fuel →
    hgq_allocate_surplus_loop_iter by_quota (fuel + k) st
      = hgq_allocate_surplus_loop_iter by_quota fuel st := by
  intro fuel
  induction fuel with
  | zero => intro st k h; exact absurd h (Nat.not_lt_zero _)
  | succ n ih =>
    intro st k h
    have e : n + 1 + k = (n + k) + 1 := by omega
    by_cases hd : surplus_loop_done by_quota st
    · rcases le_or_lt st.surplus 0 with hs | hs
      · rw [loop_iter_of_surplus_nonpos hs, loop_iter_of_surplus_nonpos hs]
      · rcases hd with hd | hd
        · exact absurd hs (not_lt.2 hd)
        · rw [e, loop_iter_of_break hs hd, loop_iter_of_break hs hd]
    · rw [e, loop_iter_succ_of_not_done hd, loop_iter_succ_of_not_done hd]
      rcases surplus_loop_next_progress hd with h1 | h1
      · rw [loop_iter_of_surplus_nonpos (le_of_eq h1), loop_iter_of_surplus_nonpos (le_of_eq h1)]
      · rw [ih _ k (by omega)]

theorem loop_fuel_done (by_quota : Bool) : ∀ (fuel : Nat) (st : SurplusLoop),
    pos_count st.slots < fuel →
    surplus_loop_done by_quota (hgq_allocate_surplus_loop_fuel by_quota fuel st) := by
  intro fuel
  induction fuel with
  | zero => intro st h; exact absurd h (Nat.not_lt_zero _)
  | succ n ih =>
    intro st h
    by_cases hd : surplus_loop_done by_quota st
    · rw [loop_fuel_of_done hd]
      exact hd
    · rw [loop_fuel_succ_of_not_done hd]
      rcases surplus_loop_next_progress hd with h1 | h1
      · have hd' : surplus_loop_done by_quota (surplus_loop_next by_quota st) :=
          Or.inl (le_of_eq h1)
        rw [loop_fuel_of_done hd']
        exact hd'
      · exact ih _ (by omega)

/-- C24: for every participant vector and every surplus, in either mode, each iteration of
`hgq_allocate_surplus_loop` that does not leave the loop by the `break` either brings the
surplus to zero, which ends the loop, or strictly reduces the number of participants with a
positive remaining demand; the body of the loop is entered at most (number of participants
with positive demand) + 1 times, and with that much fuel or more the loop has ended and the
result and the number of iterations no longer depend on the fuel.  The weights and the
demands need not be nonnegative for this. -/
theorem surplus_loop_termination (by_quota : Bool) (st : SurplusLoop) :
    (¬ surplus_loop_done by_quota st →
      (surplus_loop_next by_quota st).surplus = 0 ∨
      pos_count (surplus_loop_next by_quota st).slots < pos_count st.slots) ∧
    (∀ fuel, hgq_allocate_surplus_loop_iter by_quota fuel st ≤ pos_count st.slots + 1) ∧
    (∀ fuel, pos_count st.slots + 1 ≤ fuel →
      surplus_loop_done by_quota (hgq_allocate_surplus_loop_fuel by_quota fuel st) ∧
      hgq_allocate_surplus_loop_fuel by_quota fuel st
        = hgq_allocate_surplus_loop_fuel by_quota (pos_count st.slots + 1) st ∧
      hgq_allocate_surplus_loop_iter by_quota fuel st
        = hgq_allocate_surplus_loop_iter by_quota (pos_count st.slots + 1) st) ∧
    hgq_allocate_surplus_loop by_quota st
      = hgq_allocate_surplus_loop_fuel by_quota (pos_count st.slots + 1) st ∧
    surplus_loop_done by_quota (hgq_allocate_surplus_loop by_quota st) := by
  have hstab : ∀ fuel, pos_count st.slots + 1 ≤ fuel →
      hgq_allocate_surplus_loop_fuel by_quota fuel st
        = hgq_allocate_surplus_loop_fuel by_quota (pos_count st.slots + 1) st := by
    intro fuel hf
    obtain ⟨k, rfl⟩ : ∃ k, fuel = pos_count st.slots + 1 + k := ⟨fuel - (pos_count st.slots + 1),
      by omega⟩
    exact surplus_loop_fuel_stable by_quota _ st k (by omega)
  have hlen : pos_count st.slots + 1 ≤ st.slots.length + 1 := by
    have := pos_count_le_length st.slots
    omega
  refine ⟨surplus_loop_next_progress, fun fuel => loop_iter_le by_quota fuel st, ?_, ?_, ?_⟩
  · intro fuel hf
    refine ⟨loop_fuel_done by_quota fuel st (by omega), hstab fuel hf, ?_⟩
    obtain ⟨k, rfl⟩ : ∃ k, fuel = pos_count st.slots + 1 + k := ⟨fuel - (pos_count st.slots + 1),
      by omega⟩
    exact loop_iter_stable by_quota _ st k (by omega)
  · exact hstab _ hlen
  · exact loop_fuel_done by_quota _ st (by omega)

/-- Three participants with weights 1, 3 and 0 and remaining demands 1, 10 and 12, and a
surplus of 24.  The uniform loop brings one demand to zero in each of three iterations and
is entered a fourth time for the `break`, with one slot of surplus left; the quota-weighted
loop is entered twice and leaves the demand of the participant without weight. -/
theorem surplus_loop_termination_witness :
    pos_count example_participants = 3 ∧
    hgq_allocate_surplus_loop_iter false 4 ⟨example_participants, 24, 23⟩ = 4 ∧
    hgq_allocate_surplus_loop_iter false 4 ⟨example_participants, 24, 23⟩
      ≤ pos_count example_participants + 1 ∧
    hgq_allocate_surplus_loop_iter false 9 ⟨example_participants, 24, 23⟩ = 4 ∧
    (hgq_allocate_surplus_loop false ⟨example_participants, 24, 23⟩).slots.map
      Slot.subtree_requested = [0, 0, 0] ∧
    (hgq_allocate_surplus_loop false ⟨example_participants, 24, 23⟩).surplus = 1 ∧
    hgq_allocate_surplus_loop_iter true 4 ⟨example_participants, 24, 23⟩ = 2 ∧
    (hgq_allocate_surplus_loop true ⟨example_participants, 24, 23⟩).slots.map
      Slot.subtree_requested = [0, 0, 12] ∧
    (hgq_allocate_surplus_loop true ⟨example_participants, 24, 23⟩).surplus = 13 :=
  ⟨by decide!, by decide!,
    (surplus_loop_termination false ⟨example_participants, 24, 23⟩).2.1 4,
    by decide!, by decide!, by decide!, by decide!, by decide!, by decide!⟩

/-! ## The rounds of `hgq_round_robin`: the divisor and the progress of every round -/

theorem rr_loop_sound_of_done {idx : List Nat} {st : RoundRobin} (h : rr_done st)
    (fuel : Nat) : rr_loop_sound idx fuel st = true := by
  cases fuel with
  | zero => rfl
  | succ n =>
    unfold rr_done at h
    rw [rr_loop_sound, if_neg h]

theorem rr_loop_sound_succ {idx : List Nat} {st : RoundRobin} (h : ¬ rr_done st)
    (fuel : Nat) :
    rr_loop_sound idx (fuel + 1) st
      = (decide (1 ≤ st.outstanding) &&
          decide (1 ≤ (rr_pass (rr_amax st.surplus st.outstanding) idx
              { st with outstanding := 0, sumalloc := 0 }).sumalloc) &&
          rr_loop_sound idx fuel
            (rr_pass (rr_amax st.surplus st.outstanding) idx
              { st with outstanding := 0, sumalloc := 0 })) := by
  unfold rr_done at h
  rw [rr_loop_sound, if_pos (not_not.1 h)]

/-- At every entry of the body of the loop the divisor `outstanding` is at least 1 and every
round allocates at least one slot, whatever the fuel. -/
theorem rr_loop_sound_spec (groups : List GroupData) (idx : List Nat)
    (hidx : idx.Perm (List.range groups.length)) : ∀ (fuel : Nat) (st : RoundRobin),
    List.Forall₂ RRSlot groups st.slots →
    st.requested = (st.slots.map Slot.subtree_requested).sum →
    (st.surplus < 1 ∨ st.outstanding = (pos_count st.slots : ℚ)) →
    rr_loop_sound idx fuel st = true := by
  intro fuel
  induction fuel with
  | zero => intro st _ _ _; rfl
  | succ n ih =>
    intro st hrel hreq hout
    by_cases hd : rr_done st
    · exact rr_loop_sound_of_done hd _
    · obtain ⟨p0, -, p1, -, -, p4, -, p6, p7⟩ :=
        rr_round_spec groups idx hidx st hrel hreq hout hd
      rw [rr_loop_sound_succ hd, ih _ p1 p6 p7]
      simp [p0, p4]

theorem rr_entry_eq (s : ℚ) (d : GroupData) (cs : List GroupEntry) :
    round_robin_level s d.subtree_requested (cs.map GroupEntry.data ++ [splice_rr d])
      = rr_loop (sorted_idx (cs.map GroupEntry.data ++ [splice_rr d])) (⌊s⌋.toNat + 1)
          (rr_entry s d cs) := rfl

theorem rr_entry_invariants (s : ℚ) {d : GroupData} {cs : List GroupEntry}
    (hc : Consistent (.mk d cs)) (hi : IntRequests (.mk d cs)) :
    List.Forall₂ RRSlot (cs.map GroupEntry.data ++ [splice_rr d]) (rr_entry s d cs).slots ∧
    (rr_entry s d cs).requested = ((rr_entry s d cs).slots.map Slot.subtree_requested).sum ∧
    (rr_entry s d cs).outstanding = (pos_count (rr_entry s d cs).slots : ℚ) := by
  obtain ⟨hint, hR⟩ := round_robin_groups hc hi
  refine ⟨rr_initial_state _ hint, ?_, initial_outstanding_eq _⟩
  show d.subtree_requested = _
  rw [hR]
  unfold rr_entry
  simp only [List.map_map]
  rfl

/-- C27: for every node with consistent nonnegative integer requests (a state that
`hgq_recover_remainders` leaves) and every surplus, each time the body of the `while` loop
of `hgq_round_robin` computes `floor(surplus / outstanding)` the value of `outstanding` is at
least 1, and every round of the loop allocates at least one whole slot, so that the branch
that reports a round without allocation is never taken; the loop ends because its test
fails, within `floor(surplus) + 1` rounds, and more fuel does not change its result.  The
sanity check at the head of the call leaves the node as it is, so the loop runs on the node
as given. -/
theorem round_robin_no_division_by_zero (s : ℚ) (d : GroupData) (cs : List GroupEntry)
    (hc : Consistent (.mk d cs))
    (hi : ∀ n ∈ (GroupEntry.mk d cs).nodes, ((⌊n.requested⌋ : ℤ) : ℚ) = n.requested ∧
      ((⌊n.subtree_requested⌋ : ℤ) : ℚ) = n.subtree_requested) :
    force_integer d = d ∧
    (∀ fuel, rr_loop_sound (sorted_idx (cs.map GroupEntry.data ++ [splice_rr d])) fuel
      (rr_entry s d cs) = true) ∧
    rr_done (rr_loop (sorted_idx (cs.map GroupEntry.data ++ [splice_rr d])) (⌊s⌋.toNat + 1)
      (rr_entry s d cs)) ∧
    (∀ k, rr_loop (sorted_idx (cs.map GroupEntry.data ++ [splice_rr d]))
        (⌊s⌋.toNat + 1 + k) (rr_entry s d cs)
      = round_robin_level s d.subtree_requested
          (cs.map GroupEntry.data ++ [splice_rr d])) := by
  have hI := intRequests_of_floor hi
  obtain ⟨h1, h2, h3⟩ := rr_entry_invariants s hc hI
  have hperm := sorted_idx_perm (cs.map GroupEntry.data ++ [splice_rr d])
  refine ⟨force_integer_of_int (intRequests_data hI).2, ?_, ?_, ?_⟩
  · intro fuel
    exact rr_loop_sound_spec _ _ hperm fuel _ h1 h2 (Or.inr h3)
  · by_cases hd : rr_done (rr_entry s d cs)
    · rw [rr_loop_of_done hd]
      exact hd
    · have hs : 0 ≤ (rr_entry s d cs).surplus := by
        unfold rr_done at hd
        have := (not_not.1 hd).1
        linarith
      exact (rr_loop_spec _ _ hperm (⌊s⌋.toNat + 1) _ h1 hs h2 (Or.inr h3)).2.2.2.2
        (Or.inr (Nat.lt_succ_self _))
  · intro k
    rw [rr_entry_eq]
    exact rr_loop_fuel_stable _ _ hperm (⌊s⌋.toNat + 1) _ k h1 h2 (Or.inr h3)
      (Nat.lt_succ_self _)

/-- Scenario 5 of the specification at the call `hgq_round_robin(5)` on the root: two groups
are outstanding when the loop is entered, the rounds pass the watch, and the loop ends with
no surplus left. -/
theorem round_robin_no_division_by_zero_witness :
    Consistent example_round_robin_state ∧
    (∀ n ∈ example_round_robin_state.nodes, ((⌊n.requested⌋ : ℤ) : ℚ) = n.requested ∧
      ((⌊n.subtree_requested⌋ : ℤ) : ℚ) = n.subtree_requested) ∧
    (rr_entry 5 example_round_robin_root
      [example_round_robin_a, example_round_robin_b]).outstanding = 2 ∧
    rr_loop_sound
      (sorted_idx ([example_round_robin_a, example_round_robin_b].map GroupEntry.data
        ++ [splice_rr example_round_robin_root])) 6
      (rr_entry 5 example_round_robin_root [example_round_robin_a, example_round_robin_b])
      = true ∧
    (round_robin_level 5 example_round_robin_root.subtree_requested
      ([example_round_robin_a, example_round_robin_b].map GroupEntry.data
        ++ [splice_rr example_round_robin_root])).surplus = 0 :=
  ⟨by unfold Consistent requests_consistent; decide!, by decide!, by decide!,
    (round_robin_no_division_by_zero 5 example_round_robin_root
      [example_round_robin_a, example_round_robin_b]
      (by unfold Consistent requests_consistent; decide!) (by decide!)).2.1 6,
    by decide!⟩

/-! ## The arithmetic of `double`: sample values and the end of the surplus loop -/

/-- The rounding on sample values: the `double` nearest to 1/3, to 0.6 and to 0.1 + 0.2, the
ties at `2^53 + 1` (down to even) and `2^53 + 3` (up to even), a negative value that is
representable, and the smallest subnormal number for half of it and a little more. -/
theorem fl_sample_values :
    fl (1 / 3) = 6004799503160661 / 18014398509481984 ∧
    fl (6 / 10) = 5404319552844595 / 9007199254740992 ∧
    dadd (fl (1 / 10)) (fl (2 / 10)) = 1351079888211149 / 4503599627370496 ∧
    fl 9007199254740993 = 9007199254740992 ∧
    fl 9007199254740995 = 9007199254740996 ∧
    fl (-5 / 2) = -5 / 2 ∧
    fl (two_pow (-1075)) = 0 ∧
    fl (two_pow (-1075) + two_pow (-1080)) = two_pow (-1074) := by
  decide!

theorem fl_zero : fl 0 = 0 := by
  unfold fl
  rw [if_pos rfl]

theorem dsub_self (x : ℚ) : dsub x x = 0 := by
  unfold dsub
  rw [sub_self, fl_zero]

theorem surplus_loop_never_gt_double_eq (by_quota : Bool) (surplus Z : ℚ)
    (slots : List Slot) :
    surplus_loop_never_gt_double by_quota surplus Z slots = true ↔
      ∀ s ∈ slots, s.subtree_requested > 0 →
        (slot_amount_double by_quota surplus Z s).2 = false := by
  unfold surplus_loop_never_gt_double
  have key : ∀ (l : List Slot) (b : Bool),
      l.foldl
        (fun acc s =>
          if s.subtree_requested > 0 then
            (if (slot_amount_double by_quota surplus Z s).2 then false else acc)
          else acc) b = true ↔
      (b = true ∧ ∀ s ∈ l, s.subtree_requested > 0 →
        (slot_amount_double by_quota surplus Z s).2 = false) := by
    intro l
    induction l with
    | nil => intro b; simp
    | cons x l ih =>
      intro b
      simp only [List.foldl_cons, ih, List.mem_cons, forall_eq_or_imp]
      by_cases h1 : x.subtree_requested > 0
      · by_cases h2 : (slot_amount_double by_quota surplus Z x).2 = true
        · simp [h1, h2]
        · simp [h1, h2]
      · simp [h1]
  simpa using key slots true

theorem slot_amount_double_eq_request {by_quota : Bool} {surplus Z : ℚ} {s : Slot}
    (h : (slot_amount_double by_quota surplus Z s).2 = true) :
    (slot_amount_double by_quota surplus Z s).1 = s.subtree_requested := by
  unfold slot_amount_double at h ⊢
  simp only at h ⊢
  split_ifs with h1
  · rfl
  · simp [h1] at h

theorem loop_fuel_double_of_done {by_quota : Bool} {st : SurplusLoop}
    (h : surplus_loop_done_double by_quota st) (fuel : Nat) :
    hgq_allocate_surplus_loop_fuel_double by_quota fuel st = st := by
  cases fuel with
  | zero => rfl
  | succ n =>
    rw [hgq_allocate_surplus_loop_fuel_double]
    rcases h with h | h
    · rw [if_neg (not_lt.2 h)]
    · by_cases hs : st.surplus > 0
      · rw [if_pos hs]
        simp only [h, if_true]
      · rw [if_neg hs]

/-- In `double` too the loop has ended when the fuel exceeds the number of groups with a
positive remaining request: an iteration sets the surplus to zero, or it clips the amount of
a group, whose remaining request becomes `x - x`, which is exactly zero. -/
theorem surplus_loop_double_ends (by_quota : Bool) : ∀ (fuel : Nat) (st : SurplusLoop),
    pos_count st.slots < fuel →
    surplus_loop_done_double by_quota (hgq_allocate_surplus_loop_fuel_double by_quota fuel st) := by
  intro fuel
  induction fuel with
  | zero => intro st h; exact absurd h (Nat.not_lt_zero _)
  | succ n ih =>
    intro st h
    by_cases hd : surplus_loop_done_double by_quota st
    · rw [loop_fuel_double_of_done hd]
      exact hd
    · unfold surplus_loop_done_double at hd
      push_neg at hd
      rw [hgq_allocate_surplus_loop_fuel_double]
      simp only [gt_iff_lt, hd.1, if_true, not_le.2 hd.2, if_false]
      by_cases hn : surplus_loop_never_gt_double by_quota st.surplus
          (surplus_loop_Z_double by_quota st.slots) st.slots = true
      · rw [loop_fuel_double_of_done]
        · left
          simp [hn]
        · left
          simp [hn]
      · apply ih
        have hlt : pos_count (st.slots.map (slot_allocate_double by_quota st.surplus
            (surplus_loop_Z_double by_quota st.slots))) < pos_count st.slots := by
          rw [surplus_loop_never_gt_double_eq] at hn
          push_neg at hn
          obtain ⟨x, hx, hxr, hxg⟩ := hn
          have hxg' : (slot_amount_double by_quota st.surplus
              (surplus_loop_Z_double by_quota st.slots) x).2 = true := by
            simpa using hxg
          show List.countP _ (st.slots.map _) < List.countP _ st.slots
          rw [List.countP_map]
          apply countP_lt_of_exists
          · intro s _ hpos
            simp only [Function.comp, slot_allocate_double, decide_eq_true_eq] at hpos ⊢
            by_contra hc
            rw [if_neg hc] at hpos
            exact hc hpos
          · refine ⟨x, hx, ?_, ?_⟩
            · simpa using hxr
            · simp only [Function.comp, slot_allocate_double, decide_eq_true_eq, if_pos hxr,
                slot_amount_double_eq_request hxg', dsub_self]
              simp
        show pos_count (st.slots.map _) < n
        omega

theorem surplus_loop_double_done (by_quota : Bool) (st : SurplusLoop) :
    surplus_loop_done_double by_quota (hgq_allocate_surplus_loop_double by_quota st) := by
  unfold hgq_allocate_surplus_loop_double
  apply surplus_loop_double_ends
  have := pos_count_le_length st.slots
  omega
